import Mathlib

/-!
# A verification development for the mini-shell (`shell.c`)

The shell is embedded shallowly: C strings are lists of characters (the
characters before the terminating NUL), the fixed global arrays are total
functions on `Fin`, system calls draw their results from explicit oracle
lists and every call the process makes is appended to a trace.
-/

namespace Shell

/-! ## Constants (`shell.c` lines 15-22) -/

def BUFFER_SIZE : Nat := 80
def MAX_TOKENS : Nat := 128
def MAX_ARGS : Nat := 64
abbrev MAX_JOBS : Nat := 5
abbrev MAX_HISTORY : Nat := 100
def JOB_RUNNING : Nat := 0
def JOB_STOPPED : Nat := 1
def JOB_DONE : Nat := 2

/-- A C string: the characters that precede the terminating NUL. -/
abbrev CStr := List Char

/-! ## Tokenizer (`tokenize`, lines 281-336) -/

/-- The C library `isspace` in the "C" locale: space, `\t`, `\n`, `\v`, `\f`, `\r`. -/
def isspace (c : Char) : Bool :=
  c = ' ' || c = '\t' || c = '\n' || c.toNat = 11 || c.toNat = 12 || c = '\r'

/-- The single-character operator test of line 309. -/
def isOpChar (c : Char) : Bool :=
  c = '&' || c = '|' || c = ';' || c = '<' || c = '>'

/-- The break test of the word loop (line 320) at position `p`; `p[1]` is the
head of the tail (the NUL when the tail is empty). -/
def wordBreak : CStr → Bool
  | [] => false
  | c :: rest =>
    (c = '&' && rest.head? = some '&') || (c = '|' && rest.head? = some '|') ||
      c = '&' || c = '|' || c = ';' || c = '<' || c = '>'

/-- The word loop of lines 318-326: advances `p` while the character is
neither NUL nor whitespace and the break test fails. Returns the characters
passed over (`start .. p`) and the remaining input. -/
def scanWord : CStr → CStr × CStr
  | [] => ([], [])
  | c :: rest =>
    if isspace c then ([], c :: rest)
    else if wordBreak (c :: rest) then ([], c :: rest)
    else ((scanWord rest).1.cons c, (scanWord rest).2)

/-- The main loop of `tokenize` (lines 285-333); `p` is the unread input and
`n` the number of tokens stored so far. Every iteration consumes at least one
character, `fuel` bounds the number of iterations. -/
def tokenizeAux : Nat → CStr → Nat → Nat → List CStr
  | 0, _, _, _ => []
  | _ + 1, [], _, _ => []
  | fuel + 1, c :: rest, n, max_tokens =>
    if n < max_tokens then
      if isspace c then tokenizeAux fuel rest n max_tokens
      else if c = '&' && rest.head? = some '&' then
        ['&', '&'] :: tokenizeAux fuel (rest.drop 1) (n + 1) max_tokens
      else if c = '|' && rest.head? = some '|' then
        ['|', '|'] :: tokenizeAux fuel (rest.drop 1) (n + 1) max_tokens
      else if c = '&' || c = '|' || c = ';' || c = '<' || c = '>' then
        [c] :: tokenizeAux fuel rest (n + 1) max_tokens
      else
        (scanWord (c :: rest)).1 :: tokenizeAux fuel (scanWord (c :: rest)).2 (n + 1) max_tokens
    else []

/-- The function `tokenize(line, tokens, max_tokens)`: the tokens stored in
`tokens[0 .. n)`; the returned count `n` is the length of the list. -/
def tokenize (line : CStr) (max_tokens : Nat) : List CStr :=
  tokenizeAux (line.length + 1) line 0 max_tokens

/-- The tokenization the specification describes: whitespace is skipped, the
two-character operators are taken before the one-character ones, and a word is
a non-empty run of non-whitespace, non-operator characters that cannot be
extended. -/
inductive MaxMunch : CStr → List CStr → Prop
  | done : MaxMunch [] []
  | space (c : Char) (rest : CStr) (toks : List CStr) :
      isspace c = true → MaxMunch rest toks → MaxMunch (c :: rest) toks
  | andand (rest : CStr) (toks : List CStr) :
      MaxMunch rest toks → MaxMunch ('&' :: '&' :: rest) (['&', '&'] :: toks)
  | oror (rest : CStr) (toks : List CStr) :
      MaxMunch rest toks → MaxMunch ('|' :: '|' :: rest) (['|', '|'] :: toks)
  | single (c : Char) (rest : CStr) (toks : List CStr) :
      isOpChar c = true →
      ¬ (c = '&' ∧ rest.head? = some '&') → ¬ (c = '|' ∧ rest.head? = some '|') →
      MaxMunch rest toks → MaxMunch (c :: rest) ([c] :: toks)
  | word (w rest : CStr) (toks : List CStr) :
      w ≠ [] → (∀ c ∈ w, isspace c = false ∧ isOpChar c = false) →
      (∀ c ∈ rest.head?, isspace c = true ∨ isOpChar c = true) →
      MaxMunch rest toks → MaxMunch (w ++ rest) (w :: toks)

/-! ## The segment loop of `main` (lines 799-871) -/

/-- How a call of `execute` (or of a built-in) ends: it returns a status, the
process terminates (`exit`, `_exit`), or it passes a NULL token to `strcmp`. -/
inductive Outcome where
  | ret (status : Int)
  | exit (code : Int)
  | fault
  deriving DecidableEq, Repr

/-- The arguments `start`, `end` and `flag` of one call `execute(tokens, start, end, flag, ..)`. -/
structure ExecCall where
  start : Nat
  stop : Nat
  flag : Nat
  deriving DecidableEq, Repr

/-- How the segment loop ends: it runs to completion (control goes back to the
prompt), `strcmp` receives a NULL token slot, the process terminates inside
`execute`, or the iteration bound of the model is used up. -/
inductive LoopEnd where
  | done
  | fault
  | exited (code : Int)
  | fuel
  deriving DecidableEq, Repr

/-- The calls of `execute` made by the loop, in order, the final program
state, the final value of `last`, and how the loop ended. -/
structure LoopResult (σ : Type) where
  calls : List ExecCall
  st : σ
  last : Int
  finish : LoopEnd

/-- The slot `tokens[j]` as an argument of `strcmp`: `none` when it holds NULL. -/
def tokAt (tokens : List (Option CStr)) (j : Nat) : Option CStr :=
  tokens[j]?.join

/-- The test `strcmp(t, ";") == 0 || strcmp(t, "||") == 0 || strcmp(t, "&&") == 0`. -/
def isBoundary (t : CStr) : Bool :=
  t = [';'] || t = ['|', '|'] || t = ['&', '&']

/-- The scanning loops of lines 805, 840 and 855, started at index `j` on the
slots `tokens[j .. n)`: the index of the first boundary token, or `n`; `none`
when a scanned slot holds NULL. -/
def scanBoundary : List (Option CStr) → Nat → Option Nat
  | [], j => some j
  | none :: _, _ => none
  | some t :: rest, j => if isBoundary t then some j else scanBoundary rest (j + 1)

/-- Lines 825-870: the next segment start `i`, from the index `j` where the
segment ended and the status `last`; `none` when `tokens[j]` holds NULL. -/
def nextStart (tokens : List (Option CStr)) (j : Nat) (last : Int) : Option Nat :=
  if j < tokens.length then
    match tokAt tokens j with
    | none => none
    | some t =>
      if t = [';'] then some (j + 1)
      else if t = ['&', '&'] then
        if last = 0 then some (j + 1) else scanBoundary (tokens.drop (j + 1)) (j + 1)
      else if t = ['|', '|'] then
        if last ≠ 0 then some (j + 1) else scanBoundary (tokens.drop (j + 1)) (j + 1)
      else some (j + 1)
  else some (j + 1)

/-- Prefixes the calls made so far to the result of the rest of the loop. -/
def LoopResult.addCalls {σ : Type} (cs : List ExecCall) (r : LoopResult σ) : LoopResult σ :=
  { r with calls := cs ++ r.calls }

/-- The loop `while (i < n)` of lines 801-871, with `execute` as a parameter.
`tokens` are the slots `tokens[0 .. n)`. -/
def segmentLoop {σ : Type} (exec : σ → List (Option CStr) → ExecCall → σ × Outcome) :
    Nat → List (Option CStr) → Nat → Int → σ → LoopResult σ
  | 0, _, _, last, st => ⟨[], st, last, LoopEnd.fuel⟩
  | fuel + 1, tokens, i, last, st =>
    if i < tokens.length then
      match scanBoundary (tokens.drop i) i with
      | none => ⟨[], st, last, LoopEnd.fault⟩
      | some j0 =>
        match (if j0 > i then (tokAt tokens (j0 - 1)).map (fun t => decide (t = ['&']))
               else some false) with
        | none => ⟨[], st, last, LoopEnd.fault⟩
        | some isBg =>
          let bg : Nat := if isBg then 1 else 0
          let tokens1 := if isBg then tokens.set (j0 - 1) none else tokens
          let j := if isBg then j0 - 1 else j0
          let calls := if j > i then [ExecCall.mk i j bg] else []
          match (if j > i then exec st tokens1 ⟨i, j, bg⟩ else (st, Outcome.ret last)) with
          | (st1, Outcome.exit code) => ⟨calls, st1, last, LoopEnd.exited code⟩
          | (st1, Outcome.fault) => ⟨calls, st1, last, LoopEnd.fault⟩
          | (st1, Outcome.ret last1) =>
            match nextStart tokens1 j last1 with
            | none => ⟨calls, st1, last1, LoopEnd.fault⟩
            | some i1 => (segmentLoop exec fuel tokens1 i1 last1 st1).addCalls calls
    else ⟨[], st, last, LoopEnd.done⟩

/-- Lines 799-871 for the `n` tokens that `tokenize` stored: `i = 0`,
`last = 0`, then the loop. The start index grows in every iteration, so `n + 1`
iterations are enough. -/
def mainSegments {σ : Type} (exec : σ → List (Option CStr) → ExecCall → σ × Outcome)
    (toks : List CStr) (st : σ) : LoopResult σ :=
  segmentLoop exec (toks.length + 1) (toks.map some) 0 0 st

/-- An `execute` that returns the status `f k` at its `k`-th call (counted in the state). -/
def statusExec (f : Nat → Int) : Nat → List (Option CStr) → ExecCall → Nat × Outcome :=
  fun k _ _ => (k + 1, Outcome.ret (f k))

/-- The index of the closing boundary of the segment that starts at `start`:
the first index from `start` on that holds `;`, `&&` or `||`, or the number of
tokens when there is none (end of line). -/
def closingBoundary (toks : List CStr) (start : Nat) : Nat :=
  start + ((toks.drop start).takeWhile (fun t => !isBoundary t)).length

/-- A segment starts at index `i`: `i` is 0 or the token before it is a boundary. -/
def segmentStart (toks : List CStr) (i : Nat) : Prop :=
  i = 0 ∨ ∃ t, toks[i - 1]? = some t ∧ isBoundary t = true

/-- The properties of one call of `execute` relative to the token list: it
covers a non-empty range at a segment start, its flag is 1 exactly when the
token before the closing boundary is `&`, and its end is the closing boundary,
or the index of that `&` when the flag is 1. -/
def GoodCall (toks : List CStr) (c : ExecCall) : Prop :=
  segmentStart toks c.start ∧ c.start < c.stop ∧
  (c.flag = 1 ↔ toks[closingBoundary toks c.start - 1]? = some ['&']) ∧
  (c.flag = 1 → c.stop = closingBoundary toks c.start - 1) ∧
  (c.flag ≠ 1 → c.flag = 0 ∧ c.stop = closingBoundary toks c.start)

/-! ## Program state, system-call oracles and trace -/

/-- A job-table entry (`job_t`, lines 24-29); `id = 0` marks a free slot. -/
structure job_t where
  id : Int
  pgid : Int
  cmdline : CStr
  status : Nat
  deriving DecidableEq, Repr

/-- The zero-initialised entry of the static array, also what `remove_job` leaves. -/
def emptyJob : job_t := ⟨0, 0, [], 0⟩

/-- The signals the shell sends or resets. -/
inductive Sig where
  | SIGINT | SIGTSTP | SIGCONT | SIGTERM
  deriving DecidableEq, Repr

/-- The status word that `waitpid` stores, as the macros `WIFEXITED`,
`WIFSIGNALED`, `WIFSTOPPED` and `WIFCONTINUED` classify it. -/
inductive WStatus where
  | exited (code : Nat)
  | signaled (sig : Nat)
  | stopped (sig : Nat)
  | continued
  deriving DecidableEq, Repr

/-- What an open file descriptor refers to. -/
inductive Desc where
  | shell (fd : Nat)
  | pipeRead (j : Nat)
  | pipeWrite (j : Nat)
  | file (path : CStr) (forWriting : Bool)
  deriving DecidableEq, Repr

/-- The lines the shell prints. -/
inductive Msg where
  | tooManyJobs
  | invalidIndex
  | pipeError
  | forkError
  | errOpenInput
  | errOpenOutput
  | emptyCommand
  | commandNotFound (name : CStr)
  | runningInBackground (id pgid : Int)
  | stopped (id : Int) (cmdline : CStr)
  | finished (id : Int) (cmdline : CStr)
  | continued (id : Int) (cmdline : CStr)
  | jobLine (id pgid : Int) (status : Nat) (cmdline : CStr)
  | bgNotice (id : Int) (cmdline : CStr)
  | fgRequiresId
  | fgNotFound (id : Int)
  | bgRequiresId
  | bgNotFound (id : Int)
  | help
  | historyLine (n : Nat) (line : CStr)
  deriving DecidableEq, Repr

/-- One observable action of the process: a system call with its result, a
printed line, or the call of `add_job`. -/
inductive Event where
  | pipe (j r w : Nat)
  | pipeFail (j : Nat)
  | fork (pid : Int)
  | setpgid (pid pgid : Int)
  | signalDefault (sig : Sig)
  | dup2 (old new : Nat)
  | openFile (path : CStr) (forWriting : Bool) (res : Option Nat)
  | close (fd : Nat)
  | waitpid (arg res : Int)
  | kill (target : Int) (sig : Sig)
  | chdir (path : CStr) (res : Int)
  | exec (prog : CStr) (argv : List CStr)
  | addJob (pgid : Int) (status : Nat)
  | out (m : Msg)
  | err (m : Msg)
  deriving DecidableEq, Repr

/-- The results the operating system will give to the system calls, in call
order. An exhausted list means failure (`pipe`, `fork`, `open`, `chdir`) or
"no child" (`waitpid`, `getpgid`). -/
structure OS where
  pipes : List (Option (Nat × Nat))
  forks : List Int
  waits : List (Int × WStatus)
  opens : List (Option Nat)
  chdirs : List Int
  getpgids : List Int
  home : Option CStr

/-- The state of the process: the globals of lines 33-44, the descriptor
table, the oracle and the trace of actions so far. -/
structure World where
  jobs : Fin MAX_JOBS → job_t
  next_job_id : Int
  job_count : Int
  history : Fin MAX_HISTORY → CStr
  history_length : Nat
  fg_pgid : Int
  fds : Nat → Option Desc
  os : OS
  trace : List Event

/-- Appends an action to the trace. -/
def World.emit (w : World) (e : Event) : World := { w with trace := w.trace ++ [e] }

/-- The state at program start: empty job table and history, `next_job_id = 1`,
descriptors 0, 1, 2 open. -/
def initWorld (os : OS) : World :=
  { jobs := fun _ => emptyJob, next_job_id := 1, job_count := 0,
    history := fun _ => [], history_length := 0, fg_pgid := 0,
    fds := fun fd => if fd < 3 then some (Desc.shell fd) else none,
    os := os, trace := [] }

/-- `strncpy(dest, src, n)` into a buffer of `n + 1` bytes whose last byte is
always NUL (static storage, never written): the resulting C string is the
first `n` characters of `src`. -/
def strncpy (src : CStr) (n : Nat) : CStr := src.take n

/-! ## Job table (lines 82-186) -/

/-- `find_slot`: the first index whose `id` is 0; `none` stands for -1. -/
def find_slot (jobs : Fin MAX_JOBS → job_t) : Option (Fin MAX_JOBS) :=
  (List.finRange MAX_JOBS).find? (fun i => decide ((jobs i).id = 0))

/-- `find_pgid`: the first live entry with the given process group; `none` stands for NULL. -/
def find_pgid (jobs : Fin MAX_JOBS → job_t) (pgid : Int) : Option (Fin MAX_JOBS) :=
  (List.finRange MAX_JOBS).find? (fun i => decide ((jobs i).id ≠ 0 ∧ (jobs i).pgid = pgid))

/-- `find_id`: the first entry whose `id` field equals `id`; `none` stands for NULL. -/
def find_id (jobs : Fin MAX_JOBS → job_t) (id : Int) : Option (Fin MAX_JOBS) :=
  (List.finRange MAX_JOBS).find? (fun i => decide ((jobs i).id = id))

/-- `add_job` (lines 119-135). -/
def add_job (w : World) (pgid : Int) (cmdline : CStr) (status : Nat) : World :=
  let w := w.emit (Event.addJob pgid status)
  match find_slot w.jobs with
  | none => w.emit (Event.err Msg.tooManyJobs)
  | some i =>
    { w with
      jobs := Function.update w.jobs i
        ⟨w.next_job_id, pgid, strncpy cmdline BUFFER_SIZE, status⟩
      next_job_id := w.next_job_id + 1
      job_count := w.job_count + 1 }

/-- `remove_job` (lines 137-149); the index is never negative at the call site. -/
def remove_job (w : World) (i : Nat) : World :=
  if h : i < MAX_JOBS then
    { w with
      jobs := Function.update w.jobs ⟨i, h⟩ ⟨0, 0, [], 0⟩
      job_count := w.job_count - 1 }
  else w.emit (Event.err Msg.invalidIndex)

/-- `remove_job_pgid` (lines 151-161). -/
def remove_job_pgid (w : World) (pgid : Int) : World :=
  match (List.finRange MAX_JOBS).find?
      (fun i => decide ((w.jobs i).id ≠ 0 ∧ (w.jobs i).pgid = pgid)) with
  | some i => remove_job w i.val
  | none => w

/-- `print_jobs` (lines 163-186): one line per slot whose `id` is not 0, in slot order. -/
def print_jobs (w : World) : World :=
  let live := (List.finRange MAX_JOBS).filter (fun i => decide ((w.jobs i).id ≠ 0))
  let lines := live.map (fun i =>
    Event.out (Msg.jobLine (w.jobs i).id (w.jobs i).pgid (w.jobs i).status (w.jobs i).cmdline))
  { w with trace := w.trace ++ lines }

/-- `kill_all` (lines 237-250). -/
def kill_all (w : World) : World :=
  let targets := (List.finRange MAX_JOBS).filter
    (fun i => decide ((w.jobs i).id ≠ 0 ∧ (w.jobs i).pgid > 0))
  let kills := targets.map (fun i => Event.kill (-(w.jobs i).pgid) Sig.SIGTERM)
  { w with trace := w.trace ++ kills }

/-- `add_history` (lines 59-80). -/
def add_history (w : World) (line : CStr) : World :=
  if line = [] then w
  else if h : w.history_length < MAX_HISTORY then
    { w with
      history := Function.update w.history ⟨w.history_length, h⟩ (strncpy line BUFFER_SIZE)
      history_length := w.history_length + 1 }
  else
    { w with
      history := fun i =>
        if h : i.val + 1 < MAX_HISTORY then strncpy (w.history ⟨i.val + 1, h⟩) BUFFER_SIZE
        else strncpy line BUFFER_SIZE }

/-! ## Built-in commands (lines 346-518) -/

/-- The digit loop of `atoi`. -/
def atoiDigits : CStr → Int → Int
  | [], acc => acc
  | c :: rest, acc =>
    if c.isDigit then atoiDigits rest (acc * 10 + ((c.toNat - 48 : Nat) : Int)) else acc

/-- The number that the text denotes: leading whitespace, an optional sign,
then decimal digits up to the first other character (0 when there is no
digit). -/
def decimalValue (s : CStr) : Int :=
  match s.dropWhile isspace with
  | '-' :: rest => - atoiDigits rest 0
  | '+' :: rest => atoiDigits rest 0
  | t => atoiDigits t 0

/-- The result of `strtol` for a number: values beyond the range of the 64-bit
`long` are replaced by its largest resp. smallest value. -/
def toLong (x : Int) : Int :=
  if x > 9223372036854775807 then 9223372036854775807
  else if x < -9223372036854775808 then -9223372036854775808
  else x

/-- The conversion of a `long` to the 32-bit `int`: the value modulo `2^32` in
the range `-2^31 .. 2^31 - 1`. -/
def toInt (x : Int) : Int := (x + 2147483648) % 4294967296 - 2147483648

/-- The C library `atoi`, which is `(int) strtol(s, NULL, 10)`: the number the
text denotes, cut to the range of `long` and then reduced to an `int`. A text
that denotes a number within the range of `int` gives that number; the text
`4294967297` gives 1. -/
def atoi (s : CStr) : Int := toInt (toLong (decimalValue s))

/-- Takes the next result of `waitpid` from the oracle and records the call. -/
def World.popWait (w : World) (arg : Int) (pid : Int) (rest : List (Int × WStatus)) : World :=
  ({ w with os := { w.os with waits := rest } }).emit (Event.waitpid arg pid)

/-- `cd` (lines 346-369). -/
def cd (w : World) (argv : List CStr) : World × Int :=
  let path : CStr :=
    match argv.get? 1 with
    | none => (w.os.home).getD ['/']
    | some [] => (w.os.home).getD ['/']
    | some a => a
  match w.os.chdirs with
  | [] => (w.emit (Event.chdir path (-1)), 1)
  | r :: rest =>
    (({ w with os := { w.os with chdirs := rest } }).emit (Event.chdir path r),
      if r < 0 then 1 else 0)

/-- The wait loop of `fg` (lines 411-433) for the entry in slot `k`; the
results of `waitpid` are taken from the list, an empty list is the error
return -1. Returns `exit_code`. -/
def fgWait (k : Fin MAX_JOBS) : List (Int × WStatus) → World → World × Int
  | [], w => (w.emit (Event.waitpid (-(w.jobs k).pgid) (-1)), 0)
  | (pid, status) :: rest, w =>
    let w1 := w.popWait (-(w.jobs k).pgid) pid rest
    if pid > 0 then
      match status with
      | WStatus.stopped _ =>
        let w2 := { w1 with jobs := Function.update w1.jobs k { w1.jobs k with status := JOB_STOPPED } }
        let w3 := w2.emit (Event.out (Msg.stopped (w2.jobs k).id (w2.jobs k).cmdline))
        ({ w3 with fg_pgid := 0 }, 0)
      | WStatus.exited code => (remove_job_pgid w1 (w1.jobs k).pgid, (code : Int))
      | WStatus.signaled sig => (remove_job_pgid w1 (w1.jobs k).pgid, (sig : Int) + 128)
      | WStatus.continued => fgWait k rest w1
    else (w1, 0)

/-- `fg` (lines 390-436). -/
def fg (w : World) (argv : List CStr) : World × Int :=
  match argv.get? 1 with
  | none => (w.emit (Event.err Msg.fgRequiresId), 1)
  | some a =>
    let id := atoi a
    match find_id w.jobs id with
    | none => (w.emit (Event.err (Msg.fgNotFound id)), 1)
    | some k =>
      let w1 := w.emit (Event.kill (-(w.jobs k).pgid) Sig.SIGCONT)
      let w2 := { w1 with
        jobs := Function.update w1.jobs k { w1.jobs k with status := JOB_RUNNING }
        fg_pgid := (w1.jobs k).pgid }
      let r := fgWait k w2.os.waits w2
      ({ r.1 with fg_pgid := 0 }, r.2)

/-- `bg` (lines 444-462). -/
def bg (w : World) (argv : List CStr) : World × Int :=
  match argv.get? 1 with
  | none => (w.emit (Event.err Msg.bgRequiresId), 1)
  | some a =>
    let id := atoi a
    match find_id w.jobs id with
    | none => (w.emit (Event.err (Msg.bgNotFound id)), 1)
    | some k =>
      let w1 := w.emit (Event.kill (-(w.jobs k).pgid) Sig.SIGCONT)
      let w2 := { w1 with
        jobs := Function.update w1.jobs k { w1.jobs k with status := JOB_RUNNING } }
      (w2.emit (Event.out (Msg.bgNotice (w2.jobs k).id (w2.jobs k).cmdline)), 0)

/-- `history_cmd` (lines 465-472). -/
def history_cmd (w : World) : World × Int :=
  let shown := (List.finRange MAX_HISTORY).filter (fun i => decide (i.val < w.history_length))
  let lines := shown.map (fun i => Event.out (Msg.historyLine (i.val + 1) (w.history i)))
  ({ w with trace := w.trace ++ lines }, 0)

/-- `cmd_handler` (lines 474-518): `none` is the return value 0 (not a
built-in), `some o` the return value 1 with `*return_status` set, or the end of
the process for `exit`. -/
def cmd_handler (w : World) (argv : List CStr) : World × Option Outcome :=
  match argv with
  | [] => (w, none)
  | name :: _ =>
    if name = ['c', 'd'] then
      ((cd w argv).1, some (Outcome.ret (cd w argv).2))
    else if name = ['e', 'x', 'i', 't'] then
      (kill_all w, some (Outcome.exit 0))
    else if name = ['h', 'e', 'l', 'p'] then
      (w.emit (Event.out Msg.help), some (Outcome.ret 0))
    else if name = ['f', 'g'] then
      ((fg w argv).1, some (Outcome.ret (fg w argv).2))
    else if name = ['j', 'o', 'b', 's'] then
      (print_jobs w, some (Outcome.ret 0))
    else if name = ['b', 'g'] then
      ((bg w argv).1, some (Outcome.ret (bg w argv).2))
    else if name = ['h', 'i', 's', 't', 'o', 'r', 'y'] then
      ((history_cmd w).1, some (Outcome.ret (history_cmd w).2))
    else (w, none)

/-! ## The pipeline executor (`execute`, lines 531-748) -/

/-- One stage of a pipeline: `argv_list[cmd]`, `input_file[cmd]`, `output_file[cmd]`. -/
structure Command where
  argv : List CStr
  input_file : Option CStr
  output_file : Option CStr
  deriving DecidableEq, Repr

/-- The parse loops of lines 547-586 on the tokens `tokens[current .. end)`,
with the stage under construction in `cur`. A `|` stores the stage and, when
tokens remain, starts the next one; `<` and `>` take the following token, if
there is one, as the file; every other token is appended to `argv`.
The lists are the stores in the order the loop makes them, `argv` those to
`argv_list[cmd][0]`, `argv_list[cmd][1]`, ..: the loop has no test of `arg` or
`cmd` against `MAX_ARGS`, and neither has this function. The row
`argv_list[cmd]` holds `argv` followed by NULL only when the stage has at most
`MAX_ARGS - 1` arguments and there are at most `MAX_ARGS` stages; the parse
with these sizes is `parseFromBounded`. -/
def parseFrom : List CStr → Command → List Command
  | [], cur => [cur]
  | t :: rest, cur =>
    if t = ['|'] then
      cur :: (if rest = [] then [] else parseFrom rest ⟨[], none, none⟩)
    else if t = ['<'] then
      match rest with
      | [] => [cur]
      | f :: rest2 => parseFrom rest2 { cur with input_file := some f }
    else if t = ['>'] then
      match rest with
      | [] => [cur]
      | f :: rest2 => parseFrom rest2 { cur with output_file := some f }
    else parseFrom rest { cur with argv := cur.argv ++ [t] }

/-- The commands of a segment (lines 533-586); `count` is the length of the list. -/
def parseCommands (seg : List CStr) : List Command :=
  if seg = [] then [] else parseFrom seg ⟨[], none, none⟩

/-- The parse loops of lines 547-586 with the sizes of the arrays of lines
534-537: `cmd` is the index of the stage under construction (the value of
`count` when the stage began) and `cur` what has been stored for it so far,
so `arg` is the length of `cur.argv`. A store to `argv_list[cmd][arg]`,
`input_file[cmd]`, `output_file[cmd]` or `args[cmd]` with `cmd` or `arg` not
below `MAX_ARGS` is outside the array, which the code does not test and C
leaves undefined: the result is `none`. Otherwise the rows are as `parseFrom`
lists them: `argv_list[cmd]` holds `argv` followed by NULL. -/
def parseFromBounded : List CStr → Nat → Command → Option (List Command)
  | [], cmd, cur =>
    if cmd < MAX_ARGS ∧ cur.argv.length < MAX_ARGS then some [cur] else none
  | t :: rest, cmd, cur =>
    if t = ['|'] then
      if cmd < MAX_ARGS ∧ cur.argv.length < MAX_ARGS then
        if rest = [] then some [cur]
        else (parseFromBounded rest (cmd + 1) ⟨[], none, none⟩).map (fun cs => cur :: cs)
      else none
    else if t = ['<'] then
      match rest with
      | [] => if cmd < MAX_ARGS ∧ cur.argv.length < MAX_ARGS then some [cur] else none
      | f :: rest2 =>
        if cmd < MAX_ARGS then parseFromBounded rest2 cmd { cur with input_file := some f }
        else none
    else if t = ['>'] then
      match rest with
      | [] => if cmd < MAX_ARGS ∧ cur.argv.length < MAX_ARGS then some [cur] else none
      | f :: rest2 =>
        if cmd < MAX_ARGS then parseFromBounded rest2 cmd { cur with output_file := some f }
        else none
    else if cmd < MAX_ARGS ∧ cur.argv.length < MAX_ARGS then
      parseFromBounded rest cmd { cur with argv := cur.argv ++ [t] }
    else none

/-- The commands of a segment (lines 533-586) when every store of the parse is
inside its array, `none` when one is not. -/
def parseCommandsBounded (seg : List CStr) : Option (List Command) :=
  if seg = [] then some [] else parseFromBounded seg 0 ⟨[], none, none⟩

/-- Every store of the parse that produced these commands is inside its array:
at most `MAX_ARGS` stages, and in every stage at most `MAX_ARGS - 1`
arguments, so that the NULL terminator is within the row. -/
def InBounds (cmds : List Command) : Prop :=
  cmds.length ≤ MAX_ARGS ∧ ∀ c ∈ cmds, c.argv.length < MAX_ARGS

instance (cmds : List Command) : Decidable (InBounds cmds) := by
  unfold InBounds
  infer_instance

/-- The tokens of a range of slots, `none` when one of them holds NULL. -/
def allTokens : List (Option CStr) → Option (List CStr)
  | [] => some []
  | none :: _ => none
  | some t :: rest => (allTokens rest).map (fun ts => t :: ts)

/-- The slots `tokens[start .. stop)`. -/
def segmentTokens (tokens : List (Option CStr)) (start stop : Nat) : Option (List CStr) :=
  allTokens ((tokens.drop start).take (stop - start))

/-- The effect of `dup2(old, new)` on the descriptor table. -/
def dup2 (fds : Nat → Option Desc) (old new : Nat) : Nat → Option Desc :=
  match fds old with
  | none => fds
  | some d => Function.update fds new (some d)

/-- The call `dup2(old, new)`. -/
def World.dup2 (w : World) (old new : Nat) : World :=
  ({ w with fds := Shell.dup2 w.fds old new }).emit (Event.dup2 old new)

/-- The call `close(fd)`. -/
def World.close (w : World) (fd : Nat) : World :=
  ({ w with fds := Function.update w.fds fd none }).emit (Event.close fd)

/-- The call `open(path, ..)`: the descriptor the oracle returns, or `none` on failure. -/
def World.openFile (w : World) (path : CStr) (forWriting : Bool) : World × Option Nat :=
  match w.os.opens with
  | [] => (w.emit (Event.openFile path forWriting none), none)
  | none :: rest =>
    (({ w with os := { w.os with opens := rest } }).emit (Event.openFile path forWriting none),
      none)
  | some fd :: rest =>
    (({ w with os := { w.os with opens := rest }
               fds := Function.update w.fds fd (some (Desc.file path forWriting)) }).emit
        (Event.openFile path forWriting (some fd)), some fd)

/-- The loops of lines 680-684 and 716-719: both ends of every pipe are closed. -/
def closePipes (w : World) (pipes : List (Nat × Nat)) : World :=
  pipes.foldl (fun w p => (w.close p.1).close p.2) w

/-- Lines 646-653 in child `i`: the read end of pipe `i - 1` is duplicated onto
descriptor 0 when `i > 0`, the write end of pipe `i` onto descriptor 1 when
`i < count - 1`. The indices are within the pipe array at both places. -/
def wirePipes (w : World) (i count : Nat) (pipes : List (Nat × Nat)) : World :=
  let w1 := if i > 0 then w.dup2 (pipes.getD (i - 1) (0, 0)).1 0 else w
  if i < count - 1 then w1.dup2 (pipes.getD i (0, 0)).2 1 else w1

/-- Lines 655-665: the input redirection. The second component is `some 127`
when the child ends in `_exit(127)` because the file cannot be opened. -/
def redirectInput (w : World) (cmd : Command) : World × Option Int :=
  match cmd.input_file with
  | none => (w, none)
  | some path =>
    match w.openFile path false with
    | (w1, none) => (w1.emit (Event.err Msg.errOpenInput), some 127)
    | (w1, some file) => ((w1.dup2 file 0).close file, none)

/-- Lines 666-676: the output redirection, like `redirectInput`. -/
def redirectOutput (w : World) (cmd : Command) : World × Option Int :=
  match cmd.output_file with
  | none => (w, none)
  | some path =>
    match w.openFile path true with
    | (w1, none) => (w1.emit (Event.err Msg.errOpenOutput), some 127)
    | (w1, some file) => ((w1.dup2 file 1).close file, none)

/-- The wiring of child `i` (lines 646-685): pipe ends, input file, output
file, then every pipe descriptor is closed. The second component is `some 127`
when the child ends in `_exit(127)` because a file cannot be opened. -/
def childWire (w : World) (i count : Nat) (pipes : List (Nat × Nat)) (cmd : Command) :
    World × Option Int :=
  match redirectInput (wirePipes w i count pipes) cmd with
  | (w3, some code) => (w3, some code)
  | (w3, none) =>
    match redirectOutput w3 cmd with
    | (w4, some code) => (w4, some code)
    | (w4, none) => (closePipes w4 pipes, none)

/-- The child branch of the fork loop (lines 632-697), run on the child's copy
of the state. The source contains no call that replaces the program image:
after the wiring the child prints a diagnostic and calls `_exit(127)`. -/
def childBody (w : World) (i count : Nat) (pipes : List (Nat × Nat)) (cmd : Command)
    (pgid : Int) : World × Outcome :=
  let w0 := w.emit (Event.setpgid 0 (if i = 0 then 0 else pgid))
  let w1 := (w0.emit (Event.signalDefault Sig.SIGINT)).emit (Event.signalDefault Sig.SIGTSTP)
  match childWire w1 i count pipes cmd with
  | (w2, some code) => (w2, Outcome.exit code)
  | (w2, none) =>
    match cmd.argv with
    | [] => (w2.emit (Event.err Msg.emptyCommand), Outcome.exit 127)
    | name :: _ => (w2.emit (Event.err (Msg.commandNotFound name)), Outcome.exit 127)

/-- The pipe loop of lines 606-614: `m` pipes are still to be created, `j` is
the index of the next one, `acc` holds `pipes[0 .. j)`. `none` is the early
`return 1`. -/
def makePipes : Nat → Nat → World → List (Nat × Nat) → World × Option (List (Nat × Nat))
  | 0, _, w, acc => (w, some acc)
  | m + 1, j, w, acc =>
    match w.os.pipes with
    | some (r, wr) :: rest =>
      makePipes m (j + 1)
        (({ w with os := { w.os with pipes := rest }
                   fds := Function.update (Function.update w.fds r (some (Desc.pipeRead j))) wr
                     (some (Desc.pipeWrite j)) }).emit (Event.pipe j r wr))
        (acc ++ [(r, wr)])
    | none :: rest =>
      (((({ w with os := { w.os with pipes := rest } }) : World).emit (Event.pipeFail j)).emit
        (Event.err Msg.pipeError), none)
    | [] => ((w.emit (Event.pipeFail j)).emit (Event.err Msg.pipeError), none)

/-- How the fork loop ends in the process that runs it: as the parent after
all forks, with the early `return 1`, or as a child. -/
inductive ForkEnd where
  | parent (pgid : Int)
  | failed
  | child (o : Outcome)
  deriving DecidableEq, Repr

/-- The fork loop of lines 620-713 over the commands still to launch; `i` is
the stage index and `pgid` the group recorded so far. -/
def forkLoop (count : Nat) (pipes : List (Nat × Nat)) :
    List Command → Nat → Int → World → World × ForkEnd
  | [], _, pgid, w => (w, ForkEnd.parent pgid)
  | cmd :: rest, i, pgid, w =>
    let pid : Int := w.os.forks.headD (-1)
    let w1 := ({ w with os := { w.os with forks := w.os.forks.tail } }).emit (Event.fork pid)
    if pid < 0 then (w1.emit (Event.err Msg.forkError), ForkEnd.failed)
    else if pid = 0 then
      ((childBody w1 i count pipes cmd pgid).1, ForkEnd.child (childBody w1 i count pipes cmd pgid).2)
    else
      let pgid1 := if i = 0 then pid else pgid
      forkLoop count pipes rest (i + 1) pgid1 (w1.emit (Event.setpgid pid pgid1))

/-- The foreground wait loop of `execute` (lines 732-744); an empty list is
the error return -1 of `waitpid`. -/
def execWait (pgid : Int) (last_cmdline : CStr) : List (Int × WStatus) → World → World
  | [], w => w.emit (Event.waitpid (-pgid) (-1))
  | (pid, status) :: rest, w =>
    let w1 := w.popWait (-pgid) pid rest
    if pid > 0 then
      match status with
      | WStatus.stopped _ =>
        let w2 := add_job w1 pgid last_cmdline JOB_STOPPED
        w2.emit (Event.out (Msg.stopped (w2.next_job_id - 1) last_cmdline))
      | WStatus.exited _ => w1
      | WStatus.signaled _ => w1
      | WStatus.continued => execWait pgid last_cmdline rest w1
    else w1

/-- Lines 601-747: pipes, forks, closing the pipes in the parent, then the
background or the foreground path. -/
def launch (w : World) (cmds : List Command) (flag : Nat) (last_cmdline : CStr) :
    World × Outcome :=
  let count := cmds.length
  match (if count > 1 then makePipes (count - 1) 0 w [] else (w, some [])) with
  | (w1, none) => (w1, Outcome.ret 1)
  | (w1, some pipes) =>
    match forkLoop count pipes cmds 0 0 w1 with
    | (w2, ForkEnd.failed) => (w2, Outcome.ret 1)
    | (w2, ForkEnd.child o) => (w2, o)
    | (w2, ForkEnd.parent pgid) =>
      let w3 := closePipes w2 pipes
      if flag ≠ 0 then
        let w4 := add_job w3 pgid last_cmdline JOB_RUNNING
        (w4.emit (Event.out (Msg.runningInBackground (w4.next_job_id - 1) pgid)), Outcome.ret 0)
      else
        let w4 := { w3 with fg_pgid := pgid }
        let w5 := execWait pgid last_cmdline w4.os.waits w4
        ({ w5 with fg_pgid := 0 }, Outcome.ret 0)

/-- The function `execute(tokens, start, end, flag, last_cmdline)`. The
commands are those of `parseCommands`, the stores of the parse in their order;
they are the content of the arrays whenever every store is inside its array
(`parseCommandsBounded`). -/
def execute (w : World) (tokens : List (Option CStr)) (start stop flag : Nat)
    (last_cmdline : CStr) : World × Outcome :=
  match segmentTokens tokens start stop with
  | none => (w, Outcome.fault)
  | some seg =>
    let cmds := parseCommands seg
    if cmds.length = 0 then (w, Outcome.ret 0)
    else
      match (if cmds.length = 1 ∧ flag = 0 then cmd_handler w (cmds.headD ⟨[], none, none⟩).argv
             else (w, none)) with
      | (w1, some o) => (w1, o)
      | (w1, none) => launch w1 cmds flag last_cmdline

/-- The call of line 821: `execute(tokens, i, j, bg, last_cmd)`. -/
def executeCall (last_cmd : CStr) : World → List (Option CStr) → ExecCall → World × Outcome :=
  fun w tokens c => execute w tokens c.start c.stop c.flag last_cmd

/-- Lines 790-871 for one non-empty input line: `last_cmd`, the history, the
tokens and the segment loop. -/
def handleLine (w : World) (line : CStr) : LoopResult World :=
  let last_cmd := strncpy line BUFFER_SIZE
  let w1 := add_history w line
  mainSegments (executeCall last_cmd) (tokenize line (MAX_TOKENS - 1)) w1

/-! ## Sequences of job-table operations -/

/-- A job-table operation: `add_job(pgid, cmdline, status)` or `remove_job_pgid(pgid)`. -/
inductive JobOp where
  | add (pgid : Int) (cmdline : CStr) (status : Nat)
  | remove (pgid : Int)
  deriving DecidableEq, Repr

/-- The id that a call of `add_job` assigns: the `id` field of the slot it
fills, `none` when the table is full and the call fails. -/
def assignedId (w : World) (pgid : Int) (cmdline : CStr) (status : Nat) : Option Int :=
  (find_slot w.jobs).map (fun i => ((add_job w pgid cmdline status).jobs i).id)

/-- Runs a sequence of operations; returns the final state and the ids
assigned by the successful `add_job` calls, in call order. -/
def runJobOps : World → List JobOp → World × List Int
  | w, [] => (w, [])
  | w, JobOp.add pgid cmdline status :: ops =>
    ((runJobOps (add_job w pgid cmdline status) ops).1,
      (assignedId w pgid cmdline status).toList ++
        (runJobOps (add_job w pgid cmdline status) ops).2)
  | w, JobOp.remove pgid :: ops => runJobOps (remove_job_pgid w pgid) ops

/-- A state whose five slots all hold live jobs (ids 1 to 5). -/
def fullWorld (os : OS) : World :=
  { initWorld os with
    jobs := fun i => ⟨(i.val : Int) + 1, 100 + (i.val : Int), ['x'], JOB_RUNNING⟩
    next_job_id := 6
    job_count := 5 }

/-- The invariant behind the id assignment: `next_job_id` is positive and
larger than every stored id, stored ids are not negative, and live entries
have pairwise different ids. -/
def IdInv (w : World) : Prop :=
  1 ≤ w.next_job_id ∧ (∀ i, (w.jobs i).id < w.next_job_id) ∧ (∀ i, 0 ≤ (w.jobs i).id) ∧
  (∀ i j, (w.jobs i).id ≠ 0 → (w.jobs i).id = (w.jobs j).id → i = j)

/-! ## Traces of a successful launch -/

/-- The trace of the pipe loop when every `pipe` call succeeds: one event per
pipe, numbered from `j`. -/
def pipeEvents : Nat → List (Nat × Nat) → List Event
  | _, [] => []
  | j, (r, wr) :: ps => Event.pipe j r wr :: pipeEvents (j + 1) ps

/-- The descriptor table after the pipe loop has created the pipes `ps`, numbered from `j`. -/
def pipeFds : Nat → List (Nat × Nat) → (Nat → Option Desc) → (Nat → Option Desc)
  | _, [], fds => fds
  | j, (r, wr) :: ps, fds =>
    pipeFds (j + 1) ps
      (Function.update (Function.update fds r (some (Desc.pipeRead j))) wr
        (some (Desc.pipeWrite j)))

/-- The trace of the fork loop in the parent from stage `i` on, when `fork`
returns the positive pids `pids`; `pgid` is the group recorded before stage `i`. -/
def forkEventsFrom : Nat → Int → List Int → List Event
  | _, _, [] => []
  | i, pgid, pid :: rest =>
    Event.fork pid :: Event.setpgid pid (if i = 0 then pid else pgid) ::
      forkEventsFrom (i + 1) (if i = 0 then pid else pgid) rest

/-- The trace of the whole fork loop in the parent: for each child, in stage
order, the fork and the `setpgid` into the group of the first child. -/
def forkEvents (pids : List Int) : List Event :=
  pids.flatMap (fun p => [Event.fork p, Event.setpgid p (pids.headD 0)])

/-- The trace of the closing loop: both ends of every pipe, in pipe order. -/
def closeEvents (ps : List (Nat × Nat)) : List Event :=
  ps.flatMap (fun p => [Event.close p.1, Event.close p.2])

/-- The descriptor table after both ends of the pipes `ps` have been closed. -/
def closeFds (ps : List (Nat × Nat)) (fds : Nat → Option Desc) : Nat → Option Desc :=
  ps.foldl (fun f p => Function.update (Function.update f p.1 none) p.2 none) fds

/-- The events of the last part of `execute` (lines 722-746): waiting,
registering a job and printing. -/
def isTailEvent : Event → Bool
  | Event.waitpid _ _ => true
  | Event.addJob _ _ => true
  | Event.out _ => true
  | Event.err _ => true
  | _ => false

/-- The events that wait for a child or register a job. -/
def isWaitOrAddJob : Event → Bool
  | Event.waitpid _ _ => true
  | Event.addJob _ _ => true
  | _ => false

/-- The notification that ends a foreground wait loop: the status of the
first result with a positive pid that is not a continuation; `none` when
`waitpid` fails first. -/
def waitObserves : List (Int × WStatus) → Option WStatus
  | [] => none
  | (pid, status) :: rest =>
    if pid > 0 then
      match status with
      | WStatus.continued => waitObserves rest
      | s => some s
    else none

/-- The segment is not handled by a built-in: the dispatcher is not consulted
(several commands, or background) or it reports that the name is not a built-in. -/
def notBuiltin (w : World) (cmds : List Command) (flag : Nat) : Prop :=
  ¬ (cmds.length = 1 ∧ flag = 0) ∨
    (cmd_handler w (cmds.headD ⟨[], none, none⟩).argv).2 = none

/-- The group recorded after the fork loop has run from stage `i` with the pids `pids`. -/
def pgidAfter : Nat → Int → List Int → Int
  | _, pgid, [] => pgid
  | i, pgid, pid :: rest => pgidAfter (i + 1) (if i = 0 then pid else pgid) rest

/-- The state of the parent after the closing loop of line 716 when the pipes
`ps` and the children `pids` were created without failure. -/
def afterClose (w : World) (ps : List (Nat × Nat)) (pids : List Int)
    (restP : List (Option (Nat × Nat))) (restF : List Int) : World :=
  { w with
    os := { w.os with pipes := restP, forks := restF }
    fds := closeFds ps (pipeFds 0 ps w.fds)
    trace := w.trace ++ pipeEvents 0 ps ++ forkEvents pids ++ closeEvents ps }

/-- An oracle for the three-stage pipeline `a | b | c`: two pipes on the
descriptors 3, 4 and 5, 6, three children 100, 101, 102, and a first wait
result for the group with status `s`. -/
def osPipeline (s : WStatus) : OS :=
  { pipes := [some (3, 4), some (5, 6)], forks := [100, 101, 102],
    waits := [(100, s)], opens := [], chdirs := [], getpgids := [], home := none }

/-- The token slots of the line `a | b | c`. -/
def pipelineTokens : List (Option CStr) :=
  [some ['a'], some ['|'], some ['b'], some ['|'], some ['c']]

/-- The descriptor `fd` is one end of one of the pipes `ps`. -/
def isPipeFd (ps : List (Nat × Nat)) (fd : Nat) : Bool :=
  ps.any (fun p => decide (fd = p.1) || decide (fd = p.2))

/-- The state of child 1 of the pipeline `a | b | c`: the initial state after
the two pipes of `osPipeline` have been created, with two results for `open`. -/
def childWorld : World :=
  let w := (makePipes 2 0 (initWorld (osPipeline (WStatus.exited 0))) []).1
  { w with os := { w.os with opens := [some 7, some 7] } }

/-- The event is a call that replaces the program image. -/
def isExec : Event → Bool
  | Event.exec _ _ => true
  | _ => false

/-- The state `w2` continues `w1` by actions none of which replaces the program image. -/
def NoExecSince (w1 w2 : World) : Prop :=
  ∃ evs, w2.trace = w1.trace ++ evs ∧ ∀ e ∈ evs, isExec e = false

/-! ## The short-circuit rule as the specification states it -/

/-- Whether the segment that follows the operator `op` is executed when the
status of the most recently executed segment is `S`: always for the first
segment and after `;`, after `&&` exactly when `S = 0`, after `||` exactly when
`S ≠ 0`. -/
def runsAfter (op : Option CStr) (S : Int) : Bool :=
  match op with
  | none => true
  | some t =>
    if t = ['&', '&'] then decide (S = 0)
    else if t = ['|', '|'] then decide (S ≠ 0)
    else true

/-- The segments of the token list from index `i` on, handled by the rule of
the specification: the segment `[i, b)` up to its closing boundary `b` is
passed to `exec` when it is not empty and `runsAfter` allows it, otherwise it
is skipped and the status stays; the next segment starts after the boundary
token. Returns the calls, the final state and the final status. `fuel` bounds
the number of segments. -/
def specRun {σ : Type} (exec : σ → ExecCall → σ × Int) (toks : List CStr) :
    Nat → Nat → Option CStr → Int → σ → List ExecCall × σ × Int
  | 0, _, _, S, st => ([], st, S)
  | fuel + 1, i, op, S, st =>
    if runsAfter op S = true ∧ i < closingBoundary toks i then
      match toks[closingBoundary toks i]? with
      | none => ([⟨i, closingBoundary toks i, 0⟩],
          (exec st ⟨i, closingBoundary toks i, 0⟩).1, (exec st ⟨i, closingBoundary toks i, 0⟩).2)
      | some t =>
        (⟨i, closingBoundary toks i, 0⟩ ::
          (specRun exec toks fuel (closingBoundary toks i + 1) (some t)
            (exec st ⟨i, closingBoundary toks i, 0⟩).2
            (exec st ⟨i, closingBoundary toks i, 0⟩).1).1,
         (specRun exec toks fuel (closingBoundary toks i + 1) (some t)
            (exec st ⟨i, closingBoundary toks i, 0⟩).2
            (exec st ⟨i, closingBoundary toks i, 0⟩).1).2)
    else
      match toks[closingBoundary toks i]? with
      | none => ([], st, S)
      | some t => specRun exec toks fuel (closingBoundary toks i + 1) (some t) S st

/-- An `execute` that always returns: the state and status given by `exec`. -/
def retExec {σ : Type} (exec : σ → ExecCall → σ × Int) :
    σ → List (Option CStr) → ExecCall → σ × Outcome :=
  fun s _ c => ((exec s c).1, Outcome.ret (exec s c).2)

/-! ## The reaper (`reap`, lines 189-235) -/

/-- Lines 204-233 for one status change: `pgid` is the result of `getpgid` for
the process and `status` the status word that `waitpid` stored. -/
def reapChange (w : World) (status : WStatus) (pgid : Int) : World :=
  if pgid ≤ 0 then w
  else
    match find_pgid w.jobs pgid with
    | none => w
    | some k =>
      match status with
      | WStatus.exited _ =>
        let w1 := { w with jobs := Function.update w.jobs k { w.jobs k with status := JOB_DONE } }
        let w2 := w1.emit (Event.out (Msg.finished (w1.jobs k).id (w1.jobs k).cmdline))
        remove_job_pgid w2 (w2.jobs k).pgid
      | WStatus.signaled _ =>
        let w1 := { w with jobs := Function.update w.jobs k { w.jobs k with status := JOB_DONE } }
        let w2 := w1.emit (Event.out (Msg.finished (w1.jobs k).id (w1.jobs k).cmdline))
        remove_job_pgid w2 (w2.jobs k).pgid
      | WStatus.stopped _ =>
        let w1 := { w with
          jobs := Function.update w.jobs k { w.jobs k with status := JOB_STOPPED } }
        w1.emit (Event.out (Msg.stopped (w1.jobs k).id (w1.jobs k).cmdline))
      | WStatus.continued =>
        let w1 := { w with
          jobs := Function.update w.jobs k { w.jobs k with status := JOB_RUNNING } }
        w1.emit (Event.out (Msg.continued (w1.jobs k).id (w1.jobs k).cmdline))

/-- The status reports the end of the child (`WIFEXITED` or `WIFSIGNALED`).
The `waitpid` of line 196 is called without `WNOWAIT`, so a child whose end it
reports is released by that very call and its process id names no process any
more. -/
def WStatus.ended : WStatus → Bool
  | WStatus.exited _ => true
  | WStatus.signaled _ => true
  | WStatus.stopped _ => false
  | WStatus.continued => false

/-- The loop of `reap` (lines 194-234) over the pending results of
`waitpid(-1, ..)`; an empty list is the return value -1 (no child). The call
`getpgid(pid)` of line 204 comes after `waitpid` has returned the status: for
a child that has ended it fails (no such process, result -1); for a stopped or
continued child the result is taken from the oracle, an exhausted oracle is
the error -1. -/
def reapLoop : List (Int × WStatus) → World → World
  | [], w => w.emit (Event.waitpid (-1) (-1))
  | (pid, status) :: rest, w =>
    let w1 := w.popWait (-1) pid rest
    if pid ≤ 0 then w1
    else if status.ended then reapLoop rest (reapChange w1 status (-1))
    else
      let pgid : Int := w1.os.getpgids.headD (-1)
      let w2 : World := { w1 with os := { w1.os with getpgids := w1.os.getpgids.tail } }
      reapLoop rest (reapChange w2 status pgid)

/-- The function `reap`. -/
def reap (w : World) : World := reapLoop w.os.waits w

/-! ## States and oracles for the evaluations of the built-ins -/

/-- An oracle with no pending result at all. -/
def osNone : OS :=
  { pipes := [], forks := [], waits := [], opens := [], chdirs := [], getpgids := [],
    home := none }

/-- An oracle whose only pending `waitpid` result is child 100 with status `s`. -/
def osWait (s : WStatus) : OS :=
  { pipes := [], forks := [], waits := [(100, s)], opens := [], chdirs := [], getpgids := [],
    home := none }

/-- An oracle for one round of `reap`: the pending `waitpid` result is child
100 with status `s`, and `getpgid` of a process that exists answers 100. -/
def osReap (s : WStatus) : OS :=
  { pipes := [], forks := [], waits := [(100, s)], opens := [], chdirs := [], getpgids := [100],
    home := none }

/-- The table after `add_job(100, "sleep 5 &", JOB_RUNNING)` from the empty
table: one background job, the process group 100 of child 100. -/
def oneJobWorld (os : OS) : World :=
  add_job (initWorld os) 100 ['s', 'l', 'e', 'e', 'p', ' ', '5', ' ', '&'] JOB_RUNNING

/-- A table with two live jobs in the same process group: `add_job(100, ..)`
twice from the empty table; the pending `waitpid` result is the exit of
child 100 with code 0. -/
def dupWorld : World :=
  add_job (add_job (initWorld (osWait (WStatus.exited 0))) 100 ['a'] JOB_RUNNING) 100 ['b']
    JOB_RUNNING

/-! ## What the `jobs` built-in prints -/

/-- The slots that hold a live job, in slot order. -/
def liveSlots (w : World) : List (Fin MAX_JOBS) :=
  (List.finRange MAX_JOBS).filter (fun i => decide ((w.jobs i).id ≠ 0))

/-- The line printed for one job. -/
def jobLine (j : job_t) : Event :=
  Event.out (Msg.jobLine j.id j.pgid j.status j.cmdline)

/-- The id shown by a printed job line. -/
def lineId : Event → Option Int
  | Event.out (Msg.jobLine id _ _ _) => some id
  | _ => none

/-- The ids of the job lines that `print_jobs` prints, in the order printed. -/
def printedIds (w : World) : List Int :=
  ((print_jobs w).trace.drop w.trace.length).filterMap lineId

/-- In slot order the live jobs have increasing ids. -/
def SortedLive (w : World) : Prop :=
  ∀ i j : Fin MAX_JOBS, i < j → (w.jobs i).id ≠ 0 → (w.jobs j).id ≠ 0 →
    (w.jobs i).id < (w.jobs j).id

/-- The live jobs fill a prefix of the slots, with increasing ids below `next_job_id`. -/
def PrefixLive (w : World) : Prop :=
  (∀ i j : Fin MAX_JOBS, i < j → (w.jobs j).id ≠ 0 →
    (w.jobs i).id ≠ 0 ∧ (w.jobs i).id < (w.jobs j).id) ∧
  (∀ i, (w.jobs i).id < w.next_job_id)

/-- The operation is a call of `add_job`. -/
def JobOp.isAdd : JobOp → Bool
  | JobOp.add _ _ _ => true
  | JobOp.remove _ => false

/-- The table after `add_job(100)`, `add_job(101)`, `remove_job_pgid(100)`,
`add_job(102)` from the empty table: the third job reuses slot 0. -/
def reusedSlotWorld : World :=
  (runJobOps (initWorld osNone)
    [JobOp.add 100 ['a'] JOB_RUNNING, JobOp.add 101 ['b'] JOB_RUNNING, JobOp.remove 100,
     JobOp.add 102 ['c'] JOB_RUNNING]).1

/-! ## The history buffer as a list -/

/-- The entry `history[i]`, the empty string for an index outside the array. -/
def histAt (w : World) (i : Nat) : CStr :=
  if h : i < MAX_HISTORY then w.history ⟨i, h⟩ else []

/-- The entries `history[0 .. history_length)` in order. -/
def historyList (w : World) : List CStr :=
  (List.range w.history_length).map (histAt w)

/-! ## Built-in dispatch -/

/-- The names that `cmd_handler` compares `argv[0]` with. -/
def builtinNames : List CStr :=
  [['c', 'd'], ['e', 'x', 'i', 't'], ['h', 'e', 'l', 'p'], ['f', 'g'], ['j', 'o', 'b', 's'],
   ['b', 'g'], ['h', 'i', 's', 't', 'o', 'r', 'y']]

/-- The event is a call of `pipe` or of `fork`, successful or not. -/
def isPipeOrFork : Event → Bool
  | Event.pipe _ _ _ => true
  | Event.pipeFail _ => true
  | Event.fork _ => true
  | _ => false

/-- The state `w2` continues `w1` by actions none of which is a `pipe` or `fork` call. -/
def NoPipeForkSince (w1 w2 : World) : Prop :=
  ∃ evs, w2.trace = w1.trace ++ evs ∧ ∀ e ∈ evs, isPipeOrFork e = false

/-! ## Wait results collected by a call -/

/-- The status reports a termination: an exit or a death by signal. -/
def WStatus.isTermination : WStatus → Bool
  | WStatus.exited _ => true
  | WStatus.signaled _ => true
  | _ => false

/-- The wait results consumed between the state `w` and the later state `w2`. -/
def collectedWaits (w w2 : World) : List (Int × WStatus) :=
  w.os.waits.take (w.os.waits.length - w2.os.waits.length)

/-- The termination notifications among the consumed wait results. -/
def collectedTerminations (w w2 : World) : List (Int × WStatus) :=
  (collectedWaits w w2).filter (fun r => decide (0 < r.1) && r.2.isTermination)

/-- An oracle for the two-stage pipeline `a | b`: one pipe on the descriptors
3 and 4, the children 100 and 101, and both children exit with code 0. -/
def osTwoStage : OS :=
  { pipes := [some (3, 4)], forks := [100, 101],
    waits := [(100, WStatus.exited 0), (101, WStatus.exited 0)],
    opens := [], chdirs := [], getpgids := [], home := none }

/-- The token slots of the line `a | b`. -/
def twoStageTokens : List (Option CStr) :=
  [some ['a'], some ['|'], some ['b']]

/-- The slots `tokens[0 .. n]` that `tokenize` writes: the `n` tokens and the
NULL terminator of line 334. -/
def tokenizeSlots (line : CStr) (max_tokens : Nat) : List (Option CStr) :=
  (tokenize line max_tokens).map some ++ [none]

/-! ## Invariants of the job table -/

/-- No two live entries of the job table have the same process group. -/
def UniquePgid (w : World) : Prop :=
  ∀ i j, (w.jobs i).id ≠ 0 → (w.jobs j).id ≠ 0 → (w.jobs i).pgid = (w.jobs j).pgid → i = j

/-- Every slot of `w2` either holds the id and the process group it holds in
`w`, or is free. -/
def KeepsOrFrees (w w2 : World) : Prop :=
  ∀ i, ((w2.jobs i).id = (w.jobs i).id ∧ (w2.jobs i).pgid = (w.jobs i).pgid) ∨
    (w2.jobs i).id = 0

/-- The number of slots that hold a live job. -/
def liveCount (w : World) : Nat := (liveSlots w).length

/-- The counter `job_count` is the number of live slots and lies within `0 .. MAX_JOBS`. -/
def CountInv (w : World) : Prop :=
  w.job_count = (liveCount w : Int) ∧ 0 ≤ w.job_count ∧ w.job_count ≤ (MAX_JOBS : Int)

/-! ## Signal handlers (lines 261-278) -/

/-- How a signal handler ends: it returns to the interrupted code, or it ends
the process. -/
inductive HandlerEnd where
  | returned
  | exited (code : Int)
  deriving DecidableEq, Repr

/-- `sigtstp_handler` (lines 271-278): `kill(-fg_pgid, SIGTSTP)` when
`fg_pgid > 0`, then the handler returns. -/
def sigtstp_handler (w : World) : World × HandlerEnd :=
  if w.fg_pgid > 0 then (w.emit (Event.kill (-w.fg_pgid) Sig.SIGTSTP), HandlerEnd.returned)
  else (w, HandlerEnd.returned)

/-! ## The grammar of a segment, as the specification words it -/

/-- The token is `<` or `>`. -/
def isRedir (t : CStr) : Bool := t = ['<'] || t = ['>']

/-- The token is one of the operators of the tokenizer: `&&`, `||`, `&`, `|`,
`;`, `<`, `>`. -/
def isOperator (t : CStr) : Bool :=
  t = ['&', '&'] || t = ['|', '|'] || t = ['&'] || t = ['|'] || t = [';'] || t = ['<'] ||
    t = ['>']

/-- The token is a word of the grammar: a token that is not an operator. -/
def isWord (t : CStr) : Bool := !isOperator t

/-- The stages of a segment: the runs of tokens between the `|` tokens. -/
def specStages : List CStr → List (List CStr)
  | [] => [[]]
  | t :: rest =>
    if t = ['|'] then [] :: specStages rest
    else
      match specStages rest with
      | [] => [[t]]
      | s :: ss => (t :: s) :: ss

/-- Every `<` or `>` of the stage is followed by a word. -/
def redirOk : List CStr → Bool
  | [] => true
  | [t] => !isRedir t
  | t :: f :: rest => if isRedir t then isWord f && redirOk rest else redirOk (f :: rest)

/-- The tokens of a stage without the `<`/`>` operators and their target words. -/
def specArgv : List CStr → List CStr
  | [] => []
  | [t] => if isRedir t then [] else [t]
  | t :: f :: rest => if isRedir t then specArgv rest else t :: specArgv (f :: rest)

/-- The target words of the operator `op` (`<` or `>`) in a stage, in order. -/
def specTargets (op : CStr) : List CStr → List CStr
  | [] => []
  | [_] => []
  | t :: f :: rest =>
    if isRedir t then (if t = op then f :: specTargets op rest else specTargets op rest)
    else specTargets op (f :: rest)

/-- The command of a stage: its words, and the target of its `<` resp. `>`
(of the last one, should there be several), absent when there is none. -/
def specCommand (st : List CStr) : Command :=
  ⟨specArgv st, (specTargets ['<'] st).getLast?, (specTargets ['>'] st).getLast?⟩

/-- The segment conforms to the grammar: every stage is made of words and of
`<`, `>` (no `&`, `;`, `&&`, `||` inside a segment), has at least one word,
and every `<` or `>` is followed by a word. -/
def Conforms (seg : List CStr) : Prop :=
  ∀ st ∈ specStages seg,
    (∃ t ∈ st, isWord t = true) ∧ redirOk st = true ∧
      ∀ t ∈ st, isRedir t = true ∨ isWord t = true

instance (seg : List CStr) : Decidable (Conforms seg) := by
  unfold Conforms
  infer_instance

/-- The largest index written in a row `argv_list[cmd][..]` by the parse of
lines 547-586: the index `arg` of the NULL terminator of the longest `argv`. -/
def maxArgIndex (cmds : List Command) : Nat :=
  (cmds.map (fun c => c.argv.length)).foldl max 0

/-- A line of 65 characters: `a&a&...&a`, 33 letters separated by 32 `&`. -/
def ampLine : CStr :=
  ((List.replicate 32 ['a', '&']).flatten) ++ ['a']

/-- The 65 tokens of that line. -/
def ampTokens : List CStr :=
  ((List.replicate 32 [['a'], ['&']]).flatten) ++ [['a']]

/-- The command `cur` continued by what the rest of its stage contributes:
further words, and a later `<` or `>` target in place of an earlier one. -/
def Command.extend (cur c : Command) : Command :=
  ⟨cur.argv ++ c.argv,
    (match c.input_file with
     | some f => some f
     | none => cur.input_file),
    (match c.output_file with
     | some f => some f
     | none => cur.output_file)⟩

/-! ## Concrete oracles used in the evaluations below -/

/-- An oracle for the line `false && echo X` (or `false || echo X`): two forks
succeed with pids 100 and 101, the first child exits with code `c`, the second
with code 0. -/
def osExitCode (c : Nat) : OS :=
  { pipes := [], forks := [100, 101],
    waits := [(100, WStatus.exited c), (101, WStatus.exited 0)],
    opens := [], chdirs := [], getpgids := [], home := none }

/-- An oracle for the line `false && echo X` in which the first child is
killed by signal `n`. -/
def osSignal (n : Nat) : OS :=
  { pipes := [], forks := [100, 101],
    waits := [(100, WStatus.signaled n), (101, WStatus.exited 0)],
    opens := [], chdirs := [], getpgids := [], home := none }

end Shell

/-! # The transpiler (`src/Compiler`) -/

namespace Compiler

/-- The characters of a `std::string`. -/
abbrev Str := List Char

/-- The strings that occur as `Token::type`. -/
inductive TokType where
  | PRINT | IF | THEN | ENDIF | LET | INPUT | WHILE | REPEAT | ENDWHILE | GOTO | LABEL
  | COMP | ASSIGN | NOT | PLUS | MINUS | TIMES | DIVIDE | SEMICOLON | LPAREN | RPAREN
  | STRING | INTEGER | IDENT | EOF
  deriving DecidableEq, Repr

/-- The structure `Token` of `token.h`. -/
structure Token where
  value : Str
  type : TokType
  line : Nat
  col : Nat
  deriving DecidableEq, Repr

/-! ## Lexer (`lexer.cpp`) -/

namespace Lexer

/-- The table `KEYWORDS`, applied to the lower-cased identifier. -/
def KEYWORDS (lower : Str) : Option TokType :=
  if lower = ['p', 'r', 'i', 'n', 't'] then some TokType.PRINT
  else if lower = ['i', 'f'] then some TokType.IF
  else if lower = ['t', 'h', 'e', 'n'] then some TokType.THEN
  else if lower = ['e', 'n', 'd', 'i', 'f'] then some TokType.ENDIF
  else if lower = ['l', 'e', 't'] then some TokType.LET
  else if lower = ['i', 'n', 'p', 'u', 't'] then some TokType.INPUT
  else if lower = ['w', 'h', 'i', 'l', 'e'] then some TokType.WHILE
  else if lower = ['r', 'e', 'p', 'e', 'a', 't'] then some TokType.REPEAT
  else if lower = ['e', 'n', 'd', 'w', 'h', 'i', 'l', 'e'] then some TokType.ENDWHILE
  else if lower = ['g', 'o', 't', 'o'] then some TokType.GOTO
  else if lower = ['l', 'a', 'b', 'e', 'l'] then some TokType.LABEL
  else none

/-- The table `TWO_CHAR`: `==`, `!=`, `<=`, `>=`. -/
def TWO_CHAR (a b : Char) : Option TokType :=
  if b = '=' ∧ (a = '=' ∨ a = '!' ∨ a = '<' ∨ a = '>') then some TokType.COMP else none

/-- The table `ONE_CHAR`. -/
def ONE_CHAR (c : Char) : Option TokType :=
  if c = '=' then some TokType.ASSIGN
  else if c = '<' then some TokType.COMP
  else if c = '>' then some TokType.COMP
  else if c = '!' then some TokType.NOT
  else if c = '+' then some TokType.PLUS
  else if c = '-' then some TokType.MINUS
  else if c = '*' then some TokType.TIMES
  else if c = '/' then some TokType.DIVIDE
  else if c = ';' then some TokType.SEMICOLON
  else if c = '(' then some TokType.LPAREN
  else if c = ')' then some TokType.RPAREN
  else none

/-- The C library `isdigit`. -/
def isdigit (c : Char) : Bool := decide ('0' ≤ c ∧ c ≤ '9')

/-- The C library `isalpha` in the "C" locale. -/
def isalpha (c : Char) : Bool := decide (('a' ≤ c ∧ c ≤ 'z') ∨ ('A' ≤ c ∧ c ≤ 'Z'))

/-- The C library `tolower` in the "C" locale. -/
def tolower (c : Char) : Char :=
  if 'A' ≤ c ∧ c ≤ 'Z' then Char.ofNat (c.toNat + 32) else c

/-- `Lexer::isIdentifierStart`. -/
def isIdentifierStart (c : Char) : Bool := isalpha c || c = '_'

/-- `Lexer::isIdentifier`. -/
def isIdentifier (c : Char) : Bool := isalpha c || isdigit c || c = '_'

/-- The lexer's position: the unread part `src[i ..]` of the source, `line` and `col`. -/
structure Pos where
  rest : Str
  line : Nat
  col : Nat
  deriving DecidableEq, Repr

/-- `Lexer::look`: the character at the position, NUL at the end. -/
def look (p : Pos) : Char := p.rest.headD (Char.ofNat 0)

/-- `Lexer::lookNext`. -/
def lookNext (p : Pos) : Char := p.rest.tail.headD (Char.ofNat 0)

/-- `Lexer::advance`: steps over the current character and updates `line`, `col`. -/
def advance (p : Pos) : Pos :=
  if look p = '\n' then ⟨p.rest.tail, p.line + 1, 1⟩ else ⟨p.rest.tail, p.line, p.col + 1⟩

/-- The loop of line 112, `while (!atEnd() && look() != '\n') advance();`. -/
def skipComment : Str → Nat → Nat → Pos
  | [], line, col => ⟨[], line, col⟩
  | c :: rest, line, col =>
    if c = '\n' then ⟨c :: rest, line, col⟩ else skipComment rest line (col + 1)

/-- The character that an escape sequence `\next` adds to the value (lines 129-144). -/
def escapeValue (next : Char) : Char :=
  if next = 'n' then '\n' else if next = 't' then '\t' else next

/-- The loop of lines 125-148 over the characters after the opening quote,
with the value read so far; at the closing quote it yields the value and the
position of that quote; `none` when the end of the source is reached first. -/
def scanString : Str → Nat → Nat → Str → Option (Str × Pos)
  | [], _, _, _ => none
  | [c], line, col, value => if c = '"' then some (value, ⟨[c], line, col⟩) else none
  | c :: next :: rest, line, col, value =>
    if c = '"' then some (value, ⟨c :: next :: rest, line, col⟩)
    else if c = '\\' then
      scanString rest (advance (advance ⟨c :: next :: rest, line, col⟩)).line
        (advance (advance ⟨c :: next :: rest, line, col⟩)).col (value ++ [escapeValue next])
    else
      scanString (next :: rest) (advance ⟨c :: next :: rest, line, col⟩).line
        (advance ⟨c :: next :: rest, line, col⟩).col (value ++ [c])

/-- The loops of lines 179 and 192: the longest run of characters that satisfy
`p`, and the position after it. -/
def scanWhile (p : Char → Bool) : Str → Nat → Nat → Str × Pos
  | [], line, col => ([], ⟨[], line, col⟩)
  | c :: rest, line, col =>
    if p c then ((scanWhile p rest line (col + 1)).1.cons c, (scanWhile p rest line (col + 1)).2)
    else ([], ⟨c :: rest, line, col⟩)

/-- The errors that `Lexer::tokenize` throws. -/
inductive LexError where
  | unterminatedString (line : Nat)
  | unknownCharacter (c : Char) (line : Nat)
  deriving DecidableEq, Repr

/-- How the model of `Lexer::tokenize` ends: with the token vector, with an
exception, or because the iteration bound of the model is used up. -/
inductive LexResult where
  | ok (tokens : List Token)
  | error (e : LexError)
  | fuel
  deriving DecidableEq, Repr

/-- The main loop of `Lexer::tokenize` (lines 100-215) with the tokens pushed
so far; every iteration consumes at least one character, `fuel` bounds the
number of iterations. After the loop the `EOF` token is pushed. -/
def tokenizeAux : Nat → Pos → List Token → LexResult
  | 0, _, _ => LexResult.fuel
  | fuel + 1, p, tokens =>
    match p.rest with
    | [] => LexResult.ok (tokens ++ [⟨[], TokType.EOF, p.line, p.col⟩])
    | c :: rest =>
      if Shell.isspace c then tokenizeAux fuel (advance p) tokens
      else if c = '#' then tokenizeAux fuel (skipComment p.rest p.line p.col) tokens
      else if c = '"' then
        match scanString rest (advance p).line (advance p).col [] with
        | none => LexResult.error (LexError.unterminatedString p.line)
        | some (value, q) =>
          tokenizeAux fuel (advance q) (tokens ++ [⟨value, TokType.STRING, p.line, p.col⟩])
      else
        match TWO_CHAR c (lookNext p) with
        | some ty =>
          tokenizeAux fuel (advance (advance p))
            (tokens ++ [⟨[c, lookNext p], ty, p.line, p.col⟩])
        | none =>
          match ONE_CHAR c with
          | some ty => tokenizeAux fuel (advance p) (tokens ++ [⟨[c], ty, p.line, p.col⟩])
          | none =>
            if isdigit c then
              tokenizeAux fuel (scanWhile isdigit p.rest p.line p.col).2
                (tokens ++ [⟨(scanWhile isdigit p.rest p.line p.col).1, TokType.INTEGER,
                  p.line, p.col⟩])
            else if isIdentifierStart c then
              let id := (scanWhile isIdentifier p.rest p.line p.col).1
              let lower := id.map tolower
              match KEYWORDS lower with
              | some ty =>
                tokenizeAux fuel (scanWhile isIdentifier p.rest p.line p.col).2
                  (tokens ++ [⟨lower, ty, p.line, p.col⟩])
              | none =>
                tokenizeAux fuel (scanWhile isIdentifier p.rest p.line p.col).2
                  (tokens ++ [⟨id, TokType.IDENT, p.line, p.col⟩])
            else LexResult.error (LexError.unknownCharacter c p.line)

/-- `Lexer::tokenize` on the source `src`, from line 1, column 1. -/
def tokenize (src : Str) : LexResult :=
  tokenizeAux (src.length + 1) ⟨src, 1, 1⟩ []

end Lexer

/-! ## Emitter (`emitter.cpp`) -/

/-- The state of an `Emitter`: the three text streams and the declared variables. -/
structure Emitter where
  headers : Str
  declarations : Str
  body : Str
  declaredVars : List Str
  deriving DecidableEq, Repr

namespace Emitter

/-- A freshly constructed `Emitter`. -/
def new : Emitter := ⟨[], [], [], []⟩

/-- `Emitter::addHeader`. -/
def addHeader (e : Emitter) (headerLine : Str) : Emitter :=
  { e with headers := e.headers ++ headerLine ++ ['\n'] }

/-- `Emitter::ensureVar`. -/
def ensureVar (e : Emitter) (variableName : Str) : Emitter :=
  if variableName ∈ e.declaredVars then e
  else
    { e with
      declarations := e.declarations ++ "int ".toList ++ variableName ++ " = 0;\n".toList
      declaredVars := variableName :: e.declaredVars }

/-- `Emitter::addLine`. -/
def addLine (e : Emitter) (codeLine : Str) : Emitter :=
  { e with body := e.body ++ codeLine ++ ['\n'] }

/-- `Emitter::getCode`. -/
def getCode (e : Emitter) : Str :=
  e.headers ++ "\nint main()\n\x7b\n".toList ++ e.declarations ++ e.body ++
    "    return 0;\n\x7d\n".toList

end Emitter

/-! ## Parser (`parser.cpp`) -/

namespace Parser

/-- The mutable part of a `Parser`: `currentIndex` and the emitter it writes to. -/
structure State where
  currentIndex : Nat
  emitter : Emitter
  deriving DecidableEq, Repr

/-- The state with one more line of code in the emitter. -/
def State.addLine (s : State) (codeLine : Str) : State :=
  { s with emitter := s.emitter.addLine codeLine }

/-- The state with the variable declared in the emitter. -/
def State.ensureVar (s : State) (name : Str) : State :=
  { s with emitter := s.emitter.ensureVar name }

/-- The messages passed to `Parser::error`. -/
inductive Message where
  | expected (context : String) (type got : TokType)
  | identifierAfterInput
  | identifierAfterLet
  | unclosedIf
  | unclosedWhile
  | labelName
  | labelNameAfterGoto
  | unexpectedToken (type : TokType)
  | expectedExpression
  deriving DecidableEq, Repr

/-- How a parser function ends: it returns a value in a new state, it throws
the parser error of `Parser::error` (with the line and column of the current
token), it indexes `tokens` outside the vector, or the recursion bound of the
model is used up. -/
inductive Result (α : Type) where
  | ok (a : α) (s : State)
  | error (line col : Nat) (m : Message)
  | outOfBounds
  | fuel
  deriving DecidableEq, Repr

/-- Sequencing: the second step runs when the first one returns. -/
def Result.bind {α β : Type} : Result α → (α → State → Result β) → Result β
  | Result.ok a s, f => f a s
  | Result.error l c m, _ => Result.error l c m
  | Result.outOfBounds, _ => Result.outOfBounds
  | Result.fuel, _ => Result.fuel

/-- `Parser::currentToken`: `tokens[currentIndex]`, `none` when the index is
outside the vector. -/
def currentToken (tokens : List Token) (s : State) : Option Token :=
  tokens[s.currentIndex]?

/-- `Parser::advance`: `if (currentIndex < tokens.size() - 1) currentIndex++`;
for an empty vector the unsigned `size() - 1` is the largest value. -/
def advance (tokens : List Token) (s : State) : State :=
  if tokens.length = 0 ∨ s.currentIndex < tokens.length - 1 then
    { s with currentIndex := s.currentIndex + 1 }
  else s

/-- `Parser::error`: throws, with the position of the current token. -/
def error {α : Type} (tokens : List Token) (s : State) (m : Message) : Result α :=
  match currentToken tokens s with
  | none => Result.outOfBounds
  | some t => Result.error t.line t.col m

/-- `Parser::expectType`. -/
def expectType (tokens : List Token) (type : TokType) (context : String) (s : State) :
    Result Unit :=
  match currentToken tokens s with
  | none => Result.outOfBounds
  | some t =>
    if t.type ≠ type then Result.error t.line t.col (Message.expected context type t.type)
    else Result.ok () (advance tokens s)

/-- The escaping loop of `Parser::statement` (lines 89-112) over the text of a
string token. -/
def escapeText : Str → Str
  | [] => []
  | c :: rest =>
    (if c = '%' then ['%', '%']
     else if c = '\\' then ['\\', '\\']
     else if c = '"' then ['\\', '"']
     else if c = '\n' then ['\\', 'n']
     else [c]) ++ escapeText rest

/-- The parser functions and their loops: `parseProgram` (its `while` loop),
`statement`, the loops over the statements of an `if` or `while` body up to
the closing keyword, `comparison`, `expression`, `term` with the loops over
their operators, `unary` and `primary`. -/
inductive Rule where
  | parseProgram
  | statement
  | block (closer : TokType)
  | comparison
  | comparisonLoop (left : Str)
  | expression
  | expressionLoop (left : Str)
  | term
  | termLoop (left : Str)
  | unary
  | primary
  deriving DecidableEq, Repr

/-- The text `"(" + left + " " + op + " " + right + ")"`. -/
def binary (left op right : Str) : Str :=
  ['('] ++ left ++ [' '] ++ op ++ [' '] ++ right ++ [')']

/-- `Parser::statement` at the current token `t`; `call` runs another parser
function. -/
def statementBody (tokens : List Token) (call : Rule → State → Result Str) (t : Token)
    (s : State) : Result Str :=
  if t.type = TokType.PRINT then
    match currentToken tokens (advance tokens s) with
    | none => Result.outOfBounds
    | some t1 =>
      if t1.type = TokType.STRING then
        (expectType tokens TokType.SEMICOLON "after print statement"
          ((advance tokens (advance tokens s)).addLine
            ("printf(\"%s\\n\", \"".toList ++ escapeText t1.value ++ "\");".toList))).bind
          (fun _ s1 => Result.ok [] s1)
      else
        (call Rule.comparison (advance tokens s)).bind (fun expr s1 =>
          (expectType tokens TokType.SEMICOLON "after print statement"
            (s1.addLine ("printf(\"%d\\n\", (".toList ++ expr ++ "));".toList))).bind
            (fun _ s2 => Result.ok [] s2))
  else if t.type = TokType.INPUT then
    match currentToken tokens (advance tokens s) with
    | none => Result.outOfBounds
    | some t1 =>
      if t1.type ≠ TokType.IDENT then Result.error t1.line t1.col Message.identifierAfterInput
      else
        (expectType tokens TokType.SEMICOLON "after input statement"
          ((advance tokens ((advance tokens s).ensureVar t1.value)).addLine
            ("\x7b if (scanf(\"%d\", &".toList ++ t1.value ++
              ") != 1) \x7b fprintf(stderr, \"Input error\\n\"); exit(1); \x7d \x7d".toList))).bind
          (fun _ s1 => Result.ok [] s1)
  else if t.type = TokType.LET then
    match currentToken tokens (advance tokens s) with
    | none => Result.outOfBounds
    | some t1 =>
      if t1.type ≠ TokType.IDENT then Result.error t1.line t1.col Message.identifierAfterLet
      else
        (expectType tokens TokType.ASSIGN "assignment"
          (advance tokens ((advance tokens s).ensureVar t1.value))).bind (fun _ s1 =>
          (call Rule.comparison s1).bind (fun expr s2 =>
            (expectType tokens TokType.SEMICOLON "after assignment"
              (s2.addLine (t1.value ++ " = (".toList ++ expr ++ ");".toList))).bind
              (fun _ s3 => Result.ok [] s3)))
  else if t.type = TokType.IF then
    (call Rule.comparison (advance tokens s)).bind (fun condition s1 =>
      (expectType tokens TokType.THEN "after if condition" s1).bind (fun _ s2 =>
        call (Rule.block TokType.ENDIF)
          (s2.addLine ("if (".toList ++ condition ++ ") \x7b".toList))))
  else if t.type = TokType.WHILE then
    (call Rule.comparison (advance tokens s)).bind (fun condition s1 =>
      (expectType tokens TokType.REPEAT "after while condition" s1).bind (fun _ s2 =>
        call (Rule.block TokType.ENDWHILE)
          (s2.addLine ("while (".toList ++ condition ++ ") \x7b".toList))))
  else if t.type = TokType.LABEL then
    match currentToken tokens (advance tokens s) with
    | none => Result.outOfBounds
    | some t1 =>
      if t1.type ≠ TokType.IDENT then Result.error t1.line t1.col Message.labelName
      else
        (expectType tokens TokType.SEMICOLON "after label"
          ((advance tokens (advance tokens s)).addLine (t1.value ++ ": ;".toList))).bind
          (fun _ s1 => Result.ok [] s1)
  else if t.type = TokType.GOTO then
    match currentToken tokens (advance tokens s) with
    | none => Result.outOfBounds
    | some t1 =>
      if t1.type ≠ TokType.IDENT then Result.error t1.line t1.col Message.labelNameAfterGoto
      else
        (expectType tokens TokType.SEMICOLON "after goto"
          ((advance tokens (advance tokens s)).addLine
            ("goto ".toList ++ t1.value ++ ";".toList))).bind
          (fun _ s1 => Result.ok [] s1)
  else Result.error t.line t.col (Message.unexpectedToken t.type)

/-- The loop over the statements of an `if` or `while` body (lines 176-186 and
198-208) at the current token `t`, with the closing keyword `closer`. -/
def blockBody (tokens : List Token) (call : Rule → State → Result Str) (closer : TokType)
    (t : Token) (s : State) : Result Str :=
  if t.type = closer then Result.ok [] ((advance tokens s).addLine ['\x7d'])
  else if t.type = TokType.EOF then
    Result.error t.line t.col
      (if closer = TokType.ENDIF then Message.unclosedIf else Message.unclosedWhile)
  else (call Rule.statement s).bind (fun _ s1 => call (Rule.block closer) s1)

/-- `Parser::unary` at the current token `t`. -/
def unaryBody (tokens : List Token) (call : Rule → State → Result Str) (t : Token)
    (s : State) : Result Str :=
  if t.type = TokType.PLUS then call Rule.unary (advance tokens s)
  else if t.type = TokType.MINUS then
    (call Rule.unary (advance tokens s)).bind
      (fun u s1 => Result.ok (['(', '-'] ++ u ++ [')']) s1)
  else if t.type = TokType.NOT then
    (call Rule.unary (advance tokens s)).bind
      (fun u s1 => Result.ok (['(', '!'] ++ u ++ [')']) s1)
  else call Rule.primary s

/-- `Parser::primary` at the current token `t`. -/
def primaryBody (tokens : List Token) (call : Rule → State → Result Str) (t : Token)
    (s : State) : Result Str :=
  if t.type = TokType.INTEGER then Result.ok t.value (advance tokens s)
  else if t.type = TokType.IDENT then
    Result.ok t.value (advance tokens (s.ensureVar t.value))
  else if t.type = TokType.LPAREN then
    (call Rule.comparison (advance tokens s)).bind (fun inside s1 =>
      (expectType tokens TokType.RPAREN "closing parenthesis" s1).bind
        (fun _ s2 => Result.ok (['('] ++ inside ++ [')']) s2))
  else Result.error t.line t.col Message.expectedExpression

/-- The body of the parser function or loop `rule` at the current token `t`. -/
def ruleBody (tokens : List Token) (call : Rule → State → Result Str) (rule : Rule)
    (t : Token) (s : State) : Result Str :=
  match rule with
  | Rule.parseProgram =>
    if t.type = TokType.EOF then Result.ok [] s
    else (call Rule.statement s).bind (fun _ s1 => call Rule.parseProgram s1)
  | Rule.statement => statementBody tokens call t s
  | Rule.block closer => blockBody tokens call closer t s
  | Rule.comparison =>
    (call Rule.expression s).bind (fun left s1 => call (Rule.comparisonLoop left) s1)
  | Rule.comparisonLoop left =>
    if t.type = TokType.COMP then
      (call Rule.expression (advance tokens s)).bind (fun right s1 =>
        call (Rule.comparisonLoop (binary left t.value right)) s1)
    else Result.ok left s
  | Rule.expression =>
    (call Rule.term s).bind (fun left s1 => call (Rule.expressionLoop left) s1)
  | Rule.expressionLoop left =>
    if t.type = TokType.PLUS ∨ t.type = TokType.MINUS then
      (call Rule.term (advance tokens s)).bind (fun right s1 =>
        call (Rule.expressionLoop
          (binary left (if t.type = TokType.PLUS then ['+'] else ['-']) right)) s1)
    else Result.ok left s
  | Rule.term =>
    (call Rule.unary s).bind (fun left s1 => call (Rule.termLoop left) s1)
  | Rule.termLoop left =>
    if t.type = TokType.TIMES ∨ t.type = TokType.DIVIDE then
      (call Rule.unary (advance tokens s)).bind (fun right s1 =>
        call (Rule.termLoop
          (binary left (if t.type = TokType.TIMES then ['*'] else ['/']) right)) s1)
    else Result.ok left s
  | Rule.unary => unaryBody tokens call t s
  | Rule.primary => primaryBody tokens call t s

/-- Runs the parser function or loop `rule` from the state `s`; `fuel` bounds
the depth of the calls. Every body starts with a test of the current token,
which is read here. -/
def run (tokens : List Token) : Nat → Rule → State → Result Str
  | 0, _, _ => Result.fuel
  | fuel + 1, rule, s =>
    match currentToken tokens s with
    | none => Result.outOfBounds
    | some t => ruleBody tokens (run tokens fuel) rule t s

/-- `Parser::statement`. -/
def statement (tokens : List Token) (fuel : Nat) (s : State) : Result Str :=
  run tokens fuel Rule.statement s

/-- `Parser::comparison`. -/
def comparison (tokens : List Token) (fuel : Nat) (s : State) : Result Str :=
  run tokens fuel Rule.comparison s

/-- The state of a parser constructed on an emitter to which `parseProgram`
has added its two headers. -/
def initState : State :=
  ⟨0, (Emitter.new.addHeader "#include <stdio.h>".toList).addHeader
    "#include <stdlib.h>".toList⟩

/-- `Parser::parseProgram` on a fresh emitter. Six levels of calls per token
are enough for every token vector. -/
def parseProgram (tokens : List Token) : Result Str :=
  run tokens (6 * tokens.length + 2) Rule.parseProgram initState

end Parser

/-! ## What the parser needs of the token vector, and what it guarantees -/

/-- The vector ends with a token of type `EOF` and holds no other `EOF` token. -/
def EndsWithEOF (tokens : List Token) : Prop :=
  ∃ body eof, tokens = body ++ [eof] ∧ eof.type = TokType.EOF ∧
    ∀ t ∈ body, t.type ≠ TokType.EOF

namespace Parser

/-- The call ended by a return or by a parser error; on return the index is
at least `lo` and within the vector of `n` tokens. -/
def Terminated {α : Type} (n lo : Nat) : Result α → Prop
  | Result.ok _ s => lo ≤ s.currentIndex ∧ s.currentIndex < n
  | Result.error _ _ _ => True
  | Result.outOfBounds => False
  | Result.fuel => False

/-- The number of calls that `rule` can make without consuming a token. -/
def rank : Rule → Nat
  | Rule.parseProgram => 1
  | Rule.statement => 0
  | Rule.block _ => 1
  | Rule.comparison => 4
  | Rule.comparisonLoop _ => 0
  | Rule.expression => 3
  | Rule.expressionLoop _ => 0
  | Rule.term => 2
  | Rule.termLoop _ => 0
  | Rule.unary => 1
  | Rule.primary => 0

/-- The number of tokens that `rule` consumes at least when it returns. -/
def consumes : Rule → Nat
  | Rule.parseProgram => 0
  | Rule.comparisonLoop _ => 0
  | Rule.expressionLoop _ => 0
  | Rule.termLoop _ => 0
  | Rule.block closer => if closer = TokType.EOF then 0 else 1
  | _ => 1

/-- The calls made through `call` terminate when the depth `fuel` covers the
tokens that remain. -/
def CallsTerminate (tokens : List Token) (fuel : Nat) (call : Rule → State → Result Str) :
    Prop :=
  ∀ rule s, s.currentIndex < tokens.length →
    6 * (tokens.length - 1 - s.currentIndex) + rank rule + 1 ≤ fuel →
    Terminated tokens.length (s.currentIndex + consumes rule) (call rule s)

end Parser

/-! ## The value of a C string literal -/

/-- The character denoted by the simple escape sequence `\c` of C. -/
def cEscape (c : Char) : Option Char :=
  if c = 'n' then some '\n'
  else if c = 't' then some '\t'
  else if c = '\\' then some '\\'
  else if c = '"' then some '"'
  else if c = '\'' then some '\''
  else if c = '?' then some '?'
  else if c = 'r' then some '\r'
  else if c = '0' then some (Char.ofNat 0)
  else none

/-- The string that the characters between the quotes of a C string literal
denote: a simple escape sequence denotes its character, every other character
denotes itself; `none` when the text is not the inside of a literal (a bare
quote, newline or backslash, or an escape that is not a simple one). Trigraphs
and numeric escapes are not modelled. -/
def cLiteralValue : Str → Option Str
  | [] => some []
  | [c] => if c = '\\' ∨ c = '"' ∨ c = '\n' then none else some [c]
  | c :: d :: rest =>
    if c = '\\' then
      match cEscape d with
      | some x => (cLiteralValue rest).map (fun v => x :: v)
      | none => none
    else if c = '"' ∨ c = '\n' then none
    else (cLiteralValue (d :: rest)).map (fun v => c :: v)

/-- The source text `print "100%";`. -/
def percentSource : Str := "print \"100%\";".toList

end Compiler

namespace Shell

/-! ## Tokenizer: lemmas -/

theorem wordBreak_cons (c : Char) (rest : CStr) : wordBreak (c :: rest) = isOpChar c := by
  simp only [wordBreak, isOpChar]
  by_cases h1 : c = '&' <;> by_cases h2 : c = '|' <;> simp [h1, h2]

theorem scanWord_append (p : CStr) : (scanWord p).1 ++ (scanWord p).2 = p := by
  induction p with
  | nil => simp [scanWord]
  | cons c rest ih =>
    unfold scanWord
    split
    · simp
    · split
      · simp
      · simpa using ih

theorem scanWord_fst_ok (p : CStr) :
    ∀ c ∈ (scanWord p).1, isspace c = false ∧ isOpChar c = false := by
  induction p with
  | nil => simp [scanWord]
  | cons c rest ih =>
    unfold scanWord
    split
    · simp
    · split
      · simp
      · rename_i h1 h2
        rw [wordBreak_cons] at h2
        intro d hd
        simp only [List.mem_cons] at hd
        rcases hd with rfl | hd
        · exact ⟨by simpa using h1, by simpa using h2⟩
        · exact ih d hd

theorem scanWord_snd_head (p : CStr) :
    ∀ c ∈ (scanWord p).2.head?, isspace c = true ∨ isOpChar c = true := by
  induction p with
  | nil => simp [scanWord]
  | cons c rest ih =>
    unfold scanWord
    split
    · rename_i h1
      intro d hd
      simp only [List.head?_cons, Option.mem_def, Option.some.injEq] at hd
      subst hd; exact Or.inl h1
    · split
      · rename_i h1 h2
        rw [wordBreak_cons] at h2
        intro d hd
        simp only [List.head?_cons, Option.mem_def, Option.some.injEq] at hd
        subst hd; exact Or.inr h2
      · exact ih

theorem scanWord_fst_ne_nil (c : Char) (rest : CStr)
    (h1 : isspace c = false) (h2 : isOpChar c = false) : (scanWord (c :: rest)).1 ≠ [] := by
  unfold scanWord
  simp [h1, wordBreak_cons, h2]

theorem scanWord_snd_length (c : Char) (rest : CStr)
    (h1 : isspace c = false) (h2 : isOpChar c = false) :
    (scanWord (c :: rest)).2.length < (c :: rest).length := by
  have h := congrArg List.length (scanWord_append (c :: rest))
  have h3 := scanWord_fst_ne_nil c rest h1 h2
  have h4 : 0 < (scanWord (c :: rest)).1.length := List.length_pos.mpr h3
  rw [List.length_append] at h
  omega

theorem scanWord_word (w rest : CStr)
    (hw : ∀ c ∈ w, isspace c = false ∧ isOpChar c = false)
    (hr : ∀ c ∈ rest.head?, isspace c = true ∨ isOpChar c = true) :
    scanWord (w ++ rest) = (w, rest) := by
  induction w with
  | nil =>
    cases rest with
    | nil => simp [scanWord]
    | cons d r =>
      have h := hr d (by simp)
      simp only [List.nil_append]
      unfold scanWord
      rw [wordBreak_cons]
      rcases h with h | h
      · simp [h]
      · simp [h]
  | cons c w ih =>
    have hc := hw c (by simp)
    have ih2 := ih (fun d hd => hw d (List.mem_cons_of_mem _ hd))
    simp only [List.cons_append]
    unfold scanWord
    rw [wordBreak_cons]
    simp [hc.1, hc.2, ih2]

theorem tokenizeAux_length_le (fuel : Nat) : ∀ (p : CStr) (n max_tokens : Nat),
    n ≤ max_tokens → n + (tokenizeAux fuel p n max_tokens).length ≤ max_tokens := by
  induction fuel with
  | zero => intro p n m h; simpa [tokenizeAux] using h
  | succ fuel ih =>
    intro p n m h
    cases p with
    | nil => simpa [tokenizeAux] using h
    | cons c rest =>
      unfold tokenizeAux
      split
      · rename_i hn
        split
        · exact ih _ _ _ h
        · split
          · have := ih (rest.drop 1) (n + 1) m (by omega)
            simp only [List.length_cons]; omega
          · split
            · have := ih (rest.drop 1) (n + 1) m (by omega)
              simp only [List.length_cons]; omega
            · split
              · have := ih rest (n + 1) m (by omega)
                simp only [List.length_cons]; omega
              · have := ih (scanWord (c :: rest)).2 (n + 1) m (by omega)
                simp only [List.length_cons]; omega
      · simpa using h

theorem isOpChar_iff (c : Char) :
    (c = '&' || c = '|' || c = ';' || c = '<' || c = '>') = isOpChar c := rfl

theorem tokenizeAux_sound (fuel : Nat) : ∀ (p : CStr) (n max_tokens : Nat),
    p.length < fuel → n + (tokenizeAux fuel p n max_tokens).length < max_tokens →
    MaxMunch p (tokenizeAux fuel p n max_tokens) := by
  induction fuel with
  | zero => intro p n m h; omega
  | succ fuel ih =>
    intro p n m hf hlen
    cases p with
    | nil => simpa [tokenizeAux] using MaxMunch.done
    | cons c rest =>
      simp only [List.length_cons] at hf
      unfold tokenizeAux at hlen ⊢
      have hn : n < m := by omega
      simp only [hn, if_true] at hlen ⊢
      by_cases h1 : isspace c = true
      · simp only [h1, if_true] at hlen ⊢
        exact MaxMunch.space c rest _ h1 (ih _ _ _ (by omega) hlen)
      · simp only [h1, Bool.false_eq_true, if_false] at hlen ⊢
        by_cases h2 : (c = '&' && rest.head? = some '&') = true
        · simp only [h2, if_true] at hlen ⊢
          simp only [Bool.and_eq_true, decide_eq_true_eq] at h2
          obtain ⟨rfl, h2⟩ := h2
          cases rest with
          | nil => simp at h2
          | cons d r =>
            simp only [List.head?_cons, Option.some.injEq] at h2
            subst h2
            simp only [List.drop_succ_cons, List.drop_zero, List.length_cons] at hlen hf ⊢
            exact MaxMunch.andand r _ (ih _ _ _ (by omega) (by omega))
        · simp only [h2, Bool.false_eq_true, if_false] at hlen ⊢
          by_cases h3 : (c = '|' && rest.head? = some '|') = true
          · simp only [h3, if_true] at hlen ⊢
            simp only [Bool.and_eq_true, decide_eq_true_eq] at h3
            obtain ⟨rfl, h3⟩ := h3
            cases rest with
            | nil => simp at h3
            | cons d r =>
              simp only [List.head?_cons, Option.some.injEq] at h3
              subst h3
              simp only [List.drop_succ_cons, List.drop_zero, List.length_cons] at hlen hf ⊢
              exact MaxMunch.oror r _ (ih _ _ _ (by omega) (by omega))
          · simp only [h3, Bool.false_eq_true, if_false] at hlen ⊢
            rw [isOpChar_iff] at hlen ⊢
            by_cases h4 : isOpChar c = true
            · simp only [h4, if_true, List.length_cons] at hlen ⊢
              refine MaxMunch.single c rest _ h4 ?_ ?_ (ih _ _ _ (by omega) (by omega))
              · simpa using h2
              · simpa using h3
            · simp only [h4, Bool.false_eq_true, if_false, List.length_cons] at hlen ⊢
              have h1f : isspace c = false := by simpa using h1
              have h4f : isOpChar c = false := by simpa using h4
              have hl := scanWord_snd_length c rest h1f h4f
              simp only [List.length_cons] at hl
              have hw := MaxMunch.word (scanWord (c :: rest)).1 (scanWord (c :: rest)).2 _
                (scanWord_fst_ne_nil c rest h1f h4f) (scanWord_fst_ok _) (scanWord_snd_head _)
                (ih (scanWord (c :: rest)).2 (n + 1) m (by omega) (by omega))
              rw [scanWord_append] at hw
              exact hw

theorem tokenizeAux_complete (p : CStr) (toks : List CStr) (h : MaxMunch p toks) :
    ∀ (fuel n max_tokens : Nat), p.length < fuel → n + toks.length < max_tokens →
    tokenizeAux fuel p n max_tokens = toks := by
  induction h with
  | done =>
    intro fuel n m hf _
    cases fuel with
    | zero => omega
    | succ fuel => simp [tokenizeAux]
  | space c rest toks hc _ ih =>
    intro fuel n m hf hlen
    cases fuel with
    | zero => omega
    | succ fuel =>
      simp only [List.length_cons] at hf
      have hn : n < m := by omega
      unfold tokenizeAux
      simp only [hn, if_true, hc]
      exact ih fuel n m (by omega) hlen
  | andand rest toks _ ih =>
    intro fuel n m hf hlen
    cases fuel with
    | zero => omega
    | succ fuel =>
      simp only [List.length_cons] at hf hlen
      have hn : n < m := by omega
      have hsp : isspace '&' = false := by decide
      unfold tokenizeAux
      simp only [hn, if_true, hsp, List.head?_cons, decide_True, Bool.and_self,
        List.drop_succ_cons, List.drop_zero]
      rw [ih fuel (n + 1) m (by omega) (by omega)]
      simp
  | oror rest toks _ ih =>
    intro fuel n m hf hlen
    cases fuel with
    | zero => omega
    | succ fuel =>
      simp only [List.length_cons] at hf hlen
      have hn : n < m := by omega
      have hsp : isspace '|' = false := by decide
      unfold tokenizeAux
      simp only [hn, if_true, hsp, List.head?_cons, decide_True, Bool.and_self,
        List.drop_succ_cons, List.drop_zero]
      rw [ih fuel (n + 1) m (by omega) (by omega)]
      simp
  | single c rest toks hop h1 h2 _ ih =>
    intro fuel n m hf hlen
    cases fuel with
    | zero => omega
    | succ fuel =>
      simp only [List.length_cons] at hf hlen
      have hn : n < m := by omega
      have hsp : isspace c = false := by
        simp only [isOpChar, Bool.or_eq_true, decide_eq_true_eq] at hop
        rcases hop with (((rfl | rfl) | rfl) | rfl) | rfl <;> decide
      have e1 : (c = '&' && rest.head? = some '&') = false := by simpa using h1
      have e2 : (c = '|' && rest.head? = some '|') = false := by simpa using h2
      unfold tokenizeAux
      rw [isOpChar_iff]
      simp only [hn, if_true, hsp, e1, e2, hop]
      rw [ih fuel (n + 1) m (by omega) (by omega)]
      simp
  | word w rest toks hne hw hr _ ih =>
    intro fuel n m hf hlen
    cases fuel with
    | zero => omega
    | succ fuel =>
      cases w with
      | nil => exact absurd rfl hne
      | cons c w =>
        have hc := hw c (by simp)
        simp only [List.length_cons, List.cons_append, List.length_append] at hf hlen
        have hn : n < m := by omega
        have e1 : (c = '&' && (w ++ rest).head? = some '&') = false := by
          have : c ≠ '&' := by rintro rfl; exact absurd hc.2 (by decide)
          simp [this]
        have e2 : (c = '|' && (w ++ rest).head? = some '|') = false := by
          have : c ≠ '|' := by rintro rfl; exact absurd hc.2 (by decide)
          simp [this]
        have hs := scanWord_word (c :: w) rest hw hr
        simp only [List.cons_append] at hs ⊢
        unfold tokenizeAux
        rw [isOpChar_iff]
        simp only [hn, if_true, hc.1, hc.2, e1, e2, hs]
        rw [ih fuel (n + 1) m (by omega) (by omega)]
        simp

theorem MaxMunch_unique (p : CStr) (t1 t2 : List CStr)
    (h1 : MaxMunch p t1) (h2 : MaxMunch p t2) : t1 = t2 := by
  have e1 := tokenizeAux_complete p t1 h1 (p.length + 1) 0 (t1.length + t2.length + 1)
    (by omega) (by omega)
  have e2 := tokenizeAux_complete p t2 h2 (p.length + 1) 0 (t1.length + t2.length + 1)
    (by omega) (by omega)
  exact e1.symm.trans e2

/-! ## Segment loop: lemmas -/

theorem takeWhile_length_stop {α : Type} (p : α → Bool) (l : List α) :
    (l.takeWhile p).length ≤ l.length ∧
    ((l.takeWhile p).length < l.length →
      ∃ t, l[(l.takeWhile p).length]? = some t ∧ p t = false) := by
  induction l with
  | nil => simp
  | cons a l ih =>
    by_cases h : p a = true
    · simp only [List.takeWhile_cons, h, if_true, List.length_cons]
      refine ⟨by omega, fun hlt => ?_⟩
      obtain ⟨t, ht, hp⟩ := ih.2 (by omega)
      exact ⟨t, by simpa using ht, hp⟩
    · simp only [List.takeWhile_cons, h, Bool.false_eq_true, if_false, List.length_nil,
        List.length_cons]
      refine ⟨by omega, fun _ => ⟨a, by simp, by simpa using h⟩⟩

theorem scanBoundary_map (l : List CStr) : ∀ j : Nat,
    scanBoundary (l.map some) j = some (j + (l.takeWhile (fun t => !isBoundary t)).length) := by
  induction l with
  | nil => intro j; simp [scanBoundary]
  | cons t l ih =>
    intro j
    by_cases h : isBoundary t = true
    · simp [scanBoundary, h]
    · simp only [List.map_cons, scanBoundary, h, Bool.false_eq_true, if_false, ih,
        List.takeWhile_cons]
      simp only [Bool.not_eq_true] at h
      simp [h]; omega

theorem scanBoundary_drop (toks : List CStr) (i : Nat) :
    scanBoundary ((toks.map some).drop i) i = some (closingBoundary toks i) := by
  rw [← List.map_drop, scanBoundary_map]
  rfl

theorem tokAt_map (toks : List CStr) (j : Nat) : tokAt (toks.map some) j = toks[j]? := by
  simp only [tokAt, List.getElem?_map]
  cases toks[j]? <;> rfl

theorem closingBoundary_ge (toks : List CStr) (i : Nat) : i ≤ closingBoundary toks i := by
  unfold closingBoundary; omega

theorem closingBoundary_le (toks : List CStr) (i : Nat) (h : i ≤ toks.length) :
    closingBoundary toks i ≤ toks.length := by
  unfold closingBoundary
  have := (takeWhile_length_stop (fun t => !isBoundary t) (toks.drop i)).1
  simp only [List.length_drop] at this
  omega

theorem closingBoundary_stop (toks : List CStr) (i : Nat)
    (h : closingBoundary toks i < toks.length) :
    ∃ t, toks[closingBoundary toks i]? = some t ∧ isBoundary t = true := by
  unfold closingBoundary at h ⊢
  have h2 := (takeWhile_length_stop (fun t => !isBoundary t) (toks.drop i)).2
    (by simp only [List.length_drop]; omega)
  obtain ⟨t, ht, hp⟩ := h2
  refine ⟨t, ?_, by simpa using hp⟩
  rw [List.getElem?_drop] at ht
  exact ht

theorem closingBoundary_of_boundary (toks : List CStr) (i : Nat) (t : CStr)
    (h : toks[i]? = some t) (hb : isBoundary t = true) : closingBoundary toks i = i := by
  unfold closingBoundary
  have hi : i < toks.length := by
    rcases Nat.lt_or_ge i toks.length with h1 | h1
    · exact h1
    · rw [List.getElem?_eq_none h1] at h; cases h
  have hd : toks.drop i = t :: toks.drop (i + 1) := by
    rw [List.getElem?_eq_getElem hi] at h
    injection h with h
    rw [← h]
    exact List.drop_eq_getElem_cons hi
  rw [hd]
  simp [hb]

theorem closingBoundary_of_ge (toks : List CStr) (i : Nat) (h : toks.length ≤ i) :
    closingBoundary toks i = i := by
  unfold closingBoundary
  rw [List.drop_eq_nil_of_le h]
  simp

theorem closingBoundary_idem (toks : List CStr) (i : Nat) :
    closingBoundary toks (closingBoundary toks i) = closingBoundary toks i := by
  rcases Nat.lt_or_ge (closingBoundary toks i) toks.length with h | h
  · obtain ⟨t, ht, hb⟩ := closingBoundary_stop toks i h
    exact closingBoundary_of_boundary toks _ t ht hb
  · exact closingBoundary_of_ge toks _ h

theorem nextStart_null (tokens : List (Option CStr)) (j : Nat) (last : Int)
    (hj : j < tokens.length) : nextStart (tokens.set j none) j last = none := by
  unfold nextStart
  simp [tokAt, hj]

theorem nextStart_map (toks : List CStr) (b : Nat) (last : Int)
    (hb : closingBoundary toks b = b) :
    ∃ i1, nextStart (toks.map some) b last = some i1 ∧
      (segmentStart toks i1 ∨ closingBoundary toks i1 = i1) ∧ b < i1 := by
  unfold nextStart
  by_cases hlt : b < toks.length
  · obtain ⟨t, ht, htb⟩ := closingBoundary_stop toks b (by rw [hb]; exact hlt)
    rw [hb] at ht
    have hseg : segmentStart toks (b + 1) := Or.inr ⟨t, by simpa using ht, htb⟩
    have hskip : ∃ i1, scanBoundary ((toks.map some).drop (b + 1)) (b + 1) = some i1 ∧
        (segmentStart toks i1 ∨ closingBoundary toks i1 = i1) ∧ b < i1 :=
      ⟨_, scanBoundary_drop toks (b + 1), Or.inr (closingBoundary_idem toks (b + 1)),
        Nat.lt_of_lt_of_le (Nat.lt_succ_self b) (closingBoundary_ge toks (b + 1))⟩
    simp only [List.length_map, hlt, if_true, tokAt_map, ht]
    by_cases h1 : t = [';']
    · simp only [h1, if_true]
      exact ⟨_, rfl, Or.inl hseg, Nat.lt_succ_self b⟩
    · simp only [h1, if_false]
      by_cases h2 : t = ['&', '&']
      · simp only [h2, if_true]
        by_cases h3 : last = 0
        · simp only [h3, if_true]
          exact ⟨_, rfl, Or.inl hseg, Nat.lt_succ_self b⟩
        · rw [if_neg h3]
          exact hskip
      · simp only [h2, if_false]
        by_cases h4 : t = ['|', '|']
        · simp only [h4, if_true]
          by_cases h3 : last ≠ 0
          · rw [if_pos h3]
            exact ⟨_, rfl, Or.inl hseg, Nat.lt_succ_self b⟩
          · rw [if_neg h3]
            exact hskip
        · simp only [h4, if_false]
          exact ⟨_, rfl, Or.inl hseg, Nat.lt_succ_self b⟩
  · simp only [List.length_map, hlt, if_false]
    exact ⟨_, rfl, Or.inr (closingBoundary_of_ge toks _ (by omega)), Nat.lt_succ_self b⟩

theorem segmentLoop_calls {σ : Type} (exec : σ → List (Option CStr) → ExecCall → σ × Outcome)
    (toks : List CStr) : ∀ (fuel i : Nat) (last : Int) (st : σ),
    (segmentStart toks i ∨ closingBoundary toks i = i) →
    ∀ c ∈ (segmentLoop exec fuel (toks.map some) i last st).calls, GoodCall toks c := by
  intro fuel
  induction fuel with
  | zero => intro i last st _ c hc; simp [segmentLoop] at hc
  | succ fuel ih =>
    intro i last st hi c hc
    rw [segmentLoop] at hc
    simp only [List.length_map] at hc
    by_cases hin : i < toks.length
    · simp only [hin, if_true, scanBoundary_drop] at hc
      have hle := closingBoundary_le toks i (by omega)
      have hge := closingBoundary_ge toks i
      by_cases hbg : closingBoundary toks i > i ∧ toks[closingBoundary toks i - 1]? = some ['&']
      · have e : (if closingBoundary toks i > i then
            (tokAt (toks.map some) (closingBoundary toks i - 1)).map
              (fun t => decide (t = ['&'])) else some false) = some true := by
          simp [hbg.1, tokAt_map, hbg.2]
        simp only [e, if_true] at hc
        have hgood : ∀ c ∈ (if closingBoundary toks i - 1 > i then
            [ExecCall.mk i (closingBoundary toks i - 1) 1] else []), GoodCall toks c := by
          intro c hc
          by_cases hgt : closingBoundary toks i - 1 > i
          · simp only [hgt, if_true, List.mem_singleton] at hc
            subst hc
            have hs : segmentStart toks i := by
              rcases hi with h | h
              · exact h
              · omega
            exact ⟨hs, hgt, ⟨fun _ => hbg.2, fun _ => rfl⟩, fun _ => rfl, fun h => absurd rfl h⟩
          · simp [hgt] at hc
        have hnull : ∀ l, nextStart ((toks.map some).set (closingBoundary toks i - 1) none)
            (closingBoundary toks i - 1) l = none :=
          fun l => nextStart_null _ _ _ (by simp; omega)
        split at hc
        · exact hgood c hc
        · exact hgood c hc
        · simp only [hnull] at hc
          exact hgood c hc
      · have e : (if closingBoundary toks i > i then
            (tokAt (toks.map some) (closingBoundary toks i - 1)).map
              (fun t => decide (t = ['&'])) else some false) = some false := by
          by_cases hgt : closingBoundary toks i > i
          · have hne : toks[closingBoundary toks i - 1]? ≠ some ['&'] := fun h => hbg ⟨hgt, h⟩
            simp only [hgt, if_true, tokAt_map]
            have hlt : closingBoundary toks i - 1 < toks.length := by omega
            rw [List.getElem?_eq_getElem hlt] at hne ⊢
            simp only [Option.map_some', Option.some.injEq, decide_eq_false_iff_not]
            exact fun h => hne (by rw [h])
          · simp [hgt]
        simp only [e, Bool.false_eq_true, if_false] at hc
        have hgood : ∀ c ∈ (if closingBoundary toks i > i then
            [ExecCall.mk i (closingBoundary toks i) 0] else []), GoodCall toks c := by
          intro c hc
          by_cases hgt : closingBoundary toks i > i
          · simp only [hgt, if_true, List.mem_singleton] at hc
            subst hc
            have hs : segmentStart toks i := by
              rcases hi with h | h
              · exact h
              · omega
            refine ⟨hs, hgt, ⟨fun h => by simp at h, fun h => absurd ⟨hgt, h⟩ hbg⟩,
              fun h => by simp at h, fun _ => ⟨rfl, rfl⟩⟩
          · simp [hgt] at hc
        split at hc
        · exact hgood c hc
        · exact hgood c hc
        · rename_i st1 last1 hex
          obtain ⟨i1, hn, hi1, _⟩ := nextStart_map toks (closingBoundary toks i) last1
            (closingBoundary_idem toks i)
          simp only [hn, LoopResult.addCalls, List.mem_append] at hc
          rcases hc with hc | hc
          · exact hgood c hc
          · exact ih i1 last1 st1 hi1 c hc
    · simp [hin] at hc

/-! ## C3: the tokenizer computes the maximal-munch tokenization -/

/-- C3: for every line that yields fewer than `max_tokens` tokens, the result
of `tokenize` is a maximal-munch tokenization of the line in the sense of
`MaxMunch` (whitespace skipped, `&&` and `||` before the one-character
operators, words maximal and non-empty), and it is the only one; `a&&b|c`
gives `[a, &&, b, |, c]` and `&&&` gives `[&&, &]`. -/
theorem C3_tokenize_maximal_munch (line : CStr) (max_tokens : Nat)
    (h : (tokenize line max_tokens).length < max_tokens) :
    MaxMunch line (tokenize line max_tokens) ∧
    (∀ toks, MaxMunch line toks → toks = tokenize line max_tokens) ∧
    tokenize ['a', '&', '&', 'b', '|', 'c'] (MAX_TOKENS - 1) =
      [['a'], ['&', '&'], ['b'], ['|'], ['c']] ∧
    tokenize ['&', '&', '&'] (MAX_TOKENS - 1) = [['&', '&'], ['&']] := by
  have hs : MaxMunch line (tokenize line max_tokens) :=
    tokenizeAux_sound _ line 0 max_tokens (by omega) (by simpa [tokenize] using h)
  refine ⟨hs, ?_, by decide, by decide⟩
  intro toks ht
  exact MaxMunch_unique line _ _ ht hs

/-- C3, at the line `ls -l>out`: three words and one operator, below the limit 127. -/
theorem C3_tokenize_maximal_munch_witness :
    (tokenize ['l', 's', ' ', '-', 'l', '>', 'o', 'u', 't'] 127).length < 127 ∧
    MaxMunch ['l', 's', ' ', '-', 'l', '>', 'o', 'u', 't']
      [['l', 's'], ['-', 'l'], ['>'], ['o', 'u', 't']] :=
  ⟨by decide, (C3_tokenize_maximal_munch ['l', 's', ' ', '-', 'l', '>', 'o', 'u', 't'] 127
    (by decide)).1⟩

/-! ## C1: short-circuit sequencing in the segment loop -/

/-- C1 (the code at the line `a & ; b`): the tokens are `a`, `&`, `;`, `b`,
and whatever statuses `execute` returns, the loop calls `execute` once, for
`a` with the background flag, then passes the NULL slot left by the dropped
`&` to `strcmp`; the segment `b` that follows `;` is never executed. -/
theorem C1_segment_after_semicolon_not_reached (f : Nat → Int) :
    tokenize ['a', ' ', '&', ' ', ';', ' ', 'b'] (MAX_TOKENS - 1) =
      [['a'], ['&'], [';'], ['b']] ∧
    (mainSegments (statusExec f)
      (tokenize ['a', ' ', '&', ' ', ';', ' ', 'b'] (MAX_TOKENS - 1)) 0).calls = [⟨0, 1, 1⟩] ∧
    (mainSegments (statusExec f)
      (tokenize ['a', ' ', '&', ' ', ';', ' ', 'b'] (MAX_TOKENS - 1)) 0).finish =
        LoopEnd.fault :=
  ⟨rfl, rfl, rfl⟩

/-! ## C4: the background flag of a segment -/

/-- C4: every call `execute(tokens, start, stop, flag, ..)` made by the segment
loop starts at a segment start and covers at least one token; its flag is 1
if and only if the token immediately before the closing boundary of that
segment (`;`, `&&`, `||` or end of line) is `&`; in that case the range ends
at the index of that `&`, which is thus excluded, and otherwise the flag is 0
and the range ends at the boundary; no call is made for a segment that
consists of the single token `&`. -/
theorem C4_background_flag {σ : Type}
    (exec : σ → List (Option CStr) → ExecCall → σ × Outcome) (toks : List CStr) (st : σ)
    (c : ExecCall) (hc : c ∈ (mainSegments exec toks st).calls) :
    segmentStart toks c.start ∧ c.start < c.stop ∧
    (c.flag = 1 ↔ toks[closingBoundary toks c.start - 1]? = some ['&']) ∧
    (c.flag = 1 → c.stop = closingBoundary toks c.start - 1) ∧
    (c.flag ≠ 1 → c.flag = 0 ∧ c.stop = closingBoundary toks c.start) ∧
    ¬ (toks[c.start]? = some ['&'] ∧ closingBoundary toks c.start = c.start + 1) := by
  have h := segmentLoop_calls exec toks (toks.length + 1) 0 0 st (Or.inl (Or.inl rfl)) c hc
  obtain ⟨h1, h2, h3, h4, h5⟩ := h
  refine ⟨h1, h2, h3, h4, h5, ?_⟩
  rintro ⟨ha, hb⟩
  have hf : c.flag = 1 := h3.mpr (by rw [hb]; simpa using ha)
  have := h4 hf
  omega

/-- C4, at the token list `a & ; b | c` with every status 0: the first call
is `execute(tokens, 0, 1, 1, ..)`. -/
theorem C4_background_flag_witness :
    (⟨0, 1, 1⟩ : ExecCall) ∈ (mainSegments (statusExec (fun _ => 0))
      [['a'], ['&'], [';'], ['b'], ['|'], ['c']] 0).calls ∧
    closingBoundary [['a'], ['&'], [';'], ['b'], ['|'], ['c']] 0 = 2 ∧
    ((⟨0, 1, 1⟩ : ExecCall).flag = 1 ↔
      ([['a'], ['&'], [';'], ['b'], ['|'], ['c']] : List CStr)[closingBoundary
        [['a'], ['&'], [';'], ['b'], ['|'], ['c']] 0 - 1]? = some ['&']) :=
  ⟨by decide, by decide,
    (C4_background_flag (statusExec (fun _ => 0)) [['a'], ['&'], [';'], ['b'], ['|'], ['c']] 0
      ⟨0, 1, 1⟩ (by decide)).2.2.1⟩

/-! ## C2: the status `execute` returns on the foreground path -/

/-- C2 (the code at the line `false && echo X`): when the first child exits
with any code `c`, also `c = 1`, or is killed by any signal `n`, `execute`
returns 0, and the segment loop launches the second segment: it calls
`execute` on `echo X` and forks the second child. -/
theorem C2_execute_returns_zero_for_failed_child (c n : Nat) :
    (execute (initWorld (osExitCode c)) [some ['f', 'a', 'l', 's', 'e']] 0 1 0
      ['f', 'a', 'l', 's', 'e']).2 = Outcome.ret 0 ∧
    (execute (initWorld (osSignal n)) [some ['f', 'a', 'l', 's', 'e']] 0 1 0
      ['f', 'a', 'l', 's', 'e']).2 = Outcome.ret 0 ∧
    (handleLine (initWorld (osExitCode c))
      ['f', 'a', 'l', 's', 'e', ' ', '&', '&', ' ', 'e', 'c', 'h', 'o', ' ', 'X']).calls =
        [⟨0, 1, 0⟩, ⟨2, 4, 0⟩] ∧
    Event.fork 101 ∈ (handleLine (initWorld (osExitCode c))
      ['f', 'a', 'l', 's', 'e', ' ', '&', '&', ' ', 'e', 'c', 'h', 'o', ' ', 'X']).st.trace := by
  refine ⟨rfl, rfl, rfl, ?_⟩
  have ht : (handleLine (initWorld (osExitCode c))
      ['f', 'a', 'l', 's', 'e', ' ', '&', '&', ' ', 'e', 'c', 'h', 'o', ' ', 'X']).st.trace =
      [Event.fork 100, Event.setpgid 100 100, Event.waitpid (-100) 100,
       Event.fork 101, Event.setpgid 101 101, Event.waitpid (-101) 101] := rfl
  rw [ht]
  decide

/-! ## Job table: lemmas -/

theorem find_slot_some (jobs : Fin MAX_JOBS → job_t) (i : Fin MAX_JOBS)
    (h : find_slot jobs = some i) : (jobs i).id = 0 := by
  have := List.find?_some h
  simpa using this

theorem find_slot_none (jobs : Fin MAX_JOBS → job_t) (h : find_slot jobs = none) :
    ∀ i, (jobs i).id ≠ 0 := by
  intro i
  have := List.find?_eq_none.mp h i (List.mem_finRange i)
  simpa using this

theorem find_slot_full (jobs : Fin MAX_JOBS → job_t) (h : ∀ i, (jobs i).id ≠ 0) :
    find_slot jobs = none := by
  apply List.find?_eq_none.mpr
  intro i _
  simpa using h i

theorem find_slot_free (jobs : Fin MAX_JOBS → job_t) (h : ∃ i, (jobs i).id = 0) :
    ∃ i, find_slot jobs = some i := by
  cases hf : find_slot jobs with
  | some i => exact ⟨i, rfl⟩
  | none =>
    obtain ⟨i, hi⟩ := h
    exact absurd hi (find_slot_none jobs hf i)

theorem add_job_full (w : World) (pgid : Int) (text : CStr) (status : Nat)
    (h : find_slot w.jobs = none) :
    add_job w pgid text status =
      (w.emit (Event.addJob pgid status)).emit (Event.err Msg.tooManyJobs) := by
  have h2 : find_slot (w.emit (Event.addJob pgid status)).jobs = none := h
  simp only [add_job, h2]

theorem add_job_free (w : World) (pgid : Int) (text : CStr) (status : Nat) (i : Fin MAX_JOBS)
    (h : find_slot w.jobs = some i) :
    add_job w pgid text status =
      { w.emit (Event.addJob pgid status) with
        jobs := Function.update w.jobs i ⟨w.next_job_id, pgid, strncpy text BUFFER_SIZE, status⟩
        next_job_id := w.next_job_id + 1
        job_count := w.job_count + 1 } := by
  have h2 : find_slot (w.emit (Event.addJob pgid status)).jobs = some i := h
  simp only [add_job, h2]
  rfl

theorem remove_job_pgid_jobs (w : World) (pgid : Int) :
    (remove_job_pgid w pgid).next_job_id = w.next_job_id ∧
    ((remove_job_pgid w pgid).jobs = w.jobs ∨
      ∃ i, (remove_job_pgid w pgid).jobs = Function.update w.jobs i ⟨0, 0, [], 0⟩) := by
  unfold remove_job_pgid
  split
  · rename_i i _
    have hi : i.val < MAX_JOBS := i.isLt
    refine ⟨?_, Or.inr ⟨i, ?_⟩⟩
    · simp [remove_job, hi]
    · simp [remove_job, hi]
  · exact ⟨rfl, Or.inl rfl⟩

theorem IdInv_init (os : OS) : IdInv (initWorld os) := by
  refine ⟨by simp [initWorld], ?_, ?_, ?_⟩
  · intro i; simp [initWorld, emptyJob]
  · intro i; simp [initWorld, emptyJob]
  · intro i j h; simp [initWorld, emptyJob] at h

theorem IdInv_update_empty (w w2 : World) (i : Fin MAX_JOBS) (h : IdInv w)
    (hn : w2.next_job_id = w.next_job_id)
    (hj : w2.jobs = Function.update w.jobs i ⟨0, 0, [], 0⟩) : IdInv w2 := by
  obtain ⟨h1, h2, h3, h4⟩ := h
  have hid : ∀ k, (w2.jobs k).id = if k = i then 0 else (w.jobs k).id := by
    intro k
    rw [hj]
    by_cases hk : k = i
    · subst hk; simp
    · simp [hk]
  refine ⟨by rw [hn]; exact h1, ?_, ?_, ?_⟩
  · intro k; rw [hid, hn]; split
    · omega
    · exact h2 k
  · intro k; rw [hid]; split
    · omega
    · exact h3 k
  · intro a b ha hab
    rw [hid] at ha hab
    rw [hid b] at hab
    by_cases hai : a = i
    · simp [hai] at ha
    · simp only [hai, if_false] at ha hab
      by_cases hbi : b = i
      · simp only [hbi, if_true] at hab; exact absurd hab ha
      · simp only [hbi, if_false] at hab; exact h4 a b ha hab

theorem IdInv_remove (w : World) (pgid : Int) (h : IdInv w) : IdInv (remove_job_pgid w pgid) := by
  obtain ⟨hn, hj⟩ := remove_job_pgid_jobs w pgid
  rcases hj with hj | ⟨i, hj⟩
  · obtain ⟨h1, h2, h3, h4⟩ := h
    refine ⟨by rw [hn]; exact h1, ?_, ?_, ?_⟩
    · intro k; rw [hj, hn]; exact h2 k
    · intro k; rw [hj]; exact h3 k
    · intro a b; rw [hj]; exact h4 a b
  · exact IdInv_update_empty w _ i h hn hj

theorem IdInv_add (w : World) (pgid : Int) (text : CStr) (status : Nat) (h : IdInv w) :
    IdInv (add_job w pgid text status) ∧
    ((assignedId w pgid text status = none ∧
        (add_job w pgid text status).next_job_id = w.next_job_id) ∨
     (assignedId w pgid text status = some w.next_job_id ∧
        (add_job w pgid text status).next_job_id = w.next_job_id + 1)) := by
  obtain ⟨h1, h2, h3, h4⟩ := h
  cases hf : find_slot w.jobs with
  | none =>
    rw [add_job_full w pgid text status hf]
    refine ⟨⟨h1, h2, h3, h4⟩, Or.inl ⟨by simp [assignedId, hf], rfl⟩⟩
  | some s =>
    have hs := find_slot_some w.jobs s hf
    have hid : ∀ k, ((add_job w pgid text status).jobs k).id =
        if k = s then w.next_job_id else (w.jobs k).id := by
      intro k
      rw [add_job_free w pgid text status s hf]
      by_cases hk : k = s
      · subst hk; simp
      · simp [hk]
    have hnx : (add_job w pgid text status).next_job_id = w.next_job_id + 1 := by
      rw [add_job_free w pgid text status s hf]
    refine ⟨⟨by rw [hnx]; omega, ?_, ?_, ?_⟩, Or.inr ⟨?_, hnx⟩⟩
    · intro k; rw [hid, hnx]; split
      · omega
      · have := h2 k; omega
    · intro k; rw [hid]; split
      · omega
      · exact h3 k
    · intro a b ha hab
      rw [hid] at ha hab
      rw [hid b] at hab
      by_cases has : a = s
      · by_cases hbs : b = s
        · rw [has, hbs]
        · simp only [has, if_true, hbs, if_false] at hab
          have := h2 b; omega
      · by_cases hbs : b = s
        · simp only [has, if_false, hbs, if_true] at hab
          have := h2 a; omega
        · simp only [has, if_false, hbs] at ha hab
          exact h4 a b ha hab
    · simp only [assignedId, hf, Option.map_some', hid, if_true]

theorem runJobOps_ids (ops : List JobOp) : ∀ w : World, IdInv w →
    IdInv (runJobOps w ops).1 ∧
    (runJobOps w ops).2 =
      (List.range (runJobOps w ops).2.length).map (fun k : Nat => w.next_job_id + (k : Int)) := by
  induction ops with
  | nil => intro w h; exact ⟨h, by simp [runJobOps]⟩
  | cons op ops ih =>
    intro w h
    cases op with
    | remove pgid =>
      have := ih (remove_job_pgid w pgid) (IdInv_remove w pgid h)
      rw [(remove_job_pgid_jobs w pgid).1] at this
      simpa [runJobOps] using this
    | add pgid text status =>
      obtain ⟨hinv, hcase⟩ := IdInv_add w pgid text status h
      obtain ⟨ih1, ih2⟩ := ih (add_job w pgid text status) hinv
      refine ⟨by simpa [runJobOps] using ih1, ?_⟩
      simp only [runJobOps]
      rcases hcase with ⟨ha, hn⟩ | ⟨ha, hn⟩
      · rw [hn] at ih2
        simpa [ha] using ih2
      · rw [hn] at ih2
        simp only [ha, Option.toList_some, List.singleton_append, List.length_cons]
        rw [List.range_succ_eq_map, List.map_cons, List.map_map]
        congr 1
        · simp
        · rw [ih2]
          simp only [List.length_map, List.length_range]
          apply List.map_congr_left
          intro k _
          simp only [Function.comp, Nat.succ_eq_add_one]
          push_cast
          ring

/-! ## C9: job ids are assigned in increasing order and never reused -/

/-- C9: for every sequence of `add_job` and `remove_job_pgid` operations
started in the empty table, the ids assigned by the successful `add_job` calls
are 1, 2, 3, ... in call order, hence strictly increasing and never assigned
twice, and in the resulting table no two live entries have the same id. -/
theorem C9_job_ids_monotonic (os : OS) (ops : List JobOp) :
    (runJobOps (initWorld os) ops).2 =
      (List.range (runJobOps (initWorld os) ops).2.length).map (fun k : Nat => (k : Int) + 1) ∧
    List.Pairwise (fun a b : Int => a < b) (runJobOps (initWorld os) ops).2 ∧
    (∀ i j, ((runJobOps (initWorld os) ops).1.jobs i).id ≠ 0 →
      ((runJobOps (initWorld os) ops).1.jobs i).id =
        ((runJobOps (initWorld os) ops).1.jobs j).id → i = j) := by
  obtain ⟨hinv, hids⟩ := runJobOps_ids ops (initWorld os) (IdInv_init os)
  have h1 : (runJobOps (initWorld os) ops).2 =
      (List.range (runJobOps (initWorld os) ops).2.length).map
        (fun k : Nat => (k : Int) + 1) := by
    rw [hids]
    simp only [List.length_map, List.length_range]
    apply List.map_congr_left
    intro k _
    simp only [initWorld]
    omega
  refine ⟨h1, ?_, hinv.2.2.2⟩
  rw [h1]
  apply List.Pairwise.map _ _ (List.pairwise_lt_range _)
  intro a b hab
  omega

/-! ## C10: `add_job` on a full table and on a table with a free slot -/

/-- C10: when every slot holds a live job, `add_job` returns with all slots,
`next_job_id` and `job_count` unchanged; when some slot is free, it fills one
free slot with the id `next_job_id`, the given process group and status and
the text (cut to `BUFFER_SIZE` characters, that is the text itself when it
fits the buffer) and leaves every other slot as it was. -/
theorem C10_add_job_capacity (w : World) (pgid : Int) (text : CStr) (status : Nat) :
    ((∀ i, (w.jobs i).id ≠ 0) →
      (add_job w pgid text status).jobs = w.jobs ∧
      (add_job w pgid text status).next_job_id = w.next_job_id ∧
      (add_job w pgid text status).job_count = w.job_count) ∧
    ((∃ i, (w.jobs i).id = 0) →
      ∃ i, (w.jobs i).id = 0 ∧
        (add_job w pgid text status).jobs i =
          ⟨w.next_job_id, pgid, strncpy text BUFFER_SIZE, status⟩ ∧
        (text.length ≤ BUFFER_SIZE →
          (add_job w pgid text status).jobs i = ⟨w.next_job_id, pgid, text, status⟩) ∧
        (∀ j, j ≠ i → (add_job w pgid text status).jobs j = w.jobs j)) := by
  constructor
  · intro hfull
    rw [add_job_full w pgid text status (find_slot_full w.jobs hfull)]
    exact ⟨rfl, rfl, rfl⟩
  · intro hfree
    obtain ⟨i, hi⟩ := find_slot_free w.jobs hfree
    rw [add_job_free w pgid text status i hi]
    refine ⟨i, find_slot_some w.jobs i hi, by simp, ?_, ?_⟩
    · intro hlen
      simp [strncpy, List.take_of_length_le hlen]
    · intro j hj
      simp [hj]

/-- C10, at the full five-slot table and at the empty table. -/
theorem C10_add_job_capacity_witness :
    (∀ i, ((fullWorld (osExitCode 0)).jobs i).id ≠ 0) ∧
    (add_job (fullWorld (osExitCode 0)) 7 ['l', 's'] JOB_RUNNING).jobs =
      (fullWorld (osExitCode 0)).jobs ∧
    (∃ i, ((initWorld (osExitCode 0)).jobs i).id = 0) ∧
    (∃ i, (add_job (initWorld (osExitCode 0)) 7 ['l', 's'] JOB_RUNNING).jobs i =
      ⟨1, 7, ['l', 's'], JOB_RUNNING⟩) := by
  have hfull : ∀ i, ((fullWorld (osExitCode 0)).jobs i).id ≠ 0 := by
    intro i
    simp only [fullWorld]
    omega
  have hfree : ∃ i, ((initWorld (osExitCode 0)).jobs i).id = 0 := ⟨0, rfl⟩
  refine ⟨hfull,
    ((C10_add_job_capacity (fullWorld (osExitCode 0)) 7 ['l', 's'] JOB_RUNNING).1 hfull).1,
    hfree, ?_⟩
  obtain ⟨i, _, _, h, _⟩ :=
    (C10_add_job_capacity (initWorld (osExitCode 0)) 7 ['l', 's'] JOB_RUNNING).2 hfree
  exact ⟨i, h (by decide)⟩

/-! ## Launch: lemmas -/

theorem cmd_handler_none (w : World) (argv : List CStr)
    (h : (cmd_handler w argv).2 = none) : cmd_handler w argv = (w, none) := by
  unfold cmd_handler at h ⊢
  cases argv with
  | nil => rfl
  | cons name rest =>
    simp only at h ⊢
    repeat' split at h
    all_goals first | (simp at h; done) | skip
    simp [*]

theorem makePipes_ok (ps : List (Nat × Nat)) : ∀ (j : Nat) (w : World) (acc : List (Nat × Nat))
    (rest : List (Option (Nat × Nat))), w.os.pipes = ps.map some ++ rest →
    makePipes ps.length j w acc =
      ({ w with os := { w.os with pipes := rest }
                fds := pipeFds j ps w.fds
                trace := w.trace ++ pipeEvents j ps }, some (acc ++ ps)) := by
  induction ps with
  | nil =>
    intro j w acc rest h
    obtain ⟨jobs, nid, jc, hist, hl, fg, fds, os, tr⟩ := w
    obtain ⟨p, f, wt, o, c, g, hm⟩ := os
    simp only [List.map_nil, List.nil_append] at h
    subst h
    simp [makePipes, pipeFds, pipeEvents]
  | cons p ps ih =>
    intro j w acc rest h
    obtain ⟨r, wr⟩ := p
    simp only [List.map_cons, List.cons_append] at h
    simp only [List.length_cons, makePipes, h]
    rw [ih (j + 1) _ (acc ++ [(r, wr)]) rest (by simp [World.emit])]
    simp [World.emit, pipeFds, pipeEvents]

theorem forkLoop_ok (count : Nat) (pipes : List (Nat × Nat)) (cmds : List Command) :
    ∀ (pids : List Int) (i : Nat) (pgid : Int) (w : World) (rest : List Int),
    w.os.forks = pids ++ rest → pids.length = cmds.length → (∀ p ∈ pids, 0 < p) →
    forkLoop count pipes cmds i pgid w =
      ({ w with os := { w.os with forks := rest }
                trace := w.trace ++ forkEventsFrom i pgid pids },
        ForkEnd.parent (pgidAfter i pgid pids)) := by
  induction cmds with
  | nil =>
    intro pids i pgid w rest h hl _
    have : pids = [] := List.length_eq_zero.mp (by simpa using hl)
    subst this
    obtain ⟨jobs, nid, jc, hist, hlen, fg, fds, os, tr⟩ := w
    obtain ⟨p, f, wt, o, c, g, hm⟩ := os
    simp only [List.nil_append] at h
    subst h
    simp [forkLoop, forkEventsFrom, pgidAfter]
  | cons cmd cmds ih =>
    intro pids i pgid w rest h hl hpos
    cases pids with
    | nil => simp at hl
    | cons pid pids =>
      have hp : 0 < pid := hpos pid (by simp)
      have hn1 : ¬ pid < 0 := by omega
      have hn2 : ¬ pid = 0 := by omega
      simp only [List.cons_append] at h
      simp only [forkLoop, h, List.headD_cons, List.tail_cons, hn1, hn2, if_false]
      rw [ih pids (i + 1) _ _ rest (by simp [World.emit]) (by simpa using hl)
        (fun p hp => hpos p (List.mem_cons_of_mem _ hp))]
      simp [World.emit, forkEventsFrom, pgidAfter]

theorem forkEventsFrom_pos (pids : List Int) : ∀ (i : Nat) (pgid : Int), 0 < i →
    forkEventsFrom i pgid pids =
      pids.flatMap (fun p => [Event.fork p, Event.setpgid p pgid]) ∧
    pgidAfter i pgid pids = pgid := by
  induction pids with
  | nil => intro i pgid _; simp [forkEventsFrom, pgidAfter]
  | cons p pids ih =>
    intro i pgid hi
    have hi0 : ¬ i = 0 := by omega
    obtain ⟨h1, h2⟩ := ih (i + 1) pgid (by omega)
    simp [forkEventsFrom, pgidAfter, hi0, h1, h2]

theorem forkEventsFrom_zero (pids : List Int) :
    forkEventsFrom 0 0 pids = forkEvents pids ∧ pgidAfter 0 0 pids = pids.headD 0 := by
  cases pids with
  | nil => simp [forkEventsFrom, forkEvents, pgidAfter]
  | cons p pids =>
    obtain ⟨h1, h2⟩ := forkEventsFrom_pos pids 1 p (by omega)
    simp [forkEventsFrom, forkEvents, pgidAfter, h1, h2]

theorem closePipes_ok (ps : List (Nat × Nat)) : ∀ w : World,
    closePipes w ps =
      { w with fds := closeFds ps w.fds, trace := w.trace ++ closeEvents ps } := by
  induction ps with
  | nil => intro w; simp [closePipes, closeFds, closeEvents]
  | cons p ps ih =>
    intro w
    have := ih ((w.close p.1).close p.2)
    simp only [closePipes, List.foldl_cons] at this ⊢
    rw [this]
    simp [World.close, World.emit, closeFds, closeEvents]

theorem launch_parent (w : World) (cmds : List Command) (flag : Nat) (l : CStr)
    (ps : List (Nat × Nat)) (pids : List Int) (restP : List (Option (Nat × Nat)))
    (restF : List Int) (hk : 1 ≤ cmds.length)
    (hp : w.os.pipes = ps.map some ++ restP) (hpl : ps.length = cmds.length - 1)
    (hf : w.os.forks = pids ++ restF) (hfl : pids.length = cmds.length)
    (hpos : ∀ p ∈ pids, 0 < p) :
    launch w cmds flag l =
      if flag ≠ 0 then
        ((add_job (afterClose w ps pids restP restF) (pids.headD 0) l JOB_RUNNING).emit
          (Event.out (Msg.runningInBackground
            ((add_job (afterClose w ps pids restP restF) (pids.headD 0) l
              JOB_RUNNING).next_job_id - 1) (pids.headD 0))), Outcome.ret 0)
      else
        ({ execWait (pids.headD 0) l w.os.waits
            { afterClose w ps pids restP restF with fg_pgid := pids.headD 0 } with
            fg_pgid := 0 }, Outcome.ret 0) := by
  have hmk : (if cmds.length > 1 then makePipes (cmds.length - 1) 0 w [] else (w, some [])) =
      makePipes ps.length 0 w [] := by
    rw [hpl]
    by_cases h1 : cmds.length > 1
    · simp [h1]
    · have : cmds.length - 1 = 0 := by omega
      simp [h1, this, makePipes]
  unfold launch
  simp only [hmk]
  rw [makePipes_ok ps 0 w [] restP hp]
  simp only [List.nil_append]
  rw [forkLoop_ok cmds.length ps cmds pids 0 0 _ restF (by simpa using hf) hfl hpos]
  simp only [closePipes_ok, (forkEventsFrom_zero pids).1, (forkEventsFrom_zero pids).2]
  rfl

theorem add_job_trace (w : World) (pgid : Int) (l : CStr) (status : Nat) :
    ∃ tail, (add_job w pgid l status).trace = w.trace ++ Event.addJob pgid status :: tail ∧
      ∀ e ∈ tail, isTailEvent e = true := by
  cases hf : find_slot w.jobs with
  | none =>
    rw [add_job_full w pgid l status hf]
    exact ⟨[Event.err Msg.tooManyJobs], by simp [World.emit], by simp [isTailEvent]⟩
  | some s =>
    rw [add_job_free w pgid l status s hf]
    exact ⟨[], by simp [World.emit], by simp⟩

theorem execWait_trace (pgid : Int) (l : CStr) (ws : List (Int × WStatus)) : ∀ w : World,
    ∃ e tail, (execWait pgid l ws w).trace = w.trace ++ e :: tail ∧
      isWaitOrAddJob e = true ∧ ∀ x ∈ tail, isTailEvent x = true := by
  induction ws with
  | nil =>
    intro w
    exact ⟨Event.waitpid (-pgid) (-1), [], by simp [execWait, World.emit],
      by simp [isWaitOrAddJob], by simp⟩
  | cons r ws ih =>
    intro w
    obtain ⟨pid, status⟩ := r
    have hpop : (w.popWait (-pgid) pid ws).trace = w.trace ++ [Event.waitpid (-pgid) pid] := by
      simp [World.popWait, World.emit]
    refine ⟨Event.waitpid (-pgid) pid, ?_⟩
    simp only [execWait]
    by_cases hpid : pid > 0
    · simp only [hpid, if_true]
      cases status with
      | exited c => exact ⟨[], by simp [hpop], by simp [isWaitOrAddJob], by simp⟩
      | signaled c => exact ⟨[], by simp [hpop], by simp [isWaitOrAddJob], by simp⟩
      | stopped c =>
        obtain ⟨tail, ht, hall⟩ := add_job_trace (w.popWait (-pgid) pid ws) pgid l JOB_STOPPED
        refine ⟨Event.addJob pgid JOB_STOPPED :: tail ++ [Event.out (Msg.stopped
          ((add_job (w.popWait (-pgid) pid ws) pgid l JOB_STOPPED).next_job_id - 1) l)], ?_,
          by simp [isWaitOrAddJob], ?_⟩
        · simp [World.emit, ht, hpop]
        · intro x hx
          simp only [List.mem_cons, List.mem_append, List.not_mem_nil, or_false] at hx
          rcases hx with (rfl | hx) | rfl
          · rfl
          · exact hall x hx
          · rfl
      | continued =>
        obtain ⟨e, tail, ht, he, hall⟩ := ih (w.popWait (-pgid) pid ws)
        refine ⟨e :: tail, by simp [ht, hpop], by simp [isWaitOrAddJob], ?_⟩
        intro x hx
        simp only [List.mem_cons] at hx
        rcases hx with rfl | hx
        · cases x <;> simp_all [isWaitOrAddJob, isTailEvent]
        · exact hall x hx
    · simp only [hpid, if_false]
      exact ⟨[], by simp [hpop], by simp [isWaitOrAddJob], by simp⟩

theorem execute_launch (w : World) (tokens : List (Option CStr)) (start stop flag : Nat)
    (l : CStr) (seg : List CStr) (hseg : segmentTokens tokens start stop = some seg)
    (hk : 1 ≤ (parseCommands seg).length) (hnb : notBuiltin w (parseCommands seg) flag) :
    execute w tokens start stop flag l = launch w (parseCommands seg) flag l := by
  unfold execute
  simp only [hseg]
  have h0 : ¬ (parseCommands seg).length = 0 := by omega
  simp only [h0, if_false]
  rcases hnb with h | h
  · simp only [h, if_false]
  · by_cases hc : (parseCommands seg).length = 1 ∧ flag = 0
    · simp only [hc, and_self, if_true, cmd_handler_none w _ h]
    · simp only [hc, if_false]

/-! ## C5: pipes, forks and closes of a successful launch -/

/-- C5: for a non-built-in segment parsed into `k >= 1` commands, when the
`k - 1` calls of `pipe` and the `k` calls of `fork` succeed, the trace that
`execute` adds in the parent is: the `k - 1` pipe creations, then the `k` forks
in stage order (each followed by the `setpgid` into the first child's group),
then the closing of both descriptors of every pipe, and only then a tail that
starts with the `waitpid` call or the job registration and contains nothing
but waits, registrations and printed lines. -/
theorem C5_pipes_forks_closes (w : World) (tokens : List (Option CStr)) (start stop flag : Nat)
    (l : CStr) (seg : List CStr) (ps : List (Nat × Nat)) (pids : List Int)
    (restP : List (Option (Nat × Nat))) (restF : List Int)
    (hseg : segmentTokens tokens start stop = some seg)
    (hk : 1 ≤ (parseCommands seg).length) (hnb : notBuiltin w (parseCommands seg) flag)
    (hp : w.os.pipes = ps.map some ++ restP) (hpl : ps.length = (parseCommands seg).length - 1)
    (hf : w.os.forks = pids ++ restF) (hfl : pids.length = (parseCommands seg).length)
    (hpos : ∀ p ∈ pids, 0 < p) :
    ∃ e tail, (execute w tokens start stop flag l).1.trace =
        w.trace ++ pipeEvents 0 ps ++ forkEvents pids ++ closeEvents ps ++ e :: tail ∧
      isWaitOrAddJob e = true ∧ (∀ x ∈ tail, isTailEvent x = true) ∧
      (execute w tokens start stop flag l).2 = Outcome.ret 0 := by
  rw [execute_launch w tokens start stop flag l seg hseg hk hnb,
    launch_parent w _ flag l ps pids restP restF hk hp hpl hf hfl hpos]
  by_cases hflag : flag ≠ 0
  · rw [if_pos hflag]
    obtain ⟨tail, ht, hall⟩ :=
      add_job_trace (afterClose w ps pids restP restF) (pids.headD 0) l JOB_RUNNING
    refine ⟨Event.addJob (pids.headD 0) JOB_RUNNING, tail ++ [Event.out
      (Msg.runningInBackground ((add_job (afterClose w ps pids restP restF) (pids.headD 0) l
        JOB_RUNNING).next_job_id - 1) (pids.headD 0))], ?_, rfl, ?_, rfl⟩
    · simp only [World.emit, ht]
      simp [afterClose]
    · intro x hx
      simp only [List.mem_append, List.mem_cons, List.not_mem_nil, or_false] at hx
      rcases hx with hx | rfl
      · exact hall x hx
      · rfl
  · rw [if_neg hflag]
    obtain ⟨e, tail, ht, he, hall⟩ := execWait_trace (pids.headD 0) l w.os.waits
      { afterClose w ps pids restP restF with fg_pgid := pids.headD 0 }
    refine ⟨e, tail, ?_, he, hall, rfl⟩
    simp only [ht]
    simp [afterClose]

/-- C5, at the pipeline `a | b | c` run in the foreground from the initial
state: two pipes, three forks, four closes, then the wait. -/
theorem C5_pipes_forks_closes_witness :
    segmentTokens pipelineTokens 0 5 = some [['a'], ['|'], ['b'], ['|'], ['c']] ∧
    (parseCommands [['a'], ['|'], ['b'], ['|'], ['c']]).length = 3 ∧
    ∃ e tail, (execute (initWorld (osPipeline (WStatus.exited 0))) pipelineTokens 0 5 0
        ['a', ' ', '|', ' ', 'b', ' ', '|', ' ', 'c']).1.trace =
        (initWorld (osPipeline (WStatus.exited 0))).trace ++ pipeEvents 0 [(3, 4), (5, 6)] ++
          forkEvents [100, 101, 102] ++ closeEvents [(3, 4), (5, 6)] ++ e :: tail ∧
      isWaitOrAddJob e = true ∧ (∀ x ∈ tail, isTailEvent x = true) ∧
      (execute (initWorld (osPipeline (WStatus.exited 0))) pipelineTokens 0 5 0
        ['a', ' ', '|', ' ', 'b', ' ', '|', ' ', 'c']).2 = Outcome.ret 0 :=
  ⟨by decide, by decide,
    C5_pipes_forks_closes (initWorld (osPipeline (WStatus.exited 0))) pipelineTokens 0 5 0
      ['a', ' ', '|', ' ', 'b', ' ', '|', ' ', 'c'] [['a'], ['|'], ['b'], ['|'], ['c']]
      [(3, 4), (5, 6)] [100, 101, 102] [] [] (by decide) (by decide) (Or.inl (by decide))
      (by rfl) (by decide) (by rfl) (by decide) (by decide)⟩

theorem execWait_jobs_stop (pgid : Int) (l : CStr) (s : Fin MAX_JOBS)
    (ws : List (Int × WStatus)) : ∀ w : World, find_slot w.jobs = some s →
    (∃ sig, waitObserves ws = some (WStatus.stopped sig)) →
    (execWait pgid l ws w).jobs =
      Function.update w.jobs s ⟨w.next_job_id, pgid, strncpy l BUFFER_SIZE, JOB_STOPPED⟩ ∧
    (execWait pgid l ws w).next_job_id = w.next_job_id + 1 ∧
    (execWait pgid l ws w).job_count = w.job_count + 1 := by
  induction ws with
  | nil => intro w _ h; simp [waitObserves] at h
  | cons r ws ih =>
    intro w hs hobs
    obtain ⟨pid, status⟩ := r
    simp only [waitObserves] at hobs
    by_cases hpid : pid > 0
    · simp only [hpid, if_true] at hobs
      simp only [execWait, hpid, if_true]
      cases status with
      | exited c => simp at hobs
      | signaled c => simp at hobs
      | stopped c =>
        have hs2 : find_slot (w.popWait (-pgid) pid ws).jobs = some s := hs
        simp only [World.emit, add_job_free _ pgid l JOB_STOPPED s hs2]
        exact ⟨rfl, rfl, rfl⟩
      | continued =>
        simp only at hobs
        exact ih (w.popWait (-pgid) pid ws) hs hobs
    · simp [hpid] at hobs

theorem execWait_jobs_other (pgid : Int) (l : CStr) (ws : List (Int × WStatus)) :
    ∀ w : World, (¬ ∃ sig, waitObserves ws = some (WStatus.stopped sig)) →
    (execWait pgid l ws w).jobs = w.jobs ∧
    (execWait pgid l ws w).next_job_id = w.next_job_id ∧
    (execWait pgid l ws w).job_count = w.job_count := by
  induction ws with
  | nil => intro w _; exact ⟨rfl, rfl, rfl⟩
  | cons r ws ih =>
    intro w hobs
    obtain ⟨pid, status⟩ := r
    simp only [waitObserves] at hobs
    by_cases hpid : pid > 0
    · simp only [hpid, if_true] at hobs
      simp only [execWait, hpid, if_true]
      cases status with
      | exited c => exact ⟨rfl, rfl, rfl⟩
      | signaled c => exact ⟨rfl, rfl, rfl⟩
      | stopped c => simp at hobs
      | continued =>
        simp only at hobs
        exact ih (w.popWait (-pgid) pid ws) hobs
    · simp only [execWait, hpid, if_false]
      exact ⟨rfl, rfl, rfl⟩

/-! ## C8: when `execute` registers a job -/

/-- C8: for a non-built-in segment launched without a pipe or fork failure
while the table has a free slot, `execute` fills exactly one free slot if the
segment is background (status Running) or if it is foreground and the wait
loop is ended by a stop notification (status Stopped); the new entry has the
id `next_job_id`, the pid of the first child as its group and the command line
as its text (the first `BUFFER_SIZE` characters, the whole line when it fits);
when the foreground wait is ended by anything else (exit, signal, error) the
job table, `next_job_id` and `job_count` are unchanged. -/
theorem C8_job_registration (w : World) (tokens : List (Option CStr)) (start stop flag : Nat)
    (l : CStr) (seg : List CStr) (ps : List (Nat × Nat)) (pids : List Int)
    (restP : List (Option (Nat × Nat))) (restF : List Int)
    (hseg : segmentTokens tokens start stop = some seg)
    (hk : 1 ≤ (parseCommands seg).length) (hnb : notBuiltin w (parseCommands seg) flag)
    (hp : w.os.pipes = ps.map some ++ restP) (hpl : ps.length = (parseCommands seg).length - 1)
    (hf : w.os.forks = pids ++ restF) (hfl : pids.length = (parseCommands seg).length)
    (hpos : ∀ p ∈ pids, 0 < p) (hfree : ∃ i, (w.jobs i).id = 0) :
    ∃ s, (w.jobs s).id = 0 ∧
      (flag ≠ 0 →
        (execute w tokens start stop flag l).1.jobs = Function.update w.jobs s
          ⟨w.next_job_id, pids.headD 0, strncpy l BUFFER_SIZE, JOB_RUNNING⟩ ∧
        (execute w tokens start stop flag l).1.next_job_id = w.next_job_id + 1 ∧
        (execute w tokens start stop flag l).1.job_count = w.job_count + 1) ∧
      (flag = 0 → (∃ sig, waitObserves w.os.waits = some (WStatus.stopped sig)) →
        (execute w tokens start stop flag l).1.jobs = Function.update w.jobs s
          ⟨w.next_job_id, pids.headD 0, strncpy l BUFFER_SIZE, JOB_STOPPED⟩ ∧
        (execute w tokens start stop flag l).1.next_job_id = w.next_job_id + 1 ∧
        (execute w tokens start stop flag l).1.job_count = w.job_count + 1) ∧
      (flag = 0 → (¬ ∃ sig, waitObserves w.os.waits = some (WStatus.stopped sig)) →
        (execute w tokens start stop flag l).1.jobs = w.jobs ∧
        (execute w tokens start stop flag l).1.next_job_id = w.next_job_id ∧
        (execute w tokens start stop flag l).1.job_count = w.job_count) ∧
      (l.length ≤ BUFFER_SIZE → strncpy l BUFFER_SIZE = l) := by
  obtain ⟨s, hs⟩ := find_slot_free w.jobs hfree
  rw [execute_launch w tokens start stop flag l seg hseg hk hnb,
    launch_parent w _ flag l ps pids restP restF hk hp hpl hf hfl hpos]
  refine ⟨s, find_slot_some w.jobs s hs, ?_, ?_, ?_, ?_⟩
  · intro hflag
    rw [if_pos hflag]
    have hs2 : find_slot (afterClose w ps pids restP restF).jobs = some s := hs
    simp only [World.emit, add_job_free _ (pids.headD 0) l JOB_RUNNING s hs2]
    exact ⟨rfl, rfl, rfl⟩
  · intro hflag hobs
    rw [if_neg (by simpa using hflag)]
    exact execWait_jobs_stop (pids.headD 0) l s w.os.waits
      { afterClose w ps pids restP restF with fg_pgid := pids.headD 0 } hs hobs
  · intro hflag hobs
    rw [if_neg (by simpa using hflag)]
    exact execWait_jobs_other (pids.headD 0) l w.os.waits
      { afterClose w ps pids restP restF with fg_pgid := pids.headD 0 } hobs
  · intro hlen
    exact List.take_of_length_le hlen

/-- C8, at the pipeline `a | b | c` run in the foreground from the initial
state when the first wait result is a stop by signal 20: slot 0 receives the
job with id 1, group 100 and status Stopped. -/
theorem C8_job_registration_witness :
    (∃ i, ((initWorld (osPipeline (WStatus.stopped 20))).jobs i).id = 0) ∧
    (∃ sig, waitObserves (initWorld (osPipeline (WStatus.stopped 20))).os.waits =
      some (WStatus.stopped sig)) ∧
    ∃ s, (execute (initWorld (osPipeline (WStatus.stopped 20))) pipelineTokens 0 5 0
        ['a', ' ', '|', ' ', 'b', ' ', '|', ' ', 'c']).1.jobs =
      Function.update (initWorld (osPipeline (WStatus.stopped 20))).jobs s
        ⟨1, 100, ['a', ' ', '|', ' ', 'b', ' ', '|', ' ', 'c'], JOB_STOPPED⟩ := by
  have hfree : ∃ i, ((initWorld (osPipeline (WStatus.stopped 20))).jobs i).id = 0 := ⟨0, rfl⟩
  have hobs : ∃ sig, waitObserves (initWorld (osPipeline (WStatus.stopped 20))).os.waits =
      some (WStatus.stopped sig) := ⟨20, rfl⟩
  obtain ⟨s, _, _, h, _, _⟩ :=
    C8_job_registration (initWorld (osPipeline (WStatus.stopped 20))) pipelineTokens 0 5 0
      ['a', ' ', '|', ' ', 'b', ' ', '|', ' ', 'c'] [['a'], ['|'], ['b'], ['|'], ['c']]
      [(3, 4), (5, 6)] [100, 101, 102] [] [] (by decide) (by decide) (Or.inl (by decide))
      (by rfl) (by decide) (by rfl) (by decide) (by decide) hfree
  exact ⟨hfree, hobs, s, (h rfl hobs).1⟩

/-! ## Child wiring: lemmas -/

theorem closeFds_apply (ps : List (Nat × Nat)) : ∀ (fds : Nat → Option Desc) (fd : Nat),
    closeFds ps fds fd = if isPipeFd ps fd = true then none else fds fd := by
  induction ps with
  | nil => intro fds fd; simp [closeFds, isPipeFd]
  | cons p ps ih =>
    intro fds fd
    have h := ih (Function.update (Function.update fds p.1 none) p.2 none) fd
    have hany : isPipeFd (p :: ps) fd =
        (decide (fd = p.1) || decide (fd = p.2) || isPipeFd ps fd) := by
      simp [isPipeFd]
    simp only [closeFds, List.foldl_cons] at h ⊢
    rw [h, hany]
    by_cases h3 : isPipeFd ps fd = true <;> by_cases h1 : fd = p.2 <;>
      by_cases h2 : fd = p.1 <;> simp [h1, h2, h3, Function.update_apply]

theorem isPipeFd_false (ps : List (Nat × Nat)) (fd : Nat)
    (h : ∀ p ∈ ps, fd ≠ p.1 ∧ fd ≠ p.2) : isPipeFd ps fd = false := by
  simp only [isPipeFd, List.any_eq_false, Bool.or_eq_true, decide_eq_true_eq, not_or]
  exact h

theorem redirectInput_none (w : World) (cmd : Command) (h : cmd.input_file = none) :
    redirectInput w cmd = (w, none) := by
  simp [redirectInput, h]

theorem redirectOutput_none (w : World) (cmd : Command) (h : cmd.output_file = none) :
    redirectOutput w cmd = (w, none) := by
  simp [redirectOutput, h]

theorem redirectInput_ok (w : World) (cmd : Command) (path : CStr) (f : Nat)
    (rest : List (Option Nat)) (h : cmd.input_file = some path)
    (ho : w.os.opens = some f :: rest) (hf : 2 ≤ f) :
    ∃ w1, redirectInput w cmd = (w1, none) ∧ w1.fds 0 = some (Desc.file path false) ∧
      w1.fds 1 = w.fds 1 ∧ w1.os.opens = rest := by
  have h0 : (0 : Nat) ≠ f := by omega
  have h1 : (1 : Nat) ≠ f := by omega
  refine ⟨(((({ w with os := { w.os with opens := rest },
                         fds := Function.update w.fds f (some (Desc.file path false)) } : World).emit
      (Event.openFile path false (some f))).dup2 f 0).close f), ?_, ?_, ?_, ?_⟩
  · simp only [redirectInput, h, World.openFile, ho]
  · simp [World.close, World.dup2, World.emit, Shell.dup2, Function.update, h0]
  · simp [World.close, World.dup2, World.emit, Shell.dup2, Function.update, h1]
  · simp [World.close, World.dup2, World.emit]

theorem redirectOutput_ok (w : World) (cmd : Command) (path : CStr) (f : Nat)
    (rest : List (Option Nat)) (h : cmd.output_file = some path)
    (ho : w.os.opens = some f :: rest) (hf : 2 ≤ f) :
    ∃ w1, redirectOutput w cmd = (w1, none) ∧ w1.fds 1 = some (Desc.file path true) ∧
      w1.fds 0 = w.fds 0 ∧ w1.os.opens = rest := by
  have h0 : (0 : Nat) ≠ f := by omega
  have h1 : (1 : Nat) ≠ f := by omega
  refine ⟨(((({ w with os := { w.os with opens := rest },
                         fds := Function.update w.fds f (some (Desc.file path true)) } : World).emit
      (Event.openFile path true (some f))).dup2 f 1).close f), ?_, ?_, ?_, ?_⟩
  · simp only [redirectOutput, h, World.openFile, ho]
  · simp [World.close, World.dup2, World.emit, Shell.dup2, Function.update, h1]
  · simp [World.close, World.dup2, World.emit, Shell.dup2, Function.update, h0]
  · simp [World.close, World.dup2, World.emit]

theorem wirePipes_fds (w : World) (i k : Nat) (pipes : List (Nat × Nat))
    (hi : i < k) (hk : pipes.length = k - 1)
    (h0 : w.fds 0 = some (Desc.shell 0)) (h1 : w.fds 1 = some (Desc.shell 1))
    (hp : ∀ j (hj : j < pipes.length), w.fds pipes[j].1 = some (Desc.pipeRead j) ∧
      w.fds pipes[j].2 = some (Desc.pipeWrite j)) :
    (wirePipes w i k pipes).fds 0 =
      (if 0 < i then some (Desc.pipeRead (i - 1)) else some (Desc.shell 0)) ∧
    (wirePipes w i k pipes).fds 1 =
      (if i < k - 1 then some (Desc.pipeWrite i) else some (Desc.shell 1)) ∧
    (wirePipes w i k pipes).os = w.os := by
  have hr : 0 < i → w.fds (pipes.getD (i - 1) (0, 0)).1 = some (Desc.pipeRead (i - 1)) := by
    intro hi0
    have hj : i - 1 < pipes.length := by omega
    rw [List.getD_eq_getElem _ _ hj]
    exact (hp (i - 1) hj).1
  have hw : i < k - 1 → w.fds (pipes.getD i (0, 0)).2 = some (Desc.pipeWrite i) ∧
      (pipes.getD i (0, 0)).2 ≠ 0 := by
    intro hi1
    have hj : i < pipes.length := by omega
    rw [List.getD_eq_getElem _ _ hj]
    refine ⟨(hp i hj).2, ?_⟩
    intro hz
    have := (hp i hj).2
    rw [hz, h0] at this
    cases this
  unfold wirePipes
  generalize (pipes.getD (i - 1) (0, 0)).1 = pr at hr
  generalize (pipes.getD i (0, 0)).2 = pw at hw
  by_cases hi0 : 0 < i
  · by_cases hi1 : i < k - 1
    · obtain ⟨hw1, hw2⟩ := hw hi1
      have hw3 : Function.update w.fds 0 (some (Desc.pipeRead (i - 1))) pw =
          some (Desc.pipeWrite i) := by
        rw [Function.update_apply, if_neg hw2, hw1]
      simp [hi0, hi1, World.dup2, World.emit, Shell.dup2, hr hi0, hw3]
    · simp [hi0, hi1, World.dup2, World.emit, Shell.dup2, hr hi0, h1]
  · by_cases hi1 : i < k - 1
    · obtain ⟨hw1, hw2⟩ := hw hi1
      simp [hi0, hi1, World.dup2, World.emit, Shell.dup2, hw1, h0]
    · simp [hi0, hi1, h0, h1]

theorem redirect_both (w : World) (cmd : Command) (fs : List Nat) (rest : List (Option Nat))
    (ho : w.os.opens = fs.map some ++ rest)
    (hfs : fs.length = cmd.input_file.toList.length + cmd.output_file.toList.length)
    (hge : ∀ f ∈ fs, 2 ≤ f) :
    ∃ w3 w4, redirectInput w cmd = (w3, none) ∧ redirectOutput w3 cmd = (w4, none) ∧
      w4.fds 0 = (match cmd.input_file with
        | some path => some (Desc.file path false)
        | none => w.fds 0) ∧
      w4.fds 1 = (match cmd.output_file with
        | some path => some (Desc.file path true)
        | none => w.fds 1) := by
  cases hin : cmd.input_file with
  | none =>
    cases hout : cmd.output_file with
    | none =>
      exact ⟨w, w, redirectInput_none w cmd hin, redirectOutput_none w cmd hout, rfl, rfl⟩
    | some q =>
      simp only [hin, hout, Option.toList_none, Option.toList_some, List.length_nil,
        List.length_singleton, Nat.zero_add] at hfs
      obtain ⟨f, rfl⟩ := List.length_eq_one.mp hfs
      obtain ⟨w4, e4, a1, a0, _⟩ := redirectOutput_ok w cmd q f rest hout
        (by simpa using ho) (hge f (by simp))
      exact ⟨w, w4, redirectInput_none w cmd hin, e4, a0, a1⟩
  | some p =>
    cases hout : cmd.output_file with
    | none =>
      simp only [hin, hout, Option.toList_none, Option.toList_some, List.length_nil,
        List.length_singleton, Nat.add_zero] at hfs
      obtain ⟨f, rfl⟩ := List.length_eq_one.mp hfs
      obtain ⟨w3, e3, a0, a1, _⟩ := redirectInput_ok w cmd p f rest hin
        (by simpa using ho) (hge f (by simp))
      exact ⟨w3, w3, e3, redirectOutput_none w3 cmd hout, a0, a1⟩
    | some q =>
      simp only [hin, hout, Option.toList_some, List.length_singleton] at hfs
      obtain ⟨f1, f2, rfl⟩ := List.length_eq_two.mp hfs
      obtain ⟨w3, e3, a0, a1, o3⟩ := redirectInput_ok w cmd p f1 (some f2 :: rest) hin
        (by simpa using ho) (hge f1 (by simp))
      obtain ⟨w4, e4, b1, b0, _⟩ := redirectOutput_ok w3 cmd q f2 rest hout o3
        (hge f2 (by simp))
      exact ⟨w3, w4, e3, e4, by rw [b0, a0], b1⟩

/-! ## C6: the standard descriptors of a child after the wiring -/

/-- C6: in child `i` of a `k`-stage pipeline whose descriptor table holds the
interpreter's descriptors 0 and 1 and the `k - 1` pipes, when the `open` calls
for its redirections succeed (with descriptors other than 0 and 1, which are
in use), the wiring ends without `_exit`, and afterwards descriptor 0 is the
input file if the command has one, else the read end of pipe `i - 1` if
`i > 0`, else the interpreter's standard input; descriptor 1 is the output
file if the command has one, else the write end of pipe `i` if `i < k - 1`,
else the interpreter's standard output; and both descriptors of every pipe
are closed. -/
theorem C6_child_wiring (w : World) (i k : Nat) (pipes : List (Nat × Nat)) (cmd : Command)
    (fs : List Nat) (rest : List (Option Nat)) (hi : i < k) (hk : pipes.length = k - 1)
    (h0 : w.fds 0 = some (Desc.shell 0)) (h1 : w.fds 1 = some (Desc.shell 1))
    (hp : ∀ j (hj : j < pipes.length), w.fds pipes[j].1 = some (Desc.pipeRead j) ∧
      w.fds pipes[j].2 = some (Desc.pipeWrite j))
    (ho : w.os.opens = fs.map some ++ rest)
    (hfs : fs.length = cmd.input_file.toList.length + cmd.output_file.toList.length)
    (hge : ∀ f ∈ fs, 2 ≤ f) :
    (childWire w i k pipes cmd).2 = none ∧
    (childWire w i k pipes cmd).1.fds 0 = (match cmd.input_file with
      | some path => some (Desc.file path false)
      | none => if 0 < i then some (Desc.pipeRead (i - 1)) else some (Desc.shell 0)) ∧
    (childWire w i k pipes cmd).1.fds 1 = (match cmd.output_file with
      | some path => some (Desc.file path true)
      | none => if i < k - 1 then some (Desc.pipeWrite i) else some (Desc.shell 1)) ∧
    (∀ p ∈ pipes, (childWire w i k pipes cmd).1.fds p.1 = none ∧
      (childWire w i k pipes cmd).1.fds p.2 = none) := by
  obtain ⟨a0, a1, aos⟩ := wirePipes_fds w i k pipes hi hk h0 h1 hp
  obtain ⟨w3, w4, e3, e4, b0, b1⟩ := redirect_both (wirePipes w i k pipes) cmd fs rest
    (by rw [aos]; exact ho) hfs hge
  have hcw : childWire w i k pipes cmd = (closePipes w4 pipes, none) := by
    simp only [childWire, e3, e4]
  have hne : ∀ p ∈ pipes, (0 ≠ p.1 ∧ 0 ≠ p.2) ∧ (1 ≠ p.1 ∧ 1 ≠ p.2) := by
    intro p hpm
    obtain ⟨j, hj, rfl⟩ := List.getElem_of_mem hpm
    obtain ⟨hr, hw⟩ := hp j hj
    refine ⟨⟨?_, ?_⟩, ⟨?_, ?_⟩⟩ <;> intro hz
    · rw [← hz, h0] at hr; cases hr
    · rw [← hz, h0] at hw; cases hw
    · rw [← hz, h1] at hr; cases hr
    · rw [← hz, h1] at hw; cases hw
  have hc0 : isPipeFd pipes 0 = false := isPipeFd_false pipes 0 (fun p hpm => (hne p hpm).1)
  have hc1 : isPipeFd pipes 1 = false := isPipeFd_false pipes 1 (fun p hpm => (hne p hpm).2)
  rw [hcw, closePipes_ok]
  refine ⟨rfl, ?_, ?_, ?_⟩
  · simp only [closeFds_apply, hc0, Bool.false_eq_true, if_false, b0]
    cases cmd.input_file with
    | none => exact a0
    | some path => rfl
  · simp only [closeFds_apply, hc1, Bool.false_eq_true, if_false, b1]
    cases cmd.output_file with
    | none => exact a1
    | some path => rfl
  · intro p hpm
    have t1 : isPipeFd pipes p.1 = true := by
      simp only [isPipeFd, List.any_eq_true, Bool.or_eq_true, decide_eq_true_eq]
      exact ⟨p, hpm, Or.inl rfl⟩
    have t2 : isPipeFd pipes p.2 = true := by
      simp only [isPipeFd, List.any_eq_true, Bool.or_eq_true, decide_eq_true_eq]
      exact ⟨p, hpm, Or.inr rfl⟩
    simp only [closeFds_apply, t1, t2, if_true, and_self]

/-- C6, at child 1 of `a | b < in > out | c` (pipes on descriptors 3, 4 and
5, 6, both files opened on descriptor 7): descriptor 0 is the file `in`,
descriptor 1 the file `out`, descriptors 3 to 6 are closed. -/
theorem C6_child_wiring_witness :
    childWorld.fds 0 = some (Desc.shell 0) ∧ childWorld.fds 3 = some (Desc.pipeRead 0) ∧
    childWorld.os.opens = [some 7, some 7] ∧
    (childWire childWorld 1 3 [(3, 4), (5, 6)]
      ⟨[['b']], some ['i', 'n'], some ['o', 'u', 't']⟩).1.fds 0 =
        some (Desc.file ['i', 'n'] false) ∧
    (∀ p ∈ [((3 : Nat), (4 : Nat)), (5, 6)],
      (childWire childWorld 1 3 [(3, 4), (5, 6)]
        ⟨[['b']], some ['i', 'n'], some ['o', 'u', 't']⟩).1.fds p.1 = none ∧
      (childWire childWorld 1 3 [(3, 4), (5, 6)]
        ⟨[['b']], some ['i', 'n'], some ['o', 'u', 't']⟩).1.fds p.2 = none) := by
  have h := C6_child_wiring childWorld 1 3 [(3, 4), (5, 6)]
    ⟨[['b']], some ['i', 'n'], some ['o', 'u', 't']⟩ [7, 7] [] (by decide) (by decide)
    (by rfl) (by rfl)
    (by
      intro j hj
      have hj2 : j < 2 := hj
      interval_cases j <;> exact ⟨rfl, rfl⟩)
    (by rfl) (by rfl) (by decide)
  exact ⟨rfl, rfl, rfl, h.2.1, h.2.2.2⟩

/-! ## The child never replaces its program image: lemmas -/

theorem NoExecSince.refl (w : World) : NoExecSince w w := ⟨[], by simp, by simp⟩

theorem NoExecSince.trans {w1 w2 w3 : World} (h1 : NoExecSince w1 w2) (h2 : NoExecSince w2 w3) :
    NoExecSince w1 w3 := by
  obtain ⟨e1, t1, n1⟩ := h1
  obtain ⟨e2, t2, n2⟩ := h2
  refine ⟨e1 ++ e2, by rw [t2, t1, List.append_assoc], ?_⟩
  intro e he
  rcases List.mem_append.mp he with h | h
  · exact n1 e h
  · exact n2 e h

theorem NoExecSince.emit (w : World) (e : Event) (h : isExec e = false) :
    NoExecSince w (w.emit e) := ⟨[e], rfl, by simpa using h⟩

theorem noExec_dup2 (w : World) (a b : Nat) : NoExecSince w (w.dup2 a b) :=
  ⟨[Event.dup2 a b], rfl, by simp [isExec]⟩

theorem noExec_close (w : World) (a : Nat) : NoExecSince w (w.close a) :=
  ⟨[Event.close a], rfl, by simp [isExec]⟩

theorem noExec_openFile (w : World) (path : CStr) (b : Bool) :
    NoExecSince w (w.openFile path b).1 := by
  unfold World.openFile
  split
  · exact ⟨[_], rfl, by simp [isExec]⟩
  · exact ⟨[_], rfl, by simp [isExec]⟩
  · exact ⟨[_], rfl, by simp [isExec]⟩

theorem noExec_closePipes (ps : List (Nat × Nat)) : ∀ w : World,
    NoExecSince w (closePipes w ps) := by
  induction ps with
  | nil => intro w; exact NoExecSince.refl w
  | cons p ps ih =>
    intro w
    have h := ih ((w.close p.1).close p.2)
    simp only [closePipes, List.foldl_cons] at h ⊢
    exact ((noExec_close w p.1).trans (noExec_close _ p.2)).trans h

theorem noExec_wirePipes (w : World) (i k : Nat) (pipes : List (Nat × Nat)) :
    NoExecSince w (wirePipes w i k pipes) := by
  unfold wirePipes
  by_cases h1 : i > 0 <;> by_cases h2 : i < k - 1 <;> simp only [h1, h2, if_true, if_false]
  · exact (noExec_dup2 w _ _).trans (noExec_dup2 _ _ _)
  · exact noExec_dup2 w _ _
  · exact noExec_dup2 w _ _
  · exact NoExecSince.refl w

theorem noExec_redirectInput (w : World) (cmd : Command) :
    NoExecSince w (redirectInput w cmd).1 ∧
    ∀ c, (redirectInput w cmd).2 = some c → c = 127 := by
  unfold redirectInput
  cases cmd.input_file with
  | none => exact ⟨NoExecSince.refl w, by simp⟩
  | some path =>
    have ho := noExec_openFile w path false
    simp only
    rcases hr : w.openFile path false with ⟨w1, _ | file⟩
    · rw [hr] at ho
      exact ⟨ho.trans (NoExecSince.emit _ _ rfl), by simp⟩
    · rw [hr] at ho
      exact ⟨(ho.trans (noExec_dup2 _ _ _)).trans (noExec_close _ _), by simp⟩

theorem noExec_redirectOutput (w : World) (cmd : Command) :
    NoExecSince w (redirectOutput w cmd).1 ∧
    ∀ c, (redirectOutput w cmd).2 = some c → c = 127 := by
  unfold redirectOutput
  cases cmd.output_file with
  | none => exact ⟨NoExecSince.refl w, by simp⟩
  | some path =>
    have ho := noExec_openFile w path true
    simp only
    rcases hr : w.openFile path true with ⟨w1, _ | file⟩
    · rw [hr] at ho
      exact ⟨ho.trans (NoExecSince.emit _ _ rfl), by simp⟩
    · rw [hr] at ho
      exact ⟨(ho.trans (noExec_dup2 _ _ _)).trans (noExec_close _ _), by simp⟩

theorem noExec_childWire (w : World) (i k : Nat) (pipes : List (Nat × Nat)) (cmd : Command) :
    NoExecSince w (childWire w i k pipes cmd).1 ∧
    ∀ c, (childWire w i k pipes cmd).2 = some c → c = 127 := by
  have h1 := noExec_wirePipes w i k pipes
  obtain ⟨h2, c2⟩ := noExec_redirectInput (wirePipes w i k pipes) cmd
  rcases hr : redirectInput (wirePipes w i k pipes) cmd with ⟨w3, _ | code⟩
  · rw [hr] at h2 c2
    obtain ⟨h3, c3⟩ := noExec_redirectOutput w3 cmd
    rcases hr4 : redirectOutput w3 cmd with ⟨w4, _ | code⟩
    · rw [hr4] at h3 c3
      have e : childWire w i k pipes cmd = (closePipes w4 pipes, none) := by
        simp only [childWire, hr, hr4]
      rw [e]
      exact ⟨(h1.trans h2).trans (h3.trans (noExec_closePipes pipes w4)), by simp⟩
    · rw [hr4] at h3 c3
      have e : childWire w i k pipes cmd = (w4, some code) := by
        simp only [childWire, hr, hr4]
      rw [e]
      exact ⟨(h1.trans h2).trans h3, fun c hc => c3 c hc⟩
  · rw [hr] at h2 c2
    have e : childWire w i k pipes cmd = (w3, some code) := by
      simp only [childWire, hr]
    rw [e]
    exact ⟨h1.trans h2, fun c hc => c2 c hc⟩

/-! ## C7: what a forked child does after the wiring -/

/-- C7 (the code in every child): whatever the state, the stage and the
command, also when `argv` is not empty and no file has to be opened, the
child branch ends in `_exit(127)` and its trace contains no call that replaces
the program image; for the command `ls` alone the child only prints
`ls: command not found`. -/
theorem C7_child_exits_127_without_exec (w : World) (i count : Nat) (pipes : List (Nat × Nat))
    (cmd : Command) (pgid : Int) :
    (childBody w i count pipes cmd pgid).2 = Outcome.exit 127 ∧
    NoExecSince w (childBody w i count pipes cmd pgid).1 ∧
    (childBody (initWorld (osExitCode 0)) 0 1 [] ⟨[['l', 's']], none, none⟩ 0).1.trace =
      [Event.setpgid 0 0, Event.signalDefault Sig.SIGINT, Event.signalDefault Sig.SIGTSTP,
        Event.err (Msg.commandNotFound ['l', 's'])] := by
  refine ⟨?_, ?_, rfl⟩
  · unfold childBody
    simp only
    obtain ⟨_, hc⟩ := noExec_childWire
      (((w.emit (Event.setpgid 0 (if i = 0 then 0 else pgid))).emit
        (Event.signalDefault Sig.SIGINT)).emit (Event.signalDefault Sig.SIGTSTP)) i count pipes cmd
    rcases hr : childWire (((w.emit (Event.setpgid 0 (if i = 0 then 0 else pgid))).emit
        (Event.signalDefault Sig.SIGINT)).emit (Event.signalDefault Sig.SIGTSTP)) i count pipes
        cmd with ⟨w2, _ | code⟩
    · simp only
      cases cmd.argv <;> rfl
    · rw [hr] at hc
      simp only [hc code rfl]
  · unfold childBody
    simp only
    have hpre : NoExecSince w (((w.emit (Event.setpgid 0 (if i = 0 then 0 else pgid))).emit
        (Event.signalDefault Sig.SIGINT)).emit (Event.signalDefault Sig.SIGTSTP)) :=
      ((NoExecSince.emit w (Event.setpgid 0 (if i = 0 then 0 else pgid)) rfl).trans
        (NoExecSince.emit _ (Event.signalDefault Sig.SIGINT) rfl)).trans
        (NoExecSince.emit _ (Event.signalDefault Sig.SIGTSTP) rfl)
    obtain ⟨hw, _⟩ := noExec_childWire
      (((w.emit (Event.setpgid 0 (if i = 0 then 0 else pgid))).emit
        (Event.signalDefault Sig.SIGINT)).emit (Event.signalDefault Sig.SIGTSTP)) i count pipes cmd
    rcases hr : childWire (((w.emit (Event.setpgid 0 (if i = 0 then 0 else pgid))).emit
        (Event.signalDefault Sig.SIGINT)).emit (Event.signalDefault Sig.SIGTSTP)) i count pipes
        cmd with ⟨w2, _ | code⟩
    · rw [hr] at hw
      simp only
      cases cmd.argv with
      | nil => exact (hpre.trans hw).trans (NoExecSince.emit _ _ rfl)
      | cons name rest => exact (hpre.trans hw).trans (NoExecSince.emit _ _ rfl)
    · rw [hr] at hw
      exact hpre.trans hw

/-! ## The segment loop follows the short-circuit rule on lines without a trailing `&` -/

theorem nextStart_runsAfter (toks : List CStr) (b : Nat) (S : Int) :
    nextStart (toks.map some) b S = some (match toks[b]? with
      | none => b + 1
      | some t => if runsAfter (some t) S = true then b + 1 else closingBoundary toks (b + 1)) := by
  unfold nextStart
  by_cases hlt : b < toks.length
  · simp only [List.length_map, hlt, if_true, tokAt_map, List.getElem?_eq_getElem hlt,
      scanBoundary_drop, runsAfter]
    by_cases h1 : toks[b] = [';']
    · simp [h1]
    · by_cases h2 : toks[b] = ['&', '&']
      · by_cases h3 : S = 0 <;> simp [h2, h3]
      · by_cases h4 : toks[b] = ['|', '|']
        · by_cases h3 : S = 0 <;> simp [h4, h3]
        · simp [h1, h2, h4]
  · simp only [List.length_map, hlt, if_false]
    rw [List.getElem?_eq_none (by omega)]

theorem segmentLoop_step {σ : Type} (exec : σ → ExecCall → σ × Int) (toks : List CStr)
    (hno : ∀ j, toks[j]? = some ['&'] → ∃ t, toks[j + 1]? = some t ∧ isBoundary t = false)
    (f i : Nat) (S : Int) (st : σ) (hi : i < toks.length) :
    segmentLoop (retExec exec) (f + 1) (toks.map some) i S st =
      if i < closingBoundary toks i then
        match nextStart (toks.map some) (closingBoundary toks i)
            (exec st ⟨i, closingBoundary toks i, 0⟩).2 with
        | none => ⟨[⟨i, closingBoundary toks i, 0⟩], (exec st ⟨i, closingBoundary toks i, 0⟩).1,
            (exec st ⟨i, closingBoundary toks i, 0⟩).2, LoopEnd.fault⟩
        | some i1 =>
          (segmentLoop (retExec exec) f (toks.map some) i1
            (exec st ⟨i, closingBoundary toks i, 0⟩).2
            (exec st ⟨i, closingBoundary toks i, 0⟩).1).addCalls
              [⟨i, closingBoundary toks i, 0⟩]
      else
        match nextStart (toks.map some) (closingBoundary toks i) S with
        | none => ⟨[], st, S, LoopEnd.fault⟩
        | some i1 => (segmentLoop (retExec exec) f (toks.map some) i1 S st).addCalls [] := by
  have hle := closingBoundary_le toks i (by omega)
  have e : (if closingBoundary toks i > i then
      (tokAt (toks.map some) (closingBoundary toks i - 1)).map
        (fun t => decide (t = ['&'])) else some false) = some false := by
    by_cases hgt : closingBoundary toks i > i
    · have hlt : closingBoundary toks i - 1 < toks.length := by omega
      have hne : toks[closingBoundary toks i - 1]? ≠ some ['&'] := by
        intro h
        obtain ⟨t, ht, hb⟩ := hno _ h
        have hsub : closingBoundary toks i - 1 + 1 = closingBoundary toks i := by omega
        rw [hsub] at ht
        have hlt2 : closingBoundary toks i < toks.length := by
          rcases Nat.lt_or_ge (closingBoundary toks i) toks.length with h1 | h1
          · exact h1
          · rw [List.getElem?_eq_none h1] at ht; cases ht
        obtain ⟨t2, ht2, hb2⟩ := closingBoundary_stop toks i hlt2
        rw [ht] at ht2
        cases ht2
        rw [hb] at hb2
        cases hb2
      simp only [hgt, if_true, tokAt_map]
      rw [List.getElem?_eq_getElem hlt] at hne ⊢
      simp only [Option.map_some', Option.some.injEq, decide_eq_false_iff_not]
      exact fun h => hne (by rw [h])
    · simp [hgt]
  rw [segmentLoop]
  simp only [List.length_map, hi, if_true, scanBoundary_drop, e, Bool.false_eq_true, if_false]
  by_cases hgt : i < closingBoundary toks i
  · simp only [gt_iff_lt, hgt, if_true, retExec]
  · simp only [gt_iff_lt, hgt, if_false]

theorem segmentLoop_end {σ : Type} (exec : σ → List (Option CStr) → ExecCall → σ × Outcome)
    (tokens : List (Option CStr)) (f i : Nat) (S : Int) (st : σ) (hi : tokens.length ≤ i) :
    segmentLoop exec (f + 1) tokens i S st = ⟨[], st, S, LoopEnd.done⟩ := by
  rw [segmentLoop]
  simp [Nat.not_lt.mpr hi]

theorem specRun_at_boundary {σ : Type} (exec : σ → ExecCall → σ × Int) (toks : List CStr)
    (g b : Nat) (op : Option CStr) (S : Int) (st : σ) (hb : closingBoundary toks b = b) :
    specRun exec toks (g + 1) b op S st =
      match toks[b]? with
      | none => ([], st, S)
      | some t => specRun exec toks g (b + 1) (some t) S st := by
  rw [specRun]
  simp [hb]

theorem specRun_skip {σ : Type} (exec : σ → ExecCall → σ × Int) (toks : List CStr)
    (g i : Nat) (op : Option CStr) (S : Int) (st : σ) (hr : ¬ runsAfter op S = true) :
    specRun exec toks (g + 1) i op S st =
      specRun exec toks (g + 1) (closingBoundary toks i) op S st := by
  rw [specRun_at_boundary exec toks g _ op S st (closingBoundary_idem toks i), specRun]
  simp [hr]

theorem segmentLoop_cont {σ : Type} (exec : σ → ExecCall → σ × Int) (toks : List CStr)
    (f g i : Nat)
    (ih : ∀ (i : Nat) (op : Option CStr) (S : Int) (st : σ) (fS : Nat),
      toks.length + 1 ≤ i + f → 1 ≤ f → toks.length + 1 ≤ i + fS → 1 ≤ fS →
      (runsAfter op S = true ∨ closingBoundary toks i = i) →
      (segmentLoop (retExec exec) f (toks.map some) i S st).finish = LoopEnd.done ∧
      (segmentLoop (retExec exec) f (toks.map some) i S st).calls =
        (specRun exec toks fS i op S st).1 ∧
      (segmentLoop (retExec exec) f (toks.map some) i S st).st =
        (specRun exec toks fS i op S st).2.1 ∧
      (segmentLoop (retExec exec) f (toks.map some) i S st).last =
        (specRun exec toks fS i op S st).2.2)
    (hi : i < toks.length) (hf : toks.length ≤ i + f) (hg : toks.length ≤ i + g)
    (b : Nat) (S1 : Int) (st1 : σ) (cs : List ExecCall) (hib : i ≤ b) :
    ∀ R : LoopResult σ, R = (match nextStart (toks.map some) b S1 with
        | none => ⟨cs, st1, S1, LoopEnd.fault⟩
        | some i1 => (segmentLoop (retExec exec) f (toks.map some) i1 S1 st1).addCalls cs) →
    ∀ Q : List ExecCall × σ × Int, Q = (match toks[b]? with
        | none => ([], st1, S1)
        | some t => specRun exec toks g (b + 1) (some t) S1 st1) →
    R.finish = LoopEnd.done ∧ R.calls = cs ++ Q.1 ∧ R.st = Q.2.1 ∧ R.last = Q.2.2 := by
  intro R hR Q hQ
  rw [nextStart_runsAfter] at hR
  simp only at hR
  have hf1 : 1 ≤ f := by omega
  cases htb : toks[b]? with
  | none =>
    rw [htb] at hR hQ
    simp only at hR hQ
    have hbn : toks.length ≤ b := by
      rcases Nat.lt_or_ge b toks.length with h | h
      · rw [List.getElem?_eq_getElem h] at htb; cases htb
      · exact h
    obtain ⟨f2, rfl⟩ : ∃ f2, f = f2 + 1 := ⟨f - 1, by omega⟩
    rw [segmentLoop_end _ _ f2 (b + 1) S1 st1 (by simp; omega)] at hR
    subst hR hQ
    simp [LoopResult.addCalls]
  | some t =>
    rw [htb] at hR hQ
    simp only at hR hQ
    have hbn : b < toks.length := by
      rcases Nat.lt_or_ge b toks.length with h | h
      · exact h
      · rw [List.getElem?_eq_none h] at htb; cases htb
    have hg1 : 1 ≤ g := by omega
    by_cases hr : runsAfter (some t) S1 = true
    · rw [if_pos hr] at hR
      obtain ⟨h1, h2, h3, h4⟩ := ih (b + 1) (some t) S1 st1 g (by omega) hf1 (by omega) hg1
        (Or.inl hr)
      subst hR hQ
      simp only [LoopResult.addCalls]
      exact ⟨h1, by rw [h2], h3, h4⟩
    · rw [if_neg hr] at hR
      obtain ⟨g2, rfl⟩ : ∃ g2, g = g2 + 1 := ⟨g - 1, by omega⟩
      have hge := closingBoundary_ge toks (b + 1)
      obtain ⟨h1, h2, h3, h4⟩ := ih (closingBoundary toks (b + 1)) (some t) S1 st1 (g2 + 1)
        (by omega) hf1 (by omega) hg1 (Or.inr (closingBoundary_idem toks (b + 1)))
      rw [← specRun_skip exec toks g2 (b + 1) (some t) S1 st1 hr] at h2 h3 h4
      subst hR hQ
      simp only [LoopResult.addCalls]
      exact ⟨h1, by rw [h2], h3, h4⟩

theorem segmentLoop_spec {σ : Type} (exec : σ → ExecCall → σ × Int) (toks : List CStr)
    (hno : ∀ j, toks[j]? = some ['&'] → ∃ t, toks[j + 1]? = some t ∧ isBoundary t = false) :
    ∀ (fC i : Nat) (op : Option CStr) (S : Int) (st : σ) (fS : Nat),
    toks.length + 1 ≤ i + fC → 1 ≤ fC → toks.length + 1 ≤ i + fS → 1 ≤ fS →
    (runsAfter op S = true ∨ closingBoundary toks i = i) →
    (segmentLoop (retExec exec) fC (toks.map some) i S st).finish = LoopEnd.done ∧
    (segmentLoop (retExec exec) fC (toks.map some) i S st).calls =
      (specRun exec toks fS i op S st).1 ∧
    (segmentLoop (retExec exec) fC (toks.map some) i S st).st =
      (specRun exec toks fS i op S st).2.1 ∧
    (segmentLoop (retExec exec) fC (toks.map some) i S st).last =
      (specRun exec toks fS i op S st).2.2 := by
  intro fC
  induction fC with
  | zero => intro i op S st fS _ h; omega
  | succ f ih =>
    intro i op S st fS hfC _ hfS hfS1 hrun
    obtain ⟨g, rfl⟩ : ∃ g, fS = g + 1 := ⟨fS - 1, by omega⟩
    by_cases hi : i < toks.length
    · rw [segmentLoop_step exec toks hno f i S st hi]
      have hge := closingBoundary_ge toks i
      by_cases hgt : i < closingBoundary toks i
      · have hr : runsAfter op S = true := by
          rcases hrun with h | h
          · exact h
          · omega
        simp only [hgt, if_true]
        have hspec : specRun exec toks (g + 1) i op S st =
            (⟨i, closingBoundary toks i, 0⟩ :: (match toks[closingBoundary toks i]? with
              | none => ([], (exec st ⟨i, closingBoundary toks i, 0⟩).1,
                  (exec st ⟨i, closingBoundary toks i, 0⟩).2)
              | some t => specRun exec toks g (closingBoundary toks i + 1) (some t)
                  (exec st ⟨i, closingBoundary toks i, 0⟩).2
                  (exec st ⟨i, closingBoundary toks i, 0⟩).1).1,
             (match toks[closingBoundary toks i]? with
              | none => ([], (exec st ⟨i, closingBoundary toks i, 0⟩).1,
                  (exec st ⟨i, closingBoundary toks i, 0⟩).2)
              | some t => specRun exec toks g (closingBoundary toks i + 1) (some t)
                  (exec st ⟨i, closingBoundary toks i, 0⟩).2
                  (exec st ⟨i, closingBoundary toks i, 0⟩).1).2) := by
          rw [specRun]
          simp only [hr, hgt, and_self, if_true]
          cases toks[closingBoundary toks i]? <;> rfl
        rw [hspec]
        exact segmentLoop_cont exec toks f g i ih hi (by omega) (by omega)
          (closingBoundary toks i) _ _ [⟨i, closingBoundary toks i, 0⟩] hge _ rfl _ rfl
      · have hb : closingBoundary toks i = i := by omega
        simp only [hgt, if_false]
        rw [specRun_at_boundary exec toks g i op S st hb]
        have h := segmentLoop_cont exec toks f g i ih hi (by omega) (by omega)
          (closingBoundary toks i) S st [] hge _ rfl _ rfl
        rw [hb] at h ⊢
        simpa using h
    · rw [segmentLoop_end _ _ f i S st (by simp; omega),
        specRun_at_boundary exec toks g i op S st (closingBoundary_of_ge toks i (by omega)),
        List.getElem?_eq_none (by omega)]
      exact ⟨rfl, rfl, rfl, rfl⟩

/-- The segment loop on a token list in which no `&` stands immediately before
a boundary or at the end of the line, with an `execute` that returns: the loop
runs to completion, and its calls of `execute`, final state and final status
are those of the short-circuit rule `specRun` (first segment executed, after
`;` always, after `&&` iff the last status is 0, after `||` iff it is not 0,
skipped segments are not passed to `execute` and leave the status as it is). -/
theorem short_circuit_rule {σ : Type} (exec : σ → ExecCall → σ × Int) (toks : List CStr)
    (st : σ)
    (hno : ∀ j, toks[j]? = some ['&'] → ∃ t, toks[j + 1]? = some t ∧ isBoundary t = false) :
    (mainSegments (retExec exec) toks st).finish = LoopEnd.done ∧
    (mainSegments (retExec exec) toks st).calls =
      (specRun exec toks (toks.length + 1) 0 none 0 st).1 ∧
    (mainSegments (retExec exec) toks st).st =
      (specRun exec toks (toks.length + 1) 0 none 0 st).2.1 ∧
    (mainSegments (retExec exec) toks st).last =
      (specRun exec toks (toks.length + 1) 0 none 0 st).2.2 :=
  segmentLoop_spec exec toks hno (toks.length + 1) 0 none 0 st (toks.length + 1)
    (by omega) (by omega) (by omega) (by omega) (Or.inl rfl)

/-! ## The descriptor table the children inherit -/

theorem pipeFds_other (ps : List (Nat × Nat)) : ∀ (j0 : Nat) (fds : Nat → Option Desc) (fd : Nat),
    isPipeFd ps fd = false → pipeFds j0 ps fds fd = fds fd := by
  induction ps with
  | nil => intro j0 fds fd _; rfl
  | cons p ps ih =>
    intro j0 fds fd h
    obtain ⟨r, wr⟩ := p
    simp only [isPipeFd, List.any_cons, Bool.or_eq_false_iff, decide_eq_false_iff_not] at h
    obtain ⟨⟨h1, h2⟩, h3⟩ := h
    simp only [pipeFds]
    rw [ih (j0 + 1) _ fd h3, Function.update_apply, if_neg h2, Function.update_apply, if_neg h1]

/-- When `pipe` returns pairwise different descriptors, the table built by the
pipe loop holds at `pipes[j][0]` the read end and at `pipes[j][1]` the write
end of pipe `j`: the table every child of the fork loop starts with. -/
theorem pipeFds_inherited (ps : List (Nat × Nat)) : ∀ (j0 : Nat) (fds : Nat → Option Desc),
    (ps.flatMap (fun p => [p.1, p.2])).Nodup →
    ∀ j (hj : j < ps.length),
      pipeFds j0 ps fds ps[j].1 = some (Desc.pipeRead (j0 + j)) ∧
      pipeFds j0 ps fds ps[j].2 = some (Desc.pipeWrite (j0 + j)) := by
  induction ps with
  | nil => intro j0 fds _ j hj; simp at hj
  | cons p ps ih =>
    intro j0 fds hnd j hj
    obtain ⟨r, wr⟩ := p
    simp only [List.flatMap_cons, List.cons_append, List.nil_append, List.nodup_cons,
      List.mem_cons, not_or] at hnd
    obtain ⟨⟨hrw, hr⟩, hw, hnd2⟩ := hnd
    have hnot : ∀ fd, fd ∉ ps.flatMap (fun p => [p.1, p.2]) → isPipeFd ps fd = false := by
      intro fd hfd
      apply isPipeFd_false
      intro q hq
      constructor
      · intro h; exact hfd (List.mem_flatMap.mpr ⟨q, hq, by simp [h]⟩)
      · intro h; exact hfd (List.mem_flatMap.mpr ⟨q, hq, by simp [h]⟩)
    cases j with
    | zero =>
      simp only [List.getElem_cons_zero, pipeFds, Nat.add_zero]
      rw [pipeFds_other ps _ _ r (hnot r hr), pipeFds_other ps _ _ wr (hnot wr hw)]
      simp [Function.update_apply, hrw]
    | succ j =>
      simp only [List.getElem_cons_succ, pipeFds]
      have := ih (j0 + 1) (Function.update (Function.update fds r (some (Desc.pipeRead j0))) wr
        (some (Desc.pipeWrite j0))) hnd2 j (by simpa using hj)
      rw [show j0 + (j + 1) = j0 + 1 + j by omega]
      exact this

/-! ## `fg` and `bg`: lemmas -/

theorem find_id_none (jobs : Fin MAX_JOBS → job_t) (id : Int) (h : ∀ i, (jobs i).id ≠ id) :
    find_id jobs id = none := by
  apply List.find?_eq_none.mpr
  intro i _
  simpa using h i

theorem find_id_some (jobs : Fin MAX_JOBS → job_t) (id : Int) (k : Fin MAX_JOBS)
    (h : find_id jobs id = some k) : (jobs k).id = id := by
  have := List.find?_some h
  simpa using this

theorem find_id_exists (jobs : Fin MAX_JOBS → job_t) (id : Int) (h : ∃ i, (jobs i).id = id) :
    ∃ k, find_id jobs id = some k := by
  cases hf : find_id jobs id with
  | some k => exact ⟨k, rfl⟩
  | none =>
    obtain ⟨i, hi⟩ := h
    have := List.find?_eq_none.mp hf i (List.mem_finRange i)
    simp [hi] at this

/-- For a text that denotes a number in the range of `int`, `atoi` is that number. -/
theorem atoi_in_range (s : CStr) (h1 : -2147483648 ≤ decimalValue s)
    (h2 : decimalValue s ≤ 2147483647) : atoi s = decimalValue s := by
  unfold atoi toInt toLong
  split_ifs <;> omega

/-- Beyond the range of `int` the value is reduced: `4294967297` gives 1, the
text of twenty digits 9 gives -1. -/
theorem atoi_beyond_int :
    atoi ['4', '2', '9', '4', '9', '6', '7', '2', '9', '7'] = 1 ∧
    atoi (List.replicate 20 '9') = -1 := by
  refine ⟨by decide, by decide⟩

/-- With a missing argument, or an argument whose value as `atoi` gives it is
not the `id` field of any slot, `fg` and `bg` return 1, print one diagnostic,
send no signal and leave the job table as it is. -/
theorem fg_bg_unknown_id (w : World) (argv : List CStr)
    (h : argv.get? 1 = none ∨ ∃ a, argv.get? 1 = some a ∧ ∀ i, (w.jobs i).id ≠ atoi a) :
    ((fg w argv).2 = 1 ∧ (fg w argv).1.jobs = w.jobs ∧
      ∃ m, (fg w argv).1.trace = w.trace ++ [Event.err m]) ∧
    ((bg w argv).2 = 1 ∧ (bg w argv).1.jobs = w.jobs ∧
      ∃ m, (bg w argv).1.trace = w.trace ++ [Event.err m]) := by
  rcases h with h | ⟨a, ha, hno⟩
  · have e1 : fg w argv = (w.emit (Event.err Msg.fgRequiresId), 1) := by simp only [fg, h]
    have e2 : bg w argv = (w.emit (Event.err Msg.bgRequiresId), 1) := by simp only [bg, h]
    rw [e1, e2]
    exact ⟨⟨rfl, rfl, _, rfl⟩, rfl, rfl, _, rfl⟩
  · have e1 : fg w argv = (w.emit (Event.err (Msg.fgNotFound (atoi a))), 1) := by
      simp only [fg, ha, find_id_none w.jobs (atoi a) hno]
    have e2 : bg w argv = (w.emit (Event.err (Msg.bgNotFound (atoi a))), 1) := by
      simp only [bg, ha, find_id_none w.jobs (atoi a) hno]
    rw [e1, e2]
    exact ⟨⟨rfl, rfl, _, rfl⟩, rfl, rfl, _, rfl⟩

/-! ## C11: `fg` and `bg` on an id that no live job has -/

/-- C11 (the code at `bg 0`, `fg x` and `fg 0` on the empty table): `find_id(0)`
yields the free slot 0, and the argument `x` parses to 0; `bg 0` returns 0
after sending the continue signal to process group 0; `fg x` returns 0 after
sending the same signal and one failed wait; `fg 0`, when its wait reports a
stop, leaves the status field of slot 0 changed to Stopped. -/
theorem C11_fg_bg_accept_id_zero :
    find_id (initWorld osNone).jobs 0 = some 0 ∧
    atoi ['x'] = 0 ∧
    (bg (initWorld osNone) [['b', 'g'], ['0']]).2 = 0 ∧
    (bg (initWorld osNone) [['b', 'g'], ['0']]).1.trace =
      [Event.kill 0 Sig.SIGCONT, Event.out (Msg.bgNotice 0 [])] ∧
    (fg (initWorld osNone) [['f', 'g'], ['x']]).2 = 0 ∧
    (fg (initWorld osNone) [['f', 'g'], ['x']]).1.trace =
      [Event.kill 0 Sig.SIGCONT, Event.waitpid 0 (-1)] ∧
    (fg (initWorld (osWait (WStatus.stopped 20))) [['f', 'g'], ['0']]).1.jobs 0 =
      ⟨0, 0, [], JOB_STOPPED⟩ := by
  refine ⟨by decide, by decide, by decide, by decide, by decide, by decide, by decide⟩

/-! ## C13: the frame of `bg` -/

/-- C13: for every job table and every argument that denotes the id of a
live job, `bg` returns 0; its only system call is one `kill` with `SIGCONT`
for the process group of that job (no wait: the oracle is not consumed), then
the notice is printed; the status of that job becomes Running and nothing else
changes: the other fields of the job, every other slot, `next_job_id`,
`job_count`, the history and the foreground marker stay as they were. -/
theorem C13_bg_frame (w : World) (argv : List CStr) (a : CStr)
    (ha : argv.get? 1 = some a) (hid : atoi a ≠ 0) (hlive : ∃ i, (w.jobs i).id = atoi a) :
    ∃ k, (w.jobs k).id = atoi a ∧ (w.jobs k).id ≠ 0 ∧
      (bg w argv).2 = 0 ∧
      (bg w argv).1.trace = w.trace ++
        [Event.kill (-(w.jobs k).pgid) Sig.SIGCONT,
         Event.out (Msg.bgNotice (w.jobs k).id (w.jobs k).cmdline)] ∧
      (bg w argv).1.jobs = Function.update w.jobs k
        ⟨(w.jobs k).id, (w.jobs k).pgid, (w.jobs k).cmdline, JOB_RUNNING⟩ ∧
      (bg w argv).1.next_job_id = w.next_job_id ∧
      (bg w argv).1.job_count = w.job_count ∧
      (bg w argv).1.fg_pgid = w.fg_pgid ∧
      (bg w argv).1.history = w.history ∧
      (bg w argv).1.history_length = w.history_length ∧
      (bg w argv).1.os = w.os := by
  obtain ⟨k, hk⟩ := find_id_exists w.jobs (atoi a) hlive
  have hidk := find_id_some w.jobs (atoi a) k hk
  refine ⟨k, hidk, by rw [hidk]; exact hid, ?_⟩
  simp only [bg, ha, hk, World.emit]
  simp

/-- C13, at the full table and the argument `3`: the job in slot 2. -/
theorem C13_bg_frame_witness :
    atoi ['3'] ≠ 0 ∧ (∃ i, ((fullWorld osNone).jobs i).id = atoi ['3']) ∧
    ∃ k, ((fullWorld osNone).jobs k).id = 3 ∧
      (bg (fullWorld osNone) [['b', 'g'], ['3']]).2 = 0 ∧
      (bg (fullWorld osNone) [['b', 'g'], ['3']]).1.next_job_id = 6 := by
  have h1 : atoi ['3'] ≠ 0 := by decide
  have h2 : ∃ i, ((fullWorld osNone).jobs i).id = atoi ['3'] := ⟨2, by decide⟩
  obtain ⟨k, hk, _, hr, _, _, hn, _⟩ :=
    C13_bg_frame (fullWorld osNone) [['b', 'g'], ['3']] ['3'] rfl h1 h2
  exact ⟨h1, h2, k, hk, hr, hn⟩

theorem find_pgid_unique (jobs : Fin MAX_JOBS → job_t) (k : Fin MAX_JOBS)
    (hk : (jobs k).id ≠ 0)
    (hu : ∀ j, j ≠ k → (jobs j).id ≠ 0 → (jobs j).pgid ≠ (jobs k).pgid) :
    (List.finRange MAX_JOBS).find?
      (fun i => decide ((jobs i).id ≠ 0 ∧ (jobs i).pgid = (jobs k).pgid)) = some k := by
  cases hf : (List.finRange MAX_JOBS).find?
      (fun i => decide ((jobs i).id ≠ 0 ∧ (jobs i).pgid = (jobs k).pgid)) with
  | none =>
    have := List.find?_eq_none.mp hf k (List.mem_finRange k)
    simp [hk] at this
  | some j =>
    have hj := List.find?_some hf
    simp only [ne_eq, decide_eq_true_eq] at hj
    by_cases hjk : j = k
    · rw [hjk]
    · exact absurd hj.2 (hu j hjk hj.1)

theorem remove_job_pgid_at (w : World) (pgid : Int) (k : Fin MAX_JOBS)
    (h : (List.finRange MAX_JOBS).find?
      (fun i => decide ((w.jobs i).id ≠ 0 ∧ (w.jobs i).pgid = pgid)) = some k) :
    remove_job_pgid w pgid =
      { w with jobs := Function.update w.jobs k ⟨0, 0, [], 0⟩, job_count := w.job_count - 1 } := by
  have hk : k.val < MAX_JOBS := k.isLt
  simp only [remove_job_pgid, h, remove_job, hk, dite_true]

theorem remove_job_pgid_absent (w : World) (pgid : Int)
    (h : (List.finRange MAX_JOBS).find?
      (fun i => decide ((w.jobs i).id ≠ 0 ∧ (w.jobs i).pgid = pgid)) = none) :
    remove_job_pgid w pgid = w := by
  simp only [remove_job_pgid, h]

theorem remove_job_pgid_trace (w : World) (pgid : Int) :
    (remove_job_pgid w pgid).trace = w.trace := by
  unfold remove_job_pgid
  split
  · rename_i i _
    have hi : i.val < MAX_JOBS := i.isLt
    simp [remove_job, hi]
  · rfl

theorem find_pgid_some (jobs : Fin MAX_JOBS → job_t) (g : Int) (k : Fin MAX_JOBS)
    (h : find_pgid jobs g = some k) : (jobs k).id ≠ 0 ∧ (jobs k).pgid = g := by
  have := List.find?_some h
  simpa using this

theorem find_pgid_none (jobs : Fin MAX_JOBS → job_t) (g : Int)
    (h : ∀ i, (jobs i).id ≠ 0 → (jobs i).pgid ≠ g) : find_pgid jobs g = none := by
  apply List.find?_eq_none.mpr
  intro i _
  simpa using h i

theorem find_pgid_exists (jobs : Fin MAX_JOBS → job_t) (g : Int)
    (h : ∃ i, (jobs i).id ≠ 0 ∧ (jobs i).pgid = g) : ∃ k, find_pgid jobs g = some k := by
  cases hf : find_pgid jobs g with
  | some k => exact ⟨k, rfl⟩
  | none =>
    obtain ⟨i, hi0, hig⟩ := h
    have := List.find?_eq_none.mp hf i (List.mem_finRange i)
    simp [hi0, hig] at this

theorem find_pgid_update_status (jobs : Fin MAX_JOBS → job_t) (g : Int) (k : Fin MAX_JOBS)
    (s : Nat) :
    find_pgid (Function.update jobs k { jobs k with status := s }) g = find_pgid jobs g := by
  unfold find_pgid
  congr 1
  funext i
  by_cases hik : i = k
  · subst hik; simp
  · simp [hik]

/-! ## C12: `fg` on a live job -/

/-- C12, as amended: for an argument that denotes the id of a live job (slot
`k`), `fg` first sends `SIGCONT` to the process group of that job and waits
for that group. When the first wait result is a stop, the job stays with
status Stopped, `fg` returns 0 and every other slot is unchanged. When it is
an exit with code `c` or a termination by signal `n`, `fg` returns `c` resp.
`128 + n` and empties the slot `k2` of the first live job that has the process
group of the job (`find_pgid`): the table is the old one with the status of
slot `k` set to Running and then slot `k2` emptied, and every other slot is
unchanged. When no other live job has that process group, `k2` is `k`: the job
itself is removed. -/
theorem C12_fg_live_job (w : World) (argv : List CStr) (a : CStr) (pid : Int)
    (status : WStatus) (rest : List (Int × WStatus))
    (ha : argv.get? 1 = some a) (hid : atoi a ≠ 0) (hlive : ∃ i, (w.jobs i).id = atoi a)
    (hw : w.os.waits = (pid, status) :: rest) (hpid : 0 < pid) :
    ∃ k k2, (w.jobs k).id = atoi a ∧
      find_pgid w.jobs (w.jobs k).pgid = some k2 ∧
      ((∀ j, j ≠ k → (w.jobs j).id ≠ 0 → (w.jobs j).pgid ≠ (w.jobs k).pgid) →
        k2 = k ∧
        Function.update (Function.update w.jobs k
          ⟨(w.jobs k).id, (w.jobs k).pgid, (w.jobs k).cmdline, JOB_RUNNING⟩) k2 ⟨0, 0, [], 0⟩ =
          Function.update w.jobs k ⟨0, 0, [], 0⟩) ∧
      (status ≠ WStatus.continued → ∃ tail, (fg w argv).1.trace = w.trace ++
        Event.kill (-(w.jobs k).pgid) Sig.SIGCONT ::
          Event.waitpid (-(w.jobs k).pgid) pid :: tail) ∧
      (∀ sig, status = WStatus.stopped sig →
        (fg w argv).2 = 0 ∧
        (fg w argv).1.jobs = Function.update w.jobs k
          ⟨(w.jobs k).id, (w.jobs k).pgid, (w.jobs k).cmdline, JOB_STOPPED⟩) ∧
      (∀ c, status = WStatus.exited c →
        (fg w argv).2 = (c : Int) ∧
        (fg w argv).1.jobs = Function.update (Function.update w.jobs k
          ⟨(w.jobs k).id, (w.jobs k).pgid, (w.jobs k).cmdline, JOB_RUNNING⟩) k2 ⟨0, 0, [], 0⟩) ∧
      (∀ n, status = WStatus.signaled n →
        (fg w argv).2 = 128 + (n : Int) ∧
        (fg w argv).1.jobs = Function.update (Function.update w.jobs k
          ⟨(w.jobs k).id, (w.jobs k).pgid, (w.jobs k).cmdline, JOB_RUNNING⟩) k2 ⟨0, 0, [], 0⟩) := by
  obtain ⟨k, hk⟩ := find_id_exists w.jobs (atoi a) hlive
  have hidk := find_id_some w.jobs (atoi a) k hk
  have hk0 : (w.jobs k).id ≠ 0 := by rw [hidk]; exact hid
  obtain ⟨k2, hk2⟩ := find_pgid_exists w.jobs (w.jobs k).pgid ⟨k, hk0, rfl⟩
  have hrm : ∀ w1 : World, w1.jobs = Function.update w.jobs k
        ⟨(w.jobs k).id, (w.jobs k).pgid, (w.jobs k).cmdline, JOB_RUNNING⟩ →
      (remove_job_pgid w1 (w.jobs k).pgid).jobs =
        Function.update (Function.update w.jobs k
          ⟨(w.jobs k).id, (w.jobs k).pgid, (w.jobs k).cmdline, JOB_RUNNING⟩) k2 ⟨0, 0, [], 0⟩ := by
    intro w1 hj
    have hf : find_pgid w1.jobs (w.jobs k).pgid = some k2 := by
      rw [hj]
      exact (find_pgid_update_status w.jobs (w.jobs k).pgid k JOB_RUNNING).trans hk2
    rw [remove_job_pgid_at w1 _ k2 hf]
    simp [hj]
  have hpid' : pid > 0 := hpid
  refine ⟨k, k2, hidk, hk2, ?_, ?_, ?_, ?_, ?_⟩
  · intro hu
    have h1 : find_pgid w.jobs (w.jobs k).pgid = some k := find_pgid_unique w.jobs k hk0 hu
    have e : k2 = k := by
      rw [hk2] at h1
      exact Option.some.inj h1
    subst e
    exact ⟨rfl, Function.update_idem _ _ _⟩
  · intro hne
    cases status with
    | continued => exact absurd rfl hne
    | stopped sig =>
      refine ⟨[Event.out (Msg.stopped (w.jobs k).id (w.jobs k).cmdline)], ?_⟩
      simp only [fg, ha, hk]
      simp [World.emit, hw, fgWait, World.popWait, hpid']
    | exited c =>
      refine ⟨[], ?_⟩
      simp only [fg, ha, hk]
      simp [World.emit, hw, fgWait, World.popWait, hpid', remove_job_pgid_trace]
    | signaled n =>
      refine ⟨[], ?_⟩
      simp only [fg, ha, hk]
      simp [World.emit, hw, fgWait, World.popWait, hpid', remove_job_pgid_trace]
  · intro sig hs
    subst hs
    simp only [fg, ha, hk]
    simp [World.emit, hw, fgWait, World.popWait, hpid']
  · intro c hs
    subst hs
    simp only [fg, ha, hk, World.emit, hw, fgWait, World.popWait, hpid', if_true,
      Function.update_same]
    exact ⟨trivial, hrm _ rfl⟩
  · intro n hs
    subst hs
    simp only [fg, ha, hk, World.emit, hw, fgWait, World.popWait, hpid', if_true,
      Function.update_same]
    exact ⟨by omega, hrm _ rfl⟩

/-- C12, at the full table (five jobs in five different groups) and the
argument `3` when the wait reports the exit of the job with code 7: `fg`
returns 7 and the job, in slot 2, is removed; and at the table with the jobs 1
and 2 in one process group and the argument `2` when the wait reports an exit
with code 0: `fg` returns 0, slot 0 (job 1, the first of the group) is emptied
and job 2 stays in slot 1 with status Running. -/
theorem C12_fg_live_job_witness :
    atoi ['3'] ≠ 0 ∧ (∃ i, ((fullWorld (osWait (WStatus.exited 7))).jobs i).id = atoi ['3']) ∧
    (∃ k, ((fullWorld (osWait (WStatus.exited 7))).jobs k).id = 3 ∧
      (fg (fullWorld (osWait (WStatus.exited 7))) [['f', 'g'], ['3']]).2 = 7 ∧
      (fg (fullWorld (osWait (WStatus.exited 7))) [['f', 'g'], ['3']]).1.jobs =
        Function.update (fullWorld (osWait (WStatus.exited 7))).jobs k ⟨0, 0, [], 0⟩) ∧
    atoi ['2'] ≠ 0 ∧ (∃ i, (dupWorld.jobs i).id = atoi ['2']) ∧
    (∃ k k2, (dupWorld.jobs k).id = 2 ∧ find_pgid dupWorld.jobs (dupWorld.jobs k).pgid = some k2 ∧
      (fg dupWorld [['f', 'g'], ['2']]).2 = 0 ∧
      (fg dupWorld [['f', 'g'], ['2']]).1.jobs = Function.update (Function.update dupWorld.jobs k
        ⟨(dupWorld.jobs k).id, (dupWorld.jobs k).pgid, (dupWorld.jobs k).cmdline, JOB_RUNNING⟩)
        k2 ⟨0, 0, [], 0⟩) := by
  have h1 : atoi ['3'] ≠ 0 := by decide
  have h2 : ∃ i, ((fullWorld (osWait (WStatus.exited 7))).jobs i).id = atoi ['3'] :=
    ⟨2, by decide⟩
  have h3 : atoi ['2'] ≠ 0 := by decide
  have h4 : ∃ i, (dupWorld.jobs i).id = atoi ['2'] := ⟨1, by decide⟩
  have hu : ∀ k : Fin MAX_JOBS, ∀ j, j ≠ k →
      ((fullWorld (osWait (WStatus.exited 7))).jobs j).id ≠ 0 →
      ((fullWorld (osWait (WStatus.exited 7))).jobs j).pgid ≠
        ((fullWorld (osWait (WStatus.exited 7))).jobs k).pgid := by decide
  obtain ⟨k, k2, hk, _, hu2, _, _, hex, _⟩ :=
    C12_fg_live_job (fullWorld (osWait (WStatus.exited 7))) [['f', 'g'], ['3']] ['3'] 100
      (WStatus.exited 7) [] rfl h1 h2 rfl (by decide)
  obtain ⟨m, m2, hm, hm2, _, _, _, hex2, _⟩ :=
    C12_fg_live_job dupWorld [['f', 'g'], ['2']] ['2'] 100 (WStatus.exited 0) [] rfl h3 h4 rfl
      (by decide)
  have e3 : atoi ['3'] = 3 := by decide
  have e2 : atoi ['2'] = 2 := by decide
  refine ⟨h1, h2, ⟨k, by rw [hk, e3], (hex 7 rfl).1, ?_⟩, h3, h4,
    ⟨m, m2, by rw [hm, e2], hm2, (hex2 0 rfl).1, (hex2 0 rfl).2⟩⟩
  rw [(hex 7 rfl).2, (hu2 (hu k)).2]

/-- C12, as stated, fails on a table with two live jobs in one process group
(ids 1 and 2, both in group 100): `fg 2`, when the wait reports an exit,
returns with job 2 still in its slot and job 1 removed. -/
theorem C12_fg_removes_other_job :
    (dupWorld.jobs 0).id = 1 ∧ (dupWorld.jobs 1).id = 2 ∧
    (dupWorld.jobs 0).pgid = 100 ∧ (dupWorld.jobs 1).pgid = 100 ∧
    ((fg dupWorld [['f', 'g'], ['2']]).1.jobs 1).id = 2 ∧
    (fg dupWorld [['f', 'g'], ['2']]).1.jobs 0 = ⟨0, 0, [], 0⟩ := by
  refine ⟨by decide, by decide, by decide, by decide, by decide, by decide⟩

/-! ## C14: what `reap` does with a status change -/

theorem reapChange_no_group (w : World) (status : WStatus) (g : Int) (hg : g ≤ 0) :
    reapChange w status g = w := by
  simp only [reapChange, hg, if_true]

/-- In `reap`, a positive result of `waitpid` that reports the end of the child
is dropped: `getpgid` fails for the released child, line 205 continues with
the next round, and the lines 216-222 are not reached. -/
theorem reapLoop_ended (w : World) (pid : Int) (status : WStatus)
    (rest : List (Int × WStatus)) (hpid : 0 < pid) (he : status.ended = true) :
    reapLoop ((pid, status) :: rest) w = reapLoop rest (w.popWait (-1) pid rest) := by
  have hp : ¬ pid ≤ 0 := by omega
  simp only [reapLoop, hp, if_false, he, if_true, reapChange_no_group _ status (-1) (by decide)]

/-- When every pending result of `waitpid` reports the end of a child, `reap`
leaves the job table and `job_count` as they are and prints nothing: all it
does is call `waitpid`. -/
theorem reapLoop_ended_keeps_table (ws : List (Int × WStatus)) : ∀ w : World,
    (∀ r ∈ ws, r.2.ended = true) →
    (reapLoop ws w).jobs = w.jobs ∧ (reapLoop ws w).job_count = w.job_count ∧
    (reapLoop ws w).next_job_id = w.next_job_id ∧
    ∃ pids : List Int, (reapLoop ws w).trace = w.trace ++ pids.map (Event.waitpid (-1)) := by
  induction ws with
  | nil =>
    intro w _
    exact ⟨rfl, rfl, rfl, [-1], rfl⟩
  | cons r ws ih =>
    intro w h
    obtain ⟨pid, status⟩ := r
    have he : status.ended = true := h (pid, status) (List.mem_cons_self _ _)
    by_cases hp : pid ≤ 0
    · have e : reapLoop ((pid, status) :: ws) w = w.popWait (-1) pid ws := by
        simp only [reapLoop, hp, if_true]
      rw [e]
      exact ⟨rfl, rfl, rfl, [pid], rfl⟩
    · rw [reapLoop_ended w pid status ws (by omega) he]
      obtain ⟨h1, h2, h3, pids, h4⟩ :=
        ih (w.popWait (-1) pid ws) (fun r hr => h r (List.mem_cons_of_mem _ hr))
      refine ⟨h1, h2, h3, pid :: pids, ?_⟩
      rw [h4]
      simp [World.popWait, World.emit]

/-- The step of `reap` for a stop or a continuation of a child whose process
group is `g > 0`: when no live job has the group `g` the job table,
`next_job_id` and `job_count` are unchanged; otherwise, for the (first) live
job with group `g`, a stop sets its status to Stopped and a continuation sets
it to Running, its id, group and text are kept, and every other slot is
unchanged. The loop of `reap` applies this step to each positive result of
`waitpid` that is a stop or a continuation. -/
theorem reap_stop_continue (w : World) (status : WStatus) (g : Int) (hg : 0 < g)
    (hs : status.ended = false) :
    ((∀ i, (w.jobs i).id ≠ 0 → (w.jobs i).pgid ≠ g) →
      (reapChange w status g).jobs = w.jobs ∧
      (reapChange w status g).next_job_id = w.next_job_id ∧
      (reapChange w status g).job_count = w.job_count) ∧
    ((∃ i, (w.jobs i).id ≠ 0 ∧ (w.jobs i).pgid = g) →
      ∃ k, (w.jobs k).id ≠ 0 ∧ (w.jobs k).pgid = g ∧
        (∀ n, status = WStatus.stopped n →
          (reapChange w status g).jobs = Function.update w.jobs k
            ⟨(w.jobs k).id, (w.jobs k).pgid, (w.jobs k).cmdline, JOB_STOPPED⟩) ∧
        (status = WStatus.continued →
          (reapChange w status g).jobs = Function.update w.jobs k
            ⟨(w.jobs k).id, (w.jobs k).pgid, (w.jobs k).cmdline, JOB_RUNNING⟩)) ∧
    (∀ (pid : Int) (rest : List (Int × WStatus)) (gs : List Int), 0 < pid →
      w.os.getpgids = g :: gs →
      reapLoop ((pid, status) :: rest) w =
        reapLoop rest (reapChange
          { w.popWait (-1) pid rest with
            os := { (w.popWait (-1) pid rest).os with getpgids := gs } } status g)) := by
  have hg' : ¬ g ≤ 0 := by omega
  refine ⟨?_, ?_, ?_⟩
  · intro hno
    simp [reapChange, hg', find_pgid_none w.jobs g hno]
  · intro hex
    obtain ⟨k, hk⟩ := find_pgid_exists w.jobs g hex
    obtain ⟨hk0, hkg⟩ := find_pgid_some w.jobs g k hk
    refine ⟨k, hk0, hkg, ?_, ?_⟩
    · intro n hs
      subst hs
      simp only [reapChange, hg', if_false, hk, World.emit]
    · intro hs
      subst hs
      simp only [reapChange, hg', if_false, hk, World.emit]
  · intro pid rest gs hpid hgs
    have hp : ¬ pid ≤ 0 := by omega
    have h1 : (w.popWait (-1) pid rest).os.getpgids = g :: gs := by
      simpa [World.popWait, World.emit] using hgs
    simp only [reapLoop, hp, if_false, hs, Bool.false_eq_true, h1, List.headD_cons,
      List.tail_cons]

/-- C14 (the code when the child of a tracked background job ends): the table
holds one job, id 1 with the process group 100 and status Running, and the
pending result of `waitpid` is child 100 with a normal exit (code 0) resp. a
termination by signal 9. `reap` leaves the job in its slot with status
Running, `job_count` stays 1, and nothing is printed: the only actions are the
two calls of `waitpid`. A stop of the same child is applied: the status of the
job becomes Stopped and the notice is printed. -/
theorem C14_reap_keeps_finished_job :
    (oneJobWorld (osReap (WStatus.exited 0))).jobs 0 =
      ⟨1, 100, ['s', 'l', 'e', 'e', 'p', ' ', '5', ' ', '&'], JOB_RUNNING⟩ ∧
    (reap (oneJobWorld (osReap (WStatus.exited 0)))).jobs 0 =
      ⟨1, 100, ['s', 'l', 'e', 'e', 'p', ' ', '5', ' ', '&'], JOB_RUNNING⟩ ∧
    (reap (oneJobWorld (osReap (WStatus.exited 0)))).job_count = 1 ∧
    (reap (oneJobWorld (osReap (WStatus.exited 0)))).trace =
      [Event.addJob 100 JOB_RUNNING, Event.waitpid (-1) 100, Event.waitpid (-1) (-1)] ∧
    (reap (oneJobWorld (osReap (WStatus.signaled 9)))).jobs 0 =
      ⟨1, 100, ['s', 'l', 'e', 'e', 'p', ' ', '5', ' ', '&'], JOB_RUNNING⟩ ∧
    (reap (oneJobWorld (osReap (WStatus.signaled 9)))).trace =
      [Event.addJob 100 JOB_RUNNING, Event.waitpid (-1) 100, Event.waitpid (-1) (-1)] ∧
    (reap (oneJobWorld (osReap (WStatus.stopped 20)))).jobs 0 =
      ⟨1, 100, ['s', 'l', 'e', 'e', 'p', ' ', '5', ' ', '&'], JOB_STOPPED⟩ ∧
    (reap (oneJobWorld (osReap (WStatus.stopped 20)))).trace =
      [Event.addJob 100 JOB_RUNNING, Event.waitpid (-1) 100,
        Event.out (Msg.stopped 1 ['s', 'l', 'e', 'e', 'p', ' ', '5', ' ', '&']),
        Event.waitpid (-1) (-1)] := by
  refine ⟨by decide, by decide, by decide, by decide, by decide, by decide, by decide,
    by decide⟩

/-! ## C15: the listing of the `jobs` built-in -/

theorem print_jobs_trace (w : World) :
    (print_jobs w).trace = w.trace ++ (liveSlots w).map (fun i => jobLine (w.jobs i)) := rfl

theorem printedIds_eq (w : World) :
    printedIds w = (liveSlots w).map (fun i => (w.jobs i).id) := by
  unfold printedIds
  rw [print_jobs_trace, List.drop_left, List.filterMap_map]
  induction liveSlots w with
  | nil => rfl
  | cons i l ih =>
    rw [List.filterMap_cons, List.map_cons, ih]
    rfl

theorem liveSlots_sorted (w : World) : List.Pairwise (fun a b => a < b) (liveSlots w) :=
  List.Pairwise.filter _ (List.pairwise_lt_finRange MAX_JOBS)

theorem mem_liveSlots (w : World) (i : Fin MAX_JOBS) :
    i ∈ liveSlots w ↔ (w.jobs i).id ≠ 0 := by
  simp [liveSlots, List.mem_filter, List.mem_finRange]

theorem printedIds_sorted (w : World) (h : SortedLive w) :
    List.Pairwise (fun a b : Int => a < b) (printedIds w) := by
  rw [printedIds_eq, List.pairwise_map]
  refine List.Pairwise.imp_of_mem ?_ (liveSlots_sorted w)
  intro a b ha hb hab
  exact h a b hab ((mem_liveSlots w a).mp ha) ((mem_liveSlots w b).mp hb)

theorem find?_finRange_min (n : Nat) (p : Fin n → Bool) (s : Fin n)
    (h : (List.finRange n).find? p = some s) : ∀ i, i < s → p i = false := by
  intro i his
  obtain ⟨_, as, bs, hl, has⟩ := List.find?_eq_some.mp h
  have hi : i ∈ as ++ s :: bs := by rw [← hl]; exact List.mem_finRange i
  have hsorted : List.Pairwise (fun a b => a < b) (as ++ s :: bs) := by
    rw [← hl]; exact List.pairwise_lt_finRange n
  rcases List.mem_append.mp hi with h1 | h1
  · simpa using has i h1
  · rcases List.mem_cons.mp h1 with h2 | h2
    · exact absurd his (by rw [h2]; exact lt_irrefl _)
    · have hs := (List.pairwise_append.mp hsorted).2.1
      have := (List.pairwise_cons.mp hs).1 i h2
      exact absurd his (not_lt.mpr (le_of_lt this))

theorem find_slot_min (jobs : Fin MAX_JOBS → job_t) (s : Fin MAX_JOBS)
    (h : find_slot jobs = some s) : ∀ i, i < s → (jobs i).id ≠ 0 := by
  intro i his
  have := find?_finRange_min MAX_JOBS _ s h i his
  simpa using this

theorem PrefixLive_init (os : OS) : PrefixLive (initWorld os) := by
  refine ⟨?_, ?_⟩
  · intro i j _ hj
    exact absurd rfl hj
  · intro i
    simp [initWorld, emptyJob]

theorem PrefixLive_add (w : World) (pgid : Int) (text : CStr) (status : Nat)
    (h : PrefixLive w) : PrefixLive (add_job w pgid text status) := by
  obtain ⟨h1, h2⟩ := h
  cases hf : find_slot w.jobs with
  | none =>
    rw [add_job_full w pgid text status hf]
    exact ⟨h1, h2⟩
  | some s =>
    have hs := find_slot_some w.jobs s hf
    have hmin := find_slot_min w.jobs s hf
    have hid : ∀ k, ((add_job w pgid text status).jobs k).id =
        if k = s then w.next_job_id else (w.jobs k).id := by
      intro k
      rw [add_job_free w pgid text status s hf]
      by_cases hk : k = s
      · subst hk; simp
      · simp [hk]
    have hnx : (add_job w pgid text status).next_job_id = w.next_job_id + 1 := by
      rw [add_job_free w pgid text status s hf]
    have hfree : ∀ j, s < j → (w.jobs j).id = 0 := by
      intro j hsj
      by_contra hj
      exact (h1 s j hsj hj).1 hs
    refine ⟨?_, ?_⟩
    · intro i j hij hj
      rw [hid] at hj
      rw [hid i, hid j]
      by_cases hjs : j = s
      · subst hjs
        have hi : i ≠ j := ne_of_lt hij
        simp only [hi, if_false, if_true]
        exact ⟨hmin i hij, h2 i⟩
      · simp only [hjs, if_false] at hj ⊢
        have hjlt : j < s := by
          rcases lt_trichotomy j s with h3 | h3 | h3
          · exact h3
          · exact absurd h3 hjs
          · exact absurd (hfree j h3) hj
        have his : i ≠ s := ne_of_lt (lt_trans hij hjlt)
        simp only [his, if_false]
        exact h1 i j hij hj
    · intro k
      rw [hid, hnx]
      split
      · omega
      · have := h2 k; omega

theorem SortedLive_of_PrefixLive (w : World) (h : PrefixLive w) : SortedLive w :=
  fun i j hij _ hj => (h.1 i j hij hj).2

theorem SortedLive_remove (w : World) (pgid : Int) (h : SortedLive w) :
    SortedLive (remove_job_pgid w pgid) := by
  rcases (remove_job_pgid_jobs w pgid).2 with hj | ⟨k, hj⟩
  · intro i j; rw [hj]; exact h i j
  · intro i j hij hi0 hj0
    rw [hj] at hi0 hj0 ⊢
    by_cases hik : i = k
    · subst hik; simp at hi0
    · by_cases hjk : j = k
      · subst hjk; simp at hj0
      · simp only [ne_eq, hik, not_false_eq_true, Function.update_noteq, hjk] at hi0 hj0 ⊢
        exact h i j hij hi0 hj0

theorem runJobOps_append (a : List JobOp) : ∀ (w : World) (b : List JobOp),
    (runJobOps w (a ++ b)).1 = (runJobOps (runJobOps w a).1 b).1 := by
  induction a with
  | nil => intro w b; rfl
  | cons op a ih =>
    intro w b
    cases op with
    | add p c s =>
      show (runJobOps (add_job w p c s) (a ++ b)).1 = _
      rw [ih]
      rfl
    | remove p =>
      show (runJobOps (remove_job_pgid w p) (a ++ b)).1 = _
      rw [ih]
      rfl

theorem runJobOps_adds (ops : List JobOp) : ∀ w : World, PrefixLive w →
    (∀ o ∈ ops, o.isAdd = true) → PrefixLive (runJobOps w ops).1 := by
  induction ops with
  | nil => intro w h _; exact h
  | cons op ops ih =>
    intro w h hall
    cases op with
    | add p c s =>
      simp only [runJobOps]
      exact ih _ (PrefixLive_add w p c s h) (fun o ho => hall o (List.mem_cons_of_mem _ ho))
    | remove p =>
      have := hall (JobOp.remove p) (List.mem_cons_self _ _)
      simp [JobOp.isAdd] at this

theorem runJobOps_removes (ops : List JobOp) : ∀ w : World, SortedLive w →
    (∀ o ∈ ops, o.isAdd = false) → SortedLive (runJobOps w ops).1 := by
  induction ops with
  | nil => intro w h _; exact h
  | cons op ops ih =>
    intro w h hall
    cases op with
    | add p c s =>
      have := hall (JobOp.add p c s) (List.mem_cons_self _ _)
      simp [JobOp.isAdd] at this
    | remove p =>
      simp only [runJobOps]
      exact ih _ (SortedLive_remove w p h) (fun o ho => hall o (List.mem_cons_of_mem _ ho))

/-- C15, as amended: for every job table, `print_jobs` leaves the table as it
is and prints one line for each live job and nothing else, each job once, in
slot order, and the `jobs` built-in returns 0; for a table built from the
empty table by `add_job` calls followed by `remove_job_pgid` calls (no
`add_job` after a removal) the slot order is the order of increasing job id. -/
theorem C15_jobs_listing (w : World) :
    (print_jobs w).trace = w.trace ++ (liveSlots w).map (fun i => jobLine (w.jobs i)) ∧
    (∀ i, i ∈ liveSlots w ↔ (w.jobs i).id ≠ 0) ∧
    List.Pairwise (fun a b => a < b) (liveSlots w) ∧
    (print_jobs w).jobs = w.jobs ∧
    cmd_handler w [['j', 'o', 'b', 's']] = (print_jobs w, some (Outcome.ret 0)) ∧
    (∀ (os : OS) (adds removes : List JobOp), (∀ o ∈ adds, o.isAdd = true) →
      (∀ o ∈ removes, o.isAdd = false) →
      List.Pairwise (fun a b : Int => a < b)
        (printedIds (runJobOps (initWorld os) (adds ++ removes)).1)) := by
  refine ⟨rfl, mem_liveSlots w, liveSlots_sorted w, rfl, by simp [cmd_handler], ?_⟩
  intro os adds removes ha hr
  apply printedIds_sorted
  rw [runJobOps_append]
  exact runJobOps_removes removes _
    (SortedLive_of_PrefixLive _ (runJobOps_adds adds _ (PrefixLive_init os) ha)) hr

/-- C15, at three `add_job` calls followed by the removal of the second job:
the listing shows the ids 1 and 3. -/
theorem C15_jobs_listing_witness :
    (∀ o ∈ [JobOp.add 100 ['a'] JOB_RUNNING, JobOp.add 101 ['b'] JOB_RUNNING,
      JobOp.add 102 ['c'] JOB_RUNNING], o.isAdd = true) ∧
    (∀ o ∈ [JobOp.remove 101], o.isAdd = false) ∧
    printedIds (runJobOps (initWorld osNone)
      ([JobOp.add 100 ['a'] JOB_RUNNING, JobOp.add 101 ['b'] JOB_RUNNING,
        JobOp.add 102 ['c'] JOB_RUNNING] ++ [JobOp.remove 101])).1 = [1, 3] ∧
    List.Pairwise (fun a b : Int => a < b)
      (printedIds (runJobOps (initWorld osNone)
        ([JobOp.add 100 ['a'] JOB_RUNNING, JobOp.add 101 ['b'] JOB_RUNNING,
          JobOp.add 102 ['c'] JOB_RUNNING] ++ [JobOp.remove 101])).1) :=
  ⟨by decide, by decide, by decide,
    (C15_jobs_listing (initWorld osNone)).2.2.2.2.2 osNone _ _ (by decide) (by decide)⟩

/-- C15, as stated, fails on the table reached by `add_job(100)`,
`add_job(101)`, `remove_job_pgid(100)`, `add_job(102)`: the third job reuses
slot 0, and the listing shows id 3 before id 2. -/
theorem C15_listing_not_in_id_order :
    printedIds reusedSlotWorld = [3, 2] ∧
    ¬ List.Pairwise (fun a b : Int => a < b) (printedIds reusedSlotWorld) := by
  have h : printedIds reusedSlotWorld = [3, 2] := by decide
  refine ⟨h, ?_⟩
  rw [h]
  decide

/-! ## C16: the history keeps the last 100 lines -/

theorem add_history_empty (w : World) : add_history w [] = w := by
  simp [add_history]

theorem strncpy_short (l : CStr) (n : Nat) (h : l.length ≤ n) : strncpy l n = l :=
  List.take_of_length_le h

theorem add_history_grow (w : World) (l : CStr) (hl : l ≠ []) (hlen : l.length ≤ BUFFER_SIZE)
    (h : w.history_length < MAX_HISTORY) :
    historyList (add_history w l) = historyList w ++ [l] ∧
    (add_history w l).history_length = w.history_length + 1 := by
  have e : add_history w l = { w with
      history := Function.update w.history ⟨w.history_length, h⟩ (strncpy l BUFFER_SIZE)
      history_length := w.history_length + 1 } := by
    simp only [add_history, hl, if_false, h, dite_true]
  refine ⟨?_, by rw [e]⟩
  rw [e]
  simp only [historyList, List.range_succ, List.map_append, List.map_cons, List.map_nil]
  congr 1
  · apply List.map_congr_left
    intro i hi
    have hi' : i < w.history_length := List.mem_range.mp hi
    have hi2 : i < MAX_HISTORY := by omega
    simp only [histAt, hi2, dite_true]
    rw [Function.update_noteq]
    intro hc
    have := congrArg Fin.val hc
    simp at this
    omega
  · simp only [histAt, h, dite_true, Function.update_same, strncpy_short l _ hlen]

theorem add_history_shift (w : World) (l : CStr) (hl : l ≠ []) (hlen : l.length ≤ BUFFER_SIZE)
    (h : w.history_length = MAX_HISTORY) (hinv : ∀ i, (w.history i).length ≤ BUFFER_SIZE) :
    historyList (add_history w l) = (historyList w).drop 1 ++ [l] ∧
    (add_history w l).history_length = w.history_length := by
  have hn : ¬ w.history_length < MAX_HISTORY := by omega
  have e : add_history w l = { w with
      history := fun i =>
        if h : i.val + 1 < MAX_HISTORY then strncpy (w.history ⟨i.val + 1, h⟩) BUFFER_SIZE
        else strncpy l BUFFER_SIZE } := by
    simp only [add_history, hl, if_false, hn, dite_false]
  refine ⟨?_, by rw [e]⟩
  rw [e]
  simp only [historyList, h]
  have h99 : List.range MAX_HISTORY = List.range 99 ++ [99] := List.range_succ 99
  have h0 : List.range MAX_HISTORY = 0 :: (List.range 99).map Nat.succ :=
    List.range_succ_eq_map 99
  conv_lhs => rw [h99]
  conv_rhs => rw [h0]
  simp only [List.map_append, List.map_cons, List.map_nil, List.drop_succ_cons, List.drop_zero,
    List.map_map]
  congr 1
  · apply List.map_congr_left
    intro i hi
    have hi' : i < 99 := List.mem_range.mp hi
    have hM : MAX_HISTORY = 100 := rfl
    have hi1 : i < MAX_HISTORY := by omega
    have hi2 : i + 1 < MAX_HISTORY := by omega
    simp only [histAt, hi1, dite_true, hi2, Function.comp, Nat.succ_eq_add_one]
    exact strncpy_short _ _ (hinv ⟨i + 1, hi2⟩)
  · have h1 : (99 : Nat) < MAX_HISTORY := by decide
    have h2 : ¬ (99 + 1 < MAX_HISTORY) := by decide
    simp only [histAt, h1, dite_true, h2, dite_false, strncpy_short l _ hlen]

theorem add_history_inv (w : World) (l : CStr)
    (hinv : ∀ i, (w.history i).length ≤ BUFFER_SIZE) :
    ∀ i, ((add_history w l).history i).length ≤ BUFFER_SIZE := by
  intro i
  unfold add_history
  split
  · exact hinv i
  · split
    · rename_i h
      simp only
      by_cases hi : i = ⟨w.history_length, h⟩
      · rw [hi, Function.update_same]
        simp [strncpy, List.length_take]
      · rw [Function.update_noteq hi]
        exact hinv i
    · simp only
      split <;> simp [strncpy, List.length_take]

theorem foldl_add_history (os : OS) (lines : List CStr)
    (hl : ∀ l ∈ lines, l ≠ [] ∧ l.length ≤ BUFFER_SIZE) :
    historyList (lines.foldl add_history (initWorld os)) =
      lines.drop (lines.length - MAX_HISTORY) ∧
    (lines.foldl add_history (initWorld os)).history_length = min lines.length MAX_HISTORY ∧
    ∀ i, ((lines.foldl add_history (initWorld os)).history i).length ≤ BUFFER_SIZE := by
  induction lines using List.reverseRecOn with
  | nil =>
    refine ⟨rfl, rfl, ?_⟩
    intro i
    simp [initWorld]
  | append_singleton lines l ih =>
    obtain ⟨ih1, ih2, ih3⟩ := ih (fun x hx => hl x (List.mem_append_left _ hx))
    obtain ⟨hne, hlen⟩ := hl l (by simp)
    rw [List.foldl_append, List.foldl_cons, List.foldl_nil]
    refine ⟨?_, ?_, add_history_inv _ l ih3⟩
    · by_cases hn : lines.length < MAX_HISTORY
      · have hlt : (lines.foldl add_history (initWorld os)).history_length < MAX_HISTORY := by
          rw [ih2]; omega
        rw [(add_history_grow _ l hne hlen hlt).1, ih1]
        have e1 : lines.length - MAX_HISTORY = 0 := by omega
        have e2 : (lines ++ [l]).length - MAX_HISTORY = 0 := by
          simp only [List.length_append, List.length_singleton]; omega
        rw [e1, e2]; rfl
      · have heq : (lines.foldl add_history (initWorld os)).history_length = MAX_HISTORY := by
          rw [ih2]; omega
        rw [(add_history_shift _ l hne hlen heq ih3).1, ih1, List.drop_drop]
        have e2 : (lines ++ [l]).length - MAX_HISTORY = lines.length - MAX_HISTORY + 1 := by
          simp only [List.length_append, List.length_singleton]; omega
        have hM : MAX_HISTORY = 100 := rfl
        have hle : lines.length - MAX_HISTORY + 1 ≤ lines.length := by omega
        rw [e2, List.drop_append_of_le_length hle]
    · by_cases hn : lines.length < MAX_HISTORY
      · have hlt : (lines.foldl add_history (initWorld os)).history_length < MAX_HISTORY := by
          rw [ih2]; omega
        rw [(add_history_grow _ l hne hlen hlt).2, ih2]
        simp only [List.length_append, List.length_singleton]; omega
      · have heq : (lines.foldl add_history (initWorld os)).history_length = MAX_HISTORY := by
          rw [ih2]; omega
        rw [(add_history_shift _ l hne hlen heq ih3).2, ih2]
        simp only [List.length_append, List.length_singleton]; omega

/-- C16: after `add_history` has been called with the non-empty lines `lines`
(each of at most `BUFFER_SIZE` characters), from the empty history, the
entries `history[0 .. history_length)` are the last `min(n, 100)` lines in
submission order and `history_length = min(n, 100)`; in particular after 101
lines the first one is gone and the other 100 remain in order; and
`add_history` with the empty line changes nothing. -/
theorem C16_history_fifo (os : OS) (lines : List CStr)
    (hl : ∀ l ∈ lines, l ≠ [] ∧ l.length ≤ BUFFER_SIZE) :
    historyList (lines.foldl add_history (initWorld os)) =
      lines.drop (lines.length - MAX_HISTORY) ∧
    (historyList (lines.foldl add_history (initWorld os))).length =
      min lines.length MAX_HISTORY ∧
    (lines.foldl add_history (initWorld os)).history_length = min lines.length MAX_HISTORY ∧
    (lines.length = MAX_HISTORY + 1 →
      historyList (lines.foldl add_history (initWorld os)) = lines.tail) ∧
    (∀ w : World, add_history w [] = w) := by
  obtain ⟨h1, h2, _⟩ := foldl_add_history os lines hl
  refine ⟨h1, ?_, h2, ?_, add_history_empty⟩
  · rw [h1, List.length_drop]
    have hM : MAX_HISTORY = 100 := rfl
    omega
  · intro hn
    rw [h1, hn]
    have : MAX_HISTORY + 1 - MAX_HISTORY = 1 := by omega
    rw [this]
    cases lines <;> rfl

/-- C16, at the two lines `ls` and `pwd`. -/
theorem C16_history_fifo_witness :
    (∀ l ∈ [['l', 's'], ['p', 'w', 'd']], l ≠ [] ∧ l.length ≤ BUFFER_SIZE) ∧
    historyList ([['l', 's'], ['p', 'w', 'd']].foldl add_history (initWorld osNone)) =
      [['l', 's'], ['p', 'w', 'd']] ∧
    ([['l', 's'], ['p', 'w', 'd']].foldl add_history (initWorld osNone)).history_length = 2 :=
  ⟨by decide,
    (C16_history_fifo osNone [['l', 's'], ['p', 'w', 'd']] (by decide)).1,
    (C16_history_fifo osNone [['l', 's'], ['p', 'w', 'd']] (by decide)).2.2.1⟩

/-! ## C17: built-ins are run without a pipe or a fork -/

theorem noPF_refl (w : World) : NoPipeForkSince w w := ⟨[], by simp, by simp⟩

theorem noPF_trans {w1 w2 w3 : World} (h1 : NoPipeForkSince w1 w2)
    (h2 : NoPipeForkSince w2 w3) : NoPipeForkSince w1 w3 := by
  obtain ⟨e1, t1, n1⟩ := h1
  obtain ⟨e2, t2, n2⟩ := h2
  refine ⟨e1 ++ e2, by rw [t2, t1, List.append_assoc], ?_⟩
  intro e he
  rcases List.mem_append.mp he with h | h
  · exact n1 e h
  · exact n2 e h

theorem noPF_of_trace (w1 w2 : World) (h : w2.trace = w1.trace) :
    NoPipeForkSince w1 w2 := ⟨[], by simpa using h, by simp⟩

theorem noPF_emit (w : World) (e : Event) (h : isPipeOrFork e = false) :
    NoPipeForkSince w (w.emit e) := ⟨[e], rfl, by simpa using h⟩

theorem noPF_cd (w : World) (argv : List CStr) : NoPipeForkSince w (cd w argv).1 := by
  unfold cd
  simp only
  cases w.os.chdirs with
  | nil => exact ⟨[_], rfl, by simp [isPipeOrFork]⟩
  | cons r rest => exact ⟨[_], rfl, by simp [isPipeOrFork]⟩

theorem noPF_kill_all (w : World) : NoPipeForkSince w (kill_all w) := by
  refine ⟨_, rfl, ?_⟩
  intro e he
  obtain ⟨i, _, rfl⟩ := List.mem_map.mp he
  rfl

theorem noPF_print_jobs (w : World) : NoPipeForkSince w (print_jobs w) := by
  refine ⟨_, rfl, ?_⟩
  intro e he
  obtain ⟨i, _, rfl⟩ := List.mem_map.mp he
  rfl

theorem noPF_history_cmd (w : World) : NoPipeForkSince w (history_cmd w).1 := by
  refine ⟨_, rfl, ?_⟩
  intro e he
  obtain ⟨i, _, rfl⟩ := List.mem_map.mp he
  rfl

theorem noPF_bg (w : World) (argv : List CStr) : NoPipeForkSince w (bg w argv).1 := by
  unfold bg
  cases argv.get? 1 with
  | none => exact noPF_emit w _ rfl
  | some a =>
    simp only
    cases find_id w.jobs (atoi a) with
    | none => exact noPF_emit w _ rfl
    | some k =>
      exact ⟨[Event.kill (-(w.jobs k).pgid) Sig.SIGCONT,
        Event.out (Msg.bgNotice (w.jobs k).id (w.jobs k).cmdline)],
        by simp [World.emit], by simp [isPipeOrFork]⟩

theorem noPF_fgWait (k : Fin MAX_JOBS) (ws : List (Int × WStatus)) : ∀ w : World,
    NoPipeForkSince w (fgWait k ws w).1 := by
  induction ws with
  | nil => intro w; exact noPF_emit w _ rfl
  | cons r ws ih =>
    intro w
    obtain ⟨pid, status⟩ := r
    have hpop : NoPipeForkSince w (w.popWait (-(w.jobs k).pgid) pid ws) :=
      ⟨[_], rfl, by simp [isPipeOrFork]⟩
    simp only [fgWait]
    by_cases hpid : pid > 0
    · simp only [hpid, if_true]
      cases status with
      | exited c =>
        exact noPF_trans hpop (noPF_of_trace _ _ (remove_job_pgid_trace _ _))
      | signaled c =>
        exact noPF_trans hpop (noPF_of_trace _ _ (remove_job_pgid_trace _ _))
      | stopped c =>
        exact noPF_trans hpop ⟨[_], rfl, by simp [isPipeOrFork]⟩
      | continued => exact noPF_trans hpop (ih _)
    · simp only [hpid, if_false]
      exact hpop

theorem noPF_fg (w : World) (argv : List CStr) : NoPipeForkSince w (fg w argv).1 := by
  unfold fg
  cases argv.get? 1 with
  | none => exact noPF_emit w _ rfl
  | some a =>
    simp only
    cases find_id w.jobs (atoi a) with
    | none => exact noPF_emit w _ rfl
    | some k =>
      simp only
      have h1 : NoPipeForkSince w
          ({ w.emit (Event.kill (-(w.jobs k).pgid) Sig.SIGCONT) with
            jobs := Function.update (w.emit (Event.kill (-(w.jobs k).pgid) Sig.SIGCONT)).jobs k
              { (w.emit (Event.kill (-(w.jobs k).pgid) Sig.SIGCONT)).jobs k with
                status := JOB_RUNNING }
            fg_pgid := ((w.emit (Event.kill (-(w.jobs k).pgid) Sig.SIGCONT)).jobs k).pgid } :
            World) :=
        ⟨[_], rfl, by simp [isPipeOrFork]⟩
      obtain ⟨evs, ht, hall⟩ := noPF_trans h1 (noPF_fgWait k _ _)
      exact ⟨evs, ht, hall⟩

theorem execute_single (w : World) (tokens : List (Option CStr)) (start stop : Nat)
    (l : CStr) (seg : List CStr) (cmd : Command)
    (hseg : segmentTokens tokens start stop = some seg) (hp : parseCommands seg = [cmd])
    (w1 : World) (o : Outcome) (h : cmd_handler w cmd.argv = (w1, some o)) :
    execute w tokens start stop 0 l = (w1, o) := by
  simp [execute, hseg, hp, h]

theorem cmd_handler_builtin (w : World) (name : CStr) (rest : List CStr) :
    (name = ['c', 'd'] → cmd_handler w (name :: rest) =
      ((cd w (name :: rest)).1, some (Outcome.ret (cd w (name :: rest)).2))) ∧
    (name = ['e', 'x', 'i', 't'] → cmd_handler w (name :: rest) =
      (kill_all w, some (Outcome.exit 0))) ∧
    (name = ['h', 'e', 'l', 'p'] → cmd_handler w (name :: rest) =
      (w.emit (Event.out Msg.help), some (Outcome.ret 0))) ∧
    (name = ['f', 'g'] → cmd_handler w (name :: rest) =
      ((fg w (name :: rest)).1, some (Outcome.ret (fg w (name :: rest)).2))) ∧
    (name = ['j', 'o', 'b', 's'] → cmd_handler w (name :: rest) =
      (print_jobs w, some (Outcome.ret 0))) ∧
    (name = ['b', 'g'] → cmd_handler w (name :: rest) =
      ((bg w (name :: rest)).1, some (Outcome.ret (bg w (name :: rest)).2))) ∧
    (name = ['h', 'i', 's', 't', 'o', 'r', 'y'] → cmd_handler w (name :: rest) =
      ((history_cmd w).1, some (Outcome.ret 0))) := by
  refine ⟨?_, ?_, ?_, ?_, ?_, ?_, ?_⟩ <;> intro h <;> subst h <;> simp [cmd_handler, history_cmd]

theorem cmd_handler_noPF (w : World) (name : CStr) (rest : List CStr)
    (hn : name ∈ builtinNames) :
    ∃ o, cmd_handler w (name :: rest) = ((cmd_handler w (name :: rest)).1, some o) ∧
      NoPipeForkSince w (cmd_handler w (name :: rest)).1 := by
  obtain ⟨h1, h2, h3, h4, h5, h6, h7⟩ := cmd_handler_builtin w name rest
  simp only [builtinNames, List.mem_cons, List.mem_singleton, List.not_mem_nil, or_false] at hn
  rcases hn with h | h | h | h | h | h | h
  · rw [h1 h]; exact ⟨_, rfl, noPF_cd w _⟩
  · rw [h2 h]; exact ⟨_, rfl, noPF_kill_all w⟩
  · rw [h3 h]; exact ⟨_, rfl, noPF_emit w _ rfl⟩
  · rw [h4 h]; exact ⟨_, rfl, noPF_fg w _⟩
  · rw [h5 h]; exact ⟨_, rfl, noPF_print_jobs w⟩
  · rw [h6 h]; exact ⟨_, rfl, noPF_bg w _⟩
  · rw [h7 h]; exact ⟨_, rfl, noPF_history_cmd w⟩

/-- C17: for a foreground call (`flag = 0`) of `execute` on a segment that
parses to the single command `cmd`: when `argv[0]` is one of `cd`, `exit`,
`help`, `fg`, `jobs`, `bg`, `history`, the actions of `execute` contain no
`pipe` and no `fork` call, the state and the outcome of `execute` are those of
`cmd_handler`, and the outcome is the return value of the built-in (`cd`, `fg`,
`bg`: the value the function returns; `help`, `jobs`, `history`: 0; `exit`: the
process ends with status 0 after `kill_all`, nothing is returned); when
`argv[0]` is none of these names (or is NULL), `cmd_handler` reports
not-handled and leaves the state as it was. -/
theorem C17_builtin_dispatch (w : World) (tokens : List (Option CStr)) (start stop : Nat)
    (l : CStr) (seg : List CStr) (cmd : Command)
    (hseg : segmentTokens tokens start stop = some seg) (hp : parseCommands seg = [cmd]) :
    (∀ name rest, cmd.argv = name :: rest → name ∈ builtinNames →
      NoPipeForkSince w (execute w tokens start stop 0 l).1 ∧
      cmd_handler w cmd.argv =
        ((execute w tokens start stop 0 l).1, some (execute w tokens start stop 0 l).2) ∧
      (name = ['c', 'd'] → execute w tokens start stop 0 l =
        ((cd w cmd.argv).1, Outcome.ret (cd w cmd.argv).2)) ∧
      (name = ['e', 'x', 'i', 't'] → execute w tokens start stop 0 l =
        (kill_all w, Outcome.exit 0)) ∧
      (name = ['h', 'e', 'l', 'p'] → execute w tokens start stop 0 l =
        (w.emit (Event.out Msg.help), Outcome.ret 0)) ∧
      (name = ['f', 'g'] → execute w tokens start stop 0 l =
        ((fg w cmd.argv).1, Outcome.ret (fg w cmd.argv).2)) ∧
      (name = ['j', 'o', 'b', 's'] → execute w tokens start stop 0 l =
        (print_jobs w, Outcome.ret 0)) ∧
      (name = ['b', 'g'] → execute w tokens start stop 0 l =
        ((bg w cmd.argv).1, Outcome.ret (bg w cmd.argv).2)) ∧
      (name = ['h', 'i', 's', 't', 'o', 'r', 'y'] → execute w tokens start stop 0 l =
        ((history_cmd w).1, Outcome.ret 0))) ∧
    ((∀ name ∈ builtinNames, cmd.argv.head? ≠ some name) →
      cmd_handler w cmd.argv = (w, none)) := by
  constructor
  · intro name rest ha hn
    obtain ⟨o, ho, hpf⟩ := cmd_handler_noPF w name rest hn
    obtain ⟨h1, h2, h3, h4, h5, h6, h7⟩ := cmd_handler_builtin w name rest
    have hx := execute_single w tokens start stop l seg cmd hseg hp _ o (by rw [ha]; exact ho)
    rw [ha]
    refine ⟨by rw [hx]; exact hpf, by rw [hx]; exact ho, ?_, ?_, ?_, ?_, ?_, ?_, ?_⟩ <;>
      intro h
    · exact execute_single w tokens start stop l seg cmd hseg hp _ _ (by rw [ha]; exact h1 h)
    · exact execute_single w tokens start stop l seg cmd hseg hp _ _ (by rw [ha]; exact h2 h)
    · exact execute_single w tokens start stop l seg cmd hseg hp _ _ (by rw [ha]; exact h3 h)
    · exact execute_single w tokens start stop l seg cmd hseg hp _ _ (by rw [ha]; exact h4 h)
    · exact execute_single w tokens start stop l seg cmd hseg hp _ _ (by rw [ha]; exact h5 h)
    · exact execute_single w tokens start stop l seg cmd hseg hp _ _ (by rw [ha]; exact h6 h)
    · exact execute_single w tokens start stop l seg cmd hseg hp _ _ (by rw [ha]; exact h7 h)
  · intro hno
    cases ha : cmd.argv with
    | nil => rfl
    | cons name rest =>
      have hne : ∀ n ∈ builtinNames, name ≠ n := by
        intro n hn he
        exact hno n hn (by rw [ha, he]; rfl)
      have c1 := hne _ (by simp [builtinNames] : ['c', 'd'] ∈ builtinNames)
      have c2 := hne _ (by simp [builtinNames] : ['e', 'x', 'i', 't'] ∈ builtinNames)
      have c3 := hne _ (by simp [builtinNames] : ['h', 'e', 'l', 'p'] ∈ builtinNames)
      have c4 := hne _ (by simp [builtinNames] : ['f', 'g'] ∈ builtinNames)
      have c5 := hne _ (by simp [builtinNames] : ['j', 'o', 'b', 's'] ∈ builtinNames)
      have c6 := hne _ (by simp [builtinNames] : ['b', 'g'] ∈ builtinNames)
      have c7 := hne _ (by simp [builtinNames] :
        ['h', 'i', 's', 't', 'o', 'r', 'y'] ∈ builtinNames)
      simp only [cmd_handler]
      rw [if_neg c1, if_neg c2, if_neg c3, if_neg c4, if_neg c5, if_neg c6, if_neg c7]

/-- C17, at the segment `cd` of the one-token line `cd` (no directory change
left in the oracle, so `chdir` fails and `cd` returns 1), and at the name `ls`. -/
theorem C17_builtin_dispatch_witness :
    segmentTokens [some ['c', 'd']] 0 1 = some [['c', 'd']] ∧
    parseCommands [['c', 'd']] = [⟨[['c', 'd']], none, none⟩] ∧
    NoPipeForkSince (initWorld osNone)
      (execute (initWorld osNone) [some ['c', 'd']] 0 1 0 ['c', 'd']).1 ∧
    execute (initWorld osNone) [some ['c', 'd']] 0 1 0 ['c', 'd'] =
      ((cd (initWorld osNone) [['c', 'd']]).1, Outcome.ret 1) :=
  ⟨rfl, rfl,
    ((C17_builtin_dispatch (initWorld osNone) [some ['c', 'd']] 0 1 ['c', 'd'] [['c', 'd']]
      ⟨[['c', 'd']], none, none⟩ rfl rfl).1 ['c', 'd'] [] rfl (by decide)).1,
    ((C17_builtin_dispatch (initWorld osNone) [some ['c', 'd']] 0 1 ['c', 'd'] [['c', 'd']]
      ⟨[['c', 'd']], none, none⟩ rfl rfl).1 ['c', 'd'] [] rfl (by decide)).2.2.1 rfl⟩

/-! ## C18: the slot of a dropped `&` is read again -/

/-- C18 (the code at the line `sleep 5 &`): the tokens are `sleep`, `5`, `&`;
whatever status `execute` returns, the segment loop calls `execute` once, for
`sleep 5` with the background flag, and then passes the slot of the dropped
`&`, which holds NULL, to `strcmp` (line 827): the loop ends in a fault. With
the real `execute` and a successful `fork` the job is registered and announced
first, and the handling of the line then ends in the same fault. -/
theorem C18_background_line_reads_null_slot (f : Nat → Int) :
    tokenize ['s', 'l', 'e', 'e', 'p', ' ', '5', ' ', '&'] (MAX_TOKENS - 1) =
      [['s', 'l', 'e', 'e', 'p'], ['5'], ['&']] ∧
    (mainSegments (statusExec f)
      (tokenize ['s', 'l', 'e', 'e', 'p', ' ', '5', ' ', '&'] (MAX_TOKENS - 1)) 0).calls =
        [⟨0, 2, 1⟩] ∧
    (mainSegments (statusExec f)
      (tokenize ['s', 'l', 'e', 'e', 'p', ' ', '5', ' ', '&'] (MAX_TOKENS - 1)) 0).finish =
        LoopEnd.fault ∧
    (handleLine (initWorld (osExitCode 0))
      ['s', 'l', 'e', 'e', 'p', ' ', '5', ' ', '&']).finish = LoopEnd.fault ∧
    (handleLine (initWorld (osExitCode 0))
      ['s', 'l', 'e', 'e', 'p', ' ', '5', ' ', '&']).st.trace =
        [Event.fork 100, Event.setpgid 100 100, Event.addJob 100 JOB_RUNNING,
          Event.out (Msg.runningInBackground 1 100)] :=
  ⟨rfl, rfl, rfl, rfl, rfl⟩

/-! ## C19: the foreground wait ends at the first termination -/

theorem execWait_first (pgid : Int) (l : CStr) (pre : List (Int × WStatus)) :
    ∀ (w : World) (pid : Int) (s : WStatus) (rest : List (Int × WStatus)),
    (∀ r ∈ pre, 0 < r.1 ∧ r.2 = WStatus.continued) → 0 < pid → s.isTermination = true →
    execWait pgid l (pre ++ (pid, s) :: rest) w =
      { w with os := { w.os with waits := rest }
               trace := w.trace ++
                 (pre ++ [(pid, s)]).map (fun r => Event.waitpid (-pgid) r.1) } := by
  induction pre with
  | nil =>
    intro w pid s rest _ hpid hs
    have hp : pid > 0 := hpid
    cases s with
    | exited c => simp [execWait, hp, World.popWait, World.emit]
    | signaled c => simp [execWait, hp, World.popWait, World.emit]
    | stopped c => simp [WStatus.isTermination] at hs
    | continued => simp [WStatus.isTermination] at hs
  | cons r pre ih =>
    intro w pid s rest hpre hpid hs
    obtain ⟨p, st⟩ := r
    obtain ⟨hp, hst⟩ := hpre (p, st) (by simp)
    simp only at hp hst
    subst hst
    have hp2 : p > 0 := hp
    have hstep : execWait pgid l ((p, WStatus.continued) :: pre ++ (pid, s) :: rest) w =
        execWait pgid l (pre ++ (pid, s) :: rest)
          (w.popWait (-pgid) p (pre ++ (pid, s) :: rest)) := by
      simp only [List.cons_append, execWait, hp2, if_true]
      rfl
    rw [hstep, ih _ pid s rest (fun r hr => hpre r (by simp [hr])) hpid hs]
    simp [World.popWait, World.emit]

/-- C19 (amended): for a foreground call of `execute` on a non-built-in
segment of `k >= 1` stages whose pipes and forks succeed, when the wait results
for the group are any number of continuation reports followed by the exit or
signal termination `(pid, s)` of one child, `execute` returns 0 right after
that result: the wait results it has consumed are exactly those up to
`(pid, s)`, the only termination it has collected is `(pid, s)`, whatever `k`
is, the results `rest` of the other children stay pending, the trace ends with
one `waitpid` call per consumed result, the job table is unchanged and
`fg_pgid` is 0 again. -/
theorem C19_wait_ends_at_first_termination (w : World) (tokens : List (Option CStr))
    (start stop : Nat) (l : CStr) (seg : List CStr) (ps : List (Nat × Nat)) (pids : List Int)
    (restP : List (Option (Nat × Nat))) (restF : List Int)
    (pre : List (Int × WStatus)) (pid : Int) (s : WStatus) (rest : List (Int × WStatus))
    (hseg : segmentTokens tokens start stop = some seg)
    (hk : 1 ≤ (parseCommands seg).length) (hnb : notBuiltin w (parseCommands seg) 0)
    (hp : w.os.pipes = ps.map some ++ restP) (hpl : ps.length = (parseCommands seg).length - 1)
    (hf : w.os.forks = pids ++ restF) (hfl : pids.length = (parseCommands seg).length)
    (hpos : ∀ p ∈ pids, 0 < p)
    (hw : w.os.waits = pre ++ (pid, s) :: rest)
    (hpre : ∀ r ∈ pre, 0 < r.1 ∧ r.2 = WStatus.continued)
    (hpid : 0 < pid) (hs : s.isTermination = true) :
    (execute w tokens start stop 0 l).2 = Outcome.ret 0 ∧
    (execute w tokens start stop 0 l).1.os.waits = rest ∧
    collectedWaits w (execute w tokens start stop 0 l).1 = pre ++ [(pid, s)] ∧
    collectedTerminations w (execute w tokens start stop 0 l).1 = [(pid, s)] ∧
    (execute w tokens start stop 0 l).1.trace =
      w.trace ++ pipeEvents 0 ps ++ forkEvents pids ++ closeEvents ps ++
        (pre ++ [(pid, s)]).map (fun r => Event.waitpid (-(pids.headD 0)) r.1) ∧
    (execute w tokens start stop 0 l).1.jobs = w.jobs ∧
    (execute w tokens start stop 0 l).1.fg_pgid = 0 := by
  rw [execute_launch w tokens start stop 0 l seg hseg hk hnb,
    launch_parent w _ 0 l ps pids restP restF hk hp hpl hf hfl hpos]
  have h0 : ¬ ((0 : Nat) ≠ 0) := by simp
  rw [if_neg h0, hw, execWait_first _ l pre _ pid s rest hpre hpid hs]
  have hcw : collectedWaits w
      ({ ({ ({ afterClose w ps pids restP restF with fg_pgid := pids.headD 0 } : World) with
              os := { ({ afterClose w ps pids restP restF with
                          fg_pgid := pids.headD 0 } : World).os with waits := rest }
              trace := ({ afterClose w ps pids restP restF with
                          fg_pgid := pids.headD 0 } : World).trace ++
                (pre ++ [(pid, s)]).map (fun r => Event.waitpid (-(pids.headD 0)) r.1) } :
            World) with fg_pgid := 0 } : World) = pre ++ [(pid, s)] := by
    simp only [collectedWaits, hw]
    have : (pre ++ (pid, s) :: rest).length - rest.length = (pre ++ [(pid, s)]).length := by
      simp only [List.length_append, List.length_cons, List.length_nil]
      omega
    rw [this]
    have e : pre ++ (pid, s) :: rest = (pre ++ [(pid, s)]) ++ rest := by simp
    rw [e, List.take_left]
  refine ⟨rfl, rfl, hcw, ?_, ?_, rfl, rfl⟩
  · simp only [collectedTerminations, hcw, List.filter_append]
    have hnone : pre.filter (fun r => decide (0 < r.1) && r.2.isTermination) = [] := by
      rw [List.filter_eq_nil_iff]
      intro r hr
      simp [(hpre r hr).2, WStatus.isTermination]
    rw [hnone]
    simp [hpid, hs]
  · simp [afterClose]

/-- C19 (amended), at the pipeline `a | b` whose two children both exit: the
exit of child 100 ends the wait, the exit of child 101 stays pending. -/
theorem C19_wait_ends_at_first_termination_witness :
    segmentTokens twoStageTokens 0 3 = some [['a'], ['|'], ['b']] ∧
    (parseCommands [['a'], ['|'], ['b']]).length = 2 ∧
    (execute (initWorld osTwoStage) twoStageTokens 0 3 0 ['a', ' ', '|', ' ', 'b']).2 =
      Outcome.ret 0 ∧
    (execute (initWorld osTwoStage) twoStageTokens 0 3 0
      ['a', ' ', '|', ' ', 'b']).1.os.waits = [(101, WStatus.exited 0)] ∧
    collectedTerminations (initWorld osTwoStage)
      (execute (initWorld osTwoStage) twoStageTokens 0 3 0 ['a', ' ', '|', ' ', 'b']).1 =
        [(100, WStatus.exited 0)] :=
  ⟨by decide, by decide,
    (C19_wait_ends_at_first_termination (initWorld osTwoStage) twoStageTokens 0 3
      ['a', ' ', '|', ' ', 'b'] [['a'], ['|'], ['b']] [(3, 4)] [100, 101] [] []
      [] 100 (WStatus.exited 0) [(101, WStatus.exited 0)]
      (by decide) (by decide) (Or.inl (by decide)) (by rfl) (by decide) (by rfl) (by decide)
      (by decide) (by rfl) (by simp) (by decide) (by rfl)).1,
    (C19_wait_ends_at_first_termination (initWorld osTwoStage) twoStageTokens 0 3
      ['a', ' ', '|', ' ', 'b'] [['a'], ['|'], ['b']] [(3, 4)] [100, 101] [] []
      [] 100 (WStatus.exited 0) [(101, WStatus.exited 0)]
      (by decide) (by decide) (Or.inl (by decide)) (by rfl) (by decide) (by rfl) (by decide)
      (by decide) (by rfl) (by simp) (by decide) (by rfl)).2.1,
    (C19_wait_ends_at_first_termination (initWorld osTwoStage) twoStageTokens 0 3
      ['a', ' ', '|', ' ', 'b'] [['a'], ['|'], ['b']] [(3, 4)] [100, 101] [] []
      [] 100 (WStatus.exited 0) [(101, WStatus.exited 0)]
      (by decide) (by decide) (Or.inl (by decide)) (by rfl) (by decide) (by rfl) (by decide)
      (by decide) (by rfl) (by simp) (by decide) (by rfl)).2.2.2.1⟩

/-- C19 (the claim as stated fails): the foreground pipeline `a | b` has two
stages, neither is stopped and both children exit; `execute` returns 0 after
it has collected one termination notification, fewer than the two children of
the group, and the notification of child 101 has not been collected. -/
theorem C19_returns_before_all_children_collected :
    (parseCommands [['a'], ['|'], ['b']]).length = 2 ∧
    (initWorld osTwoStage).os.waits = [(100, WStatus.exited 0), (101, WStatus.exited 0)] ∧
    (execute (initWorld osTwoStage) twoStageTokens 0 3 0 ['a', ' ', '|', ' ', 'b']).2 =
      Outcome.ret 0 ∧
    (collectedTerminations (initWorld osTwoStage)
      (execute (initWorld osTwoStage) twoStageTokens 0 3 0
        ['a', ' ', '|', ' ', 'b']).1).length = 1 ∧
    (execute (initWorld osTwoStage) twoStageTokens 0 3 0
      ['a', ' ', '|', ' ', 'b']).1.os.waits = [(101, WStatus.exited 0)] ∧
    (execute (initWorld osTwoStage) twoStageTokens 0 3 0
      ['a', ' ', '|', ' ', 'b']).1.trace =
      [Event.pipe 0 3 4, Event.fork 100, Event.setpgid 100 100, Event.fork 101,
        Event.setpgid 101 100, Event.close 3, Event.close 4, Event.waitpid (-100) 100] :=
  ⟨rfl, rfl, rfl, rfl, rfl, rfl⟩

/-! ## C20: the token limit -/

theorem tokenizeAux_length_le_input (fuel : Nat) : ∀ (p : CStr) (n max_tokens : Nat),
    (tokenizeAux fuel p n max_tokens).length ≤ p.length := by
  induction fuel with
  | zero => intro p n m; simp [tokenizeAux]
  | succ fuel ih =>
    intro p n m
    cases p with
    | nil => simp [tokenizeAux]
    | cons c rest =>
      unfold tokenizeAux
      by_cases hn : n < m
      · simp only [hn, if_true]
        by_cases h1 : isspace c = true
        · simp only [h1, if_true, List.length_cons]
          have := ih rest n m
          omega
        · simp only [h1, Bool.false_eq_true, if_false]
          by_cases h2 : (c = '&' && rest.head? = some '&') = true
          · simp only [h2, if_true, List.length_cons]
            have := ih (rest.drop 1) (n + 1) m
            have := List.length_drop 1 rest
            omega
          · simp only [h2, Bool.false_eq_true, if_false]
            by_cases h3 : (c = '|' && rest.head? = some '|') = true
            · simp only [h3, if_true, List.length_cons]
              have := ih (rest.drop 1) (n + 1) m
              have := List.length_drop 1 rest
              omega
            · simp only [h3, Bool.false_eq_true, if_false]
              rw [isOpChar_iff]
              by_cases h4 : isOpChar c = true
              · simp only [h4, if_true, List.length_cons]
                have := ih rest (n + 1) m
                omega
              · simp only [h4, Bool.false_eq_true, if_false, List.length_cons]
                have hl := scanWord_snd_length c rest (by simpa using h1) (by simpa using h4)
                simp only [List.length_cons] at hl
                have := ih (scanWord (c :: rest)).2 (n + 1) m
                omega
      · simp [hn]

theorem tokenizeAux_take (fuel : Nat) : ∀ (p : CStr) (n m M : Nat), m ≤ M →
    tokenizeAux fuel p n m = (tokenizeAux fuel p n M).take (m - n) := by
  induction fuel with
  | zero => intro p n m M _; simp [tokenizeAux]
  | succ fuel ih =>
    intro p n m M hmM
    cases p with
    | nil => simp [tokenizeAux]
    | cons c rest =>
      by_cases hn : n < m
      · have hM : n < M := by omega
        have hs : m - n = (m - (n + 1)) + 1 := by omega
        unfold tokenizeAux
        simp only [hn, hM, if_true]
        by_cases h1 : isspace c = true
        · simp only [h1, if_true]
          exact ih _ _ _ _ hmM
        · simp only [h1, Bool.false_eq_true, if_false]
          by_cases h2 : (c = '&' && rest.head? = some '&') = true
          · simp only [h2, if_true]
            rw [hs, List.take_succ_cons, ← ih _ (n + 1) m M hmM]
          · simp only [h2, Bool.false_eq_true, if_false]
            by_cases h3 : (c = '|' && rest.head? = some '|') = true
            · simp only [h3, if_true]
              rw [hs, List.take_succ_cons, ← ih _ (n + 1) m M hmM]
            · simp only [h3, Bool.false_eq_true, if_false]
              rw [isOpChar_iff]
              by_cases h4 : isOpChar c = true
              · simp only [h4, if_true]
                rw [hs, List.take_succ_cons, ← ih _ (n + 1) m M hmM]
              · simp only [h4, Bool.false_eq_true, if_false]
                rw [hs, List.take_succ_cons, ← ih _ (n + 1) m M hmM]
      · have h0 : m - n = 0 := by omega
        unfold tokenizeAux
        simp [hn, h0]

theorem tokenize_unlimited (line : CStr) : MaxMunch line (tokenize line (line.length + 1)) := by
  have h := tokenizeAux_length_le_input (line.length + 1) line 0 (line.length + 1)
  exact tokenizeAux_sound _ line 0 (line.length + 1) (by omega) (by omega)

theorem MaxMunch_length_le (p : CStr) (toks : List CStr) (h : MaxMunch p toks) :
    toks.length ≤ p.length := by
  have e := MaxMunch_unique p _ _ h (tokenize_unlimited p)
  rw [e]
  exact tokenizeAux_length_le_input _ p 0 _

theorem tokenize_eq_take (line : CStr) (max_tokens : Nat) (full : List CStr)
    (h : MaxMunch line full) : tokenize line max_tokens = full.take max_tokens := by
  have hl := MaxMunch_length_le line full h
  by_cases hm : max_tokens ≤ line.length + 1
  · have e := MaxMunch_unique line _ _ h (tokenize_unlimited line)
    rw [e]
    exact tokenizeAux_take (line.length + 1) line 0 max_tokens (line.length + 1) hm
  · rw [List.take_of_length_le (by omega)]
    exact tokenizeAux_complete line full h (line.length + 1) 0 max_tokens (by omega) (by omega)

/-- C20: for every line and every limit `max_tokens`, `tokenize` returns a
count `n <= max_tokens` (the result is always a count, there is no error
return); the `n` tokens are the first `n` tokens of the tokenization `full` of
the whole line (the one maximal-munch tokenization), and `n` is the smaller of
`max_tokens` and the length of `full`; the slots written are `tokens[0 .. n]`,
with the NULL terminator at index `n`; with the limit `MAX_TOKENS - 1 = 127`
of `main` at most `MAX_TOKENS = 128` slots are written, so every index is
within the array. At the line `a b c` with limit 2 the tokens are `a`, `b`. -/
theorem C20_tokenize_limit (line : CStr) (max_tokens : Nat) :
    (tokenize line max_tokens).length ≤ max_tokens ∧
    (∃ full, MaxMunch line full ∧
      tokenize line max_tokens = full.take (tokenize line max_tokens).length ∧
      (tokenize line max_tokens).length = min max_tokens full.length) ∧
    (tokenizeSlots line max_tokens).length = (tokenize line max_tokens).length + 1 ∧
    (tokenizeSlots line max_tokens)[(tokenize line max_tokens).length]? = some none ∧
    (∀ i, i < (tokenize line max_tokens).length →
      ∃ t, (tokenizeSlots line max_tokens)[i]? = some (some t)) ∧
    (tokenizeSlots line (MAX_TOKENS - 1)).length ≤ MAX_TOKENS ∧
    tokenize ['a', ' ', 'b', ' ', 'c'] 2 = [['a'], ['b']] := by
  have hle : ∀ m, (tokenize line m).length ≤ m := by
    intro m
    have := tokenizeAux_length_le (line.length + 1) line 0 m (by omega)
    simpa [tokenize] using this
  have he := tokenize_eq_take line max_tokens _ (tokenize_unlimited line)
  refine ⟨hle _, ⟨_, tokenize_unlimited line, ?_, ?_⟩, ?_, ?_, ?_, ?_, by decide⟩
  · have hlen : (tokenize line max_tokens).length =
        min max_tokens (tokenize line (line.length + 1)).length := by
      rw [he, List.length_take]
    rw [hlen, ← List.take_take, List.take_length]
    exact he
  · rw [he, List.length_take]
  · simp [tokenizeSlots]
  · simp [tokenizeSlots]
  · intro i hi
    refine ⟨(tokenize line max_tokens)[i], ?_⟩
    simp [tokenizeSlots, List.getElem?_append_left, hi]
  · have := hle (MAX_TOKENS - 1)
    simp only [tokenizeSlots, List.length_append, List.length_map, List.length_singleton]
    have hM : MAX_TOKENS = 128 := rfl
    omega

/-! ## C21: at most one live job per process group -/

theorem keeps_refl (w : World) : KeepsOrFrees w w := fun _ => Or.inl ⟨rfl, rfl⟩

theorem keeps_of_jobs (w w2 : World) (h : w2.jobs = w.jobs) : KeepsOrFrees w w2 := by
  intro i
  rw [h]
  exact Or.inl ⟨rfl, rfl⟩

theorem keeps_trans {w1 w2 w3 : World} (h1 : KeepsOrFrees w1 w2) (h2 : KeepsOrFrees w2 w3) :
    KeepsOrFrees w1 w3 := by
  intro i
  rcases h2 i with ⟨a, b⟩ | c
  · rcases h1 i with ⟨a1, b1⟩ | c1
    · exact Or.inl ⟨a.trans a1, b.trans b1⟩
    · exact Or.inr (a.trans c1)
  · exact Or.inr c

theorem UniquePgid_of_keeps {w w2 : World} (hu : UniquePgid w) (hk : KeepsOrFrees w w2) :
    UniquePgid w2 := by
  intro i j hi hj hp
  rcases hk i with ⟨a, b⟩ | c
  · rcases hk j with ⟨a2, b2⟩ | c2
    · exact hu i j (by rw [← a]; exact hi) (by rw [← a2]; exact hj) (by rw [← b, ← b2]; exact hp)
    · exact absurd c2 hj
  · exact absurd c hi

theorem keeps_status (w w2 : World) (k : Fin MAX_JOBS) (s : Nat)
    (h : w2.jobs = Function.update w.jobs k { w.jobs k with status := s }) :
    KeepsOrFrees w w2 := by
  intro i
  rw [h]
  by_cases hik : i = k
  · subst hik
    simp
  · simp [Function.update_noteq hik]

theorem keeps_remove (w : World) (pgid : Int) : KeepsOrFrees w (remove_job_pgid w pgid) := by
  intro i
  rcases (remove_job_pgid_jobs w pgid).2 with h | ⟨k, h⟩
  · rw [h]; exact Or.inl ⟨rfl, rfl⟩
  · rw [h]
    by_cases hik : i = k
    · subst hik
      simp
    · simp [Function.update_noteq hik]

theorem keeps_reapChange (w : World) (status : WStatus) (g : Int) :
    KeepsOrFrees w (reapChange w status g) := by
  unfold reapChange
  by_cases hg : g ≤ 0
  · rw [if_pos hg]; exact keeps_refl w
  · rw [if_neg hg]
    cases find_pgid w.jobs g with
    | none => exact keeps_refl w
    | some k =>
      cases status with
      | exited c =>
        exact keeps_trans (keeps_status w _ k JOB_DONE rfl) (keeps_remove _ _)
      | signaled c =>
        exact keeps_trans (keeps_status w _ k JOB_DONE rfl) (keeps_remove _ _)
      | stopped c => exact keeps_status w _ k JOB_STOPPED rfl
      | continued => exact keeps_status w _ k JOB_RUNNING rfl

theorem keeps_reapLoop (ws : List (Int × WStatus)) : ∀ w : World,
    KeepsOrFrees w (reapLoop ws w) := by
  induction ws with
  | nil => intro w; exact keeps_of_jobs _ _ rfl
  | cons r ws ih =>
    intro w
    obtain ⟨pid, status⟩ := r
    simp only [reapLoop]
    by_cases hp : pid ≤ 0
    · rw [if_pos hp]; exact keeps_of_jobs _ _ rfl
    · rw [if_neg hp]
      by_cases he : status.ended = true
      · rw [if_pos he]
        have h0 : KeepsOrFrees w (w.popWait (-1) pid ws) := keeps_of_jobs w _ rfl
        exact keeps_trans (keeps_trans h0 (keeps_reapChange _ status _)) (ih _)
      · rw [if_neg he]
        have h1 : KeepsOrFrees w
            ({ w.popWait (-1) pid ws with
              os := { (w.popWait (-1) pid ws).os with
                getpgids := (w.popWait (-1) pid ws).os.getpgids.tail } } : World) :=
          keeps_of_jobs w _ rfl
        exact keeps_trans (keeps_trans h1 (keeps_reapChange _ status _)) (ih _)

theorem keeps_fgWait (k : Fin MAX_JOBS) (ws : List (Int × WStatus)) : ∀ w : World,
    KeepsOrFrees w (fgWait k ws w).1 := by
  induction ws with
  | nil => intro w; exact keeps_of_jobs _ _ rfl
  | cons r ws ih =>
    intro w
    obtain ⟨pid, status⟩ := r
    simp only [fgWait]
    by_cases hpid : pid > 0
    · rw [if_pos hpid]
      cases status with
      | exited c => exact keeps_trans (keeps_of_jobs w _ rfl) (keeps_remove _ _)
      | signaled c => exact keeps_trans (keeps_of_jobs w _ rfl) (keeps_remove _ _)
      | stopped c => exact keeps_status w _ k JOB_STOPPED rfl
      | continued => exact keeps_trans (keeps_of_jobs w _ rfl) (ih _)
    · rw [if_neg hpid]; exact keeps_of_jobs _ _ rfl

theorem keeps_fg (w : World) (argv : List CStr) : KeepsOrFrees w (fg w argv).1 := by
  unfold fg
  cases argv.get? 1 with
  | none => exact keeps_of_jobs _ _ rfl
  | some a =>
    simp only
    cases find_id w.jobs (atoi a) with
    | none => exact keeps_of_jobs _ _ rfl
    | some k =>
      simp only
      have h1 : KeepsOrFrees w
          ({ w.emit (Event.kill (-(w.jobs k).pgid) Sig.SIGCONT) with
            jobs := Function.update (w.emit (Event.kill (-(w.jobs k).pgid) Sig.SIGCONT)).jobs k
              { (w.emit (Event.kill (-(w.jobs k).pgid) Sig.SIGCONT)).jobs k with
                status := JOB_RUNNING }
            fg_pgid := ((w.emit (Event.kill (-(w.jobs k).pgid) Sig.SIGCONT)).jobs k).pgid } :
            World) := keeps_status w _ k JOB_RUNNING rfl
      exact keeps_trans (keeps_trans h1 (keeps_fgWait k _ _)) (keeps_of_jobs _ _ rfl)

theorem keeps_bg (w : World) (argv : List CStr) : KeepsOrFrees w (bg w argv).1 := by
  unfold bg
  cases argv.get? 1 with
  | none => exact keeps_of_jobs _ _ rfl
  | some a =>
    simp only
    cases find_id w.jobs (atoi a) with
    | none => exact keeps_of_jobs _ _ rfl
    | some k => exact keeps_status w _ k JOB_RUNNING rfl

theorem UniquePgid_add (w : World) (pgid : Int) (l : CStr) (s : Nat) (hu : UniquePgid w)
    (hnew : ∀ i, (w.jobs i).id ≠ 0 → (w.jobs i).pgid ≠ pgid) :
    UniquePgid (add_job w pgid l s) := by
  cases hf : find_slot w.jobs with
  | none =>
    rw [add_job_full w pgid l s hf]
    exact hu
  | some k =>
    rw [add_job_free w pgid l s k hf]
    intro i j hi hj hp
    simp only at hi hj hp
    by_cases hik : i = k
    · by_cases hjk : j = k
      · rw [hik, hjk]
      · subst hik
        rw [Function.update_noteq hjk] at hj hp
        rw [Function.update_same] at hp
        exact absurd hp.symm (hnew j hj)
    · by_cases hjk : j = k
      · subst hjk
        rw [Function.update_noteq hik] at hi hp
        rw [Function.update_same] at hp
        exact absurd hp (hnew i hi)
      · rw [Function.update_noteq hik] at hi hp
        rw [Function.update_noteq hjk] at hj hp
        exact hu i j hi hj hp

/-- C21, as amended: the predicate `no two live entries have the same process
group` holds in the empty table and is preserved by `remove_job_pgid`, by the
step of `reap` and by its whole loop, by `fg` and by `bg`, for every argument;
`add_job` preserves it when the table is full or when no live entry has the
process group that is added. -/
theorem C21_unique_pgid (w : World) (hu : UniquePgid w) :
    (∀ os, UniquePgid (initWorld os)) ∧
    (∀ pgid, UniquePgid (remove_job_pgid w pgid)) ∧
    (∀ status g, UniquePgid (reapChange w status g)) ∧
    UniquePgid (reap w) ∧
    (∀ argv, UniquePgid (fg w argv).1) ∧
    (∀ argv, UniquePgid (bg w argv).1) ∧
    (∀ pgid l s, find_slot w.jobs = none → UniquePgid (add_job w pgid l s)) ∧
    (∀ pgid l s, (∀ i, (w.jobs i).id ≠ 0 → (w.jobs i).pgid ≠ pgid) →
      UniquePgid (add_job w pgid l s)) := by
  refine ⟨?_, ?_, ?_, ?_, ?_, ?_, ?_, ?_⟩
  · intro os i j hi
    exact absurd rfl hi
  · intro pgid; exact UniquePgid_of_keeps hu (keeps_remove w pgid)
  · intro status g; exact UniquePgid_of_keeps hu (keeps_reapChange w status g)
  · exact UniquePgid_of_keeps hu (keeps_reapLoop _ w)
  · intro argv; exact UniquePgid_of_keeps hu (keeps_fg w argv)
  · intro argv; exact UniquePgid_of_keeps hu (keeps_bg w argv)
  · intro pgid l s hf
    rw [add_job_full w pgid l s hf]
    exact hu
  · intro pgid l s hnew; exact UniquePgid_add w pgid l s hu hnew

theorem UniquePgid_fullWorld (os : OS) : UniquePgid (fullWorld os) := by
  intro i j _ _ hp
  simp only [fullWorld] at hp
  exact Fin.ext (by omega)

/-- C21, at the full table (five jobs in the groups 100 to 104): the removal
of group 102 and `fg 3` with an exit keep the predicate. -/
theorem C21_unique_pgid_witness :
    UniquePgid (fullWorld (osWait (WStatus.exited 7))) ∧
    UniquePgid (remove_job_pgid (fullWorld (osWait (WStatus.exited 7))) 102) ∧
    UniquePgid (fg (fullWorld (osWait (WStatus.exited 7))) [['f', 'g'], ['3']]).1 :=
  ⟨UniquePgid_fullWorld _,
    (C21_unique_pgid (fullWorld (osWait (WStatus.exited 7))) (UniquePgid_fullWorld _)).2.1 102,
    (C21_unique_pgid (fullWorld (osWait (WStatus.exited 7)))
      (UniquePgid_fullWorld _)).2.2.2.2.1 [['f', 'g'], ['3']]⟩

/-- C21 (the claim as stated fails): `add_job(100, ..)` on the table that
holds one job of group 100 (and satisfies the predicate) yields a table with
two live entries of group 100. -/
theorem C21_add_job_duplicates_pgid :
    UniquePgid (add_job (initWorld osNone) 100 ['a'] JOB_RUNNING) ∧
    ¬ UniquePgid (add_job (add_job (initWorld osNone) 100 ['a'] JOB_RUNNING) 100 ['b']
      JOB_RUNNING) := by
  constructor
  · exact UniquePgid_add _ 100 ['a'] JOB_RUNNING (fun i j hi => absurd rfl hi)
      (fun i hi => absurd rfl hi)
  · intro h
    have := h 0 1 (by decide) (by decide) (by decide)
    exact absurd this (by decide)

/-! ## C26: `job_count` counts the live slots -/

theorem filter_update_length {n : Nat} (p : job_t → Bool) (f : Fin n → job_t) (i : Fin n)
    (v : job_t) : ∀ (l : List (Fin n)), l.Nodup →
    (l.filter (fun j => p (Function.update f i v j))).length +
        (if i ∈ l ∧ p (f i) = true then 1 else 0) =
      (l.filter (fun j => p (f j))).length + (if i ∈ l ∧ p v = true then 1 else 0) := by
  intro l
  induction l with
  | nil => intro _; simp
  | cons a l ih =>
    intro hnd
    have hal : a ∉ l := (List.nodup_cons.mp hnd).1
    have hl : l.Nodup := (List.nodup_cons.mp hnd).2
    by_cases hai : a = i
    · subst hai
      have htail : l.filter (fun j => p (Function.update f a v j)) =
          l.filter (fun j => p (f j)) := by
        apply List.filter_congr
        intro x hx
        have : x ≠ a := fun h => hal (h ▸ hx)
        rw [Function.update_noteq this]
      simp only [List.filter_cons, Function.update_same, htail, List.mem_cons, true_or,
        true_and]
      by_cases h1 : p v = true <;> by_cases h2 : p (f a) = true <;> simp [h1, h2]
    · have hia : i ≠ a := fun h => hai h.symm
      have ih2 := ih hl
      simp only [List.filter_cons, Function.update_noteq hai, List.mem_cons, hia, false_or]
      by_cases h2 : p (f a) = true
      · simp only [h2, if_true, List.length_cons]
        omega
      · simp only [h2, Bool.false_eq_true, if_false]
        exact ih2

theorem liveCount_update (w w2 : World) (k : Fin MAX_JOBS) (v : job_t)
    (h : w2.jobs = Function.update w.jobs k v) :
    liveCount w2 + (if (w.jobs k).id ≠ 0 then 1 else 0) =
      liveCount w + (if v.id ≠ 0 then 1 else 0) := by
  have := filter_update_length (fun j : job_t => decide (j.id ≠ 0)) w.jobs k v
    (List.finRange MAX_JOBS) (List.nodup_finRange MAX_JOBS)
  simp only [List.mem_finRange, true_and, decide_eq_true_eq] at this
  simp only [liveCount, liveSlots, h]
  exact this

theorem liveCount_le (w : World) : liveCount w ≤ MAX_JOBS := by
  have := List.length_filter_le (fun i => decide ((w.jobs i).id ≠ 0)) (List.finRange MAX_JOBS)
  simpa [liveCount, liveSlots] using this

theorem liveCount_full (w : World) (h : ∀ i, (w.jobs i).id ≠ 0) : liveCount w = MAX_JOBS := by
  have : (List.finRange MAX_JOBS).filter (fun i => decide ((w.jobs i).id ≠ 0)) =
      List.finRange MAX_JOBS := by
    rw [List.filter_eq_self]
    intro i _
    simpa using h i
  unfold liveCount liveSlots
  rw [this]
  simp

theorem CountInv_add (w : World) (pgid : Int) (l : CStr) (s : Nat) (h : CountInv w)
    (hn : 0 < w.next_job_id) :
    CountInv (add_job w pgid l s) ∧ 0 < (add_job w pgid l s).next_job_id := by
  obtain ⟨h1, h2, h3⟩ := h
  cases hf : find_slot w.jobs with
  | none =>
    rw [add_job_full w pgid l s hf]
    exact ⟨⟨h1, h2, h3⟩, hn⟩
  | some k =>
    rw [add_job_free w pgid l s k hf]
    have hk := find_slot_some w.jobs k hf
    have hc := liveCount_update w
      ({ w.emit (Event.addJob pgid s) with
        jobs := Function.update w.jobs k ⟨w.next_job_id, pgid, strncpy l BUFFER_SIZE, s⟩
        next_job_id := w.next_job_id + 1
        job_count := w.job_count + 1 } : World) k
      ⟨w.next_job_id, pgid, strncpy l BUFFER_SIZE, s⟩ rfl
    have hne : w.next_job_id ≠ 0 := by omega
    simp only [hk, ne_eq, not_true_eq_false, if_false, hne, not_false_eq_true, if_true,
      Nat.add_zero] at hc
    have hle := liveCount_le ({ w.emit (Event.addJob pgid s) with
        jobs := Function.update w.jobs k ⟨w.next_job_id, pgid, strncpy l BUFFER_SIZE, s⟩
        next_job_id := w.next_job_id + 1
        job_count := w.job_count + 1 } : World)
    refine ⟨⟨?_, ?_, ?_⟩, ?_⟩
    · show w.job_count + 1 = _
      rw [hc, h1]
      push_cast
      rfl
    · show 0 ≤ w.job_count + 1
      omega
    · show w.job_count + 1 ≤ _
      rw [h1]
      have : (liveCount w : Int) + 1 ≤ (MAX_JOBS : Int) := by
        rw [hc] at hle
        exact_mod_cast hle
      exact this
    · show 0 < w.next_job_id + 1
      omega

theorem CountInv_remove (w : World) (pgid : Int) (h : CountInv w) :
    CountInv (remove_job_pgid w pgid) ∧
      (remove_job_pgid w pgid).next_job_id = w.next_job_id := by
  obtain ⟨h1, h2, h3⟩ := h
  cases hf : (List.finRange MAX_JOBS).find?
      (fun i => decide ((w.jobs i).id ≠ 0 ∧ (w.jobs i).pgid = pgid)) with
  | none =>
    rw [remove_job_pgid_absent w pgid hf]
    exact ⟨⟨h1, h2, h3⟩, rfl⟩
  | some k =>
    rw [remove_job_pgid_at w pgid k hf]
    have hk : (w.jobs k).id ≠ 0 := by
      have := List.find?_some hf
      simp only [ne_eq, decide_eq_true_eq] at this
      exact this.1
    have hc := liveCount_update w
      ({ w with jobs := Function.update w.jobs k ⟨0, 0, [], 0⟩,
                job_count := w.job_count - 1 } : World) k ⟨0, 0, [], 0⟩ rfl
    simp only [hk, ne_eq, not_false_eq_true, if_true, not_true_eq_false, if_false,
      Nat.add_zero] at hc
    obtain ⟨m, hm, hc2⟩ : ∃ m, liveCount ({ w with
        jobs := Function.update w.jobs k ⟨0, 0, [], 0⟩,
        job_count := w.job_count - 1 } : World) = m ∧ m + 1 = liveCount w := ⟨_, rfl, hc⟩
    refine ⟨⟨?_, ?_, ?_⟩, rfl⟩
    · show w.job_count - 1 = _
      rw [hm]
      omega
    · show 0 ≤ w.job_count - 1
      omega
    · show w.job_count - 1 ≤ _
      omega

theorem CountInv_init (os : OS) : CountInv (initWorld os) ∧ 0 < (initWorld os).next_job_id := by
  have h0 : liveCount (initWorld os) = 0 := by
    simp [liveCount, liveSlots, initWorld, emptyJob]
  refine ⟨⟨?_, ?_, ?_⟩, ?_⟩
  · rw [h0]; rfl
  · show (0 : Int) ≤ 0
    omega
  · show (0 : Int) ≤ (MAX_JOBS : Int)
    simp
  · show (0 : Int) < 1
    omega

theorem CountInv_runJobOps (ops : List JobOp) : ∀ w : World, CountInv w → 0 < w.next_job_id →
    CountInv (runJobOps w ops).1 ∧ 0 < (runJobOps w ops).1.next_job_id := by
  induction ops with
  | nil => intro w h hn; exact ⟨h, hn⟩
  | cons o ops ih =>
    intro w h hn
    cases o with
    | add pgid l s =>
      have := CountInv_add w pgid l s h hn
      exact ih _ this.1 this.2
    | remove pgid =>
      have := CountInv_remove w pgid h
      exact ih _ this.1 (by rw [this.2]; exact hn)

/-- C26: the predicate `job_count` equals the number of slots with a non-zero
id, and `0 <= job_count <= MAX_JOBS`, holds in the initial state; in a state
where it holds (and `next_job_id`, which starts at 1 and only grows, is
positive) it holds again after `add_job`, on a full table and on a table with
a free slot, and after `remove_job_pgid`, for a group that is present and for
one that is absent; so it holds after every sequence of these operations from
the initial state. -/
theorem C26_job_count (w : World) (h : CountInv w) (hn : 0 < w.next_job_id) :
    (∀ os, CountInv (initWorld os) ∧ 0 < (initWorld os).next_job_id) ∧
    (∀ pgid l s, CountInv (add_job w pgid l s) ∧ 0 < (add_job w pgid l s).next_job_id) ∧
    (∀ pgid l s, find_slot w.jobs = none →
      (add_job w pgid l s).job_count = w.job_count ∧
      liveCount (add_job w pgid l s) = liveCount w) ∧
    (∀ pgid l s k, find_slot w.jobs = some k →
      (add_job w pgid l s).job_count = w.job_count + 1 ∧
      liveCount (add_job w pgid l s) = liveCount w + 1) ∧
    (∀ pgid, CountInv (remove_job_pgid w pgid) ∧
      (remove_job_pgid w pgid).next_job_id = w.next_job_id) ∧
    (∀ pgid, (∃ i, (w.jobs i).id ≠ 0 ∧ (w.jobs i).pgid = pgid) →
      (remove_job_pgid w pgid).job_count = w.job_count - 1) ∧
    (∀ pgid, (∀ i, (w.jobs i).id ≠ 0 → (w.jobs i).pgid ≠ pgid) →
      remove_job_pgid w pgid = w) ∧
    (∀ os ops, CountInv (runJobOps (initWorld os) ops).1) := by
  refine ⟨CountInv_init, fun pgid l s => CountInv_add w pgid l s h hn, ?_, ?_,
    fun pgid => CountInv_remove w pgid h, ?_, ?_, ?_⟩
  · intro pgid l s hf
    rw [add_job_full w pgid l s hf]
    exact ⟨rfl, rfl⟩
  · intro pgid l s k hf
    have hi := (CountInv_add w pgid l s h hn).1.1
    have hj : (add_job w pgid l s).job_count = w.job_count + 1 := by
      rw [add_job_free w pgid l s k hf]
    refine ⟨hj, ?_⟩
    have := h.1
    omega
  · intro pgid hex
    obtain ⟨k, hk⟩ := find_pgid_exists w.jobs pgid hex
    rw [remove_job_pgid_at w pgid k hk]
  · intro pgid hno
    exact remove_job_pgid_absent w pgid (find_pgid_none w.jobs pgid hno)
  · intro os ops
    exact (CountInv_runJobOps ops _ (CountInv_init os).1 (CountInv_init os).2).1

/-- C26, at the initial state: after `add_job(100, ..)` the counter is 1 and
one slot is live; after `remove_job_pgid(100)` both are 0 again. -/
theorem C26_job_count_witness :
    CountInv (initWorld osNone) ∧
    CountInv (add_job (initWorld osNone) 100 ['a'] JOB_RUNNING) ∧
    (add_job (initWorld osNone) 100 ['a'] JOB_RUNNING).job_count = 1 ∧
    liveCount (add_job (initWorld osNone) 100 ['a'] JOB_RUNNING) = 1 :=
  ⟨(CountInv_init osNone).1,
    ((C26_job_count (initWorld osNone) (CountInv_init osNone).1
      (CountInv_init osNone).2).2.1 100 ['a'] JOB_RUNNING).1,
    ((C26_job_count (initWorld osNone) (CountInv_init osNone).1
      (CountInv_init osNone).2).2.2.2.1 100 ['a'] JOB_RUNNING 0 (by decide)).1,
    ((C26_job_count (initWorld osNone) (CountInv_init osNone).1
      (CountInv_init osNone).2).2.2.2.1 100 ['a'] JOB_RUNNING 0 (by decide)).2⟩

/-! ## C22: the foreground marker is cleared on return -/

theorem fg_fg_pgid (w : World) (argv : List CStr) (h : w.fg_pgid = 0) :
    (fg w argv).1.fg_pgid = 0 := by
  unfold fg
  cases argv.get? 1 with
  | none => exact h
  | some a =>
    simp only
    cases find_id w.jobs (atoi a) with
    | none => exact h
    | some k => rfl

theorem bg_fg_pgid (w : World) (argv : List CStr) : (bg w argv).1.fg_pgid = w.fg_pgid := by
  unfold bg
  cases argv.get? 1 with
  | none => rfl
  | some a =>
    simp only
    cases find_id w.jobs (atoi a) with
    | none => rfl
    | some k => rfl

theorem cd_fg_pgid (w : World) (argv : List CStr) : (cd w argv).1.fg_pgid = w.fg_pgid := by
  unfold cd
  simp only
  cases w.os.chdirs with
  | nil => rfl
  | cons r rest => rfl

theorem cmd_handler_fg_pgid (w : World) (argv : List CStr) (h : w.fg_pgid = 0) :
    (cmd_handler w argv).1.fg_pgid = 0 := by
  unfold cmd_handler
  cases argv with
  | nil => exact h
  | cons name rest =>
    simp only
    split_ifs
    · rw [cd_fg_pgid]; exact h
    · exact h
    · exact h
    · exact fg_fg_pgid w _ h
    · exact h
    · rw [bg_fg_pgid]; exact h
    · exact h
    · exact h

theorem makePipes_fg_pgid (m : Nat) : ∀ (j : Nat) (w : World) (acc : List (Nat × Nat)),
    (makePipes m j w acc).1.fg_pgid = w.fg_pgid := by
  induction m with
  | zero => intro j w acc; rfl
  | succ m ih =>
    intro j w acc
    unfold makePipes
    cases hp : w.os.pipes with
    | nil => rfl
    | cons p rest =>
      cases p with
      | none => rfl
      | some rw =>
        obtain ⟨r, wr⟩ := rw
        simp only
        rw [ih]
        rfl

theorem closePipes_fg_pgid (pipes : List (Nat × Nat)) : ∀ w : World,
    (closePipes w pipes).fg_pgid = w.fg_pgid := by
  induction pipes with
  | nil => intro w; rfl
  | cons p pipes ih =>
    intro w
    have : closePipes w (p :: pipes) = closePipes ((w.close p.1).close p.2) pipes := rfl
    rw [this, ih]
    rfl

theorem add_job_fg_pgid (w : World) (pgid : Int) (l : CStr) (s : Nat) :
    (add_job w pgid l s).fg_pgid = w.fg_pgid := by
  cases hf : find_slot w.jobs with
  | none => rw [add_job_full w pgid l s hf]; rfl
  | some k => rw [add_job_free w pgid l s k hf]; rfl

theorem childBody_exits (w : World) (i count : Nat) (pipes : List (Nat × Nat)) (cmd : Command)
    (pgid : Int) : ∃ c, (childBody w i count pipes cmd pgid).2 = Outcome.exit c := by
  unfold childBody
  simp only
  split
  · exact ⟨_, rfl⟩
  · split
    · exact ⟨_, rfl⟩
    · exact ⟨_, rfl⟩

theorem forkLoop_fg_pgid (count : Nat) (pipes : List (Nat × Nat)) (cmds : List Command) :
    ∀ (i : Nat) (pgid : Int) (w : World),
    (∀ o, (forkLoop count pipes cmds i pgid w).2 = ForkEnd.child o → ∃ c, o = Outcome.exit c) ∧
    ((∀ o, (forkLoop count pipes cmds i pgid w).2 ≠ ForkEnd.child o) →
      (forkLoop count pipes cmds i pgid w).1.fg_pgid = w.fg_pgid) := by
  induction cmds with
  | nil =>
    intro i pgid w
    exact ⟨fun o h => by simp [forkLoop] at h, fun _ => rfl⟩
  | cons cmd cmds ih =>
    intro i pgid w
    simp only [forkLoop]
    by_cases h1 : w.os.forks.headD (-1) < 0
    · rw [if_pos h1]
      exact ⟨fun o h => by simp at h, fun _ => rfl⟩
    · rw [if_neg h1]
      by_cases h2 : w.os.forks.headD (-1) = 0
      · rw [if_pos h2]
        constructor
        · intro o h
          simp only [ForkEnd.child.injEq] at h
          obtain ⟨c, hc⟩ := childBody_exits
            (({ w with os := { w.os with forks := w.os.forks.tail } } : World).emit
              (Event.fork (w.os.forks.headD (-1)))) i count pipes cmd pgid
          exact ⟨c, by rw [← h, hc]⟩
        · intro h
          exact absurd rfl (h _)
      · rw [if_neg h2]
        obtain ⟨a, b⟩ := ih (i + 1) (if i = 0 then w.os.forks.headD (-1) else pgid)
          ((({ w with os := { w.os with forks := w.os.forks.tail } } : World).emit
              (Event.fork (w.os.forks.headD (-1)))).emit
            (Event.setpgid (w.os.forks.headD (-1))
              (if i = 0 then w.os.forks.headD (-1) else pgid)))
        exact ⟨a, fun h => (b h).trans rfl⟩

theorem launch_fg_pgid (w : World) (cmds : List Command) (flag : Nat) (l : CStr)
    (h : w.fg_pgid = 0) (s : Int) (hr : (launch w cmds flag l).2 = Outcome.ret s) :
    (launch w cmds flag l).1.fg_pgid = 0 := by
  unfold launch at hr ⊢
  simp only at hr ⊢
  have hmk : (if cmds.length > 1 then makePipes (cmds.length - 1) 0 w [] else (w, some [])).1.fg_pgid
      = 0 := by
    split_ifs
    · rw [makePipes_fg_pgid]; exact h
    · exact h
  rcases hm : (if cmds.length > 1 then makePipes (cmds.length - 1) 0 w []
      else (w, some [])) with ⟨w1, _ | pipes⟩
  · rw [hm] at hmk
    exact hmk
  · rw [hm] at hmk hr
    simp only at hmk hr ⊢
    obtain ⟨hchild, hframe⟩ := forkLoop_fg_pgid cmds.length pipes cmds 0 0 w1
    rcases hfl : forkLoop cmds.length pipes cmds 0 0 w1 with ⟨w2, pg | _ | o⟩
    · rw [hfl] at hframe hr
      simp only at hframe hr ⊢
      have hw2 : w2.fg_pgid = 0 := by
        rw [hframe (fun o ho => by simp at ho)]
        exact hmk
      by_cases hflag : flag ≠ 0
      · rw [if_pos hflag]
        show (add_job (closePipes w2 pipes) pg l JOB_RUNNING).fg_pgid = 0
        rw [add_job_fg_pgid, closePipes_fg_pgid]
        exact hw2
      · rw [if_neg hflag]
    · rw [hfl] at hframe
      simp only at hframe ⊢
      rw [hframe (fun o ho => by simp at ho)]
      exact hmk
    · rw [hfl] at hchild hr
      simp only at hchild hr
      obtain ⟨c, hc⟩ := hchild o rfl
      rw [hc] at hr
      simp at hr

/-- C22: when `fg_pgid` is 0 on entry, it is 0 in the state in which
`execute` returns a status, for every token range, flag and behaviour of the
system calls (built-in handled, empty segment, pipe or fork failure,
background launch, and every way the foreground wait ends), and it is 0 in the
state in which `fg` returns, for every argument vector (missing or unknown id,
stop, exit, signal, wait error). The wait loops themselves run on a state in
which the marker holds the group that is waited for. -/
theorem C22_fg_pgid_cleared (w : World) (h : w.fg_pgid = 0) :
    (∀ tokens start stop flag l s,
      (execute w tokens start stop flag l).2 = Outcome.ret s →
      (execute w tokens start stop flag l).1.fg_pgid = 0) ∧
    (∀ argv, (fg w argv).1.fg_pgid = 0) := by
  refine ⟨?_, fun argv => fg_fg_pgid w argv h⟩
  intro tokens start stop flag l s hr
  unfold execute at hr ⊢
  cases hseg : segmentTokens tokens start stop with
  | none => rw [hseg] at hr; simp at hr
  | some seg =>
    rw [hseg] at hr
    simp only at hr ⊢
    by_cases h0 : (parseCommands seg).length = 0
    · rw [if_pos h0]; exact h
    · rw [if_neg h0] at hr ⊢
      by_cases hc : (parseCommands seg).length = 1 ∧ flag = 0
      · rw [if_pos hc] at hr ⊢
        have hcm := cmd_handler_fg_pgid w ((parseCommands seg).headD ⟨[], none, none⟩).argv h
        rcases hh : cmd_handler w ((parseCommands seg).headD ⟨[], none, none⟩).argv with
          ⟨w1, _ | o⟩
        · rw [hh] at hcm hr
          simp only at hcm hr ⊢
          exact launch_fg_pgid w1 _ flag l hcm s hr
        · rw [hh] at hcm
          exact hcm
      · rw [if_neg hc] at hr ⊢
        exact launch_fg_pgid w _ flag l h s hr

/-- C22, at the pipeline `a | b` run in the foreground from the initial state
and at `fg 3` on the full table. -/
theorem C22_fg_pgid_cleared_witness :
    (initWorld osTwoStage).fg_pgid = 0 ∧
    (execute (initWorld osTwoStage) twoStageTokens 0 3 0 ['a', ' ', '|', ' ', 'b']).2 =
      Outcome.ret 0 ∧
    (execute (initWorld osTwoStage) twoStageTokens 0 3 0
      ['a', ' ', '|', ' ', 'b']).1.fg_pgid = 0 ∧
    (fg (fullWorld (osWait (WStatus.stopped 20))) [['f', 'g'], ['3']]).1.fg_pgid = 0 :=
  ⟨rfl, rfl,
    (C22_fg_pgid_cleared (initWorld osTwoStage) rfl).1 twoStageTokens 0 3 0
      ['a', ' ', '|', ' ', 'b'] 0 rfl,
    (C22_fg_pgid_cleared (fullWorld (osWait (WStatus.stopped 20))) rfl).2 [['f', 'g'], ['3']]⟩

/-! ## C24: the terminal-stop handler -/

/-- C24: for every state, `sigtstp_handler` performs exactly one action when
`fg_pgid > 0`, the call `kill(-fg_pgid, SIGTSTP)` that sends the stop signal to
the process group `fg_pgid`, and no action at all when `fg_pgid` is 0 (or
negative); in both cases the job table, `next_job_id`, `job_count`, the
history, `fg_pgid`, the descriptors and the pending results of the system are
unchanged, and the handler returns (it does not end the process). -/
theorem C24_sigtstp_frame (w : World) :
    (0 < w.fg_pgid →
      (sigtstp_handler w).1.trace = w.trace ++ [Event.kill (-w.fg_pgid) Sig.SIGTSTP]) ∧
    (w.fg_pgid ≤ 0 → (sigtstp_handler w).1.trace = w.trace) ∧
    (sigtstp_handler w).1.jobs = w.jobs ∧
    (sigtstp_handler w).1.next_job_id = w.next_job_id ∧
    (sigtstp_handler w).1.job_count = w.job_count ∧
    (sigtstp_handler w).1.history = w.history ∧
    (sigtstp_handler w).1.history_length = w.history_length ∧
    (sigtstp_handler w).1.fg_pgid = w.fg_pgid ∧
    (sigtstp_handler w).1.fds = w.fds ∧
    (sigtstp_handler w).1.os = w.os ∧
    (sigtstp_handler w).2 = HandlerEnd.returned := by
  unfold sigtstp_handler
  by_cases h : w.fg_pgid > 0
  · rw [if_pos h]
    exact ⟨fun _ => rfl, fun h2 => by omega, rfl, rfl, rfl, rfl, rfl, rfl, rfl, rfl, rfl⟩
  · rw [if_neg h]
    exact ⟨fun h2 => absurd h2 h, fun _ => rfl, rfl, rfl, rfl, rfl, rfl, rfl, rfl, rfl, rfl⟩

/-- C24, at the initial state with the foreground marker set to group 100, and
at the initial state itself (marker 0). -/
theorem C24_sigtstp_frame_witness :
    (0 : Int) < ({ initWorld osNone with fg_pgid := 100 } : World).fg_pgid ∧
    (sigtstp_handler { initWorld osNone with fg_pgid := 100 }).1.trace =
      [Event.kill (-100) Sig.SIGTSTP] ∧
    (initWorld osNone).fg_pgid ≤ 0 ∧
    (sigtstp_handler (initWorld osNone)).1.trace = [] :=
  ⟨by decide, (C24_sigtstp_frame { initWorld osNone with fg_pgid := 100 }).1 (by decide),
    by decide, (C24_sigtstp_frame (initWorld osNone)).2.1 (by decide)⟩

/-! ## C28: the tokens are the line without its whitespace -/

theorem isOpChar_not_space (c : Char) (h : isOpChar c = true) : isspace c = false := by
  simp only [isOpChar, Bool.or_eq_true, decide_eq_true_eq] at h
  rcases h with (((h | h) | h) | h) | h <;> subst h <;> decide

theorem MaxMunch_flatten (p : CStr) (toks : List CStr) (h : MaxMunch p toks) :
    toks.flatten = p.filter (fun c => !isspace c) ∧ ∀ t ∈ toks, t ≠ [] := by
  induction h with
  | done => simp
  | space c rest toks hc _ ih =>
    refine ⟨?_, ih.2⟩
    rw [List.filter_cons]
    simp [hc, ih.1]
  | andand rest toks _ ih =>
    refine ⟨?_, ?_⟩
    · have h1 : isspace '&' = false := by decide
      simp [List.filter_cons, h1, ih.1]
    · intro t ht
      rcases List.mem_cons.mp ht with rfl | ht
      · simp
      · exact ih.2 t ht
  | oror rest toks _ ih =>
    refine ⟨?_, ?_⟩
    · have h1 : isspace '|' = false := by decide
      simp [List.filter_cons, h1, ih.1]
    · intro t ht
      rcases List.mem_cons.mp ht with rfl | ht
      · simp
      · exact ih.2 t ht
  | single c rest toks hc _ _ _ ih =>
    refine ⟨?_, ?_⟩
    · have h1 := isOpChar_not_space c hc
      simp [List.filter_cons, h1, ih.1]
    · intro t ht
      rcases List.mem_cons.mp ht with rfl | ht
      · simp
      · exact ih.2 t ht
  | word w rest toks hne hw _ _ ih =>
    refine ⟨?_, ?_⟩
    · have hf : w.filter (fun c => !isspace c) = w := by
        rw [List.filter_eq_self]
        intro c hc
        simp [(hw c hc).1]
      rw [List.flatten_cons, List.filter_append, hf, ih.1]
    · intro t ht
      rcases List.mem_cons.mp ht with rfl | ht
      · exact hne
      · exact ih.2 t ht

/-- C28: for every line that yields fewer than `max_tokens` tokens, the
concatenation of the tokens of `tokenize`, in order, is the line with its
whitespace characters removed, and every token is non-empty. -/
theorem C28_tokens_concat (line : CStr) (max_tokens : Nat)
    (h : (tokenize line max_tokens).length < max_tokens) :
    (tokenize line max_tokens).flatten = line.filter (fun c => !isspace c) ∧
    ∀ t ∈ tokenize line max_tokens, t ≠ [] :=
  MaxMunch_flatten line _
    (tokenizeAux_sound _ line 0 max_tokens (by omega) (by simpa [tokenize] using h))

/-- C28, at the line `ls -l>out`. -/
theorem C28_tokens_concat_witness :
    (tokenize ['l', 's', ' ', '-', 'l', '>', 'o', 'u', 't'] 127).length < 127 ∧
    (tokenize ['l', 's', ' ', '-', 'l', '>', 'o', 'u', 't'] 127).flatten =
      ['l', 's', '-', 'l', '>', 'o', 'u', 't'] :=
  ⟨by decide, (C28_tokens_concat ['l', 's', ' ', '-', 'l', '>', 'o', 'u', 't'] 127
    (by decide)).1⟩

/-! ## C23: the command parse of `execute` -/

theorem specStages_ne_nil (toks : List CStr) : specStages toks ≠ [] := by
  cases toks with
  | nil => simp [specStages]
  | cons t rest =>
    unfold specStages
    split_ifs
    · simp
    · split <;> simp

theorem specStages_bar (rest : List CStr) : specStages (['|'] :: rest) = [] :: specStages rest := by
  simp [specStages]

theorem specStages_cons (t : CStr) (rest : List CStr) (h : t ≠ ['|']) :
    specStages (t :: rest) =
      (t :: (specStages rest).headD []) :: (specStages rest).tail := by
  have hne := specStages_ne_nil rest
  rw [specStages, if_neg h]
  cases hs : specStages rest with
  | nil => exact absurd hs hne
  | cons s ss => rfl

theorem specStages_length (toks : List CStr) :
    (specStages toks).length = toks.count ['|'] + 1 := by
  induction toks with
  | nil => simp [specStages]
  | cons t rest ih =>
    by_cases h : t = ['|']
    · subst h
      rw [specStages_bar, List.length_cons, ih, List.count_cons_self]
    · rw [specStages_cons t rest h, List.length_cons, List.length_tail, ih,
        List.count_cons_of_ne (fun e => h e.symm)]
      omega

theorem specStages_no_bar (toks : List CStr) : ∀ st ∈ specStages toks, ['|'] ∉ st := by
  induction toks with
  | nil => simp [specStages]
  | cons t rest ih =>
    have hne := specStages_ne_nil rest
    by_cases h : t = ['|']
    · subst h
      rw [specStages_bar]
      intro st hst
      rcases List.mem_cons.mp hst with rfl | hst
      · simp
      · exact ih st hst
    · rw [specStages_cons t rest h]
      intro st hst
      cases hs : specStages rest with
      | nil => exact absurd hs hne
      | cons s ss =>
        rw [hs] at hst ih
        simp only [List.headD_cons, List.tail_cons, List.mem_cons] at hst
        rcases hst with rfl | hst
        · intro hm
          rcases List.mem_cons.mp hm with e | hm
          · exact h e.symm
          · exact ih s (by simp) hm
        · exact ih st (by simp [hst])

theorem specStages_flatten (toks : List CStr) :
    ((specStages toks).intersperse [['|']]).flatten = toks := by
  induction toks with
  | nil => simp [specStages]
  | cons t rest ih =>
    have hne := specStages_ne_nil rest
    cases hs : specStages rest with
    | nil => exact absurd hs hne
    | cons s ss =>
      rw [hs] at ih
      by_cases h : t = ['|']
      · subst h
        rw [specStages_bar, hs]
        simp only [List.intersperse, List.flatten_cons, List.nil_append, List.singleton_append]
        rw [← ih]
      · rw [specStages_cons t rest h, hs]
        simp only [List.headD_cons, List.tail_cons]
        cases ss with
        | nil =>
          simp only [List.intersperse, List.flatten_cons, List.flatten_nil, List.append_nil]
            at ih ⊢
          rw [ih]
        | cons s2 ss2 =>
          simp only [List.intersperse, List.flatten_cons, List.cons_append] at ih ⊢
          rw [ih]

theorem specArgv_word (t : CStr) (s : List CStr) (h : isRedir t = false) :
    specArgv (t :: s) = t :: specArgv s := by
  cases s with
  | nil => simp [specArgv, h]
  | cons f rest => simp [specArgv, h]

theorem specTargets_word (op t : CStr) (s : List CStr) (h : isRedir t = false) :
    specTargets op (t :: s) = specTargets op s := by
  cases s with
  | nil => simp [specTargets]
  | cons f rest => simp [specTargets, h]

theorem redirOk_word (t : CStr) (s : List CStr) (h : isRedir t = false) :
    redirOk (t :: s) = redirOk s := by
  cases s with
  | nil => simp [redirOk, h]
  | cons f rest => simp [redirOk, h]

theorem getLast?_cons_match (f : CStr) (l : List CStr) :
    (f :: l).getLast? = (match l.getLast? with
      | some g => some g
      | none => some f) := by
  cases l with
  | nil => rfl
  | cons a l =>
    rw [List.getLast?_cons_cons, List.getLast?_eq_getLast (a :: l) (by simp)]

theorem extend_empty (c : Command) : Command.extend ⟨[], none, none⟩ c = c := by
  obtain ⟨a, i, o⟩ := c
  cases i <;> cases o <;> rfl

theorem extend_specCommand_nil (cur : Command) : cur.extend (specCommand []) = cur := by
  obtain ⟨a, i, o⟩ := cur
  simp [Command.extend, specCommand, specArgv, specTargets]

theorem parseFrom_spec : ∀ (n : Nat) (toks : List CStr) (cur : Command), toks.length ≤ n →
    (∀ st ∈ specStages toks, redirOk st = true) →
    (∀ st ∈ (specStages toks).tail, st ≠ []) →
    parseFrom toks cur =
      cur.extend (specCommand ((specStages toks).headD [])) ::
        (specStages toks).tail.map specCommand := by
  intro n
  induction n with
  | zero =>
    intro toks cur hl _ _
    have : toks = [] := List.length_eq_zero.mp (by omega)
    subst this
    simp [parseFrom, specStages, extend_specCommand_nil]
  | succ n ih =>
    intro toks cur hl h1 h2
    cases toks with
    | nil => simp [parseFrom, specStages, extend_specCommand_nil]
    | cons t rest =>
      simp only [List.length_cons] at hl
      have hne := specStages_ne_nil rest
      by_cases hbar : t = ['|']
      · subst hbar
        rw [specStages_bar] at h1 h2 ⊢
        simp only [List.tail_cons, List.headD_cons] at h2 ⊢
        have hrest : rest ≠ [] := by
          intro e
          subst e
          exact h2 [] (by simp [specStages]) rfl
        rw [extend_specCommand_nil]
        have e : parseFrom (['|'] :: rest) cur = cur :: parseFrom rest ⟨[], none, none⟩ := by
          cases rest with
          | nil => exact absurd rfl hrest
          | cons a r => simp [parseFrom]
        rw [e]
        rw [ih rest ⟨[], none, none⟩ (by omega) (fun st hst => h1 st (by simp [hst]))
          (fun st hst => h2 st (List.mem_of_mem_tail hst)), extend_empty]
        cases hs : specStages rest with
        | nil => exact absurd hs hne
        | cons s ss => simp
      · rw [specStages_cons t rest hbar] at h1 h2 ⊢
        simp only [List.tail_cons, List.headD_cons] at h2 ⊢
        have hhead := h1 _ (List.mem_cons_self _ _)
        by_cases hr : isRedir t = true
        · -- a redirection operator: the next token is its target
          cases rest with
          | nil => simp [specStages, redirOk, hr] at hhead
          | cons f rest2 =>
            have hne2 := specStages_ne_nil rest2
            have hf : f ≠ ['|'] := by
              intro e
              subst e
              rw [specStages_bar] at hhead
              simp [redirOk, hr] at hhead
            rw [specStages_cons f rest2 hf] at h1 h2 hhead ⊢
            simp only [List.tail_cons, List.headD_cons] at h1 h2 hhead ⊢
            simp only [redirOk, hr, if_true, Bool.and_eq_true] at hhead
            have hl2 : rest2.length ≤ n := by
              simp only [List.length_cons] at hl
              omega
            have hih := fun c => ih rest2 c hl2
            have h1' : ∀ st ∈ specStages rest2, redirOk st = true := by
              intro st hst
              cases hs : specStages rest2 with
              | nil => exact absurd hs hne2
              | cons s ss =>
                rw [hs] at hst hhead h1
                rcases List.mem_cons.mp hst with rfl | hst
                · exact hhead.2
                · exact h1 st (by simp [hst])
            simp only [isRedir, Bool.or_eq_true, decide_eq_true_eq] at hr
            rcases hr with hr | hr
            · subst hr
              have e : parseFrom (['<'] :: f :: rest2) cur =
                  parseFrom rest2 { cur with input_file := some f } := by
                simp [parseFrom]
              rw [e, hih _ (fun st hst => h1' st hst) h2]
              obtain ⟨a, i, o⟩ := cur
              simp only [Command.extend, specCommand, specArgv, specTargets, isRedir,
                decide_True, Bool.true_or, if_true, getLast?_cons_match, List.cons.injEq,
                and_true, Command.mk.injEq, true_and]
              have hne' : ¬ ('<' : Char) = '>' := by decide
              simp only [hne', if_false]
              constructor
              · cases (specTargets ['<'] ((specStages rest2).headD [])).getLast? <;> rfl
              · trivial
            · subst hr
              have e : parseFrom (['>'] :: f :: rest2) cur =
                  parseFrom rest2 { cur with output_file := some f } := by
                simp [parseFrom]
              rw [e, hih _ (fun st hst => h1' st hst) h2]
              obtain ⟨a, i, o⟩ := cur
              simp only [Command.extend, specCommand, specArgv, specTargets, isRedir,
                decide_True, Bool.or_true, if_true, getLast?_cons_match, List.cons.injEq,
                and_true, Command.mk.injEq, true_and]
              have hne' : ¬ ('>' : Char) = '<' := by decide
              simp only [hne', if_false]
              constructor
              · trivial
              · cases (specTargets ['>'] ((specStages rest2).headD [])).getLast? <;> rfl
        · -- a word
          have hr' : isRedir t = false := by simpa using hr
          have hlt : t ≠ ['<'] := by
            intro e; subst e; simp [isRedir] at hr'
          have hgt : t ≠ ['>'] := by
            intro e; subst e; simp [isRedir] at hr'
          have e : parseFrom (t :: rest) cur =
              parseFrom rest { cur with argv := cur.argv ++ [t] } := by
            cases rest <;> simp [parseFrom, hbar, hlt, hgt]
          have h1' : ∀ st ∈ specStages rest, redirOk st = true := by
            intro st hst
            cases hs : specStages rest with
            | nil => exact absurd hs hne
            | cons s ss =>
              rw [hs] at hst hhead h1
              rcases List.mem_cons.mp hst with rfl | hst
              · simp only [List.headD_cons] at hhead
                rw [redirOk_word t _ hr'] at hhead
                exact hhead
              · exact h1 st (by simp [hst])
          rw [e, ih rest _ (by omega) h1' h2]
          obtain ⟨a, i, o⟩ := cur
          simp [Command.extend, specCommand, specArgv_word t _ hr', specTargets_word _ t _ hr']

theorem parseFrom_head : ∀ (n : Nat) (toks : List CStr) (cur : Command), toks.length ≤ n →
    ∃ c cs, parseFrom toks cur = c :: cs ∧ cur.argv.length ≤ c.argv.length := by
  intro n
  induction n with
  | zero =>
    intro toks cur hl
    have : toks = [] := List.length_eq_zero.mp (by omega)
    subst this
    exact ⟨cur, [], by simp [parseFrom], Nat.le_refl _⟩
  | succ n ih =>
    intro toks cur hl
    cases toks with
    | nil => exact ⟨cur, [], by simp [parseFrom], Nat.le_refl _⟩
    | cons t rest =>
      simp only [List.length_cons] at hl
      by_cases hbar : t = ['|']
      · subst hbar
        cases rest with
        | nil => exact ⟨cur, [], by simp [parseFrom], Nat.le_refl _⟩
        | cons a r =>
          exact ⟨cur, parseFrom (a :: r) ⟨[], none, none⟩, by simp [parseFrom], Nat.le_refl _⟩
      · by_cases hlt : t = ['<']
        · subst hlt
          cases rest with
          | nil => exact ⟨cur, [], by simp [parseFrom], Nat.le_refl _⟩
          | cons f rest2 =>
            simp only [List.length_cons] at hl
            obtain ⟨c, cs, e, h⟩ := ih rest2 { cur with input_file := some f } (by omega)
            exact ⟨c, cs, by simp [parseFrom, e], h⟩
        · by_cases hgt : t = ['>']
          · subst hgt
            cases rest with
            | nil => exact ⟨cur, [], by simp [parseFrom], Nat.le_refl _⟩
            | cons f rest2 =>
              simp only [List.length_cons] at hl
              obtain ⟨c, cs, e, h⟩ := ih rest2 { cur with output_file := some f } (by omega)
              exact ⟨c, cs, by simp [parseFrom, e], h⟩
          · obtain ⟨c, cs, e, h⟩ := ih rest { cur with argv := cur.argv ++ [t] } (by omega)
            have e2 : parseFrom (t :: rest) cur =
                parseFrom rest { cur with argv := cur.argv ++ [t] } := by
              cases rest <;> simp [parseFrom, hbar, hlt, hgt]
            refine ⟨c, cs, by rw [e2, e], ?_⟩
            · simp only [List.length_append, List.length_singleton] at h
              omega

theorem parseFrom_length_pos (toks : List CStr) (cur : Command) :
    0 < (parseFrom toks cur).length := by
  obtain ⟨c, cs, e, _⟩ := parseFrom_head toks.length toks cur (Nat.le_refl _)
  rw [e]
  simp

/-- The parse with the array sizes gives the rows that `parseFrom` lists
exactly when every store is inside its array, and no result otherwise. -/
theorem parseFromBounded_eq : ∀ (n : Nat) (toks : List CStr) (cmd : Nat) (cur : Command),
    toks.length ≤ n →
    parseFromBounded toks cmd cur =
      if cmd + (parseFrom toks cur).length ≤ MAX_ARGS ∧
          ∀ c ∈ parseFrom toks cur, c.argv.length < MAX_ARGS
      then some (parseFrom toks cur) else none := by
  intro n
  have hnil : ∀ (cmd : Nat) (cur : Command),
      (if cmd < MAX_ARGS ∧ cur.argv.length < MAX_ARGS then some [cur] else none) =
      if cmd + [cur].length ≤ MAX_ARGS ∧ ∀ c ∈ [cur], c.argv.length < MAX_ARGS
      then some [cur] else none := by
    intro cmd cur
    apply if_congr _ rfl rfl
    simp only [List.length_singleton, List.mem_singleton, forall_eq]
    constructor
    · rintro ⟨h1, h2⟩; exact ⟨by omega, h2⟩
    · rintro ⟨h1, h2⟩; exact ⟨by omega, h2⟩
  induction n with
  | zero =>
    intro toks cmd cur hl
    have : toks = [] := List.length_eq_zero.mp (by omega)
    subst this
    simp only [parseFromBounded, parseFrom]
    exact hnil cmd cur
  | succ n ih =>
    intro toks cmd cur hl
    cases toks with
    | nil =>
      simp only [parseFromBounded, parseFrom]
      exact hnil cmd cur
    | cons t rest =>
      simp only [List.length_cons] at hl
      by_cases hbar : t = ['|']
      · subst hbar
        cases rest with
        | nil =>
          have e1 : parseFrom [['|']] cur = [cur] := by simp [parseFrom]
          have e2 : parseFromBounded [['|']] cmd cur =
              if cmd < MAX_ARGS ∧ cur.argv.length < MAX_ARGS then some [cur] else none := by
            simp [parseFromBounded]
          rw [e1, e2]
          exact hnil cmd cur
        | cons a r =>
          have e1 : parseFrom (['|'] :: a :: r) cur =
              cur :: parseFrom (a :: r) ⟨[], none, none⟩ := by simp [parseFrom]
          have e2 : parseFromBounded (['|'] :: a :: r) cmd cur =
              if cmd < MAX_ARGS ∧ cur.argv.length < MAX_ARGS then
                (parseFromBounded (a :: r) (cmd + 1) ⟨[], none, none⟩).map (fun cs => cur :: cs)
              else none := by simp [parseFromBounded]
          have hpos := parseFrom_length_pos (a :: r) ⟨[], none, none⟩
          rw [e1, e2, ih (a :: r) (cmd + 1) ⟨[], none, none⟩ (by omega)]
          by_cases hP : cmd + 1 + (parseFrom (a :: r) ⟨[], none, none⟩).length ≤ MAX_ARGS ∧
              ∀ c ∈ parseFrom (a :: r) ⟨[], none, none⟩, c.argv.length < MAX_ARGS
          · rw [if_pos hP]
            by_cases hc : cur.argv.length < MAX_ARGS
            · rw [if_pos ⟨by omega, hc⟩, if_pos]
              · rfl
              · refine ⟨by simp only [List.length_cons]; omega, ?_⟩
                intro c hcm
                rcases List.mem_cons.mp hcm with rfl | hcm
                · exact hc
                · exact hP.2 c hcm
            · rw [if_neg (fun h => hc h.2), if_neg]
              intro h
              exact hc (h.2 cur (List.mem_cons_self _ _))
          · have hR : ¬ (cmd + (cur :: parseFrom (a :: r) ⟨[], none, none⟩).length ≤ MAX_ARGS ∧
                ∀ c ∈ cur :: parseFrom (a :: r) ⟨[], none, none⟩, c.argv.length < MAX_ARGS) := by
              intro h
              apply hP
              refine ⟨by have := h.1; simp only [List.length_cons] at this; omega, ?_⟩
              intro c hcm
              exact h.2 c (List.mem_cons_of_mem _ hcm)
            rw [if_neg hP, if_neg hR]
            split_ifs <;> rfl
      · by_cases hlt : t = ['<']
        · subst hlt
          cases rest with
          | nil =>
            have e1 : parseFrom [['<']] cur = [cur] := by simp [parseFrom]
            have e2 : parseFromBounded [['<']] cmd cur =
                if cmd < MAX_ARGS ∧ cur.argv.length < MAX_ARGS then some [cur] else none := by
              simp [parseFromBounded]
            rw [e1, e2]
            exact hnil cmd cur
          | cons f rest2 =>
            simp only [List.length_cons] at hl
            have e1 : parseFrom (['<'] :: f :: rest2) cur =
                parseFrom rest2 { cur with input_file := some f } := by simp [parseFrom]
            have e2 : parseFromBounded (['<'] :: f :: rest2) cmd cur =
                if cmd < MAX_ARGS then
                  parseFromBounded rest2 cmd { cur with input_file := some f }
                else none := by simp [parseFromBounded]
            have hpos := parseFrom_length_pos rest2 { cur with input_file := some f }
            rw [e1, e2, ih rest2 cmd _ (by omega)]
            by_cases hcm : cmd < MAX_ARGS
            · rw [if_pos hcm]
            · rw [if_neg hcm, if_neg]
              intro h
              omega
        · by_cases hgt : t = ['>']
          · subst hgt
            cases rest with
            | nil =>
              have e1 : parseFrom [['>']] cur = [cur] := by simp [parseFrom]
              have e2 : parseFromBounded [['>']] cmd cur =
                  if cmd < MAX_ARGS ∧ cur.argv.length < MAX_ARGS then some [cur] else none := by
                simp [parseFromBounded]
              rw [e1, e2]
              exact hnil cmd cur
            | cons f rest2 =>
              simp only [List.length_cons] at hl
              have e1 : parseFrom (['>'] :: f :: rest2) cur =
                  parseFrom rest2 { cur with output_file := some f } := by simp [parseFrom]
              have e2 : parseFromBounded (['>'] :: f :: rest2) cmd cur =
                  if cmd < MAX_ARGS then
                    parseFromBounded rest2 cmd { cur with output_file := some f }
                  else none := by simp [parseFromBounded]
              have hpos := parseFrom_length_pos rest2 { cur with output_file := some f }
              rw [e1, e2, ih rest2 cmd _ (by omega)]
              by_cases hcm : cmd < MAX_ARGS
              · rw [if_pos hcm]
              · rw [if_neg hcm, if_neg]
                intro h
                omega
          · have e1 : parseFrom (t :: rest) cur =
                parseFrom rest { cur with argv := cur.argv ++ [t] } := by
              cases rest <;> simp [parseFrom, hbar, hlt, hgt]
            have e2 : parseFromBounded (t :: rest) cmd cur =
                if cmd < MAX_ARGS ∧ cur.argv.length < MAX_ARGS then
                  parseFromBounded rest cmd { cur with argv := cur.argv ++ [t] }
                else none := by
              cases rest <;> simp [parseFromBounded, hbar, hlt, hgt]
            obtain ⟨c, cs, e, h⟩ :=
              parseFrom_head rest.length rest { cur with argv := cur.argv ++ [t] } (Nat.le_refl _)
            simp only [List.length_append, List.length_singleton] at h
            rw [e1, e2, ih rest cmd _ (by omega)]
            by_cases hA : cmd < MAX_ARGS ∧ cur.argv.length < MAX_ARGS
            · rw [if_pos hA]
            · rw [if_neg hA, if_neg]
              intro hP
              apply hA
              rw [e] at hP
              have h1 := hP.1
              have h2 := hP.2 c (List.mem_cons_self _ _)
              simp only [List.length_cons] at h1
              exact ⟨by omega, by omega⟩

theorem parseCommandsBounded_eq (seg : List CStr) :
    parseCommandsBounded seg =
      if InBounds (parseCommands seg) then some (parseCommands seg) else none := by
  unfold parseCommandsBounded parseCommands InBounds
  by_cases h : seg = []
  · subst h
    simp [MAX_ARGS]
  · rw [if_neg h, if_neg h, parseFromBounded_eq seg.length seg 0 _ (Nat.le_refl _)]
    simp only [Nat.zero_add]

theorem isOperator_has_opChar (t : CStr) (h : isOperator t = true) :
    ∃ c ∈ t, isOpChar c = true := by
  simp only [isOperator, Bool.or_eq_true, decide_eq_true_eq] at h
  rcases h with (((((h | h) | h) | h) | h) | h) | h <;> subst h
  · exact ⟨'&', by simp, by decide⟩
  · exact ⟨'|', by simp, by decide⟩
  · exact ⟨'&', by simp, by decide⟩
  · exact ⟨'|', by simp, by decide⟩
  · exact ⟨';', by simp, by decide⟩
  · exact ⟨'<', by simp, by decide⟩
  · exact ⟨'>', by simp, by decide⟩

theorem isWord_of_chars (w : CStr) (h : ∀ c ∈ w, isspace c = false ∧ isOpChar c = false) :
    isWord w = true := by
  cases hw : isOperator w with
  | false => simp [isWord, hw]
  | true =>
    obtain ⟨c, hc, hop⟩ := isOperator_has_opChar w hw
    rw [(h c hc).2] at hop
    exact absurd hop (by decide)

theorem isWord_opChar (c : Char) (h : isOpChar c = true) : isWord [c] = false := by
  simp only [isOpChar, Bool.or_eq_true, decide_eq_true_eq] at h
  rcases h with (((h | h) | h) | h) | h <;> subst h <;> decide

/-- In a tokenization every word is followed by a whitespace or operator
character or by the end of the text, so a text of `n` characters has at most
`(n + 1) / 2` words. -/
theorem MaxMunch_words (p : CStr) (toks : List CStr) (h : MaxMunch p toks) :
    2 * toks.countP isWord ≤ p.length + 1 ∧
    ((∀ c ∈ p.head?, isspace c = true ∨ isOpChar c = true) →
      2 * toks.countP isWord ≤ p.length) := by
  induction h with
  | done => simp
  | space c rest toks hc _ ih =>
    simp only [List.length_cons]
    exact ⟨by omega, fun _ => by omega⟩
  | andand rest toks _ ih =>
    have hw : isWord ['&', '&'] = false := by decide
    rw [List.countP_cons_of_neg _ _ (by simp [hw])]
    simp only [List.length_cons]
    exact ⟨by omega, fun _ => by omega⟩
  | oror rest toks _ ih =>
    have hw : isWord ['|', '|'] = false := by decide
    rw [List.countP_cons_of_neg _ _ (by simp [hw])]
    simp only [List.length_cons]
    exact ⟨by omega, fun _ => by omega⟩
  | single c rest toks hc _ _ _ ih =>
    rw [List.countP_cons_of_neg _ _ (by simp [isWord_opChar c hc])]
    simp only [List.length_cons]
    exact ⟨by omega, fun _ => by omega⟩
  | word w rest toks hne hw hrest _ ih =>
    rw [List.countP_cons_of_pos _ _ (isWord_of_chars w hw)]
    have h2 := ih.2 hrest
    have hlen : 1 ≤ w.length := by
      cases w with
      | nil => exact absurd rfl hne
      | cons a l => simp
    simp only [List.length_append]
    refine ⟨by omega, ?_⟩
    intro hhead
    cases w with
    | nil => exact absurd rfl hne
    | cons a l =>
      have := hhead a (by simp)
      have ha := hw a (by simp)
      rw [ha.1, ha.2] at this
      simp at this

theorem specArgv_length_le : ∀ (n : Nat) (st : List CStr), st.length ≤ n →
    (∀ t ∈ st, isRedir t = true ∨ isWord t = true) →
    (specArgv st).length ≤ st.countP isWord := by
  intro n
  induction n with
  | zero =>
    intro st hl _
    have : st = [] := List.length_eq_zero.mp (by omega)
    subst this
    simp [specArgv]
  | succ n ih =>
    intro st hl h
    cases st with
    | nil => simp [specArgv]
    | cons t rest =>
      simp only [List.length_cons] at hl
      by_cases hr : isRedir t = true
      · cases rest with
        | nil => simp [specArgv, hr]
        | cons f rest2 =>
          simp only [List.length_cons] at hl
          have e : specArgv (t :: f :: rest2) = specArgv rest2 := by simp [specArgv, hr]
          rw [e]
          have h1 := ih rest2 (by omega) (fun x hx => h x (by simp [hx]))
          have h2 : rest2.countP isWord ≤ (t :: f :: rest2).countP isWord :=
            List.Sublist.countP_le _ (by
              exact (List.sublist_cons_self f rest2).trans (List.sublist_cons_self t _))
          omega
      · have hr2 : isRedir t = false := by simpa using hr
        have hw : isWord t = true := by
          rcases h t (List.mem_cons_self _ _) with h1 | h1
          · exact absurd h1 hr
          · exact h1
        rw [specArgv_word t rest hr2, List.countP_cons_of_pos _ _ hw, List.length_cons]
        have := ih rest (by omega) (fun x hx => h x (List.mem_cons_of_mem _ hx))
        omega

theorem specStages_countP (toks : List CStr) :
    ((specStages toks).map (fun st => st.countP isWord)).sum = toks.countP isWord := by
  induction toks with
  | nil => simp [specStages]
  | cons t rest ih =>
    have hne := specStages_ne_nil rest
    by_cases h : t = ['|']
    · subst h
      have hw : isWord ['|'] = false := by decide
      rw [specStages_bar, List.countP_cons_of_neg _ _ (by simp [hw])]
      simpa using ih
    · rw [specStages_cons t rest h]
      cases hs : specStages rest with
      | nil => exact absurd hs hne
      | cons s ss =>
        rw [hs] at ih
        simp only [List.headD_cons, List.tail_cons, List.map_cons, List.sum_cons] at ih ⊢
        by_cases hw : isWord t = true
        · rw [List.countP_cons_of_pos _ _ hw, List.countP_cons_of_pos _ _ hw]
          omega
        · rw [List.countP_cons_of_neg _ _ hw, List.countP_cons_of_neg _ _ hw]
          omega

theorem sum_ge_of_mem (l : List Nat) (x : Nat) (h : x ∈ l) : x ≤ l.sum := by
  induction l with
  | nil => simp at h
  | cons a l ih =>
    rcases List.mem_cons.mp h with rfl | h
    · simp
    · have := ih h
      simp only [List.sum_cons]
      omega

theorem sum_ge_length (l : List Nat) (h : ∀ x ∈ l, 1 ≤ x) : l.length ≤ l.sum := by
  induction l with
  | nil => simp
  | cons a l ih =>
    have h1 := h a (List.mem_cons_self _ _)
    have h2 := ih (fun x hx => h x (List.mem_cons_of_mem _ hx))
    simp only [List.sum_cons, List.length_cons]
    omega

/-- The arguments of every stage of a conforming segment, and the stages
themselves, are at most as many as the words of the segment. -/
theorem Conforms_counts (seg : List CStr) (hc : Conforms seg) :
    (specStages seg).length ≤ seg.countP isWord ∧
    ∀ st ∈ specStages seg, (specArgv st).length ≤ seg.countP isWord := by
  have hst : ∀ st ∈ specStages seg, (specArgv st).length ≤ st.countP isWord :=
    fun st h => specArgv_length_le st.length st (Nat.le_refl _) (hc st h).2.2
  constructor
  · rw [← specStages_countP seg]
    have := sum_ge_length ((specStages seg).map (fun st => st.countP isWord)) (by
      intro x hx
      obtain ⟨st, hm, rfl⟩ := List.mem_map.mp hx
      obtain ⟨t, ht, hw⟩ := (hc st hm).1
      exact List.countP_pos_iff.mpr ⟨t, ht, hw⟩)
    simpa using this
  · intro st hm
    have h1 := hst st hm
    have h2 := sum_ge_of_mem ((specStages seg).map (fun st => st.countP isWord))
      (st.countP isWord) (List.mem_map.mpr ⟨st, hm, rfl⟩)
    rw [specStages_countP seg] at h2
    omega

/-- A segment of the tokens of a line of at most `BUFFER_SIZE + 1 = 81`
characters (what `fgets` stores in the 82 bytes of `line`) has at most 41
words. -/
theorem segment_words (line : CStr) (seg : List CStr) (m : Nat)
    (hlen : line.length ≤ BUFFER_SIZE + 1) (hseg : seg <:+: tokenize line m) :
    seg.countP isWord ≤ 41 := by
  have hfull := tokenize_unlimited line
  have he := tokenize_eq_take line m _ hfull
  have h1 := (MaxMunch_words line _ hfull).1
  rw [he] at hseg
  have h2 : seg.countP isWord ≤ (tokenize line (line.length + 1)).countP isWord :=
    List.Sublist.countP_le _ (hseg.sublist.trans (List.take_sublist _ _))
  have hB : BUFFER_SIZE = 80 := rfl
  omega

set_option maxRecDepth 100000 in
/-- At the 65 tokens of the line `a&a&...&a` a store of the parse is outside
the row `argv_list[0]`. -/
theorem parseCommandsBounded_ampTokens : parseCommandsBounded ampTokens = none := by decide!

/-- C23: for every segment that conforms to the grammar (its stages are the
runs of tokens between the `|` tokens; every stage is made of words and `<`,
`>`, has at least one word, and every `<` or `>` is followed by a word): when
the segment is part of the tokens of a line that the read loop can deliver (at
most 81 characters) it has fewer than `MAX_ARGS` words; and with fewer than
`MAX_ARGS` words every store of the parse at the start of `execute` is inside
its array and the parse yields one command per stage, in stage order, that is
(number of `|`) + 1 commands; the `argv` of each command is the tokens of its
stage without the `<`/`>` operators and their targets, its input (output) file
is the target of the `<` (`>`) of that stage (the last one if there are
several) and absent when the stage has none. -/
theorem C23_parse_commands (seg : List CStr) (hc : Conforms seg) :
    (∀ line : CStr, line.length ≤ BUFFER_SIZE + 1 →
      seg <:+: tokenize line (MAX_TOKENS - 1) → seg.countP isWord < MAX_ARGS) ∧
    (seg.countP isWord < MAX_ARGS →
      parseCommandsBounded seg = some ((specStages seg).map specCommand) ∧
      InBounds (parseCommands seg) ∧
      parseCommands seg = (specStages seg).map specCommand ∧
      (parseCommands seg).length = seg.count ['|'] + 1) ∧
    ((specStages seg).intersperse [['|']]).flatten = seg ∧
    (∀ st ∈ specStages seg, ['|'] ∉ st) := by
  have hM : MAX_ARGS = 64 := rfl
  have hne := specStages_ne_nil seg
  have hst : ∀ st ∈ specStages seg, st ≠ [] := by
    intro st h e
    subst e
    obtain ⟨t, ht, _⟩ := (hc [] h).1
    simp at ht
  have hseg : seg ≠ [] := by
    intro e
    subst e
    exact hst [] (by simp [specStages]) rfl
  have hp : parseCommands seg = (specStages seg).map specCommand := by
    unfold parseCommands
    rw [if_neg hseg, parseFrom_spec seg.length seg _ (Nat.le_refl _)
      (fun st hst => (hc st hst).2.1) (fun st h => hst st (List.mem_of_mem_tail h)),
      extend_empty]
    cases hs : specStages seg with
    | nil => exact absurd hs hne
    | cons s ss => simp
  refine ⟨?_, ?_, specStages_flatten seg, specStages_no_bar seg⟩
  · intro line hlen hin
    have := segment_words line seg _ hlen hin
    omega
  · intro hb
    have hcount := Conforms_counts seg hc
    have hin : InBounds (parseCommands seg) := by
      rw [hp]
      refine ⟨by rw [List.length_map]; omega, ?_⟩
      intro c hcm
      obtain ⟨st, hst, rfl⟩ := List.mem_map.mp hcm
      have := hcount.2 st hst
      show (specArgv st).length < MAX_ARGS
      omega
    refine ⟨?_, hin, hp, ?_⟩
    · rw [parseCommandsBounded_eq, if_pos hin, hp]
    · rw [hp, List.length_map, specStages_length]

set_option maxRecDepth 100000 in
theorem tokenize_catLine :
    tokenize ['c', 'a', 't', ' ', '<', ' ', 'i', 'n', ' ', '|', ' ', 's', 'o', 'r', 't', ' ',
      '-', 'r', ' ', '>', ' ', 'o', 'u', 't'] (MAX_TOKENS - 1) =
    [['c', 'a', 't'], ['<'], ['i', 'n'], ['|'], ['s', 'o', 'r', 't'], ['-', 'r'], ['>'],
      ['o', 'u', 't']] := by decide!

/-- C23, at the segment `cat < in | sort -r > out`, which is the tokens of the
line of these 24 characters. -/
theorem C23_parse_commands_witness :
    Conforms [['c', 'a', 't'], ['<'], ['i', 'n'], ['|'], ['s', 'o', 'r', 't'], ['-', 'r'],
      ['>'], ['o', 'u', 't']] ∧
    parseCommandsBounded [['c', 'a', 't'], ['<'], ['i', 'n'], ['|'], ['s', 'o', 'r', 't'],
      ['-', 'r'], ['>'], ['o', 'u', 't']] =
      some [⟨[['c', 'a', 't']], some ['i', 'n'], none⟩,
       ⟨[['s', 'o', 'r', 't'], ['-', 'r']], none, some ['o', 'u', 't']⟩] := by
  have hc : Conforms [['c', 'a', 't'], ['<'], ['i', 'n'], ['|'], ['s', 'o', 'r', 't'],
      ['-', 'r'], ['>'], ['o', 'u', 't']] := by decide
  have h := C23_parse_commands [['c', 'a', 't'], ['<'], ['i', 'n'], ['|'], ['s', 'o', 'r', 't'],
      ['-', 'r'], ['>'], ['o', 'u', 't']] hc
  have hb := h.1 ['c', 'a', 't', ' ', '<', ' ', 'i', 'n', ' ', '|', ' ', 's', 'o', 'r', 't', ' ',
      '-', 'r', ' ', '>', ' ', 'o', 'u', 't'] (by decide)
      ⟨[], [], by rw [tokenize_catLine]; rfl⟩
  exact ⟨hc, (h.2.1 hb).1⟩

/-! ## C25: the parse of `execute` has no bound on the arguments of a stage -/

set_option maxRecDepth 100000 in
theorem tokenize_ampLine : tokenize ampLine (MAX_TOKENS - 1) = ampTokens := by decide!

set_option maxRecDepth 100000 in
theorem mainSegments_ampTokens :
    (mainSegments (statusExec (fun _ => 0)) ampTokens 0).calls = [⟨0, 65, 0⟩] ∧
    segmentTokens (ampTokens.map some) 0 65 = some ampTokens := by decide!

set_option maxRecDepth 100000 in
theorem parseCommands_ampTokens :
    (parseCommands ampTokens).length = 1 ∧ maxArgIndex (parseCommands ampTokens) = 65 := by
  decide!

/-- C25 (the code at the line `a&a&...&a` of 65 characters, which the read
loop delivers as it is at most 81 characters long): `tokenize` yields 65
tokens, the letters and the `&` between them; the line has no boundary and
does not end in `&`, so the segment loop passes all 65 tokens to `execute` as
one foreground segment; the parse makes one stage of it and stores all 65
tokens as its arguments, so `argv_list[0][64]` and the NULL terminator
`argv_list[0][65]` are written, beyond the `MAX_ARGS = 64` entries of the row. -/
theorem C25_stage_exceeds_MAX_ARGS :
    ampLine.length = 65 ∧
    (tokenize ampLine (MAX_TOKENS - 1)).length = 65 ∧
    (mainSegments (statusExec (fun _ => 0)) (tokenize ampLine (MAX_TOKENS - 1)) 0).calls =
      [⟨0, 65, 0⟩] ∧
    segmentTokens ((tokenize ampLine (MAX_TOKENS - 1)).map some) 0 65 =
      some (tokenize ampLine (MAX_TOKENS - 1)) ∧
    (parseCommands (tokenize ampLine (MAX_TOKENS - 1))).length = 1 ∧
    maxArgIndex (parseCommands (tokenize ampLine (MAX_TOKENS - 1))) = 65 ∧
    MAX_ARGS - 1 < 65 := by
  rw [tokenize_ampLine]
  exact ⟨by decide, by decide, mainSegments_ampTokens.1, mainSegments_ampTokens.2,
    parseCommands_ampTokens.1, parseCommands_ampTokens.2, by decide⟩

/-! ## C27: progress of the segment loop -/

theorem scanBoundary_ge (l : List (Option CStr)) : ∀ (j k : Nat),
    scanBoundary l j = some k → j ≤ k := by
  induction l with
  | nil => intro j k h; simp only [scanBoundary, Option.some.injEq] at h; omega
  | cons a l ih =>
    intro j k h
    cases a with
    | none => simp [scanBoundary] at h
    | some t =>
      simp only [scanBoundary] at h
      by_cases hb : isBoundary t = true
      · rw [if_pos hb] at h
        simp only [Option.some.injEq] at h
        omega
      · rw [if_neg hb] at h
        have := ih (j + 1) k h
        omega

theorem nextStart_gt (tokens : List (Option CStr)) (j : Nat) (last : Int) (i1 : Nat)
    (h : nextStart tokens j last = some i1) : j < i1 := by
  unfold nextStart at h
  by_cases hj : j < tokens.length
  · rw [if_pos hj] at h
    cases ht : tokAt tokens j with
    | none => rw [ht] at h; simp at h
    | some t =>
      rw [ht] at h
      simp only at h
      have hs : ∀ k, scanBoundary (tokens.drop (j + 1)) (j + 1) = some k → j < k := by
        intro k hk
        have := scanBoundary_ge _ _ _ hk
        omega
      split_ifs at h
      all_goals first
        | (simp only [Option.some.injEq] at h; omega)
        | exact hs _ h
  · rw [if_neg hj] at h
    simp only [Option.some.injEq] at h
    omega

theorem addCalls_calls {σ : Type} (cs : List ExecCall) (r : LoopResult σ) :
    (r.addCalls cs).calls = cs ++ r.calls ∧ (r.addCalls cs).finish = r.finish :=
  ⟨rfl, rfl⟩

theorem segmentLoop_progress {σ : Type}
    (exec : σ → List (Option CStr) → ExecCall → σ × Outcome) :
    ∀ (fuel : Nat) (tokens : List (Option CStr)) (i : Nat) (last : Int) (st : σ),
    tokens.length + 1 ≤ i + fuel → 1 ≤ fuel →
    (segmentLoop exec fuel tokens i last st).finish ≠ LoopEnd.fuel ∧
    (∀ c ∈ (segmentLoop exec fuel tokens i last st).calls, i ≤ c.start) ∧
    (segmentLoop exec fuel tokens i last st).calls.Pairwise (fun a b => a.start < b.start) ∧
    (segmentLoop exec fuel tokens i last st).calls.length ≤ tokens.length - i := by
  intro fuel
  induction fuel with
  | zero => intro tokens i last st _ h; omega
  | succ fuel ih =>
    intro tokens i last st hf _
    rw [segmentLoop]
    by_cases hi : i < tokens.length
    · rw [if_pos hi]
      cases hsb : scanBoundary (tokens.drop i) i with
      | none => simp
      | some j0 =>
        simp only
        have hj0 := scanBoundary_ge _ _ _ hsb
        cases hbg : (if j0 > i then (tokAt tokens (j0 - 1)).map (fun t => decide (t = ['&']))
            else some false) with
        | none => simp
        | some isBg =>
          simp only
          have hj : i ≤ (if isBg = true then j0 - 1 else j0) := by
            by_cases hb : isBg = true
            · rw [if_pos hb]
              by_cases hgt : j0 > i
              · omega
              · rw [if_neg hgt] at hbg
                simp only [Option.some.injEq] at hbg
                rw [← hbg] at hb
                cases hb
            · rw [if_neg hb]; exact hj0
          have hcalls : ∀ c ∈ (if (if isBg = true then j0 - 1 else j0) > i
              then [ExecCall.mk i (if isBg = true then j0 - 1 else j0)
                (if isBg = true then 1 else 0)] else []), c.start = i := by
            intro c hc
            split_ifs at hc <;> simp_all
          have hlen : (if (if isBg = true then j0 - 1 else j0) > i
              then [ExecCall.mk i (if isBg = true then j0 - 1 else j0)
                (if isBg = true then 1 else 0)] else []).length ≤ 1 := by
            split_ifs <;> simp
          have hpw : (if (if isBg = true then j0 - 1 else j0) > i
              then [ExecCall.mk i (if isBg = true then j0 - 1 else j0)
                (if isBg = true then 1 else 0)] else []).Pairwise
                  (fun a b => a.start < b.start) := by
            split_ifs <;> simp
          have hbase : ∀ (s : σ) (l : Int) (e : LoopEnd), e ≠ LoopEnd.fuel →
              (LoopResult.mk (if (if isBg = true then j0 - 1 else j0) > i
              then [ExecCall.mk i (if isBg = true then j0 - 1 else j0)
                (if isBg = true then 1 else 0)] else []) s l e).finish ≠ LoopEnd.fuel ∧
              (∀ c ∈ (LoopResult.mk (if (if isBg = true then j0 - 1 else j0) > i
              then [ExecCall.mk i (if isBg = true then j0 - 1 else j0)
                (if isBg = true then 1 else 0)] else []) s l e).calls, i ≤ c.start) ∧
              (LoopResult.mk (if (if isBg = true then j0 - 1 else j0) > i
              then [ExecCall.mk i (if isBg = true then j0 - 1 else j0)
                (if isBg = true then 1 else 0)] else []) s l e).calls.Pairwise
                  (fun a b => a.start < b.start) ∧
              (LoopResult.mk (if (if isBg = true then j0 - 1 else j0) > i
              then [ExecCall.mk i (if isBg = true then j0 - 1 else j0)
                (if isBg = true then 1 else 0)] else []) s l e).calls.length ≤
                tokens.length - i := by
            intro s l e he
            exact ⟨he, fun c hc => by rw [hcalls c hc], hpw, Nat.le_trans hlen (by omega)⟩
          rcases hex : (if (if isBg = true then j0 - 1 else j0) > i
              then exec st (if isBg = true then tokens.set (j0 - 1) none else tokens)
                ⟨i, if isBg = true then j0 - 1 else j0, if isBg = true then 1 else 0⟩
              else (st, Outcome.ret last)) with ⟨st1, o⟩
          cases o with
          | exit code => exact hbase st1 last _ (by simp)
          | fault => exact hbase st1 last _ (by simp)
          | ret last1 =>
            simp only
            cases hns : nextStart (if isBg = true then tokens.set (j0 - 1) none else tokens)
                (if isBg = true then j0 - 1 else j0) last1 with
            | none => exact hbase st1 last1 _ (by simp)
            | some i1 =>
              simp only
              have hgt := nextStart_gt _ _ _ _ hns
              have hlen1 : (if isBg = true then tokens.set (j0 - 1) none else tokens).length =
                  tokens.length := by
                split_ifs <;> simp
              obtain ⟨r1, r2, r3, r4⟩ := ih
                (if isBg = true then tokens.set (j0 - 1) none else tokens) i1 last1 st1
                (by rw [hlen1]; omega) (by omega)
              rw [hlen1] at r4
              refine ⟨r1, ?_, ?_, ?_⟩
              · intro c hc
                rw [(addCalls_calls _ _).1] at hc
                rcases List.mem_append.mp hc with hc | hc
                · rw [hcalls c hc]
                · have := r2 c hc
                  omega
              · rw [(addCalls_calls _ _).1, List.pairwise_append]
                refine ⟨hpw, r3, ?_⟩
                intro a ha b hb
                rw [hcalls a ha]
                have := r2 b hb
                omega
              · rw [(addCalls_calls _ _).1, List.length_append]
                omega
    · rw [if_neg hi]
      simp

/-- C27 (the code at the line `a & || b`): whatever statuses `execute`
returns, the iteration that drops the background marker does not reach the
assignment of the next segment start: after `execute` has been called for `a`
the test of line 827 passes the NULL slot of the dropped `&` to `strcmp`, and
the loop ends in that fault after one iteration, with the segment `b` never
reached. -/
theorem C27_background_iteration_does_not_advance (f : Nat → Int) :
    tokenize ['a', ' ', '&', ' ', '|', '|', ' ', 'b'] (MAX_TOKENS - 1) =
      [['a'], ['&'], ['|', '|'], ['b']] ∧
    nextStart [some ['a'], none, some ['|', '|'], some ['b']] 1 (f 0) = none ∧
    (mainSegments (statusExec f)
      (tokenize ['a', ' ', '&', ' ', '|', '|', ' ', 'b'] (MAX_TOKENS - 1)) 0).calls =
        [⟨0, 1, 1⟩] ∧
    (mainSegments (statusExec f)
      (tokenize ['a', ' ', '&', ' ', '|', '|', ' ', 'b'] (MAX_TOKENS - 1)) 0).finish =
        LoopEnd.fault :=
  ⟨rfl, rfl, rfl, rfl⟩

theorem mainSegments_progress {σ : Type}
    (exec : σ → List (Option CStr) → ExecCall → σ × Outcome) (toks : List CStr) (st : σ) :
    (mainSegments exec toks st).finish ≠ LoopEnd.fuel ∧
    (mainSegments exec toks st).calls.Pairwise (fun a b => a.start < b.start) ∧
    (mainSegments exec toks st).calls.length ≤ toks.length := by
  have h := segmentLoop_progress exec (toks.length + 1) (toks.map some) 0 0 st
    (by simp) (by omega)
  simp only [List.length_map, Nat.sub_zero] at h
  exact ⟨h.1, h.2.2.1, h.2.2.2⟩

end Shell

namespace Compiler

/-! ## Lexer: the token vector ends with its only `EOF` token -/

namespace Lexer

theorem TWO_CHAR_type (a b : Char) (ty : TokType) (h : TWO_CHAR a b = some ty) :
    ty ≠ TokType.EOF := by
  unfold TWO_CHAR at h
  by_cases hc : b = '=' ∧ (a = '=' ∨ a = '!' ∨ a = '<' ∨ a = '>')
  · rw [if_pos hc] at h
    cases h
    intro e
    cases e
  · rw [if_neg hc] at h
    cases h

theorem ite_cases {α : Type} {p : Prop} [Decidable p] (a r x : Option α)
    (h : (if p then a else r) = x) : a = x ∨ r = x := by
  by_cases hp : p
  · rw [if_pos hp] at h; exact Or.inl h
  · rw [if_neg hp] at h; exact Or.inr h

theorem ONE_CHAR_type (c : Char) (ty : TokType) (h : ONE_CHAR c = some ty) :
    ty ≠ TokType.EOF := by
  intro e
  subst e
  unfold ONE_CHAR at h
  iterate 11 (rcases ite_cases _ _ _ h with h | h; · cases h)
  cases h

theorem KEYWORDS_type (l : Str) (ty : TokType) (h : KEYWORDS l = some ty) :
    ty ≠ TokType.EOF := by
  intro e
  subst e
  unfold KEYWORDS at h
  iterate 11 (rcases ite_cases _ _ _ h with h | h; · cases h)
  cases h

theorem advance_rest (p : Pos) : (advance p).rest = p.rest.tail := by
  unfold advance
  split_ifs <;> rfl

theorem skipComment_length (l : Str) : ∀ (line col : Nat),
    (skipComment l line col).rest.length ≤ l.length := by
  induction l with
  | nil => intro line col; simp [skipComment]
  | cons c rest ih =>
    intro line col
    unfold skipComment
    split_ifs
    · simp
    · have := ih line (col + 1)
      simp only [List.length_cons]
      omega

theorem scanString_length : ∀ (n : Nat) (l : Str) (line col : Nat) (value v : Str) (q : Pos),
    l.length ≤ n → scanString l line col value = some (v, q) →
    q.rest ≠ [] ∧ q.rest.length ≤ l.length := by
  intro n
  induction n with
  | zero =>
    intro l line col value v q hl h
    have : l = [] := List.length_eq_zero.mp (by omega)
    subst this
    simp [scanString] at h
  | succ n ih =>
    intro l line col value v q hl h
    match l, h with
    | [], h => simp [scanString] at h
    | [c], h =>
      simp only [scanString] at h
      split_ifs at h
      simp only [Option.some.injEq, Prod.mk.injEq] at h
      rw [← h.2]
      simp
    | c :: next :: rest, h =>
      simp only [scanString] at h
      simp only [List.length_cons] at hl
      split_ifs at h
      · simp only [Option.some.injEq, Prod.mk.injEq] at h
        rw [← h.2]
        simp
      · have := ih rest _ _ _ v q (by omega) h
        simp only [List.length_cons]
        exact ⟨this.1, by omega⟩
      · have := ih (next :: rest) _ _ _ v q (by simp only [List.length_cons]; omega) h
        simp only [List.length_cons] at this ⊢
        exact ⟨this.1, by omega⟩

theorem scanWhile_length (p : Char → Bool) (l : Str) : ∀ (line col : Nat),
    (scanWhile p l line col).2.rest.length ≤ l.length ∧
    (∀ c rest, l = c :: rest → p c = true →
      (scanWhile p l line col).2.rest.length < l.length) := by
  induction l with
  | nil => intro line col; simp [scanWhile]
  | cons c rest ih =>
    intro line col
    unfold scanWhile
    by_cases hp : p c = true
    · rw [if_pos hp]
      have := (ih line (col + 1)).1
      simp only [List.length_cons]
      exact ⟨by omega, fun _ _ _ _ => by omega⟩
    · rw [if_neg hp]
      refine ⟨Nat.le_refl _, ?_⟩
      intro c2 r2 he hc
      simp only [List.cons.injEq] at he
      rw [← he.1] at hc
      exact absurd hc hp

/-- One iteration of the main loop: at the end of the source the `EOF` token
is pushed; otherwise the iteration throws, or it goes on from a later position
with the same tokens or with one more token, whose type is not `EOF`. -/
theorem tokenizeAux_step (fuel : Nat) (p : Pos) (acc : List Token) :
    (p.rest = [] ∧ tokenizeAux (fuel + 1) p acc =
      LexResult.ok (acc ++ [⟨[], TokType.EOF, p.line, p.col⟩])) ∨
    (∃ e, tokenizeAux (fuel + 1) p acc = LexResult.error e) ∨
    (∃ q, q.rest.length < p.rest.length ∧
      tokenizeAux (fuel + 1) p acc = tokenizeAux fuel q acc) ∨
    (∃ q tok, q.rest.length < p.rest.length ∧ tok.type ≠ TokType.EOF ∧
      tokenizeAux (fuel + 1) p acc = tokenizeAux fuel q (acc ++ [tok])) := by
  obtain ⟨r, line, col⟩ := p
  cases r with
  | nil => exact Or.inl ⟨rfl, by simp [tokenizeAux]⟩
  | cons c rest =>
    right
    simp only [tokenizeAux, List.length_cons]
    by_cases h1 : Shell.isspace c = true
    · rw [if_pos h1]
      exact Or.inr (Or.inl ⟨_, by rw [advance_rest]; simp, rfl⟩)
    rw [if_neg h1]
    by_cases h2 : c = '#'
    · rw [if_pos h2]
      refine Or.inr (Or.inl ⟨_, ?_, rfl⟩)
      have : (skipComment (c :: rest) line col).rest.length ≤ rest.length := by
        rw [skipComment, if_neg (by rw [h2]; decide)]
        exact skipComment_length rest _ _
      omega
    rw [if_neg h2]
    by_cases h3 : c = '"'
    · rw [if_pos h3]
      cases hs : scanString rest (advance ⟨c :: rest, line, col⟩).line
          (advance ⟨c :: rest, line, col⟩).col [] with
      | none => exact Or.inl ⟨_, rfl⟩
      | some vq =>
        obtain ⟨v, q⟩ := vq
        have := scanString_length rest.length rest _ _ _ v q (Nat.le_refl _) hs
        refine Or.inr (Or.inr ⟨advance q, _, ?_, ?_, rfl⟩)
        · rw [advance_rest]
          have hq : q.rest.tail.length < q.rest.length := by
            cases hq : q.rest with
            | nil => exact absurd hq this.1
            | cons a b => simp
          omega
        · intro e
          cases e
    rw [if_neg h3]
    cases h2c : TWO_CHAR c (lookNext ⟨c :: rest, line, col⟩) with
    | some ty =>
      exact Or.inr (Or.inr ⟨_, _, by rw [advance_rest, advance_rest]; simp; omega,
        TWO_CHAR_type _ _ ty h2c, rfl⟩)
    | none =>
      simp only
      cases h1c : ONE_CHAR c with
      | some ty =>
        exact Or.inr (Or.inr ⟨_, _, by rw [advance_rest]; simp, ONE_CHAR_type _ ty h1c, rfl⟩)
      | none =>
        simp only
        by_cases h4 : isdigit c = true
        · rw [if_pos h4]
          have := (scanWhile_length isdigit (c :: rest) line col).2 c rest rfl h4
          simp only [List.length_cons] at this
          have hne : TokType.INTEGER ≠ TokType.EOF := by intro e; cases e
          exact Or.inr (Or.inr ⟨_, ⟨(scanWhile isdigit (c :: rest) line col).1,
            TokType.INTEGER, line, col⟩, this, hne, rfl⟩)
        rw [if_neg h4]
        by_cases h5 : isIdentifierStart c = true
        · rw [if_pos h5]
          have := (scanWhile_length isIdentifier (c :: rest) line col).2 c rest rfl
            (by
              simp only [isIdentifierStart, Bool.or_eq_true, decide_eq_true_eq] at h5
              simp only [isIdentifier, Bool.or_eq_true, decide_eq_true_eq]
              rcases h5 with h5 | h5
              · exact Or.inl (Or.inl h5)
              · exact Or.inr h5)
          simp only [List.length_cons] at this
          cases hk : KEYWORDS (List.map tolower
              (scanWhile isIdentifier (c :: rest) line col).1) with
          | some ty => exact Or.inr (Or.inr ⟨_, _, this, KEYWORDS_type _ ty hk, rfl⟩)
          | none =>
            have hne : TokType.IDENT ≠ TokType.EOF := by intro e; cases e
            exact Or.inr (Or.inr ⟨_, ⟨(scanWhile isIdentifier (c :: rest) line col).1,
              TokType.IDENT, line, col⟩, this, hne, rfl⟩)
        rw [if_neg h5]
        exact Or.inl ⟨_, rfl⟩

theorem tokenizeAux_total : ∀ (fuel : Nat) (p : Pos) (acc : List Token),
    p.rest.length < fuel → tokenizeAux fuel p acc ≠ LexResult.fuel := by
  intro fuel
  induction fuel with
  | zero => intro p acc h; omega
  | succ fuel ih =>
    intro p acc h
    rcases tokenizeAux_step fuel p acc with ⟨_, e⟩ | ⟨_, e⟩ | ⟨q, hq, e⟩ | ⟨q, tok, hq, _, e⟩
    · rw [e]; simp
    · rw [e]; simp
    · rw [e]; exact ih q acc (by omega)
    · rw [e]; exact ih q _ (by omega)

theorem tokenizeAux_ok : ∀ (fuel : Nat) (p : Pos) (acc toks : List Token),
    tokenizeAux fuel p acc = LexResult.ok toks →
    ∃ body line col, toks = acc ++ body ++ [⟨[], TokType.EOF, line, col⟩] ∧
      ∀ t ∈ body, t.type ≠ TokType.EOF := by
  intro fuel
  induction fuel with
  | zero => intro p acc toks h; simp [tokenizeAux] at h
  | succ fuel ih =>
    intro p acc toks h
    rcases tokenizeAux_step fuel p acc with ⟨_, e⟩ | ⟨_, e⟩ | ⟨q, hq, e⟩ | ⟨q, tok, hq, ht, e⟩
    · rw [e] at h
      simp only [LexResult.ok.injEq] at h
      exact ⟨[], p.line, p.col, by rw [← h]; simp, by simp⟩
    · rw [e] at h; cases h
    · rw [e] at h; exact ih q acc toks h
    · rw [e] at h
      obtain ⟨body, line, col, e2, hb⟩ := ih q _ toks h
      refine ⟨tok :: body, line, col, by rw [e2]; simp, ?_⟩
      intro t hmem
      rcases List.mem_cons.mp hmem with rfl | hmem
      · exact ht
      · exact hb t hmem

end Lexer

/-! ## Parser: helper lemmas -/

namespace Parser

theorem EndsWithEOF_pos (tokens : List Token) (hwf : EndsWithEOF tokens) : 0 < tokens.length := by
  obtain ⟨body, eof, e, _, _⟩ := hwf
  rw [e]
  simp

theorem notEOF_lt (tokens : List Token) (hwf : EndsWithEOF tokens) (s : State) (t : Token)
    (ht : currentToken tokens s = some t) (hne : t.type ≠ TokType.EOF) :
    s.currentIndex + 1 < tokens.length := by
  obtain ⟨body, eof, e, heof, hbody⟩ := hwf
  subst e
  unfold currentToken at ht
  have hlt : s.currentIndex < (body ++ [eof]).length := by
    rcases Nat.lt_or_ge s.currentIndex (body ++ [eof]).length with h | h
    · exact h
    · rw [List.getElem?_eq_none h] at ht
      cases ht
  simp only [List.length_append, List.length_singleton] at hlt ⊢
  rcases Nat.lt_or_ge s.currentIndex body.length with h | h
  · omega
  · have hi : s.currentIndex = body.length := by omega
    rw [hi, List.getElem?_append_right (Nat.le_refl _)] at ht
    simp only [Nat.sub_self, List.getElem?_cons_zero, Option.some.injEq] at ht
    rw [← ht] at hne
    exact absurd heof hne

theorem currentToken_some (tokens : List Token) (s : State)
    (h : s.currentIndex < tokens.length) : ∃ t, currentToken tokens s = some t :=
  ⟨tokens[s.currentIndex], by unfold currentToken; exact List.getElem?_eq_getElem h⟩

theorem advance_index (tokens : List Token) (s : State)
    (h : s.currentIndex + 1 < tokens.length) :
    (advance tokens s).currentIndex = s.currentIndex + 1 := by
  unfold advance
  rw [if_pos (Or.inr (by omega))]

theorem advance_emitter (tokens : List Token) (s : State) :
    (advance tokens s).emitter = s.emitter := by
  unfold advance
  split_ifs <;> rfl

theorem advance_index_lt (tokens : List Token) (s : State)
    (h : s.currentIndex < tokens.length) :
    (advance tokens s).currentIndex < tokens.length ∧
    s.currentIndex ≤ (advance tokens s).currentIndex := by
  unfold advance
  by_cases hc : tokens.length = 0 ∨ s.currentIndex < tokens.length - 1
  · rw [if_pos hc]
    show s.currentIndex + 1 < tokens.length ∧ s.currentIndex ≤ s.currentIndex + 1
    omega
  · rw [if_neg hc]
    exact ⟨h, Nat.le_refl _⟩

theorem terminated_mono {α : Type} (n lo lo2 : Nat) (r : Result α) (h : lo2 ≤ lo)
    (hr : Terminated n lo r) : Terminated n lo2 r := by
  cases r with
  | ok a s => exact ⟨Nat.le_trans h hr.1, hr.2⟩
  | error l c m => trivial
  | outOfBounds => exact hr
  | fuel => exact hr

theorem terminated_bind {α β : Type} (n lo lo2 : Nat) (r : Result α)
    (f : α → State → Result β) (hr : Terminated n lo r)
    (hf : ∀ a s, lo ≤ s.currentIndex → s.currentIndex < n → Terminated n lo2 (f a s)) :
    Terminated n lo2 (r.bind f) := by
  cases r with
  | ok a s => exact hf a s hr.1 hr.2
  | error l c m => trivial
  | outOfBounds => exact hr
  | fuel => exact hr

theorem expectType_terminated (tokens : List Token) (hwf : EndsWithEOF tokens)
    (type : TokType) (context : String) (s : State) (h : s.currentIndex < tokens.length)
    (hty : type ≠ TokType.EOF) :
    Terminated tokens.length (s.currentIndex + 1) (expectType tokens type context s) := by
  obtain ⟨t, ht⟩ := currentToken_some tokens s h
  unfold expectType
  rw [ht]
  simp only
  by_cases hne : t.type ≠ type
  · rw [if_pos hne]
    trivial
  · rw [if_neg hne]
    have heq : t.type = type := by
      by_contra hh
      exact hne hh
    have hlt := notEOF_lt tokens hwf s t ht (by rw [heq]; exact hty)
    have := advance_index tokens s hlt
    exact ⟨by omega, by omega⟩

theorem expect_then_ok (tokens : List Token) (hwf : EndsWithEOF tokens)
    (type : TokType) (context : String) (s : State) (lo : Nat) (a : Str)
    (h : s.currentIndex < tokens.length) (hty : type ≠ TokType.EOF)
    (hlo : lo ≤ s.currentIndex + 1) :
    Terminated tokens.length lo
      ((expectType tokens type context s).bind (fun _ s1 => Result.ok a s1)) := by
  apply terminated_bind tokens.length (s.currentIndex + 1) lo _ _
    (expectType_terminated tokens hwf type context s h hty)
  intro _ s1 h1 h2
  exact ⟨by omega, h2⟩

theorem call_terminated (tokens : List Token) (fuel : Nat)
    (call : Rule → State → Result Str) (hc : CallsTerminate tokens fuel call) (rule : Rule)
    (s : State) (lo : Nat) (h : s.currentIndex < tokens.length)
    (hf : 6 * (tokens.length - 1 - s.currentIndex) + rank rule + 1 ≤ fuel)
    (hlo : lo ≤ s.currentIndex + consumes rule) :
    Terminated tokens.length lo (call rule s) :=
  terminated_mono _ _ _ _ hlo (hc rule s h hf)

theorem primaryBody_terminated (tokens : List Token) (hwf : EndsWithEOF tokens) (fuel : Nat)
    (call : Rule → State → Result Str) (hc : CallsTerminate tokens fuel call) (t : Token)
    (s : State) (ht : currentToken tokens s = some t)
    (hf : 6 * (tokens.length - 1 - s.currentIndex) + 1 ≤ fuel + 1) :
    Terminated tokens.length (s.currentIndex + 1) (primaryBody tokens call t s) := by
  have hadv : ∀ ty, t.type = ty → ty ≠ TokType.EOF →
      s.currentIndex + 1 < tokens.length ∧
      (advance tokens s).currentIndex = s.currentIndex + 1 := by
    intro ty h1 h2
    have := notEOF_lt tokens hwf s t ht (by rw [h1]; exact h2)
    exact ⟨this, advance_index tokens s this⟩
  unfold primaryBody
  by_cases h1 : t.type = TokType.INTEGER
  · rw [if_pos h1]
    obtain ⟨a, b⟩ := hadv _ h1 (by intro e; cases e)
    exact ⟨by omega, by omega⟩
  rw [if_neg h1]
  by_cases h2 : t.type = TokType.IDENT
  · rw [if_pos h2]
    obtain ⟨a, b⟩ := hadv _ h2 (by intro e; cases e)
    have b2 : (advance tokens (s.ensureVar t.value)).currentIndex = s.currentIndex + 1 :=
      advance_index tokens (s.ensureVar t.value) a
    exact ⟨by omega, by omega⟩
  rw [if_neg h2]
  by_cases h3 : t.type = TokType.LPAREN
  · rw [if_pos h3]
    obtain ⟨a, b⟩ := hadv _ h3 (by intro e; cases e)
    apply terminated_bind tokens.length (s.currentIndex + 2) _ _ _
      (call_terminated tokens fuel call hc Rule.comparison _ _ (by omega)
        (by rw [b]; simp only [rank]; omega) (by rw [b]; simp only [consumes]; omega))
    intro inside s1 h4 h5
    exact expect_then_ok tokens hwf _ _ s1 _ _ h5 (by intro e; cases e) (by omega)
  rw [if_neg h3]
  trivial

theorem unaryBody_terminated (tokens : List Token) (hwf : EndsWithEOF tokens) (fuel : Nat)
    (call : Rule → State → Result Str) (hc : CallsTerminate tokens fuel call) (t : Token)
    (s : State) (ht : currentToken tokens s = some t)
    (hs : s.currentIndex < tokens.length)
    (hf : 6 * (tokens.length - 1 - s.currentIndex) + 2 ≤ fuel + 1) :
    Terminated tokens.length (s.currentIndex + 1) (unaryBody tokens call t s) := by
  have hadv : ∀ ty, t.type = ty → ty ≠ TokType.EOF →
      s.currentIndex + 1 < tokens.length ∧
      (advance tokens s).currentIndex = s.currentIndex + 1 := by
    intro ty h1 h2
    have := notEOF_lt tokens hwf s t ht (by rw [h1]; exact h2)
    exact ⟨this, advance_index tokens s this⟩
  have hrec : ∀ lo, lo ≤ s.currentIndex + 2 → s.currentIndex + 1 < tokens.length →
      (advance tokens s).currentIndex = s.currentIndex + 1 →
      Terminated tokens.length lo (call Rule.unary (advance tokens s)) := by
    intro lo hlo a b
    exact call_terminated tokens fuel call hc Rule.unary _ _ (by omega)
      (by rw [b]; simp only [rank]; omega) (by rw [b]; simp only [consumes]; omega)
  unfold unaryBody
  by_cases h1 : t.type = TokType.PLUS
  · rw [if_pos h1]
    obtain ⟨a, b⟩ := hadv _ h1 (by intro e; cases e)
    exact hrec _ (by omega) a b
  rw [if_neg h1]
  by_cases h2 : t.type = TokType.MINUS
  · rw [if_pos h2]
    obtain ⟨a, b⟩ := hadv _ h2 (by intro e; cases e)
    apply terminated_bind tokens.length (s.currentIndex + 2) _ _ _ (hrec _ (Nat.le_refl _) a b)
    intro u s1 h4 h5
    exact ⟨by omega, h5⟩
  rw [if_neg h2]
  by_cases h3 : t.type = TokType.NOT
  · rw [if_pos h3]
    obtain ⟨a, b⟩ := hadv _ h3 (by intro e; cases e)
    apply terminated_bind tokens.length (s.currentIndex + 2) _ _ _ (hrec _ (Nat.le_refl _) a b)
    intro u s1 h4 h5
    exact ⟨by omega, h5⟩
  rw [if_neg h3]
  exact call_terminated tokens fuel call hc Rule.primary s _ hs
    (by simp only [rank]; omega) (by simp only [consumes]; omega)

theorem blockBody_terminated (tokens : List Token) (hwf : EndsWithEOF tokens) (fuel : Nat)
    (call : Rule → State → Result Str) (hc : CallsTerminate tokens fuel call)
    (closer : TokType) (t : Token)
    (s : State) (ht : currentToken tokens s = some t)
    (hs : s.currentIndex < tokens.length)
    (hf : 6 * (tokens.length - 1 - s.currentIndex) + 2 ≤ fuel + 1) :
    Terminated tokens.length (s.currentIndex + consumes (Rule.block closer))
      (blockBody tokens call closer t s) := by
  have hle : consumes (Rule.block closer) ≤ 1 := by
    simp only [consumes]
    split_ifs <;> omega
  have hrest : Terminated tokens.length (s.currentIndex + consumes (Rule.block closer))
      ((call Rule.statement s).bind (fun _ s1 => call (Rule.block closer) s1)) := by
    apply terminated_bind tokens.length (s.currentIndex + 1) _ _ _
      (call_terminated tokens fuel call hc Rule.statement s _ hs
        (by simp only [rank]; omega) (by simp only [consumes]; omega))
    intro _ s1 h4 h5
    exact call_terminated tokens fuel call hc (Rule.block closer) s1 _ h5
      (by simp only [rank]; omega) (Nat.le_trans (by omega) (Nat.le_add_right _ _))
  unfold blockBody
  by_cases h1 : t.type = closer
  · rw [if_pos h1]
    by_cases hcl : closer = TokType.EOF
    · have h0 : consumes (Rule.block closer) = 0 := by simp only [consumes]; rw [if_pos hcl]
      rw [h0]
      have := advance_index_lt tokens s hs
      exact ⟨this.2, this.1⟩
    · have a := notEOF_lt tokens hwf s t ht (by rw [h1]; exact hcl)
      have b := advance_index tokens s a
      exact ⟨by show _ ≤ (advance tokens s).currentIndex; omega,
        by show (advance tokens s).currentIndex < _; omega⟩
  rw [if_neg h1]
  by_cases h2 : t.type = TokType.EOF
  · rw [if_pos h2]
    trivial
  rw [if_neg h2]
  exact hrest

theorem statementBody_terminated (tokens : List Token) (hwf : EndsWithEOF tokens)
    (fuel : Nat) (call : Rule → State → Result Str) (hc : CallsTerminate tokens fuel call)
    (t : Token) (s : State) (ht : currentToken tokens s = some t)
    (hf : 6 * (tokens.length - 1 - s.currentIndex) + 1 ≤ fuel + 1) :
    Terminated tokens.length (s.currentIndex + 1) (statementBody tokens call t s) := by
  have hadv : ∀ ty, t.type = ty → ty ≠ TokType.EOF →
      s.currentIndex + 1 < tokens.length ∧
      (advance tokens s).currentIndex = s.currentIndex + 1 := by
    intro ty h1 h2
    have := notEOF_lt tokens hwf s t ht (by rw [h1]; exact h2)
    exact ⟨this, advance_index tokens s this⟩
  -- the patterns shared by the branches
  have hcond : ∀ (closer ty : TokType) (context : String) (line : Str → Str),
      ty ≠ TokType.EOF → s.currentIndex + 1 < tokens.length →
      (advance tokens s).currentIndex = s.currentIndex + 1 →
      Terminated tokens.length (s.currentIndex + 1)
        ((call Rule.comparison (advance tokens s)).bind (fun condition s1 =>
          (expectType tokens ty context s1).bind (fun _ s2 =>
            call (Rule.block closer) (s2.addLine (line condition))))) := by
    intro closer ty context line hty a b
    apply terminated_bind tokens.length (s.currentIndex + 2) _ _ _
      (call_terminated tokens fuel call hc Rule.comparison _ _ (by omega)
        (by rw [b]; simp only [rank]; omega) (by rw [b]; simp only [consumes]; omega))
    intro condition s1 h4 h5
    apply terminated_bind tokens.length (s1.currentIndex + 1) _ _ _
      (expectType_terminated tokens hwf ty context s1 h5 hty)
    intro _ s2 h6 h7
    exact call_terminated tokens fuel call hc (Rule.block closer) (s2.addLine _) _ h7
      (by show 6 * (tokens.length - 1 - s2.currentIndex) + rank (Rule.block closer) + 1 ≤ fuel
          simp only [rank]; omega)
      (Nat.le_trans (by show s.currentIndex + 1 ≤ s2.currentIndex; omega)
        (Nat.le_add_right _ _))
  have hname : ∀ (t1 : Token) (context : String) (line : Str) (m : Message)
      (s2 : State), s.currentIndex + 1 < tokens.length →
      (advance tokens s).currentIndex = s.currentIndex + 1 →
      currentToken tokens (advance tokens s) = some t1 →
      (t1.type = TokType.IDENT → s2.currentIndex = s.currentIndex + 2) →
      Terminated tokens.length (s.currentIndex + 1)
        (if t1.type ≠ TokType.IDENT then Result.error t1.line t1.col m
         else (expectType tokens TokType.SEMICOLON context s2).bind
          (fun _ s1 => Result.ok ([] : Str) s1)) := by
    intro t1 context line m s2 a b ht1 hs2
    by_cases hne : t1.type ≠ TokType.IDENT
    · rw [if_pos hne]
      trivial
    · rw [if_neg hne]
      have heq : t1.type = TokType.IDENT := by
        by_contra hh
        exact hne hh
      have c := notEOF_lt tokens hwf (advance tokens s) t1 ht1
        (by rw [heq]; intro e; cases e)
      exact expect_then_ok tokens hwf _ _ s2 _ _ (by rw [hs2 heq]; omega)
        (by intro e; cases e) (by rw [hs2 heq]; omega)
  unfold statementBody
  by_cases h1 : t.type = TokType.PRINT
  · rw [if_pos h1]
    obtain ⟨a, b⟩ := hadv _ h1 (by intro e; cases e)
    obtain ⟨t1, ht1⟩ := currentToken_some tokens (advance tokens s) (by omega)
    rw [ht1]
    simp only
    by_cases h2 : t1.type = TokType.STRING
    · rw [if_pos h2]
      have c := notEOF_lt tokens hwf (advance tokens s) t1 ht1
        (by rw [h2]; intro e; cases e)
      have d := advance_index tokens (advance tokens s) c
      exact expect_then_ok tokens hwf _ _ _ _ _
        (by show (advance tokens (advance tokens s)).currentIndex < _; omega)
        (by intro e; cases e)
        (by show _ ≤ (advance tokens (advance tokens s)).currentIndex + 1; omega)
    · rw [if_neg h2]
      apply terminated_bind tokens.length (s.currentIndex + 2) _ _ _
        (call_terminated tokens fuel call hc Rule.comparison _ _ (by omega)
          (by rw [b]; simp only [rank]; omega) (by rw [b]; simp only [consumes]; omega))
      intro expr s1 h4 h5
      exact expect_then_ok tokens hwf _ _ (s1.addLine _) _ _ h5 (by intro e; cases e)
        (by show _ ≤ s1.currentIndex + 1; omega)
  rw [if_neg h1]
  by_cases h2 : t.type = TokType.INPUT
  · rw [if_pos h2]
    obtain ⟨a, b⟩ := hadv _ h2 (by intro e; cases e)
    obtain ⟨t1, ht1⟩ := currentToken_some tokens (advance tokens s) (by omega)
    rw [ht1]
    simp only
    refine hname t1 _ [] _ _ a b ht1 ?_
    intro heq
    have c := notEOF_lt tokens hwf (advance tokens s) t1 ht1 (by rw [heq]; intro e; cases e)
    have d := advance_index tokens ((advance tokens s).ensureVar t1.value) c
    show (advance tokens ((advance tokens s).ensureVar t1.value)).currentIndex = _
    rw [d]
    show (advance tokens s).currentIndex + 1 = _
    omega
  rw [if_neg h2]
  by_cases h3 : t.type = TokType.LET
  · rw [if_pos h3]
    obtain ⟨a, b⟩ := hadv _ h3 (by intro e; cases e)
    obtain ⟨t1, ht1⟩ := currentToken_some tokens (advance tokens s) (by omega)
    rw [ht1]
    simp only
    by_cases hne : t1.type ≠ TokType.IDENT
    · rw [if_pos hne]
      trivial
    · rw [if_neg hne]
      have heq : t1.type = TokType.IDENT := by
        by_contra hh
        exact hne hh
      have c := notEOF_lt tokens hwf (advance tokens s) t1 ht1
        (by rw [heq]; intro e; cases e)
      have d := advance_index tokens ((advance tokens s).ensureVar t1.value) c
      have d2 : (advance tokens ((advance tokens s).ensureVar t1.value)).currentIndex =
          s.currentIndex + 2 := by
        rw [d]
        show (advance tokens s).currentIndex + 1 = _
        omega
      apply terminated_bind tokens.length (s.currentIndex + 3) _ _ _
        (terminated_mono _ _ _ _ (by rw [d2])
          (expectType_terminated tokens hwf TokType.ASSIGN "assignment" _
            (by rw [d2]; show s.currentIndex + 2 < _
                have : (advance tokens s).currentIndex + 1 < tokens.length := c
                omega)
            (by intro e; cases e)))
      intro _ s1 h4 h5
      apply terminated_bind tokens.length (s1.currentIndex + 1) _ _ _
        (call_terminated tokens fuel call hc Rule.comparison s1 _ h5
          (by simp only [rank]; omega) (by simp only [consumes]; omega))
      intro expr s2 h6 h7
      exact expect_then_ok tokens hwf _ _ (s2.addLine _) _ _ h7 (by intro e; cases e)
        (by show _ ≤ s2.currentIndex + 1; omega)
  rw [if_neg h3]
  by_cases h4 : t.type = TokType.IF
  · rw [if_pos h4]
    obtain ⟨a, b⟩ := hadv _ h4 (by intro e; cases e)
    exact hcond TokType.ENDIF TokType.THEN _ _ (by intro e; cases e) a b
  rw [if_neg h4]
  by_cases h5 : t.type = TokType.WHILE
  · rw [if_pos h5]
    obtain ⟨a, b⟩ := hadv _ h5 (by intro e; cases e)
    exact hcond TokType.ENDWHILE TokType.REPEAT _ _ (by intro e; cases e) a b
  rw [if_neg h5]
  by_cases h6 : t.type = TokType.LABEL
  · rw [if_pos h6]
    obtain ⟨a, b⟩ := hadv _ h6 (by intro e; cases e)
    obtain ⟨t1, ht1⟩ := currentToken_some tokens (advance tokens s) (by omega)
    rw [ht1]
    simp only
    refine hname t1 _ [] _ _ a b ht1 ?_
    intro heq
    have c := notEOF_lt tokens hwf (advance tokens s) t1 ht1 (by rw [heq]; intro e; cases e)
    have d := advance_index tokens (advance tokens s) c
    show (advance tokens (advance tokens s)).currentIndex = _
    omega
  rw [if_neg h6]
  by_cases h7 : t.type = TokType.GOTO
  · rw [if_pos h7]
    obtain ⟨a, b⟩ := hadv _ h7 (by intro e; cases e)
    obtain ⟨t1, ht1⟩ := currentToken_some tokens (advance tokens s) (by omega)
    rw [ht1]
    simp only
    refine hname t1 _ [] _ _ a b ht1 ?_
    intro heq
    have c := notEOF_lt tokens hwf (advance tokens s) t1 ht1 (by rw [heq]; intro e; cases e)
    have d := advance_index tokens (advance tokens s) c
    show (advance tokens (advance tokens s)).currentIndex = _
    omega
  rw [if_neg h7]
  trivial

theorem loop_terminated (tokens : List Token) (hwf : EndsWithEOF tokens) (fuel : Nat)
    (call : Rule → State → Result Str) (hc : CallsTerminate tokens fuel call)
    (operand : Rule) (next : Str → Rule) (t : Token) (s : State)
    (ht : currentToken tokens s = some t) (hne : t.type ≠ TokType.EOF)
    (hro : rank operand ≤ 3) (hco : consumes operand = 1) (hrn : ∀ r, rank (next r) = 0)
    (hf : 6 * (tokens.length - 1 - s.currentIndex) + 1 ≤ fuel + 1) :
    Terminated tokens.length s.currentIndex
      ((call operand (advance tokens s)).bind (fun right s1 => call (next right) s1)) := by
  have a := notEOF_lt tokens hwf s t ht hne
  have b := advance_index tokens s a
  apply terminated_bind tokens.length (s.currentIndex + 2) _ _ _
    (call_terminated tokens fuel call hc operand _ _ (by omega)
      (by rw [b]; omega) (by rw [b, hco]))
  intro right s1 h4 h5
  exact call_terminated tokens fuel call hc (next right) s1 _ h5
    (by rw [hrn]; omega) (Nat.le_trans (by omega) (Nat.le_add_right _ _))

theorem chain_terminated (tokens : List Token) (fuel : Nat)
    (call : Rule → State → Result Str) (hc : CallsTerminate tokens fuel call)
    (operand : Rule) (next : Str → Rule) (s : State) (k : Nat)
    (hs : s.currentIndex < tokens.length)
    (hro : rank operand + 1 ≤ k) (hco : consumes operand = 1) (hrn : ∀ r, rank (next r) = 0)
    (hf : 6 * (tokens.length - 1 - s.currentIndex) + k + 1 ≤ fuel + 1) :
    Terminated tokens.length (s.currentIndex + 1)
      ((call operand s).bind (fun left s1 => call (next left) s1)) := by
  apply terminated_bind tokens.length (s.currentIndex + 1) _ _ _
    (call_terminated tokens fuel call hc operand s _ hs (by omega) (by rw [hco]))
  intro left s1 h4 h5
  exact call_terminated tokens fuel call hc (next left) s1 _ h5
    (by rw [hrn]; omega) (Nat.le_trans (by omega) (Nat.le_add_right _ _))

theorem ruleBody_terminated (tokens : List Token) (hwf : EndsWithEOF tokens) (fuel : Nat)
    (call : Rule → State → Result Str) (hc : CallsTerminate tokens fuel call) (rule : Rule)
    (t : Token) (s : State) (ht : currentToken tokens s = some t)
    (hs : s.currentIndex < tokens.length)
    (hf : 6 * (tokens.length - 1 - s.currentIndex) + rank rule + 1 ≤ fuel + 1) :
    Terminated tokens.length (s.currentIndex + consumes rule)
      (ruleBody tokens call rule t s) := by
  cases rule with
  | parseProgram =>
    simp only [ruleBody, consumes, rank] at hf ⊢
    by_cases h1 : t.type = TokType.EOF
    · rw [if_pos h1]
      exact ⟨Nat.le_refl _, hs⟩
    · rw [if_neg h1]
      apply terminated_bind tokens.length (s.currentIndex + 1) _ _ _
        (call_terminated tokens fuel call hc Rule.statement s _ hs
          (by simp only [rank]; omega) (by simp only [consumes]; omega))
      intro _ s1 h4 h5
      exact call_terminated tokens fuel call hc Rule.parseProgram s1 _ h5
        (by simp only [rank]; omega) (by simp only [consumes]; omega)
  | statement =>
    simp only [rank] at hf
    exact statementBody_terminated tokens hwf fuel call hc t s ht (by omega)
  | block closer =>
    simp only [rank] at hf
    exact blockBody_terminated tokens hwf fuel call hc closer t s ht hs (by omega)
  | comparison =>
    simp only [rank] at hf
    exact chain_terminated tokens fuel call hc Rule.expression Rule.comparisonLoop s 4 hs
      (by simp only [rank]; omega) rfl (fun _ => rfl) hf
  | comparisonLoop left =>
    simp only [ruleBody, consumes, rank, Nat.add_zero] at hf ⊢
    by_cases h1 : t.type = TokType.COMP
    · rw [if_pos h1]
      exact loop_terminated tokens hwf fuel call hc Rule.expression
        (fun right => Rule.comparisonLoop (binary left t.value right)) t s ht
        (by rw [h1]; intro e; cases e) (by simp only [rank]; omega) rfl (fun _ => rfl) hf
    · rw [if_neg h1]
      exact ⟨Nat.le_refl _, hs⟩
  | expression =>
    simp only [rank] at hf
    exact chain_terminated tokens fuel call hc Rule.term Rule.expressionLoop s 3 hs
      (by simp only [rank]; omega) rfl (fun _ => rfl) hf
  | expressionLoop left =>
    simp only [ruleBody, consumes, rank, Nat.add_zero] at hf ⊢
    by_cases h1 : t.type = TokType.PLUS ∨ t.type = TokType.MINUS
    · rw [if_pos h1]
      exact loop_terminated tokens hwf fuel call hc Rule.term
        (fun right => Rule.expressionLoop
          (binary left (if t.type = TokType.PLUS then ['+'] else ['-']) right)) t s ht
        (by rcases h1 with h | h <;> rw [h] <;> intro e <;> cases e)
        (by simp only [rank]; omega) rfl (fun _ => rfl) hf
    · rw [if_neg h1]
      exact ⟨Nat.le_refl _, hs⟩
  | term =>
    simp only [rank] at hf
    exact chain_terminated tokens fuel call hc Rule.unary Rule.termLoop s 2 hs
      (by simp only [rank]; omega) rfl (fun _ => rfl) hf
  | termLoop left =>
    simp only [ruleBody, consumes, rank, Nat.add_zero] at hf ⊢
    by_cases h1 : t.type = TokType.TIMES ∨ t.type = TokType.DIVIDE
    · rw [if_pos h1]
      exact loop_terminated tokens hwf fuel call hc Rule.unary
        (fun right => Rule.termLoop
          (binary left (if t.type = TokType.TIMES then ['*'] else ['/']) right)) t s ht
        (by rcases h1 with h | h <;> rw [h] <;> intro e <;> cases e)
        (by simp only [rank]; omega) rfl (fun _ => rfl) hf
    · rw [if_neg h1]
      exact ⟨Nat.le_refl _, hs⟩
  | unary =>
    simp only [rank] at hf
    exact unaryBody_terminated tokens hwf fuel call hc t s ht hs (by omega)
  | primary =>
    simp only [rank] at hf
    exact primaryBody_terminated tokens hwf fuel call hc t s ht (by omega)

theorem run_terminated (tokens : List Token) (hwf : EndsWithEOF tokens) :
    ∀ fuel, CallsTerminate tokens fuel (run tokens fuel) := by
  intro fuel
  induction fuel with
  | zero =>
    intro rule s _ hf
    omega
  | succ fuel ih =>
    intro rule s hs hf
    obtain ⟨t, ht⟩ := currentToken_some tokens s hs
    simp only [run, ht]
    exact ruleBody_terminated tokens hwf fuel (run tokens fuel) ih rule t s ht hs hf

theorem parseProgram_terminated (tokens : List Token) (hwf : EndsWithEOF tokens) :
    Terminated tokens.length 0 (parseProgram tokens) := by
  have hpos := EndsWithEOF_pos tokens hwf
  exact terminated_mono _ _ _ _ (Nat.zero_le _)
    (run_terminated tokens hwf (6 * tokens.length + 2) Rule.parseProgram initState
      (by show 0 < tokens.length; exact hpos)
      (by show 6 * (tokens.length - 1 - 0) + rank Rule.parseProgram + 1 ≤ _
          simp only [rank]; omega))

end Parser

/-! ## C29: the string literal of a `print` statement -/

theorem cLiteralValue_plain (c : Char) (r : Str) (h1 : c ≠ '\\') (h2 : c ≠ '"')
    (h3 : c ≠ '\n') : cLiteralValue (c :: r) = (cLiteralValue r).map (fun v => c :: v) := by
  cases r with
  | nil =>
    have hn : ¬ (c = '\\' ∨ c = '"' ∨ c = '\n') := by
      intro h
      rcases h with h | h | h
      · exact h1 h
      · exact h2 h
      · exact h3 h
    simp only [cLiteralValue]
    rw [if_neg hn]
    rfl
  | cons d rest =>
    have hn : ¬ (c = '"' ∨ c = '\n') := by
      intro h
      rcases h with h | h
      · exact h2 h
      · exact h3 h
    simp only [cLiteralValue]
    rw [if_neg h1, if_neg hn]

theorem cLiteralValue_escape (d x : Char) (r : Str) (h : cEscape d = some x) :
    cLiteralValue ('\\' :: d :: r) = (cLiteralValue r).map (fun v => x :: v) := by
  simp only [cLiteralValue]
  rw [if_pos trivial, h]

theorem cLiteralValue_escapeText (text : Str) (h : '%' ∉ text) :
    cLiteralValue (Parser.escapeText text) = some text := by
  induction text with
  | nil => rfl
  | cons c rest ih =>
    have hc : c ≠ '%' := fun e => h (by rw [e]; exact List.mem_cons_self _ _)
    have ih2 := ih (fun hm => h (List.mem_cons_of_mem _ hm))
    simp only [Parser.escapeText]
    rw [if_neg hc]
    by_cases h1 : c = '\\'
    · rw [if_pos h1, h1]
      show cLiteralValue ('\\' :: '\\' :: Parser.escapeText rest) = _
      rw [cLiteralValue_escape '\\' '\\' _ (by decide), ih2]
      rfl
    rw [if_neg h1]
    by_cases h2 : c = '"'
    · rw [if_pos h2, h2]
      show cLiteralValue ('\\' :: '"' :: Parser.escapeText rest) = _
      rw [cLiteralValue_escape '"' '"' _ (by decide), ih2]
      rfl
    rw [if_neg h2]
    by_cases h3 : c = '\n'
    · rw [if_pos h3, h3]
      show cLiteralValue ('\\' :: 'n' :: Parser.escapeText rest) = _
      rw [cLiteralValue_escape 'n' '\n' _ (by decide), ih2]
      rfl
    rw [if_neg h3]
    show cLiteralValue (c :: Parser.escapeText rest) = _
    rw [cLiteralValue_plain c _ h1 h2 h3, ih2]
    rfl

/-- C29 (the code at the source `print "100%";`): the lexer produces the
string value `100%`; `Parser::statement` doubles the percent sign and emits
`printf("%s\n", "100%%");`; the C string literal `"100%%"` denotes the five
characters `100%%`, not the value `100%`, and as the argument of `%s` it is
printed as it is. -/
theorem C29_percent_sign_doubled :
    Lexer.tokenize percentSource = Lexer.LexResult.ok
      [⟨['p', 'r', 'i', 'n', 't'], TokType.PRINT, 1, 1⟩,
       ⟨['1', '0', '0', '%'], TokType.STRING, 1, 7⟩,
       ⟨[';'], TokType.SEMICOLON, 1, 13⟩, ⟨[], TokType.EOF, 1, 14⟩] ∧
    Parser.parseProgram
      [⟨['p', 'r', 'i', 'n', 't'], TokType.PRINT, 1, 1⟩,
       ⟨['1', '0', '0', '%'], TokType.STRING, 1, 7⟩,
       ⟨[';'], TokType.SEMICOLON, 1, 13⟩, ⟨[], TokType.EOF, 1, 14⟩] =
      Parser.Result.ok [] ⟨3, ⟨"#include <stdio.h>\n#include <stdlib.h>\n".toList, [],
        "printf(\"%s\\n\", \"100%%\");\n".toList, []⟩⟩ ∧
    Parser.escapeText ['1', '0', '0', '%'] = ['1', '0', '0', '%', '%'] ∧
    cLiteralValue (Parser.escapeText ['1', '0', '0', '%']) = some ['1', '0', '0', '%', '%'] ∧
    cLiteralValue (Parser.escapeText ['1', '0', '0', '%']) ≠ some ['1', '0', '0', '%'] := by
  refine ⟨by decide, by decide, by decide, by decide, by decide⟩

/-! ## C30: the token vector and the termination of the parser -/

/-- C30: for every source text on which `Lexer::tokenize` succeeds, the token
vector is non-empty, its last element is a token of type `EOF` and no other
token has that type; on such a vector `Parser::parseProgram` ends by
returning, with `currentIndex` inside the vector, or by throwing a parser
error, so it never indexes `tokens` outside the vector and the depth of its
calls is bounded; `Parser::advance` keeps an index that is inside the vector
inside it. The model of the lexer never uses up its iteration bound. -/
theorem C30_eof_last_and_parser_terminates (src : Str) (toks : List Token)
    (h : Lexer.tokenize src = Lexer.LexResult.ok toks) :
    toks ≠ [] ∧
    (∃ body eof, toks = body ++ [eof] ∧ eof.type = TokType.EOF ∧
      ∀ t ∈ body, t.type ≠ TokType.EOF) ∧
    ((∃ a s, Parser.parseProgram toks = Parser.Result.ok a s ∧
        s.currentIndex < toks.length) ∨
      (∃ line col m, Parser.parseProgram toks = Parser.Result.error line col m)) ∧
    (∀ s : Parser.State, s.currentIndex < toks.length →
      (Parser.advance toks s).currentIndex < toks.length ∧
      ∃ t, Parser.currentToken toks (Parser.advance toks s) = some t) ∧
    (∀ src2, Lexer.tokenize src2 ≠ Lexer.LexResult.fuel) := by
  obtain ⟨body, line, col, e, hb⟩ := Lexer.tokenizeAux_ok _ _ _ _ h
  simp only [List.nil_append] at e
  have hwf : EndsWithEOF toks := ⟨body, _, e, rfl, hb⟩
  refine ⟨?_, hwf, ?_, ?_, ?_⟩
  · rw [e]; simp
  · have ht := Parser.parseProgram_terminated toks hwf
    cases hp : Parser.parseProgram toks with
    | ok a s =>
      rw [hp] at ht
      exact Or.inl ⟨a, s, rfl, ht.2⟩
    | error l c m => exact Or.inr ⟨l, c, m, rfl⟩
    | outOfBounds => rw [hp] at ht; exact absurd ht (by intro hh; exact hh)
    | fuel => rw [hp] at ht; exact absurd ht (by intro hh; exact hh)
  · intro s hs
    have := (Parser.advance_index_lt toks s hs).1
    exact ⟨this, Parser.currentToken_some toks _ this⟩
  · intro src2
    exact Lexer.tokenizeAux_total _ _ _ (by simp)

/-- C30, at the source `let x = 1;`: five tokens, the last one `EOF`, and
`parseProgram` returns at that token. -/
theorem C30_eof_last_and_parser_terminates_witness :
    Lexer.tokenize ['l', 'e', 't', ' ', 'x', ' ', '=', ' ', '1', ';'] = Lexer.LexResult.ok
      [⟨['l', 'e', 't'], TokType.LET, 1, 1⟩, ⟨['x'], TokType.IDENT, 1, 5⟩,
       ⟨['='], TokType.ASSIGN, 1, 7⟩, ⟨['1'], TokType.INTEGER, 1, 9⟩,
       ⟨[';'], TokType.SEMICOLON, 1, 10⟩, ⟨[], TokType.EOF, 1, 11⟩] ∧
    ((∃ a s, Parser.parseProgram
        [⟨['l', 'e', 't'], TokType.LET, 1, 1⟩, ⟨['x'], TokType.IDENT, 1, 5⟩,
         ⟨['='], TokType.ASSIGN, 1, 7⟩, ⟨['1'], TokType.INTEGER, 1, 9⟩,
         ⟨[';'], TokType.SEMICOLON, 1, 10⟩, ⟨[], TokType.EOF, 1, 11⟩] =
          Parser.Result.ok a s ∧ s.currentIndex < 6) ∨
      (∃ line col m, Parser.parseProgram
        [⟨['l', 'e', 't'], TokType.LET, 1, 1⟩, ⟨['x'], TokType.IDENT, 1, 5⟩,
         ⟨['='], TokType.ASSIGN, 1, 7⟩, ⟨['1'], TokType.INTEGER, 1, 9⟩,
         ⟨[';'], TokType.SEMICOLON, 1, 10⟩, ⟨[], TokType.EOF, 1, 11⟩] =
          Parser.Result.error line col m)) :=
  ⟨by decide,
    (C30_eof_last_and_parser_terminates ['l', 'e', 't', ' ', 'x', ' ', '=', ' ', '1', ';']
      [⟨['l', 'e', 't'], TokType.LET, 1, 1⟩, ⟨['x'], TokType.IDENT, 1, 5⟩,
       ⟨['='], TokType.ASSIGN, 1, 7⟩, ⟨['1'], TokType.INTEGER, 1, 9⟩,
       ⟨[';'], TokType.SEMICOLON, 1, 10⟩, ⟨[], TokType.EOF, 1, 11⟩] (by decide)).2.2.1⟩

end Compiler
